import Mathlib

/-!
# plainsecrets: environment resolution, variant selection and value parsing

A shallow embedding of the Go package `plainsecrets` (files `util.go`,
`parsing.go`, `envgroup.go`, `keyring.go`, `values.go`) together with theorems
about it.

Modelling conventions.

* A Go `string` is a Lean `String`, read as a sequence of characters; `len` is
  the number of characters, which is Go's byte length on the ASCII tokens that
  the name validators admit.  A byte that is not part of a valid UTF-8
  sequence is held as a stand-in character; only package regexp tells such a
  byte from a character, and the in-place rewriter, which calls it, takes the
  predicate `bad` that marks the stand-ins.
* A Go `error` is its message, a `String`; `nil` is `none`.
* A Go map is an association list.  Ranging over a map visits the bindings in
  list order, and a new key is added at the end.
* A pointer into `Values.resolvedEnvs` is the key of the binding it points to:
  the map never drops or replaces a binding, so `entry.Resolved`, which
  `rebuild` sets to the group stored under `entry.Env`, is read as that
  binding.
* A nil slice is the empty list (all slices of the package become non-nil only
  by receiving an element).
* Library functions that are not part of the package (`path.Match`, the
  `strings` helpers) are written out after their Go sources; base64 and
  secretbox are parameters (`Extern`).
-/

deriving instance DecidableEq for Except

namespace Plainsecrets

/-! ## Helpers of package `strings` -/

/-- Go `unicode.IsSpace`. -/
def isSpace (c : Char) : Bool :=
  let n := c.toNat
  (9 ≤ n && n ≤ 13) || n = 32 || n = 0x85 || n = 0xA0 || n = 0x1680 ||
  (0x2000 ≤ n && n ≤ 0x200A) || n = 0x2028 || n = 0x2029 || n = 0x202F ||
  n = 0x205F || n = 0x3000

/-- Go `strings.TrimSpace`. -/
def TrimSpace (s : String) : String :=
  String.mk ((s.data.dropWhile isSpace).rdropWhile isSpace)

/-- Pieces of a character list between occurrences of `sep`. -/
def splitChars (sep : Char) : List Char → List (List Char)
  | [] => [[]]
  | c :: cs =>
    if c = sep then [] :: splitChars sep cs
    else match splitChars sep cs with
      | [] => [[c]]
      | w :: ws => (c :: w) :: ws

/-- Go `strings.Split(s, sep)` for a one-character separator. -/
def Split (s : String) (sep : Char) : List String :=
  (splitChars sep s.data).map String.mk

/-- Split a character list at the first occurrence of `sep`. -/
def cutChars (sep : Char) : List Char → Option (List Char × List Char)
  | [] => none
  | c :: cs =>
    if c = sep then some ([], cs)
    else match cutChars sep cs with
      | none => none
      | some (a, b) => some (c :: a, b)

/-- Go `strings.Cut(s, sep)` for a one-character separator:
`(before, after, found)`. -/
def Cut (s : String) (sep : Char) : String × String × Bool :=
  match cutChars sep s.data with
  | none => (s, "", false)
  | some (a, b) => (String.mk a, String.mk b, true)

/-- Go `strings.CutPrefix(s, p)`: the rest of `s` when `s` starts with `p`. -/
def CutPrefix (s p : String) : Option String :=
  if p.data.isPrefixOf s.data then some (String.mk (s.data.drop p.data.length)) else none

/-- Words of a character list: maximal runs of non-space characters. The
first argument is the word being read, reversed. -/
def fieldsChars : List Char → List Char → List (List Char)
  | cur, [] => if cur.isEmpty then [] else [cur.reverse]
  | cur, c :: cs =>
    if isSpace c then
      if cur.isEmpty then fieldsChars [] cs else cur.reverse :: fieldsChars [] cs
    else fieldsChars (c :: cur) cs

/-- Go `strings.Fields`. -/
def Fields (s : String) : List String :=
  (fieldsChars [] s.data).map String.mk

/-- Go `strings.ReplaceAll(s, "*", "xxx")`. -/
def replaceStars (s : String) : String :=
  String.mk (s.data.flatMap (fun c => if c = '*' then ['x', 'x', 'x'] else [c]))

/-- Go string comparison `a < b` (lexicographic). -/
def strLt : List Char → List Char → Bool
  | _, [] => false
  | [], _ :: _ => true
  | a :: as, b :: bs => a.toNat < b.toNat || (a = b && strLt as bs)

/-! ## `path.Match` -/

/-- Body of `scanChunk` after the leading stars: the chunk runs up to the next
star that is not inside a bracket expression. -/
def scanChunkBody : Bool → List Char → List Char × List Char
  | _, [] => ([], [])
  | inrange, c :: cs =>
    if c = '\\' then
      match cs with
      | [] => ([c], [])
      | d :: ds => let r := scanChunkBody inrange ds; (c :: d :: r.1, r.2)
    else if c = '[' then let r := scanChunkBody true cs; (c :: r.1, r.2)
    else if c = ']' then let r := scanChunkBody false cs; (c :: r.1, r.2)
    else if c = '*' then
      if inrange then let r := scanChunkBody inrange cs; (c :: r.1, r.2)
      else ([], c :: cs)
    else let r := scanChunkBody inrange cs; (c :: r.1, r.2)

/-- `scanChunk` of package path: `(star, chunk, rest)`. -/
def scanChunk (pattern : List Char) : Bool × List Char × List Char :=
  let p := pattern.dropWhile (fun c => c = '*')
  let r := scanChunkBody false p
  (p.length < pattern.length, r.1, r.2)

/-- `getEsc` of package path: one possibly escaped character of a bracket
expression and the rest of the chunk; `none` is `ErrBadPattern`. -/
def getEsc : List Char → Option (Char × List Char)
  | [] => none
  | c :: cs =>
    if c = '-' ∨ c = ']' then none
    else
      match (if c = '\\' then cs else c :: cs) with
      | [] => none
      | r :: nchunk => if nchunk.isEmpty then none else some (r, nchunk)

/-- The range loop of a bracket expression in `matchChunk`: `(match, rest)`;
`none` is `ErrBadPattern`. The fuel bounds the number of ranges. -/
def classLoop : Nat → Char → Nat → Bool → List Char → Option (Bool × List Char)
  | 0, _, _, _, _ => none
  | fuel + 1, r, nrange, matched, chunk =>
    match chunk with
    | ']' :: rest =>
      if 0 < nrange then some (matched, rest) else none
    | _ =>
      match getEsc chunk with
      | none => none
      | some (lo, chunk1) =>
        match chunk1 with
        | '-' :: chunk2 =>
          match getEsc chunk2 with
          | none => none
          | some (hi, chunk3) =>
            classLoop fuel r (nrange + 1)
              (matched || (lo.toNat ≤ r.toNat && r.toNat ≤ hi.toNat)) chunk3
        | _ =>
          classLoop fuel r (nrange + 1) (matched || lo = r) chunk1

/-- The loop of `matchChunk`. The result is `none` for `ErrBadPattern`,
`some none` when the chunk does not match a prefix of `s`, and
`some (some rest)` when it does. After the match has failed the loop goes on
checking the chunk without reading `s`. Each round consumes a character of the
chunk, so `chunk.length` rounds of fuel are enough. -/
def matchChunkLoop : Nat → Bool → List Char → List Char → Option (Option (List Char))
  | _, failed, [], s => if failed then some none else some (some s)
  | 0, _, _ :: _, _ => none
  | fuel + 1, failed0, c :: chunk, s =>
    let failed := failed0 || s.isEmpty
    if c = '[' then
      let r := if failed then Char.ofNat 0 else s.headD (Char.ofNat 0)
      let s1 := if failed then s else s.tail
      let negated := chunk.head? = some '^'
      let chunk1 := if negated then chunk.tail else chunk
      match classLoop (chunk1.length + 1) r 0 false chunk1 with
      | none => none
      | some (matched, chunk2) =>
        matchChunkLoop fuel (failed || (matched = negated)) chunk2 s1
    else if c = '?' then
      if failed then matchChunkLoop fuel failed chunk s
      else matchChunkLoop fuel (s.head? = some '/') chunk s.tail
    else if c = '\\' then
      match chunk with
      | [] => none
      | d :: chunk1 =>
        if failed then matchChunkLoop fuel failed chunk1 s
        else matchChunkLoop fuel (s.head? ≠ some d) chunk1 s.tail
    else
      if failed then matchChunkLoop fuel failed chunk s
      else matchChunkLoop fuel (s.head? ≠ some c) chunk s.tail

/-- `matchChunk` of package path. -/
def matchChunk (chunk s : List Char) : Option (Option (List Char)) :=
  matchChunkLoop chunk.length false chunk s

/-- The search of `path.Match` after a star: try the chunk at `name[i+1:]` for
`i = 0, 1, ...` while `name[i]` is not a slash; for the last chunk only a
match that uses up the name counts. -/
def starSearch (chunk : List Char) (last : Bool) : List Char → Option (Option (List Char))
  | [] => some none
  | c :: rest =>
    if c = '/' then some none
    else
      match matchChunk chunk rest with
      | none => none
      | some (some t) =>
        if last && !t.isEmpty then starSearch chunk last rest else some (some t)
      | some none => starSearch chunk last rest

/-- The final loop of `path.Match`: is the rest of the pattern well formed. -/
def checkRest : Nat → List Char → Option Unit
  | 0, _ => some ()
  | fuel + 1, pattern =>
    if pattern.isEmpty then some ()
    else
      let sc := scanChunk pattern
      match matchChunk sc.2.1 [] with
      | none => none
      | some _ => checkRest fuel sc.2.2

/-- The main loop of `path.Match`; `none` is `ErrBadPattern`. Each round
consumes at least one character of the pattern. -/
def matchLoop : Nat → List Char → List Char → Option Bool
  | 0, _, name => some name.isEmpty
  | fuel + 1, pattern, name =>
    if pattern.isEmpty then some name.isEmpty
    else
      let sc := scanChunk pattern
      let star := sc.1
      let chunk := sc.2.1
      let rest := sc.2.2
      if star && chunk.isEmpty then some (!name.contains '/')
      else
        match matchChunk chunk name with
        | none => none
        | some (some t) =>
          if t.isEmpty || !rest.isEmpty then matchLoop fuel rest t
          else if star then
            match starSearch chunk rest.isEmpty name with
            | none => none
            | some (some t1) => matchLoop fuel rest t1
            | some none => (checkRest rest.length rest).map (fun _ => false)
          else (checkRest rest.length rest).map (fun _ => false)
        | some none =>
          if star then
            match starSearch chunk rest.isEmpty name with
            | none => none
            | some (some t1) => matchLoop fuel rest t1
            | some none => (checkRest rest.length rest).map (fun _ => false)
          else (checkRest rest.length rest).map (fun _ => false)

/-- Go `path.Match(pattern, name)`; `none` is `ErrBadPattern`. -/
def pathMatch (pattern name : String) : Option Bool :=
  matchLoop pattern.data.length pattern.data name.data

/-! ## util.go -/

/-- `matches` of util.go: the error of `path.Match` is dropped. -/
def «matches» (pattern candidate : String) : Bool :=
  (pathMatch pattern candidate).getD false

/-- `findMatch` of util.go: the first pattern that matches, or `""`. -/
def findMatch : List String → String → String
  | [], _ => ""
  | pat :: patterns, candidate =>
    if «matches» pat candidate then pat else findMatch patterns candidate

/-- `contains` of util.go. -/
def contains (list : List String) (candidate : String) : Bool :=
  list.any (fun item => item = candidate)

/-! ## Name validators (parsing.go) -/

/-- Character class `[a-zA-Z0-9_.@-]`. -/
def isKeyNameChar (c : Char) : Bool :=
  c.isAlphanum || c = '_' || c = '.' || c = '@' || c = '-'

/-- Character class `[a-zA-Z0-9_-]`. -/
def isEnvNameChar (c : Char) : Bool :=
  c.isAlphanum || c = '_' || c = '-'

/-- Character class `[a-zA-Z0-9_]`. -/
def isSecretNameChar (c : Char) : Bool :=
  c.isAlphanum || c = '_'

/-- `keyNameRe.MatchString`. -/
def IsValidKeyName (str : String) : Bool :=
  !str.data.isEmpty && str.data.all isKeyNameChar

/-- `secretNameRe.MatchString`. -/
def IsValidValueName (str : String) : Bool :=
  !str.data.isEmpty && str.data.all isSecretNameChar

/-- `envNameRe.MatchString`. -/
def IsValidEnvName (str : String) : Bool :=
  !str.data.isEmpty && str.data.all isEnvNameChar

/-- `envWildcardRe.MatchString`. -/
def IsValidEnvNameWildcard (str : String) : Bool :=
  !str.data.isEmpty && str.data.all (fun c => c = '*' || isEnvNameChar c)

/-- `IsWildcard`: the name contains a star. -/
def IsWildcard (env : String) : Bool :=
  env.data.contains '*'

/-! ## Data model -/

/-- Byte strings (`[]byte`, `[N]byte`). -/
abbrev Bytes := List Nat

def KeySize : Nat := 32
def NonceSize : Nat := 24
def All : String := "all"
def DefaultKey : String := "DEFAULT_KEY"

/-- Functions of other packages that the code calls: standard base64 and
NaCl secretbox. `Seal msg nonce key` is `secretbox.Seal(nil, []byte(msg),
&nonce, &key)` and `Open box nonce key` is the plaintext of `secretbox.Open`
as a string, `none` when authentication fails. -/
structure Extern where
  EncodeToString : Bytes → String
  DecodeString : String → Option Bytes
  Seal : String → Bytes → Bytes → Bytes
  Open : Bytes → Bytes → Bytes → Option String

structure Key where
  Name : String
  Data : Bytes
deriving DecidableEq, Repr

abbrev Keyring := List Key

/-- `Keyring.ByName`: the first key with the name. -/
def Keyring.ByName : Keyring → String → Option Key
  | [], _ => none
  | key :: keyring, name => if key.Name = name then some key else Keyring.ByName keyring name

structure envGroup where
  Negated : Bool
  Items : List String
deriving DecidableEq, Repr

inductive resolutionState where
  | mentionedState
  | resolvingState
  | resolvedState
deriving DecidableEq, Repr

structure resolvedEnvGroup where
  state : resolutionState
  wildcard : Bool
  err : Option String
  included : List String
  trivial : String
deriving DecidableEq, Repr

inductive Encoding where
  | NoValue
  | Plain
  | Placeholder
  | Encrypted
  | ToBeEncrypted
deriving DecidableEq, Repr

/-- An entry. The field `Resolved` of the Go struct is the group stored in
`Values.resolvedEnvs` under `Env` (see `Values.resolvedOf`). -/
structure entry where
  Env : String
  RawLHS : String
  RawRHS : String
  Encoding : Encoding
  KeyName : String
  Nonce : Bytes
  Ciphertext : Bytes
  PlainValue : String
deriving DecidableEq, Repr

structure Values where
  envs : List (String × envGroup)
  entries : List (String × List entry)
  resolvedEnvs : List (String × resolvedEnvGroup)
  validEnvs : List String
  knownEnvs : List String
deriving DecidableEq, Repr

/-- `New`. -/
def New : Values :=
  { envs := [], entries := [], resolvedEnvs := [], validEnvs := [], knownEnvs := [] }

/-! ## Maps as association lists -/

/-- Map lookup `m[key]`. -/
def mapGet {β : Type} : List (String × β) → String → Option β
  | [], _ => none
  | (k, v) :: m, key => if k = key then some v else mapGet m key

/-- Map assignment `m[key] = v`. -/
def mapSet {β : Type} : List (String × β) → String → β → List (String × β)
  | [], key, v => [(key, v)]
  | (k, w) :: m, key, v => if k = key then (k, v) :: m else (k, w) :: mapSet m key v

/-- A write through a pointer to the value stored under `key`. -/
def mapModify {β : Type} : List (String × β) → String → (β → β) → List (String × β)
  | [], _, _ => []
  | (k, w) :: m, key, f => if k = key then (k, f w) :: m else (k, w) :: mapModify m key f

/-- A write through a pointer to a resolved group. -/
def Values.modifyRes (vals : Values) (env : String) (f : resolvedEnvGroup → resolvedEnvGroup) :
    Values :=
  { vals with resolvedEnvs := mapModify vals.resolvedEnvs env f }

/-- The resolved group an entry points to (`e.Resolved`). -/
def Values.resolvedOf (vals : Values) (e : entry) : resolvedEnvGroup :=
  (mapGet vals.resolvedEnvs e.Env).getD
    { state := .mentionedState, wildcard := false, err := none, included := [], trivial := "" }

/-! ## envgroup.go -/

/-- `resolvedEnvGroup.finalize`. -/
def resolvedEnvGroup.finalize (res : resolvedEnvGroup) : resolvedEnvGroup :=
  match res.included with
  | [env] => if !IsWildcard env then { res with trivial := env } else { res with trivial := "" }
  | _ => { res with trivial := "" }

/-- `resolvedEnvGroup.CompareSpecificity`. -/
def resolvedEnvGroup.CompareSpecificity (a b : resolvedEnvGroup) : Int :=
  let ai := a.included.length
  let bi := b.included.length
  if ai < bi then 1 else if ai > bi then -1 else 0

/-- `resolvedEnvGroup.FindMatch`. -/
def resolvedEnvGroup.FindMatch (res : resolvedEnvGroup) (env : String) : String :=
  findMatch res.included env

/-- `resolvedEnvGroup.Match`. -/
def resolvedEnvGroup.Match (res : resolvedEnvGroup) (env : String) : Nat :=
  (res.FindMatch env).length

/-- `resolvedEnvGroup.Includes`. -/
def resolvedEnvGroup.Includes (res peer : resolvedEnvGroup) : Bool :=
  peer.included.all (fun env => res.Match env ≠ 0)

/-! ## Resolver (values.go) -/

/-- The group that `lookupEnv` creates and stores for an env it has not seen. -/
def Values.newGroup (vals : Values) (env : String) : resolvedEnvGroup :=
  let result : resolvedEnvGroup :=
    { state := .mentionedState, wildcard := IsWildcard env, err := none,
      included := [], trivial := "" }
  if (mapGet vals.envs env).isNone then
    if vals.validEnvs.isEmpty then
      if (pathMatch env "").isNone then
        { result with state := .resolvedState, err := some ("invalid env wildcard " ++ env) }
      else result
    else if findMatch vals.validEnvs env = "" then
      { result with state := .resolvedState,
                    err := some ("env " ++ env ++ " is not among @all") }
    else result
  else result

/-- `Values.lookupEnv`: the memoized group of `env`, created when missing; the
flag says whether it was created. -/
def Values.lookupEnv (vals : Values) (env : String) : Values × resolvedEnvGroup × Bool :=
  match mapGet vals.resolvedEnvs env with
  | some result => (vals, result, false)
  | none =>
    ({ vals with resolvedEnvs := mapSet vals.resolvedEnvs env (vals.newGroup env) },
      vals.newGroup env, true)

/-- `Values.mentionEnv`. -/
def Values.mentionEnv (vals : Values) (env : String) : Values × Bool × Option String :=
  let r := vals.lookupEnv env
  (r.1, r.2.2, r.2.1.err)

/-- The loop `for _, env := range sub { if !contains(acc, env) { acc = append(acc, env) } }`. -/
def appendNew (acc sub : List String) : List String :=
  sub.foldl (fun acc env => if contains acc env then acc else acc ++ [env]) acc

/-- The result of one call of `resolveEnv`: `none` when the recursion budget
is used up. -/
abbrev ResolveResult := Option (Values × Except String resolvedEnvGroup)

/-- The item loop of a negated group in `resolveEnv`; `self` is the recursive
call. Returns the list `excluded`. -/
def resolveExcluded (self : Values → String → ResolveResult) (env : String) :
    List String → Values → List String → Option (Values × Except String (List String))
  | [], vals, excluded => some (vals, .ok excluded)
  | subenv :: items, vals, excluded =>
    match self vals subenv with
    | none => none
    | some (vals1, .error err) => some (vals1, .error ("@" ++ env ++ ": " ++ err))
    | some (vals1, .ok subres) =>
      resolveExcluded self env items vals1 (appendNew excluded subres.included)

/-- The item loop of a plain group in `resolveEnv`; `self` is the recursive
call. Each round writes `result.included` through the pointer. -/
def resolveIncluded (self : Values → String → ResolveResult) (env : String) :
    List String → Values → Option (Values × Option String)
  | [], vals => some (vals, none)
  | subenv :: items, vals =>
    match self vals subenv with
    | none => none
    | some (vals1, .error err) => some (vals1, some ("@" ++ env ++ ": " ++ err))
    | some (vals1, .ok subres) =>
      resolveIncluded self env items
        (vals1.modifyRes env (fun r => { r with included := appendNew r.included subres.included }))

/-- The end of `resolveEnv`: `finalize`, state `resolved`, and the return
`result, result.err`. -/
def finishResolve (vals : Values) (env : String) : ResolveResult :=
  let vals1 := vals.modifyRes env (fun r => { r.finalize with state := .resolvedState })
  match mapGet vals1.resolvedEnvs env with
  | none => none
  | some result =>
    match result.err with
    | some err => some (vals1, .error err)
    | none => some (vals1, .ok result)

/-- `Values.resolveEnv` with a recursion budget: `fuel` bounds the depth of
the recursion. -/
def resolveEnvAux : Nat → Values → String → ResolveResult
  | 0, _, _ => none
  | fuel + 1, vals, env =>
    let r := vals.lookupEnv env
    let vals0 := r.1
    let result := r.2.1
    if result.state = .resolvedState then
      match result.err with
      | some err => some (vals0, .error err)
      | none => some (vals0, .ok result)
    else if result.state = .resolvingState then
      some (vals0, .error ("@" ++ env ++ ": infinite recursion"))
    else
      let vals1 := vals0.modifyRes env (fun r => { r with state := .resolvingState })
      match mapGet vals1.envs env with
      | none =>
        finishResolve (vals1.modifyRes env (fun r => { r with included := [env] })) env
      | some definition =>
        if definition.Negated then
          if vals1.validEnvs.isEmpty then
            some (vals1, .error ("cannot refer to negated groups like " ++ env ++ " from @all"))
          else
            match resolveExcluded (resolveEnvAux fuel) env definition.Items vals1 [] with
            | none => none
            | some (vals2, .error err) => some (vals2, .error err)
            | some (vals2, .ok excluded) =>
              finishResolve
                (vals2.modifyRes env (fun r =>
                  { r with included :=
                      r.included ++ vals2.validEnvs.filter (fun v => findMatch excluded v = "") }))
                env
        else
          match resolveIncluded (resolveEnvAux fuel) env definition.Items vals1 with
          | none => none
          | some (vals2, some err) => some (vals2, .error err)
          | some (vals2, none) => finishResolve vals2 env

/-- The recursion budget of `resolveEnv`: a chain of nested calls passes
through distinct groups that are being resolved, so it is no longer than the
number of groups plus one (theorem `resolveEnvAux_terminates`). -/
def resolveFuel (vals : Values) : Nat := vals.envs.length + 1

/-- `Values.resolveEnv`. -/
def Values.resolveEnv (vals : Values) (env : String) : Values × Except String resolvedEnvGroup :=
  (resolveEnvAux (resolveFuel vals) vals env).getD (vals, .error "")

/-! ## Variant picker (values.go) -/

/-- The loop variables `best`, `bestScore`, `conflict` of `pickVariant`. -/
structure PickState where
  best : Option entry
  bestScore : Nat
  conflict : Option entry
deriving DecidableEq, Repr

/-- The loop variables of `pickVariant` before the loop. -/
def pickInit : PickState := { best := none, bestScore := 0, conflict := none }

/-- The score `pickVariant` gives to the entry `e` for the resolved query
group `envRes`. -/
def Values.score (vals : Values) (envRes : resolvedEnvGroup) (e : entry) : Nat :=
  if envRes.trivial ≠ "" then (vals.resolvedOf e).Match envRes.trivial
  else if (vals.resolvedOf e).Includes envRes then 1 else 0

/-- One round of the loop of `pickVariant`. -/
def Values.pickStep (vals : Values) (envRes : resolvedEnvGroup) (st : PickState) (e : entry) :
    PickState :=
  let score := vals.score envRes e
  if score > st.bestScore then { best := some e, bestScore := score, conflict := none }
  else
    match st.best with
    | none => st
    | some best =>
      if score = st.bestScore then
        let cmp := (vals.resolvedOf e).CompareSpecificity (vals.resolvedOf best)
        if cmp > 0 then { best := some e, bestScore := score, conflict := none }
        else if cmp = 0 then { st with conflict := some e }
        else st
      else st

/-- The end of `pickVariant`: the entry and the error it returns. -/
def pickResult (name env : String) (st : PickState) : Option entry × Option String :=
  match st.conflict with
  | none => (st.best, none)
  | some conflict =>
    match st.best with
    | none => (none, none)
    | some best =>
      let swap := strLt conflict.Env.data best.Env.data
      let best1 := if swap then conflict else best
      let conflict1 := if swap then best else conflict
      (some best1,
        some ("conflicting values with match length " ++ Nat.repr st.bestScore ++ " for " ++
          name ++ "." ++ best1.Env ++ " and " ++ name ++ "." ++ conflict1.Env ++
          " when resolving for ." ++ env))

/-- `Values.pickVariant`. -/
def Values.pickVariant (vals : Values) (name env : String) (entries : List entry) :
    Values × Option entry × Option String :=
  match vals.resolveEnv env with
  | (vals1, .error err) => (vals1, none, some err)
  | (vals1, .ok envRes) =>
    (vals1, pickResult name env (entries.foldl (vals1.pickStep envRes) pickInit))

/-! ## Rebuild (values.go) -/

/-- The loops of `rebuild` that call `mentionEnv` on every group name, every
item and every entry env. -/
def Values.mentionAll (vals : Values) : Values :=
  let vals1 := vals.envs.foldl
    (fun v p => p.2.Items.foldl (fun v subname => (v.mentionEnv subname).1) (v.mentionEnv p.1).1)
    vals
  vals1.entries.foldl (fun v p => p.2.foldl (fun v e => (v.mentionEnv e.Env).1) v) vals1

/-- The loop of `rebuild` that fills `knownEnvs`. -/
def Values.computeKnownEnvs (vals : Values) : List String :=
  vals.validEnvs.flatMap (fun env =>
    if !IsWildcard env then [env]
    else (vals.resolvedEnvs.filter (fun p => !p.2.wildcard && «matches» env p.1)).map Prod.fst)

/-- The loop `for env := range vals.envs` of `rebuild` that resolves every group. -/
def resolveGroups : List String → Values → Values × Option String
  | [], vals => (vals, none)
  | env :: envs, vals =>
    match vals.resolveEnv env with
    | (vals1, .error err) => (vals1, some err)
    | (vals1, .ok _) => resolveGroups envs vals1

/-- The loop of `rebuild` that resolves the env of each entry of one name. -/
def resolveEntryEnvs (name : String) : List entry → Values → Values × Option String
  | [], vals => (vals, none)
  | e :: es, vals =>
    match vals.resolveEnv e.Env with
    | (vals1, .error err) => (vals1, some (name ++ ": " ++ err))
    | (vals1, .ok _) => resolveEntryEnvs name es vals1

/-- The loop of `rebuild` that picks a variant of one name for a sample of
each valid env. -/
def sanityCheck (name : String) (entries : List entry) : List String → Values →
    Values × Option String
  | [], vals => (vals, none)
  | env :: envs, vals =>
    match vals.pickVariant name (replaceStars env) entries with
    | (vals1, _, some err) => (vals1, some err)
    | (vals1, none, none) => (vals1, some ("no value for " ++ name ++ "." ++ env))
    | (vals1, some _, none) => sanityCheck name entries envs vals1

/-- The loop `for name, entries := range vals.entries` of `rebuild`. -/
def rebuildEntries : List (String × List entry) → Values → Values × Option String
  | [], vals => (vals, none)
  | (name, entries) :: rest, vals =>
    match resolveEntryEnvs name entries vals with
    | (vals1, some err) => (vals1, some err)
    | (vals1, none) =>
      match sanityCheck name entries vals1.validEnvs vals1 with
      | (vals2, some err) => (vals2, some err)
      | (vals2, none) => rebuildEntries rest vals2

/-- The first loop of `rebuild`: every group without error goes back to state
`mentioned`. -/
def resetStates (m : List (String × resolvedEnvGroup)) : List (String × resolvedEnvGroup) :=
  m.map (fun p => (p.1, if p.2.err.isNone then { p.2 with state := .mentionedState } else p.2))

/-- The start of `rebuild`: `validEnvs` and `knownEnvs` are emptied and the
states reset. -/
def Values.resetForRebuild (vals : Values) : Values :=
  { vals with validEnvs := [], knownEnvs := [], resolvedEnvs := resetStates vals.resolvedEnvs }

/-- The assignment `vals.validEnvs = valid.included` of `rebuild`. -/
def Values.setValidEnvs (vals : Values) (valid : List String) : Values :=
  { vals with validEnvs := valid }

/-- The loop of `rebuild` that fills `knownEnvs`, with its result stored. -/
def Values.fillKnownEnvs (vals : Values) : Values :=
  { vals with knownEnvs := vals.computeKnownEnvs }

/-- `Values.rebuild`. -/
def Values.rebuild (vals : Values) : Values × Option String :=
  let vals0 := vals.resetForRebuild
  if (mapGet vals0.envs All).isNone then (vals0, some ("missing @" ++ All ++ "=..."))
  else
    match vals0.resolveEnv All with
    | (vals1, .error err) => (vals1, some err)
    | (vals1, .ok valid) =>
      let vals4 := ((vals1.setValidEnvs valid.included).mentionAll).fillKnownEnvs
      match resolveGroups (vals4.envs.map Prod.fst) vals4 with
      | (vals5, some err) => (vals5, some err)
      | (vals5, none) => rebuildEntries vals5.entries vals5

/-! ## Queries (values.go) -/

/-- `entry.Value`. -/
def entry.Value (x : Extern) (e : entry) (keyring : Keyring) : Except String String :=
  match e.Encoding with
  | .NoValue => .ok ""
  | .Plain => .ok e.PlainValue
  | .ToBeEncrypted => .ok e.PlainValue
  | .Placeholder => .error "forgot to specify"
  | .Encrypted =>
    match keyring.ByName e.KeyName with
    | none => .error ("missing key " ++ e.KeyName)
    | some key =>
      match x.Open e.Ciphertext e.Nonce key.Data with
      | none => .error "decryption failed"
      | some plaintext => .ok plaintext

/-- `Values.Value`. -/
def Values.Value (x : Extern) (vals : Values) (name env : String) (keyring : Keyring) :
    Values × Except String String :=
  match vals.mentionEnv env with
  | (vals1, _, some err) => (vals1, .error err)
  | (vals1, isNew, none) =>
    let vals2 := if isNew then vals1.rebuild.1 else vals1
    match mapGet vals2.entries name with
    | none => (vals2, .ok "")
    | some entries =>
      match vals2.pickVariant name env entries with
      | (vals3, _, some err) => (vals3, .error err)
      | (vals3, none, none) => (vals3, .error ("no value for " ++ name ++ "." ++ env))
      | (vals3, some e, none) =>
        match e.Value x keyring with
        | .error err => (vals3, .error (name ++ ": " ++ err))
        | .ok val => (vals3, .ok val)

/-- `Values.EncryptValue`. The nonce read from `rand.Reader` is the argument
`nonce`; `none` stands for a failed read. -/
def Values.EncryptValue (x : Extern) (vals : Values) (val env keyName : String)
    (keyring : Keyring) (nonce : Option Bytes) : Values × Except String String :=
  let derived : Values × Except String (String × Bool) :=
    if keyName = "" then
      if env = "" then (vals, .error "either env or key name must be specified")
      else
        match vals.Value x DefaultKey env [] with
        | (vals1, .error err) => (vals1, .error err)
        | (vals1, .ok keyName1) =>
          if keyName1 = "" then
            (vals1, .error (DefaultKey ++ " is empty for env " ++ env))
          else (vals1, .ok (keyName1, true))
    else (vals, .ok (keyName, false))
  match derived with
  | (vals1, .error err) => (vals1, .error err)
  | (vals1, .ok (keyName1, keyNameDerived)) =>
    match keyring.ByName keyName1 with
    | none =>
      if keyNameDerived then
        (vals1, .error ("no key " ++ keyName1 ++ " (via " ++ DefaultKey ++ ")"))
      else (vals1, .error ("no key " ++ keyName1))
    | some key =>
      match nonce with
      | none => (vals1, .error "failed to generate none: unexpected EOF")
      | some nonce1 =>
        let ciphertext := x.Seal val nonce1 key.Data
        (vals1, .ok ("secret:" ++ keyName1 ++ ":" ++ x.EncodeToString nonce1 ++ ":" ++
          x.EncodeToString ciphertext))

/-! ## Parsing (parsing.go, util.go) -/

/-- The verb `%q` of package fmt on the characters that need no more than a
backslash: the string in double quotes, with `"` and `\` escaped. (Go writes
control characters as escape sequences as well.) -/
def quote (s : String) : String :=
  "\"" ++ String.mk (s.data.flatMap (fun c =>
    if c = '"' then ['\\', '"'] else if c = '\\' then ['\\', '\\'] else [c])) ++ "\""

/-- `parseEnvList`: `(negated, items)` or the error. -/
def parseEnvList (str : String) : Except String (Bool × List String) :=
  let r : Bool × String :=
    match CutPrefix str "!" with
    | some s => (true, TrimSpace s)
    | none => (false, str)
  let items := Fields r.2
  match items.find? (fun env => !IsValidEnvNameWildcard env) with
  | some env => .error ("malformed env name " ++ quote env)
  | none => .ok (r.1, items)

/-- `parseEnvGroup`. -/
def parseEnvGroup (groupName listStr : String) : Except String envGroup :=
  if !IsValidEnvName groupName then .error ("malformed env group name " ++ quote groupName)
  else
    match parseEnvList listStr with
    | .error err => .error err
    | .ok (negated, items) => .ok { Negated := negated, Items := items }

/-- `parseValue`: the entry with its value fields filled in, or the error. -/
def parseValue (x : Extern) (str : String) (e : entry) : Except String entry :=
  match CutPrefix str "enc:" with
  | some str1 =>
    match Cut str1 ':' with
    | (keyName, str2, ok) =>
      if !ok then
        .error "missing another colon, expected \"enc::<value>\" or \"enc:<keyname>:<value>\""
      else if keyName ≠ "" && !IsValidKeyName keyName then
        .error ("invalid key name " ++ quote keyName ++ " in \"enc:<keyname>:<value>\"")
      else .ok { e with Encoding := .ToBeEncrypted, PlainValue := str2, KeyName := keyName }
  | none =>
    match CutPrefix str "secret:" with
    | some str1 =>
      match Split str1 ':' with
      | [keyName, nonceStr, ciphertextStr] =>
        if !IsValidKeyName keyName then
          .error ("invalid key name " ++ quote keyName ++
            " in \"secret:<keyname>:<nonce>:<ciphertext>\"")
        else
          match x.DecodeString nonceStr with
          | none =>
            .error "invalid nonce in \"secret:<keyname>:<nonce>:<ciphertext>\": illegal base64 data"
          | some nonce =>
            if nonce.length ≠ NonceSize then
              .error ("invalid nonce len in \"secret:<keyname>:<nonce>:<ciphertext>\", got " ++
                Nat.repr nonce.length ++ ", wanted " ++ Nat.repr NonceSize)
            else
              match x.DecodeString ciphertextStr with
              | none =>
                .error
                  "invalid cihertext in \"secret:<keyname>:<nonce>:<ciphertext>\": illegal base64 data"
              | some ciphertext =>
                .ok { e with Encoding := .Encrypted, KeyName := keyName, Nonce := nonce,
                             Ciphertext := ciphertext }
      | _ => .error "invalid secret value, expected \"secret:<keyname>:<nonce>:<ciphertext>\""
    | none =>
      match CutPrefix str "TODO:" with
      | some str1 => .ok { e with Encoding := .Placeholder, PlainValue := str1 }
      | none =>
        if str = "TODO" then .ok { e with Encoding := .Placeholder }
        else if str = "NONE" ∨ str = "none" then .ok { e with Encoding := .NoValue }
        else .ok { e with Encoding := .Plain, PlainValue := str }

/-- The zero value of `entry` with `Env`, `RawLHS` and `RawRHS` set. -/
def newEntry (env lhs rhs : String) : entry :=
  { Env := env, RawLHS := lhs, RawRHS := rhs, Encoding := .NoValue, KeyName := "",
    Nonce := List.replicate NonceSize 0, Ciphertext := [], PlainValue := "" }

/-- One round of the loop of `ParseMap`. -/
def parseLine (x : Extern) (vals : Values) (lhs rhs : String) : Except String Values :=
  match CutPrefix lhs "@" with
  | some groupName =>
    match parseEnvGroup groupName rhs with
    | .error err => .error (err ++ " in " ++ quote (lhs ++ "=" ++ rhs))
    | .ok g =>
      if (mapGet vals.envs groupName).isSome then
        .error ("redefinition of env group " ++ groupName ++ " in " ++ quote (lhs ++ "=" ++ rhs))
      else .ok { vals with envs := mapSet vals.envs groupName g }
  | none =>
    match Cut lhs '.' with
    | (name, env0, envFound) =>
      if envFound && !IsValidEnvName env0 then
        .error ("malformed env name " ++ quote env0 ++ " in " ++ quote (lhs ++ "=" ++ rhs))
      else
        let env := if envFound then env0 else All
        if !IsValidValueName name then
          .error ("malformed value name " ++ quote env ++ " in " ++ quote (lhs ++ "=" ++ rhs))
        else
          match parseValue x rhs (newEntry env lhs rhs) with
          | .error err => .error (err ++ " in " ++ quote (lhs ++ "=" ++ rhs))
          | .ok e =>
            .ok { vals with
              entries := mapSet vals.entries name ((mapGet vals.entries name).getD [] ++ [e]) }

/-- The loop of `ParseMap` over the bindings of the input map: the instance
as the loop leaves it, and the error that stopped it. -/
def parseLines (x : Extern) : List (String × String) → Values → Values × Option String
  | [], vals => (vals, none)
  | (lhs, rhs) :: rest, vals =>
    match parseLine x vals lhs rhs with
    | .error err => (vals, some err)
    | .ok vals1 => parseLines x rest vals1

/-- `Values.ParseMap`; the input map is the list of its bindings in the order
the loop visits them. -/
def Values.ParseMap (x : Extern) (vals : Values) (values : List (String × String)) :
    Values × Option String :=
  match parseLines x values vals with
  | (vals1, some err) => (vals1, some err)
  | (vals1, none) => vals1.rebuild

/-- The loop of `parseMultilineKVString`; `lno` is the zero-based number of
the first line of `lines`, `result` the map built so far. -/
def parseKVLines : List String → Nat → List (String × String) →
    Except String (List (String × String))
  | [], _, result => .ok result
  | line0 :: lines, lno, result =>
    let line := TrimSpace line0
    if line = "" ∨ line.data.head? = some '#' then parseKVLines lines (lno + 1) result
    else
      match Cut line '=' with
      | (key0, value0, ok) =>
        if !ok then .error ("line " ++ Nat.repr (lno + 1) ++ ": missing =")
        else
          let key := TrimSpace key0
          let value := TrimSpace value0
          if key = "" then .error ("line " ++ Nat.repr (lno + 1) ++ ": missing key")
          else if (mapGet result key).isSome then
            .error ("line " ++ Nat.repr (lno + 1) ++ ": duplicate value for " ++ key)
          else parseKVLines lines (lno + 1) (mapSet result key value)

/-- `parseMultilineKVString`. -/
def parseMultilineKVString (data : String) : Except String (List (String × String)) :=
  parseKVLines (Split data (Char.ofNat 10)) 0 []

/-- `ParseString`: a new instance filled from the text, and the error. -/
def ParseString (x : Extern) (data : String) : Values × Option String :=
  match parseMultilineKVString data with
  | .error err => (New, some err)
  | .ok m => New.ParseMap x m

/-! ## Text output (envgroup.go, values.go)

The methods `String` are written `string` here: a definition `Values.String`
would hide the type `String` in every later definition on `Values`. -/

/-- The loop of `envGroup.String` over the items. -/
def writeItems : List String → String
  | [] => ""
  | env :: rest => " " ++ env ++ writeItems rest

/-- `envGroup.String`. -/
def envGroup.string (ed : envGroup) : String :=
  TrimSpace ((if ed.Negated then "! " else "") ++ writeItems ed.Items)

/-- The loop of `Values.String` over the env groups. -/
def writeGroups : List (String × envGroup) → String
  | [] => ""
  | (name, es) :: rest => "@" ++ name ++ " = " ++ es.string ++ "\n" ++ writeGroups rest

/-- `Values.String`. -/
def Values.string (vals : Values) : String :=
  writeGroups vals.envs ++ "\n"

/-- `entry.String`. -/
def entry.string (x : Extern) (e : entry) (name : String) : String :=
  (if e.Env ≠ "" then "@" ++ e.Env ++ "." else "") ++ name ++ "=" ++
    match e.Encoding with
    | .NoValue => "NONE"
    | .Plain => e.PlainValue
    | .ToBeEncrypted => "enc:" ++ e.PlainValue
    | .Placeholder => "TODO" ++ (if e.PlainValue ≠ "" then ":" ++ e.PlainValue else "")
    | .Encrypted =>
      "secret:" ++ e.KeyName ++ ":" ++ x.EncodeToString e.Nonce ++ ":" ++
        x.EncodeToString e.Ciphertext

/-! ## Sorting (package `sort`) -/

/-- Put `a` into a list sorted by the text `f` gives: before the first
element whose text is not smaller. -/
def insertBy {α : Type} (f : α → String) (a : α) : List α → List α
  | [] => [a]
  | b :: rest =>
    if strLt (f b).data (f a).data then b :: insertBy f a rest else a :: b :: rest

/-- Sort by the text `f` gives, ascending in Go string order. -/
def sortBy {α : Type} (f : α → String) : List α → List α
  | [] => []
  | a :: rest => insertBy f a (sortBy f rest)

/-- Go `sort.Strings`. -/
def sortStrings (names : List String) : List String :=
  sortBy id names

/-! ## Names and env values (values.go) -/

/-- `Values.Names`: the keys of the map `entries`, sorted. -/
def Values.Names (vals : Values) : List String :=
  sortStrings (vals.entries.map Prod.fst)

/-- The loop of `EnvValues`: the instance, the map `result` and `lastErr`. -/
def envValuesLoop (x : Extern) (env : String) (keyring : Keyring) :
    List String → Values → List (String × String) → Option String →
    Values × List (String × String) × Option String
  | [], vals, result, lastErr => (vals, result, lastErr)
  | name :: names, vals, result, lastErr =>
    match vals.Value x name env keyring with
    | (vals1, .error err) => envValuesLoop x env keyring names vals1 result (some err)
    | (vals1, .ok val) =>
      if val ≠ "" then envValuesLoop x env keyring names vals1 (mapSet result name val) lastErr
      else envValuesLoop x env keyring names vals1 result lastErr

/-- `Values.EnvValues`: the instance after the call, the map and the error. -/
def Values.EnvValues (x : Extern) (vals : Values) (env : String) (keyring : Keyring) :
    Values × List (String × String) × Option String :=
  envValuesLoop x env keyring vals.Names vals [] none

/-! ## In-place rewriter (values.go) -/

structure Variant where
  Name : String
  Env : String
  RawLHS : String
  RawRHS : String
  KeyName : String
  Value : String
  Err : Option String
deriving DecidableEq, Repr

/-- `Values.VariantsToEncrypt`; the map `entries` is visited in list order. -/
def Values.VariantsToEncrypt (vals : Values) : List Variant :=
  vals.entries.flatMap (fun p =>
    (p.2.filter (fun e => e.Encoding = .ToBeEncrypted)).map (fun e =>
      { Name := p.1, Env := e.Env, RawLHS := e.RawLHS, RawRHS := e.RawRHS,
        KeyName := e.KeyName, Value := e.PlainValue, Err := none }))

/-- A Go string is a sequence of bytes, and the model holds it by its
characters. A byte that is not part of a valid UTF-8 sequence has no character
of its own: the model holds it as a stand-in character, and `bad c` tells
that `c` is one. Any characters serve that the texts at hand do not hold
otherwise, apart from the ASCII characters, the spaces and U+FFFD. The code
outside package regexp treats such a byte as the model treats its stand-in:
it is no space, no separator and no character of a name.

`reRune bad c` is the rune that package regexp reads from its input at `c`
(`utf8.DecodeRuneInString`): U+FFFD at a byte that is not valid UTF-8. -/
def reRune (bad : Char → Bool) (c : Char) : Char :=
  if bad c then Char.ofNat 0xFFFD else c

/-- The class `\s` of package regexp: tab, line feed, form feed, carriage
return and space. -/
def isReSpace (c : Char) : Bool :=
  c = Char.ofNat 9 || c = Char.ofNat 10 || c = Char.ofNat 12 || c = Char.ofNat 13 || c = ' '

/-- The regexp item `\s*` followed by the rest `k` of the pattern: greedy, the
longest run of spaces is tried first and given back one by one. -/
def reSpaces {α : Type} (bad : Char → Bool) (k : List Char → Option α) :
    List Char → Option α
  | [] => k []
  | c :: cs =>
    if isReSpace (reRune bad c) then
      match reSpaces bad k cs with
      | some r => some r
      | none => k (c :: cs)
    else k (c :: cs)

/-- The text `p` quoted by `regexp.QuoteMeta`, as a regexp item followed by
the rest `k` of the pattern: the runes read from the input are those of `p`. -/
def reLiteral {α : Type} (bad : Char → Bool) :
    List Char → (List Char → Option α) → List Char → Option α
  | [], k, s => k s
  | _ :: _, _, [] => none
  | a :: p, k, c :: s => if reRune bad c = a then reLiteral bad p k s else none

/-- `regexp.MustCompile` of the pattern `^(\s*LHS\s*=\s*)RHS\s*$` with `LHS`
and `RHS` quoted by `regexp.QuoteMeta`; `none` stands for the panic.
`QuoteMeta` puts a backslash before every special character and keeps the
other bytes, so the pattern is well formed; package regexp still refuses it,
with the error `invalid UTF-8`, when it holds a byte that is not part of a
valid UTF-8 sequence, and `MustCompile` panics then. The compiled pattern is
held as the two texts. (Package regexp of recent Go versions also refuses a
pattern of some millions of characters; the model has no such limit.) -/
def MustCompile (bad : Char → Bool) (lhs rhs : String) : Option (String × String) :=
  if lhs.data.any bad || rhs.data.any bad then none else some (lhs, rhs)

/-- `FindStringSubmatch(line)` of the compiled pattern
`^(\s*LHS\s*=\s*)RHS\s*$`: the text `m[1]` of the group when the line
matches. The group ends where the third `\s*` ends; `afterGroup` is the input
from there on. -/
def findSubmatch (bad : Char → Bool) (lhs rhs line : String) : Option String :=
  let tail (afterGroup : List Char) : Option (List Char) :=
    reLiteral bad rhs.data (reSpaces bad (fun s => if s.isEmpty then some afterGroup else none))
      afterGroup
  let group := reSpaces bad (reLiteral bad lhs.data
    (reSpaces bad (reLiteral bad ['='] (reSpaces bad tail))))
  (group line.data).map (fun afterGroup =>
    String.mk (line.data.take (line.data.length - afterGroup.length)))

/-- The first loop of `EncryptAllInString`, over the variants: `i` is the
number of the variant, `rand i` the nonce that `EncryptValue` reads for it
(`none` for a failed read). The lists `regexps` and `replacements` are kept
as one list of `((RawLHS, RawRHS), replacement)`. The result is `none` when
`regexp.MustCompile` panics. -/
def encryptLoop (x : Extern) (bad : Char → Bool) (keyring : Keyring)
    (rand : Nat → Option Bytes) :
    List Variant → Nat → Values → List ((String × String) × String) → List Variant →
    Option (Values × List ((String × String) × String) × List Variant)
  | [], _, vals, pats, failed => some (vals, pats, failed)
  | v :: vars, i, vals, pats, failed =>
    match vals.EncryptValue x v.Value v.Env v.KeyName keyring (rand i) with
    | (vals1, .error err) =>
      encryptLoop x bad keyring rand vars (i + 1) vals1 pats
        (failed ++ [{ v with Err := some err }])
    | (vals1, .ok rhs) =>
      match MustCompile bad v.RawLHS v.RawRHS with
      | none => none
      | some pat => encryptLoop x bad keyring rand vars (i + 1) vals1 (pats ++ [(pat, rhs)]) failed

/-- The inner loop of `EncryptAllInString` for one line: the new line given
by the first pattern that matches. -/
def rewriteLine (bad : Char → Bool) : List ((String × String) × String) → String → Option String
  | [], _ => none
  | ((lhs, rhs), replacement) :: rest, line =>
    match findSubmatch bad lhs rhs line with
    | some m1 => some (m1 ++ replacement)
    | none => rewriteLine bad rest line

/-- The loop of `EncryptAllInString` over the lines: the new lines and
`modified`. -/
def rewriteLines (bad : Char → Bool) (pats : List ((String × String) × String)) :
    List String → List String × Nat
  | [] => ([], 0)
  | line :: lines =>
    match rewriteLine bad pats line with
    | some line1 => (line1 :: (rewriteLines bad pats lines).1, (rewriteLines bad pats lines).2 + 1)
    | none => (line :: (rewriteLines bad pats lines).1, (rewriteLines bad pats lines).2)

/-- Go `strings.Join`. -/
def Join : List String → String → String
  | [], _ => ""
  | [a], _ => a
  | a :: b :: rest, sep => a ++ sep ++ Join (b :: rest) sep

/-- `Values.EncryptAllInString`: the instance after the call, the new text,
`modified` and `failed`; `none` when the call does not return because
`regexp.MustCompile` panics. -/
def Values.EncryptAllInString (x : Extern) (bad : Char → Bool) (vals : Values) (data : String)
    (keyring : Keyring) (rand : Nat → Option Bytes) :
    Option (Values × String × Nat × List Variant) :=
  let vars := vals.VariantsToEncrypt
  if vars.length = 0 then some (vals, data, 0, [])
  else
    match encryptLoop x bad keyring rand vars 0 vals [] [] with
    | none => none
    | some (vals1, pats, failed) =>
      some (vals1, Join (rewriteLines bad pats (Split data (Char.ofNat 10))).1 "\n",
        (rewriteLines bad pats (Split data (Char.ofNat 10))).2, failed)

/-! ## Keyring (key.go, keyring.go, parsing.go) -/

/-- `Key.String`. -/
def Key.string (key : Key) : String :=
  key.Name

/-- The loop of `Keyring.String` over the sorted keys; `i` is the index. -/
def writeKeyNames : Nat → List Key → String
  | _, [] => ""
  | i, key :: rest => (if i > 0 then ", " else "") ++ key.Name ++ writeKeyNames (i + 1) rest

/-- `Keyring.String`: the receiver as the call leaves it, and the text. The
keys are copied to the slice `sorted` and the copy is sorted by name
(`sort.Slice` does not say in which order it leaves keys of equal name; here
they keep their order). -/
def Keyring.string (keyring : Keyring) : Keyring × String :=
  let sorted := sortBy Key.Name keyring
  (keyring, "(" ++ writeKeyNames 0 sorted ++ ")")

/-- `Keyring.Data`. -/
def Keyring.Data (x : Extern) : Keyring → String
  | [] => ""
  | key :: keyring =>
    key.Name ++ "=" ++ x.EncodeToString key.Data ++ "\n" ++ Keyring.Data x keyring

/-- The loop of `ParseKeyringMap`; `keyring` holds the keys read so far. (Go's
base64 error also gives the position of the bad byte.) -/
def parseKeys (x : Extern) : List (String × String) → Keyring → Except String Keyring
  | [], keyring => .ok keyring
  | (name, v) :: rest, keyring =>
    if !IsValidKeyName name then
      .error ("invalid key name " ++ quote name ++ ", must be [a-zA-Z0-9_.@-]+")
    else
      match x.DecodeString v with
      | none => .error (name ++ ": invalid base64-encoded key: illegal base64 data")
      | some keyData =>
        if keyData.length ≠ KeySize then
          .error (name ++ ": invalid key size " ++ Nat.repr keyData.length ++ ", wanted " ++
            Nat.repr KeySize)
        else parseKeys x rest (keyring ++ [{ Name := name, Data := keyData }])

/-- `ParseKeyringMap`; the input map is the list of its bindings in the order
the loop visits them. -/
def ParseKeyringMap (x : Extern) (kv : List (String × String)) : Except String Keyring :=
  parseKeys x kv []

/-- `ParseKeyringString`. -/
def ParseKeyringString (x : Extern) (data : String) : Except String Keyring :=
  match parseMultilineKVString data with
  | .error err => .error err
  | .ok kv => ParseKeyringMap x kv

/-! ## Notions used in the statements -/

/-- The group stored under `k` in `vals.resolvedEnvs` is `r`. -/
def Bound (vals : Values) (k : String) (r : resolvedEnvGroup) : Prop :=
  mapGet vals.resolvedEnvs k = some r

/-- The field `trivial` is what `finalize` computes from `included`. -/
def Finalized (r : resolvedEnvGroup) : Prop :=
  r.finalize = r

/-- Every resolved group of the instance has been through `finalize`. -/
def FinInv (vals : Values) : Prop :=
  ∀ k r, Bound vals k r → r.state = .resolvedState → Finalized r

/-- The number of included envs that `CompareSpecificity` compares. -/
def Values.size (vals : Values) (e : entry) : Nat :=
  (vals.resolvedOf e).included.length

/-- A candidate is optimal among `entries`: its score is positive and maximal,
and among the candidates with that score it has the fewest included envs. -/
def Values.isOptimal (vals : Values) (envRes : resolvedEnvGroup) (entries : List entry)
    (e : entry) : Bool :=
  vals.score envRes e ≠ 0 &&
  entries.all (fun e1 => vals.score envRes e1 ≤ vals.score envRes e) &&
  entries.all (fun e1 => vals.score envRes e1 ≠ vals.score envRes e || vals.size e ≤ vals.size e1)

/-- The candidates of `entries` that are optimal, in order. -/
def Values.optimal (vals : Values) (envRes : resolvedEnvGroup) (entries : List entry) :
    List entry :=
  entries.filter (vals.isOptimal envRes entries)

/-- The message of the conflict error of `pickVariant`. -/
def conflictMessage (score : Nat) (name envA envB env : String) : String :=
  "conflicting values with match length " ++ Nat.repr score ++ " for " ++
    name ++ "." ++ envA ++ " and " ++ name ++ "." ++ envB ++ " when resolving for ." ++ env

/-- The group of `k` before a step: the stored one, or the one `lookupEnv`
would create. -/
def Values.origin (vals : Values) (k : String) : resolvedEnvGroup :=
  (mapGet vals.resolvedEnvs k).getD (vals.newGroup k)

/-- How the resolver may change a stored group: not at all, or from state
`mentioned` to a later state, keeping `wildcard` and `err`, and finalized once
resolved. -/
def Evolve (r r1 : resolvedEnvGroup) : Prop :=
  r1 = r ∨
  (r.state = .mentionedState ∧ r1.state ≠ .mentionedState ∧ r1.wildcard = r.wildcard ∧
    r1.err = r.err ∧ (r1.state = .resolvedState → Finalized r1))

/-- What a call of the resolver may do to an instance: only `resolvedEnvs`
changes, no key is lost, and every stored group evolves from what it was. -/
structure Step (vals vals1 : Values) : Prop where
  envs : vals1.envs = vals.envs
  entries : vals1.entries = vals.entries
  validEnvs : vals1.validEnvs = vals.validEnvs
  keep : ∀ k r, Bound vals k r → ∃ r1, Bound vals1 k r1
  evolve : ∀ k r1, Bound vals1 k r1 → Evolve (vals.origin k) r1

/-- The specification of a call of `resolveEnv`. -/
def ResolveSpec (self : Values → String → ResolveResult) : Prop :=
  ∀ vals env vals1 res, self vals env = some (vals1, res) →
    Step vals vals1 ∧
    (∀ g, res = .ok g → Bound vals1 env g ∧ g.state = .resolvedState ∧ g.err = none)

/-- A stand-in for base64 used in examples: a byte `n` is written as `n`
letters `a` followed by a `b`. -/
def unaryEncode : List Nat → List Char
  | [] => []
  | n :: rest => List.replicate n 'a' ++ 'b' :: unaryEncode rest

/-- The inverse of `unaryEncode`; the first argument counts the letters `a`
read since the last `b`. -/
def unaryDecode : Nat → List Char → Option (List Nat)
  | acc, [] => if acc = 0 then some [] else none
  | acc, c :: cs =>
    if c = 'a' then unaryDecode (acc + 1) cs
    else if c = 'b' then (unaryDecode 0 cs).map (fun l => acc :: l)
    else none

/-- A stand-in for the external functions used in examples: the unary code
for base64 and the identity for secretbox. -/
def sampleExtern : Extern where
  EncodeToString := fun b => String.mk (unaryEncode b)
  DecodeString := fun s => unaryDecode 0 s.data
  Seal := fun msg _ _ => msg.data.map Char.toNat
  Open := fun box _ _ => some (String.mk (box.map Char.ofNat))

/-- The sanity pass of `rebuild` holds at the instance `v` for the entries of
`name` and the valid env `env`: the sample env and the envs of the entries are
resolved, and the loop of `pickVariant` picks an entry without conflict. -/
def PickOK (v : Values) (name : String) (entries : List entry) (env : String) : Prop :=
  ∃ g picked, Bound v (replaceStars env) g ∧ g.state = .resolvedState ∧ g.err = none ∧
    (∀ en ∈ entries, ∃ r, Bound v en.Env r ∧ r.state = .resolvedState) ∧
    pickResult name (replaceStars env) (entries.foldl (v.pickStep g) pickInit) = (some picked, none)

/-- The result of `Value` once `pickVariant` has picked the entry `picked`:
its value, with the name put before an error. -/
def valueOf (x : Extern) (name : String) (picked : entry) (keyring : Keyring) :
    Except String String :=
  match picked.Value x keyring with
  | .error err => .error (name ++ ": " ++ err)
  | .ok val => .ok val

/-- The env `i` is resolved without error in `v`. -/
def ResolvedOK (v : Values) (i : String) : Prop :=
  ∃ r, Bound v i r ∧ r.state = .resolvedState ∧ r.err = none

/-- The included list stored under `i`, empty when nothing is stored. -/
def Values.includedOf (v : Values) (i : String) : List String :=
  ((mapGet v.resolvedEnvs i).map (fun r => r.included)).getD []

/-- The list `excluded` that the negated branch of `resolveEnv` builds from
the resolved items. -/
def Values.excludedOf (v : Values) (items : List String) : List String :=
  items.foldl (fun acc i => appendNew acc (v.includedOf i)) []

/-- The single writes that `resolveEnv` performs on an instance, each with
what is known when it happens. For a negated group the write of `included`
and the two writes of the end of `resolveEnv`, which follow it directly, are
one step. -/
inductive Prim : Values → Values → Prop
  | lookup (v : Values) (env : String) : Prim v (v.lookupEnv env).1
  | mark (v : Values) (env : String) (r : resolvedEnvGroup) :
      Bound v env r → r.state = .mentionedState →
      Prim v (v.modifyRes env (fun r => { r with state := .resolvingState }))
  | leaf (v : Values) (env : String) (r : resolvedEnvGroup) :
      Bound v env r → r.state = .resolvingState → mapGet v.envs env = none →
      Prim v (v.modifyRes env (fun r => { r with included := [env] }))
  | append (v : Values) (env : String) (r : resolvedEnvGroup) (d : envGroup) (sub : String)
      (rs : resolvedEnvGroup) :
      Bound v env r → r.state = .resolvingState → mapGet v.envs env = some d →
      d.Negated = false → sub ∈ d.Items →
      Bound v sub rs → rs.state = .resolvedState → rs.err = none →
      Prim v (v.modifyRes env (fun r => { r with included := appendNew r.included rs.included }))
  | negate (v : Values) (env : String) (r : resolvedEnvGroup) (d : envGroup) :
      Bound v env r → r.state = .resolvingState → mapGet v.envs env = some d →
      d.Negated = true → v.validEnvs.isEmpty = false → (∀ i ∈ d.Items, ResolvedOK v i) →
      Prim v (v.modifyRes env (fun r =>
        { ({ r with included :=
              r.included ++
                v.validEnvs.filter (fun x => findMatch (v.excludedOf d.Items) x = "") }).finalize
          with state := .resolvedState }))
  | finish (v : Values) (env : String) (r : resolvedEnvGroup) :
      Bound v env r → r.state = .resolvingState →
      (∀ d, mapGet v.envs env = some d → ∀ i ∈ d.Items, ResolvedOK v i) →
      (mapGet v.envs env = none → r.included = [env]) →
      (∀ d, mapGet v.envs env = some d → d.Negated = false) →
      Prim v (v.modifyRes env (fun r => { r.finalize with state := .resolvedState }))

/-- A sequence of writes of the resolver. -/
def Steps (v v1 : Values) : Prop := Relation.ReflTransGen Prim v v1

/-- Every call of the resolver that returns is a sequence of writes. -/
def PrimSpec (self : Values → String → ResolveResult) : Prop :=
  ∀ v env v1 res, self v env = some (v1, res) → Steps v v1

/-- Every env without a definition that is resolved without error includes
exactly itself. -/
def LeafInv (v : Values) : Prop :=
  ∀ k r, Bound v k r → r.state = .resolvedState → r.err = none → mapGet v.envs k = none →
    r.included = [k]

/-- A character that `path.Match` reads literally. -/
def PlainChar (c : Char) : Prop :=
  c ≠ '*' ∧ c ≠ '?' ∧ c ≠ '[' ∧ c ≠ '\\'

/-- Every stored entry is qualified by `all` or by a valid env name. -/
def EntriesValid (v : Values) : Prop :=
  ∀ name l, mapGet v.entries name = some l →
    ∀ en ∈ l, en.Env = All ∨ IsValidEnvName en.Env = true

/-- The group of `k` has not been entered yet: it is stored, or would be
created, in state `mentioned`. -/
def Values.fresh (v : Values) (k : String) : Bool :=
  decide ((v.origin k).state = .mentionedState)

/-- The number of group definitions whose group has not been entered yet. -/
def Values.pending (v : Values) : Nat :=
  v.envs.countP (fun p => v.fresh p.1)

/-- The group `a` refers to `b`: `b` is an item of the definition of `a`. -/
def Refers (envs : List (String × envGroup)) (a b : String) : Prop :=
  ∃ d, mapGet envs a = some d ∧ b ∈ d.Items

/-- The definitions contain a reference cycle: a group reaches itself through
its items. -/
def Cyclic (envs : List (String × envGroup)) : Prop :=
  ∃ a, Relation.TransGen (Refers envs) a a

/-- The groups resolved without error are well founded: the items of each are
resolved without error and of smaller rank. -/
def AccInv (v : Values) : Prop :=
  ∃ rank : String → Nat, ∀ k d, ResolvedOK v k → mapGet v.envs k = some d →
    ∀ i ∈ d.Items, ResolvedOK v i ∧ rank i < rank k

/-- A stored error belongs to a group in state `resolved`. -/
def ErrInv (v : Values) : Prop :=
  ∀ k r, Bound v k r → r.err ≠ none → r.state = .resolvedState

/-- A group that has not been entered has an empty included list, and so has
a negated group while it is being resolved. -/
def FreshInv (v : Values) : Prop :=
  ∀ k r, Bound v k r →
    (r.state = .mentionedState → r.included = []) ∧
    (r.state = .resolvingState → ∀ d, mapGet v.envs k = some d → d.Negated = true →
      r.included = [])

/-- No env is listed twice in `validEnvs` or in an included list. -/
def NodupInv (v : Values) : Prop :=
  v.validEnvs.Nodup ∧ ∀ k r, Bound v k r → r.included.Nodup

/-- The env `t` has no definition and is resolved without error to itself. -/
def ResolvedLeaf (v : Values) (t : String) : Prop :=
  mapGet v.envs t = none ∧
  ∃ rt, Bound v t rt ∧ rt.err = none ∧ rt.included = [t] ∧ rt.state = .resolvedState

/-- The elements of `validEnvs` and of the included lists are resolved envs
without definition; an env without definition that is being resolved may list
itself. -/
def TokInv (v : Values) : Prop :=
  (∀ t ∈ v.validEnvs, ResolvedLeaf v t) ∧
  ∀ k r, Bound v k r → ∀ t ∈ r.included,
    ResolvedLeaf v t ∨ (t = k ∧ mapGet v.envs k = none ∧ r.state = .resolvingState)

/-- The string `t` is an item of some group definition. -/
def IsItem (envs : List (String × envGroup)) (t : String) : Prop :=
  ∃ k d, mapGet envs k = some d ∧ t ∈ d.Items

/-- The elements of `validEnvs` and of the included lists of defined groups
are items of group definitions. -/
def ItemInv (v : Values) : Prop :=
  (∀ t ∈ v.validEnvs, IsItem v.envs t) ∧
  ∀ k r d, Bound v k r → mapGet v.envs k = some d → ∀ t ∈ r.included, IsItem v.envs t

/-- Once `validEnvs` is set, an env without definition that is stored without
error is matched by an element of `validEnvs`. -/
def MatchInv (v : Values) : Prop :=
  v.validEnvs.isEmpty = false → ∀ t rt, Bound v t rt → mapGet v.envs t = none →
    rt.err = none → t ∈ v.validEnvs ∨ findMatch v.validEnvs t ≠ ""

/-- What a successful call of the resolver does while `validEnvs` is not set:
an env without definition that is stored without error after the call was
stored without error before it or is in the included list of the result. -/
def UpSpec (self : Values → String → ResolveResult) : Prop :=
  ∀ v env v1 g, self v env = some (v1, .ok g) → v.validEnvs.isEmpty = true →
    ∀ t rt, Bound v1 t rt → mapGet v1.envs t = none → rt.err = none →
      (∃ rt0, Bound v t rt0 ∧ rt0.err = none) ∨ t ∈ g.included

/-- The invariants of an instance that was parsed from scratch. -/
structure Good (v : Values) : Prop where
  err : ErrInv v
  fresh : FreshInv v
  nodup : NodupInv v
  tok : TokInv v
  item : ItemInv v
  leaf : LeafInv v
  matched : MatchInv v

/-- The items of every group definition are valid env names or wildcards. -/
def ItemsValid (v : Values) : Prop :=
  ∀ k d, mapGet v.envs k = some d → ∀ i ∈ d.Items, IsValidEnvNameWildcard i = true

/-- A character of a valid env name or wildcard. -/
def WildChar (c : Char) : Prop :=
  c = '*' ∨ isEnvNameChar c = true

/-- The test "same score as `bs` and same size as `b`". -/
def Values.ties (vals : Values) (envRes : resolvedEnvGroup) (bs : Nat) (b : entry) (e : entry) :
    Bool :=
  decide (vals.score envRes e = bs ∧ vals.size e = vals.size b)

/-- The invariant of the loop of `pickVariant` after the candidates `done`. -/
structure PickInv (vals : Values) (envRes : resolvedEnvGroup) (done : List entry)
    (st : PickState) : Prop where
  none_case : st.best = none → st.bestScore = 0 ∧ st.conflict = none ∧
    ∀ e ∈ done, vals.score envRes e = 0
  some_case : ∀ b, st.best = some b →
    b ∈ done ∧ vals.score envRes b = st.bestScore ∧ 0 < st.bestScore ∧
    (∀ e ∈ done, vals.score envRes e ≤ st.bestScore) ∧
    (∀ e ∈ done, vals.score envRes e = st.bestScore → vals.size b ≤ vals.size e) ∧
    (st.conflict = none → done.countP (vals.ties envRes st.bestScore b) = 1) ∧
    (∀ c, st.conflict = some c → c ∈ done ∧ vals.ties envRes st.bestScore b c = true ∧
      2 ≤ done.countP (vals.ties envRes st.bestScore b))

/-- A line that the lexer passes over: blank after trimming, or a comment. -/
def lineSkipped (line : String) : Bool :=
  decide (TrimSpace line = "" ∨ (TrimSpace line).data.head? = some '#')

/-- The binding that a line stands for: the trimmed text before its first `=`
and the trimmed text after it; none for a blank line or a comment. -/
def lexLine (line : String) : Option (String × String) :=
  if lineSkipped line then none
  else some (TrimSpace (Cut (TrimSpace line) '=').1, TrimSpace (Cut (TrimSpace line) '=').2.1)

/-- The bindings of a text, line by line. -/
def lexSpec (data : String) : List (String × String) :=
  (Split data (Char.ofNat 10)).filterMap lexLine

/-- The key that a line binds: none for a blank line, a comment and a line
without `=`. -/
def lineKey (line : String) : Option String :=
  if lineSkipped line = true ∨ '=' ∉ (TrimSpace line).data then none
  else some (TrimSpace (Cut (TrimSpace line) '=').1)

/-- The error of a line, given the lines before it: the line is not blank and
not a comment, and has no `=`, or an empty key, or the key of an earlier line.
The number in the message is the one-based number of the line. -/
def lineFault (earlier : List String) (line : String) : Option String :=
  if lineSkipped line then none
  else if '=' ∉ (TrimSpace line).data then
    some ("line " ++ Nat.repr (earlier.length + 1) ++ ": missing =")
  else if TrimSpace (Cut (TrimSpace line) '=').1 = "" then
    some ("line " ++ Nat.repr (earlier.length + 1) ++ ": missing key")
  else if earlier.any (fun l => lineKey l = some (TrimSpace (Cut (TrimSpace line) '=').1)) then
    some ("line " ++ Nat.repr (earlier.length + 1) ++ ": duplicate value for " ++
      TrimSpace (Cut (TrimSpace line) '=').1)
  else none

/-- A group that has not been entered has an empty included list. -/
def MentInv (v : Values) : Prop :=
  ∀ k r, Bound v k r → r.state = .mentionedState → r.included = []

/-- The included list that `resolveEnv` computes for a group with the
definition `d` from the stored included lists of its items: for a negated
group the valid envs that no excluded token matches, for a plain group the
lists of the items appended with repeated envs skipped. -/
def Values.resolution (v : Values) (d : envGroup) : List String :=
  if d.Negated then v.validEnvs.filter (fun x => findMatch (v.excludedOf d.Items) x = "")
  else v.excludedOf d.Items

/-- What is known of a group `r` with the definition `d` that is resolved
without error: its items are resolved without error, a negated group is
resolved only once `validEnvs` is set, and its included list is computed from
the lists of its items. -/
def ResFact (v : Values) (r : resolvedEnvGroup) (d : envGroup) : Prop :=
  (∀ i ∈ d.Items, ResolvedOK v i) ∧ (d.Negated = true → v.validEnvs.isEmpty = false) ∧
  r.included = v.resolution d

/-- Every defined group that is resolved without error lists what
`resolution` computes. -/
def ResInv (v : Values) : Prop :=
  ∀ k r d, Bound v k r → r.state = .resolvedState → r.err = none →
    mapGet v.envs k = some d → ResFact v r d

/-- Every call of the resolver that returns keeps `MentInv` and `ResInv`. -/
def ResSpec (self : Values → String → ResolveResult) : Prop :=
  ∀ v env v1 res, self v env = some (v1, res) → MentInv v → ResInv v → MentInv v1 ∧ ResInv v1

/-- The calls that `rebuild` makes on an instance: `resolveEnv` and
`lookupEnv` (through `mentionEnv`). -/
inductive Call : Values → Values → Prop
  | resolve (v : Values) (env : String) : Call v (v.resolveEnv env).1
  | lookup (v : Values) (env : String) : Call v (v.lookupEnv env).1

/-- A sequence of calls of the resolver. -/
def Calls (v v1 : Values) : Prop := Relation.ReflTransGen Call v v1

/-- The envs of a list in the order of their first occurrence, each once. -/
def firstSeen : List String → List String
  | [] => []
  | a :: l => a :: (firstSeen l).filter (fun x => x ≠ a)

/-- The flattening of the spec: the lists are concatenated in order and every
repeated env is dropped after its first occurrence. -/
def flattenSpec (lists : List (List String)) : List String :=
  firstSeen (lists.foldr (fun l acc => l ++ acc) [])

/-- The negated resolution of the spec: the valid envs, in order, that no
excluded token glob-matches. -/
def negateSpec (valid excluded : List String) : List String :=
  valid.filter (fun x => excluded.all (fun p => !«matches» p x))

/-- While `validEnvs` is not set, no negated group is resolved without
error. -/
def NoNegInv (v : Values) : Prop :=
  v.validEnvs.isEmpty = true → ∀ k d, ResolvedOK v k → mapGet v.envs k = some d →
    d.Negated = false

/-- The group `@all` reaches the negated group `X`: `X` is `all` or is reached
from it through items of definitions, and its definition is negated. -/
def ReachesNegated (envs : List (String × envGroup)) (X : String) : Prop :=
  Relation.ReflTransGen (Refers envs) All X ∧ ∃ d, mapGet envs X = some d ∧ d.Negated = true

/-- No stored group carries an error. -/
def NoErr (v : Values) : Prop :=
  ∀ k r, Bound v k r → r.err = none

/-- The error ends with the cycle error of a group. -/
def CycleError (err : String) : Prop :=
  ∃ pre X, err = pre ++ ("@" ++ X ++ ": infinite recursion")

/-- The error ends with the negation error for a negated group that `env`
reaches through items of definitions. -/
def NegError (envs : List (String × envGroup)) (env err : String) : Prop :=
  ∃ pre X d, err = pre ++ ("cannot refer to negated groups like " ++ X ++ " from @all") ∧
    mapGet envs X = some d ∧ d.Negated = true ∧ Relation.ReflTransGen (Refers envs) env X

/-- What a call of the resolver does while `validEnvs` is not set, on an
instance without stored errors and with valid items: it stores no error, and
when it fails the error is a cycle error or the negation error. -/
def ErrSpec (self : Values → String → ResolveResult) : Prop :=
  ∀ v env v1 res, self v env = some (v1, res) → v.validEnvs.isEmpty = true → NoErr v →
    ItemsValid v → ((mapGet v.envs env).isSome = true ∨ IsValidEnvNameWildcard env = true) →
    NoErr v1 ∧ ∀ err, res = .error err → CycleError err ∨ NegError v.envs env err

/-- The text of the parsed structure: the env groups as `Values.String` writes
them, then one line for every entry as `entry.String` writes it. -/
def reemit (x : Extern) (vals : Values) : String :=
  vals.string ++
    String.join (vals.entries.flatMap (fun p => p.2.map (fun e => e.string x p.1 ++ "\n")))

/-- The env `k` is the name of a group definition or an item of one. -/
def Mentioned (envs : List (String × envGroup)) (k : String) : Prop :=
  ∃ p ∈ envs, k = p.1 ∨ k ∈ p.2.Items

/-- Two instances with the same definitions and valid envs whose stored groups
agree on the names and items of the definitions. -/
def SameCore (v w : Values) : Prop :=
  w.envs = v.envs ∧ w.validEnvs = v.validEnvs ∧
  ∀ k, Mentioned v.envs k → mapGet w.resolvedEnvs k = mapGet v.resolvedEnvs k

/-- A call of the resolver for a name or an item of the definitions gives the
same result on two instances that agree on those. -/
def SimSpec (self : Values → String → ResolveResult) : Prop :=
  ∀ v w env v1 res, SameCore v w → Mentioned v.envs env → self v env = some (v1, res) →
    ∃ w1, self w env = some (w1, res) ∧ SameCore v1 w1

/-- The group definitions of a parsed file: distinct valid names, valid
items. -/
def GroupsValid (envs : List (String × envGroup)) : Prop :=
  (envs.map Prod.fst).Nodup ∧
  ∀ p ∈ envs, IsValidEnvName p.1 = true ∧ ∀ i ∈ p.2.Items, IsValidEnvNameWildcard i = true

/-- The characters that `TrimSpace` keeps. -/
def trimChars (l : List Char) : List Char :=
  (l.dropWhile isSpace).rdropWhile isSpace

/-- A text without a space at either end. -/
def Trimmed (l : List Char) : Prop :=
  l.dropWhile isSpace = l ∧ l.rdropWhile isSpace = l

/-- The line that `Values.String` writes for a group, without the line end. -/
def groupLine (p : String × envGroup) : String :=
  "@" ++ p.1 ++ " = " ++ p.2.string

/-- The binding that the lexer reads from the line of a group. -/
def groupBinding (p : String × envGroup) : String × String :=
  ("@" ++ p.1, p.2.string)

/-- The texts are in ascending Go string order: no text is smaller than one
before it. -/
def Ascending (l : List String) : Prop :=
  l.Pairwise (fun a b => strLt b.data a.data = false)

/-- A keyring with the two key names of the test `TestParseKeyringString`
(the file `testdata/keyring.txt` itself is not among the sources; the order
of the keys and the key data are stand-ins). -/
def sampleKeyring : Keyring :=
  [{ Name := "myapp-prod", Data := List.replicate 32 7 },
   { Name := "myapp-dev", Data := List.replicate 32 9 }]

/-- A character of the standard base64 alphabet, the padding `=` included. -/
def isBase64Char (c : Char) : Bool :=
  c.isAlphanum || c = '+' || c = '/' || c = '='

/-- The line that `Keyring.Data` writes for a key, without the line end. -/
def keyLine (x : Extern) (key : Key) : String :=
  key.Name ++ "=" ++ x.EncodeToString key.Data

/-- The binding that the lexer reads from the line of a key. -/
def keyBinding (x : Extern) (key : Key) : String × String :=
  (key.Name, x.EncodeToString key.Data)

/-- The key that `ParseKeyringMap` makes of a binding; none when the binding
is rejected. -/
def keyOf (x : Extern) (p : String × String) : Option Key :=
  if IsValidKeyName p.1 = true then
    match x.DecodeString p.2 with
    | none => none
    | some keyData => if keyData.length = KeySize then some { Name := p.1, Data := keyData } else none
  else none

/-- The instance in which `Value` looks up the entries of a name and calls
`pickVariant`, for an env it accepts: the env has been registered, and
`rebuild` has run, its error ignored, when the env was new. -/
def Values.queryState (vals : Values) (env : String) : Values :=
  if (vals.mentionEnv env).2.1 then (vals.mentionEnv env).1.rebuild.1
  else (vals.mentionEnv env).1

/-- The part of `Value` that follows the registration of the env, on the
instance `w`. -/
def valueFrom (x : Extern) (w : Values) (name env : String) (keyring : Keyring) :
    Values × Except String String :=
  match mapGet w.entries name with
  | none => (w, .ok "")
  | some entries =>
    match w.pickVariant name env entries with
    | (w1, _, some err) => (w1, .error err)
    | (w1, none, none) => (w1, .error ("no value for " ++ name ++ "." ++ env))
    | (w1, some e, none) => (w1, valueOf x name e keyring)

/-- The instance that a call of `Value` for the env leaves, whatever the
name, when the name has entries: for an env that is not accepted the instance
with the env registered, otherwise the query state with the env resolved. -/
def Values.settled (vals : Values) (env : String) : Values :=
  match (vals.mentionEnv env).2.2 with
  | some _ => (vals.mentionEnv env).1
  | none => ((vals.queryState env).resolveEnv env).1

/-- The names of `names` for which `f` fails. -/
def failing (f : String → Except String String) (names : List String) : List String :=
  names.filter (fun n => match f n with | .error _ => true | .ok _ => false)

/-- The loop of `EnvValues` when the value of every name is given by the
function `q`: the map `result` and `lastErr`. -/
def collectValues (q : String → Except String String) :
    List String → List (String × String) → Option String → List (String × String) × Option String
  | [], result, lastErr => (result, lastErr)
  | name :: names, result, lastErr =>
    match q name with
    | .error err => collectValues q names result (some err)
    | .ok val =>
      if val ≠ "" then collectValues q names (mapSet result name val) lastErr
      else collectValues q names result lastErr

/-- The line has the shape `<ws>lhs<ws>=<ws>rhs<ws>` as package regexp reads
it: the line is made of the parts `ws1`, `l`, `ws2`, `=`, `ws3`, `r`, `ws4`,
where each `ws` is a run of regexp spaces and the runes read from `l` and `r`
are the texts `lhs` and `rhs` (on a part with no byte that is not valid
UTF-8, the part is the text itself); `kept` is the text of the line up to
and including the `=` and the spaces after it. -/
def LineShape (bad : Char → Bool) (lhs rhs line kept : String) : Prop :=
  ∃ ws1 l ws2 ws3 r ws4 : List Char,
    (∀ c ∈ ws1, isReSpace (reRune bad c) = true) ∧
    (∀ c ∈ ws2, isReSpace (reRune bad c) = true) ∧
    (∀ c ∈ ws3, isReSpace (reRune bad c) = true) ∧
    (∀ c ∈ ws4, isReSpace (reRune bad c) = true) ∧
    l.map (reRune bad) = lhs.data ∧ r.map (reRune bad) = rhs.data ∧ bad '=' = false ∧
    line.data = ws1 ++ l ++ ws2 ++ '=' :: ws3 ++ r ++ ws4 ∧
    kept.data = ws1 ++ l ++ ws2 ++ '=' :: ws3

/-- No stored entry holds a line break in its plain value or key name, and
the raw right-hand side of an entry to be encrypted starts with `enc:`. -/
def EntryTexts (v : Values) : Prop :=
  ∀ p ∈ v.entries, ∀ e ∈ p.2,
    Char.ofNat 10 ∉ e.PlainValue.data ∧ Char.ofNat 10 ∉ e.KeyName.data ∧
    (e.Encoding = .ToBeEncrypted → ∃ r, e.RawRHS = "enc:" ++ r)

/-! ## The loop of `pickVariant` -/

theorem pickInv_init (vals : Values) (envRes : resolvedEnvGroup) :
    PickInv vals envRes [] pickInit := by
  unfold pickInit
  constructor
  · intro _; simp
  · intro b hb; simp at hb

theorem compareSpecificity_pos (a b : resolvedEnvGroup) :
    0 < a.CompareSpecificity b ↔ a.included.length < b.included.length := by
  unfold resolvedEnvGroup.CompareSpecificity
  simp only
  split_ifs <;> simp_all

theorem compareSpecificity_zero (a b : resolvedEnvGroup) :
    a.CompareSpecificity b = 0 ↔ a.included.length = b.included.length := by
  unfold resolvedEnvGroup.CompareSpecificity
  simp only
  split_ifs <;> simp_all <;> omega

/-- A candidate that replaces `best`: every earlier candidate is worse. -/
theorem pickInv_replace (vals : Values) (envRes : resolvedEnvGroup) (done : List entry)
    (e : entry) (hpos : 0 < vals.score envRes e)
    (hmax : ∀ e1 ∈ done, vals.score envRes e1 ≤ vals.score envRes e)
    (hmin : ∀ e1 ∈ done, vals.score envRes e1 = vals.score envRes e → vals.size e < vals.size e1) :
    PickInv vals envRes (done ++ [e])
      { best := some e, bestScore := vals.score envRes e, conflict := none } := by
  constructor
  · intro hb; simp at hb
  · intro b hb
    simp only [Option.some.injEq] at hb
    subst hb
    dsimp only
    refine ⟨by simp, rfl, hpos, ?_, ?_, ?_, ?_⟩
    · intro e1 he1
      rcases List.mem_append.1 he1 with h2 | h2
      · exact hmax e1 h2
      · simp at h2; subst h2; exact le_refl _
    · intro e1 he1 hsc
      rcases List.mem_append.1 he1 with h2 | h2
      · exact le_of_lt (hmin e1 h2 hsc)
      · simp at h2; subst h2; exact le_refl _
    · intro _
      have h0 : done.countP (vals.ties envRes (vals.score envRes e) e) = 0 := by
        rw [List.countP_eq_zero]
        intro e1 he1
        unfold Values.ties
        simp only [decide_eq_true_eq, not_and]
        intro hsc
        have := hmin e1 he1 hsc
        omega
      rw [List.countP_append, h0]
      simp [List.countP_cons, Values.ties]
    · intro c hc; simp at hc

/-- A candidate that leaves `best` and `conflict` as they are: it does not tie
with `best`. -/
theorem pickInv_keep (vals : Values) (envRes : resolvedEnvGroup) (done : List entry)
    (st : PickState) (e : entry) (b0 : entry) (h : PickInv vals envRes done st)
    (hbest : st.best = some b0) (hle : vals.score envRes e ≤ st.bestScore)
    (hne : vals.score envRes e = st.bestScore → vals.size b0 < vals.size e) :
    PickInv vals envRes (done ++ [e]) st := by
  obtain ⟨_, hs⟩ := h
  obtain ⟨hb0, hsc0, hpos, hmax, hmin, hc1, hc2⟩ := hs b0 hbest
  have hcount : (done ++ [e]).countP (vals.ties envRes st.bestScore b0) =
      done.countP (vals.ties envRes st.bestScore b0) := by
    rw [List.countP_append]
    have : vals.ties envRes st.bestScore b0 e = false := by
      unfold Values.ties
      simp only [decide_eq_false_iff_not, not_and]
      intro hsc
      have := hne hsc
      omega
    simp [List.countP_cons, this]
  constructor
  · intro hb; simp [hbest] at hb
  · intro b hb
    simp only [hbest, Option.some.injEq] at hb
    subst hb
    refine ⟨by simp [hb0], hsc0, hpos, ?_, ?_, ?_, ?_⟩
    · intro e1 he1
      rcases List.mem_append.1 he1 with h5 | h5
      · exact hmax e1 h5
      · simp at h5; subst h5; exact hle
    · intro e1 he1 hsc
      rcases List.mem_append.1 he1 with h5 | h5
      · exact hmin e1 h5 hsc
      · simp at h5; subst h5; exact le_of_lt (hne hsc)
    · intro hc; rw [hcount]; exact hc1 hc
    · intro c hc
      obtain ⟨hcm, hct, hcc⟩ := hc2 c hc
      exact ⟨by simp [hcm], hct, by rw [hcount]; exact hcc⟩

/-- A candidate that ties with `best` becomes `conflict`. -/
theorem pickInv_tie (vals : Values) (envRes : resolvedEnvGroup) (done : List entry)
    (st : PickState) (e : entry) (b0 : entry) (h : PickInv vals envRes done st)
    (hbest : st.best = some b0) (hsc : vals.score envRes e = st.bestScore)
    (hsz : vals.size e = vals.size b0) :
    PickInv vals envRes (done ++ [e]) { st with conflict := some e } := by
  obtain ⟨_, hs⟩ := h
  obtain ⟨hb0, hsc0, hpos, hmax, hmin, hc1, hc2⟩ := hs b0 hbest
  constructor
  · intro hb; simp [hbest] at hb
  · intro b hb
    simp only [hbest, Option.some.injEq] at hb
    subst hb
    dsimp only
    refine ⟨by simp [hb0], hsc0, hpos, ?_, ?_, ?_, ?_⟩
    · intro e1 he1
      rcases List.mem_append.1 he1 with h5 | h5
      · exact hmax e1 h5
      · simp at h5; subst h5; omega
    · intro e1 he1 hsc1
      rcases List.mem_append.1 he1 with h5 | h5
      · exact hmin e1 h5 hsc1
      · simp at h5; subst h5; omega
    · intro hc; simp at hc
    · intro c hc
      simp only [Option.some.injEq] at hc
      subst hc
      refine ⟨by simp, by simp [Values.ties, hsc, hsz], ?_⟩
      have hge : 0 < done.countP (vals.ties envRes st.bestScore b0) := by
        rw [List.countP_pos_iff]
        exact ⟨b0, hb0, by simp [Values.ties, hsc0]⟩
      rw [List.countP_append]
      have : [e].countP (vals.ties envRes st.bestScore b0) = 1 := by
        simp [List.countP_cons, Values.ties, hsc, hsz]
      omega

theorem pickInv_step (vals : Values) (envRes : resolvedEnvGroup) (done : List entry)
    (st : PickState) (e : entry) (h : PickInv vals envRes done st) :
    PickInv vals envRes (done ++ [e]) (vals.pickStep envRes st e) := by
  have h' := h
  obtain ⟨hn, hs⟩ := h
  unfold Values.pickStep
  simp only
  by_cases h1 : vals.score envRes e > st.bestScore
  · rw [if_pos h1]
    apply pickInv_replace
    · omega
    · intro e1 he1
      cases hbest : st.best with
      | none => have := (hn hbest).2.2 e1 he1; omega
      | some b0 => have := (hs b0 hbest).2.2.2.1 e1 he1; omega
    · intro e1 he1 hsc
      exfalso
      cases hbest : st.best with
      | none => have := (hn hbest).2.2 e1 he1; omega
      | some b0 => have := (hs b0 hbest).2.2.2.1 e1 he1; omega
  · rw [if_neg h1]
    cases hbest : st.best with
    | none =>
      simp only
      have h0 := hn hbest
      constructor
      · intro _
        refine ⟨h0.1, h0.2.1, ?_⟩
        intro e1 he1
        rcases List.mem_append.1 he1 with h2 | h2
        · exact h0.2.2 e1 h2
        · simp at h2; subst h2; omega
      · intro b hb; rw [hbest] at hb; simp at hb
    | some b0 =>
      simp only
      obtain ⟨hb0, hsc0, hpos, hmax, hmin, hc1, hc2⟩ := hs b0 hbest
      by_cases h2 : vals.score envRes e = st.bestScore
      · rw [if_pos h2]
        by_cases h3 : (vals.resolvedOf e).CompareSpecificity (vals.resolvedOf b0) > 0
        · rw [if_pos h3]
          have hlt : vals.size e < vals.size b0 := (compareSpecificity_pos _ _).1 h3
          apply pickInv_replace
          · omega
          · intro e1 he1; have := hmax e1 he1; omega
          · intro e1 he1 hsc
            have := hmin e1 he1 (by omega)
            omega
        · rw [if_neg h3]
          by_cases h4 : (vals.resolvedOf e).CompareSpecificity (vals.resolvedOf b0) = 0
          · rw [if_pos h4]
            have h9 := pickInv_tie vals envRes done st e b0 h' hbest h2
              ((compareSpecificity_zero _ _).1 h4)
            rw [hbest] at h9
            exact h9
          · rw [if_neg h4]
            have hgt : vals.size b0 < vals.size e := by
              have h5 := (compareSpecificity_pos (vals.resolvedOf e) (vals.resolvedOf b0))
              have h6 := (compareSpecificity_zero (vals.resolvedOf e) (vals.resolvedOf b0))
              unfold Values.size
              by_contra hcon
              rcases Nat.lt_or_eq_of_le (Nat.le_of_not_lt hcon) with h7 | h7
              · exact h3 (h5.2 h7)
              · exact h4 (h6.2 h7)
            exact pickInv_keep vals envRes done st e b0 h' hbest (by omega) (fun _ => hgt)
      · rw [if_neg h2]
        exact pickInv_keep vals envRes done st e b0 h' hbest (by omega)
          (fun hsc => absurd hsc h2)

theorem pickInv_foldl (vals : Values) (envRes : resolvedEnvGroup) (entries : List entry) :
    PickInv vals envRes entries (entries.foldl (vals.pickStep envRes) pickInit) := by
  induction entries using List.reverseRecOn with
  | nil => exact pickInv_init vals envRes
  | append_singleton done e ih =>
    rw [List.foldl_append]
    exact pickInv_step vals envRes done _ e ih

/-! ## Association lists -/

theorem mapGet_mapSet_self {β : Type} (m : List (String × β)) (k : String) (v : β) :
    mapGet (mapSet m k v) k = some v := by
  induction m with
  | nil => simp [mapSet, mapGet]
  | cons p m ih =>
    obtain ⟨k1, w⟩ := p
    by_cases h : k1 = k
    · simp [mapSet, mapGet, h]
    · simp [mapSet, mapGet, h, ih]

theorem mapGet_mapSet_ne {β : Type} (m : List (String × β)) (k k1 : String) (v : β)
    (h : k1 ≠ k) : mapGet (mapSet m k v) k1 = mapGet m k1 := by
  induction m with
  | nil => simp [mapSet, mapGet, Ne.symm h]
  | cons p m ih =>
    obtain ⟨k2, w⟩ := p
    by_cases h2 : k2 = k
    · subst h2
      simp [mapSet, mapGet, Ne.symm h]
    · by_cases h3 : k2 = k1
      · subst h3; simp [mapSet, mapGet, h2]
      · simp [mapSet, mapGet, h2, h3, ih]

theorem mapGet_mapModify_self {β : Type} (m : List (String × β)) (k : String) (f : β → β) :
    mapGet (mapModify m k f) k = (mapGet m k).map f := by
  induction m with
  | nil => simp [mapModify, mapGet]
  | cons p m ih =>
    obtain ⟨k1, w⟩ := p
    by_cases h : k1 = k
    · simp [mapModify, mapGet, h]
    · simp [mapModify, mapGet, h, ih]

theorem mapGet_mapModify_ne {β : Type} (m : List (String × β)) (k k1 : String) (f : β → β)
    (h : k1 ≠ k) : mapGet (mapModify m k f) k1 = mapGet m k1 := by
  induction m with
  | nil => simp [mapModify, mapGet]
  | cons p m ih =>
    obtain ⟨k2, w⟩ := p
    by_cases h2 : k2 = k
    · subst h2
      simp [mapModify, mapGet, Ne.symm h]
    · by_cases h3 : k2 = k1
      · subst h3; simp [mapModify, mapGet, h2]
      · simp [mapModify, mapGet, h2, h3, ih]

/-! ## Steps of the resolver -/

theorem Evolve.same (r : resolvedEnvGroup) : Evolve r r := Or.inl rfl

theorem Evolve.comp {a b c : resolvedEnvGroup} (h1 : Evolve a b) (h2 : Evolve b c) :
    Evolve a c := by
  rcases h1 with h1 | h1
  · subst h1; exact h2
  · rcases h2 with h2 | h2
    · subst h2; exact Or.inr h1
    · exact absurd h2.1 h1.2.1

/-- A group that is not in state `mentioned` is left as it is. -/
theorem Evolve.fixed {a b : resolvedEnvGroup} (h : Evolve a b)
    (hs : a.state ≠ .mentionedState) : b = a := by
  rcases h with h | h
  · exact h
  · exact absurd h.1 hs

theorem origin_of_bound {vals : Values} {k : String} {r : resolvedEnvGroup}
    (h : Bound vals k r) : vals.origin k = r := by
  unfold Values.origin
  unfold Bound at h
  rw [h]; rfl

theorem origin_of_unbound {vals : Values} {k : String}
    (h : mapGet vals.resolvedEnvs k = none) : vals.origin k = vals.newGroup k := by
  unfold Values.origin
  rw [h]; rfl

theorem newGroup_congr {vals vals1 : Values} (h1 : vals1.envs = vals.envs)
    (h2 : vals1.validEnvs = vals.validEnvs) (k : String) :
    vals1.newGroup k = vals.newGroup k := by
  unfold Values.newGroup
  rw [h1, h2]

theorem Step.refl (vals : Values) : Step vals vals :=
  { envs := rfl, entries := rfl, validEnvs := rfl,
    keep := fun _ r h => ⟨r, h⟩,
    evolve := fun _ _ h => by rw [origin_of_bound h]; exact Evolve.same _ }

theorem Step.trans {a b c : Values} (h1 : Step a b) (h2 : Step b c) : Step a c where
  envs := h2.envs.trans h1.envs
  entries := h2.entries.trans h1.entries
  validEnvs := h2.validEnvs.trans h1.validEnvs
  keep := fun k r h => by
    obtain ⟨r1, hr1⟩ := h1.keep k r h
    exact h2.keep k r1 hr1
  evolve := fun k r2 h => by
    have e2 := h2.evolve k r2 h
    cases hb : mapGet b.resolvedEnvs k with
    | some r1 =>
      rw [origin_of_bound (show Bound b k r1 from hb)] at e2
      exact (h1.evolve k r1 hb).comp e2
    | none =>
      rw [origin_of_unbound hb, newGroup_congr h1.envs h1.validEnvs] at e2
      have ha : mapGet a.resolvedEnvs k = none := by
        cases ha : mapGet a.resolvedEnvs k with
        | none => rfl
        | some r =>
          obtain ⟨r1, hr1⟩ := h1.keep k r ha
          unfold Bound at hr1
          rw [hb] at hr1
          simp at hr1
      rw [origin_of_unbound ha]
      exact e2

/-- A step leaves alone every group that is not in state `mentioned`. -/
theorem Step.stable {a b : Values} (h : Step a b) {k : String} {r : resolvedEnvGroup}
    (hb : Bound a k r) (hs : r.state ≠ .mentionedState) : Bound b k r := by
  obtain ⟨r1, hr1⟩ := h.keep k r hb
  have := h.evolve k r1 hr1
  rw [origin_of_bound hb] at this
  rw [this.fixed hs] at hr1
  exact hr1

theorem lookupEnv_bound (vals : Values) (env : String) :
    Bound (vals.lookupEnv env).1 env (vals.lookupEnv env).2.1 ∧
    (vals.lookupEnv env).2.1 = vals.origin env := by
  unfold Values.lookupEnv
  cases h : mapGet vals.resolvedEnvs env with
  | some r => exact ⟨h, (origin_of_bound (show Bound vals env r from h)).symm⟩
  | none =>
    refine ⟨?_, (origin_of_unbound h).symm⟩
    unfold Bound
    simp only
    exact mapGet_mapSet_self _ _ _

theorem lookupEnv_step (vals : Values) (env : String) : Step vals (vals.lookupEnv env).1 := by
  unfold Values.lookupEnv
  cases h : mapGet vals.resolvedEnvs env with
  | some r => exact Step.refl vals
  | none =>
    simp only
    refine { envs := rfl, entries := rfl, validEnvs := rfl,
             keep := ?_, evolve := ?_ }
    · intro k r hk
      unfold Bound at hk ⊢
      simp only
      by_cases hke : k = env
      · subst hke; rw [h] at hk; simp at hk
      · rw [mapGet_mapSet_ne _ _ _ _ hke]; exact ⟨r, hk⟩
    · intro k r1 hk
      unfold Bound at hk
      simp only at hk
      by_cases hke : k = env
      · subst hke
        rw [mapGet_mapSet_self] at hk
        simp only [Option.some.injEq] at hk
        rw [origin_of_unbound h, hk]
        exact Evolve.same _
      · rw [mapGet_mapSet_ne _ _ _ _ hke] at hk
        rw [origin_of_bound (show Bound vals k r1 from hk)]
        exact Evolve.same _

theorem modifyRes_bound_self {vals : Values} {env : String} {r : resolvedEnvGroup}
    (f : resolvedEnvGroup → resolvedEnvGroup) (h : Bound vals env r) :
    Bound (vals.modifyRes env f) env (f r) := by
  unfold Bound at h ⊢
  unfold Values.modifyRes
  simp only
  rw [mapGet_mapModify_self, h]; rfl

theorem modifyRes_bound_ne {vals : Values} {env k : String}
    (f : resolvedEnvGroup → resolvedEnvGroup) (hk : k ≠ env) (r : resolvedEnvGroup) :
    Bound (vals.modifyRes env f) k r ↔ Bound vals k r := by
  unfold Bound Values.modifyRes
  simp only
  rw [mapGet_mapModify_ne _ _ _ _ hk]

/-- A write to the group of `env`, which was in state `mentioned` at `a`, is a
step from `a` when it leaves that state and keeps `wildcard` and `err`. -/
theorem Step.modify {a v : Values} {env : String} {r0 r : resolvedEnvGroup}
    (f : resolvedEnvGroup → resolvedEnvGroup) (h : Step a v) (hb0 : Bound a env r0)
    (h0 : r0.state = .mentionedState) (hb : Bound v env r)
    (hf1 : (f r).state ≠ .mentionedState) (hf2 : (f r).wildcard = r0.wildcard)
    (hf3 : (f r).err = r0.err) (hf4 : (f r).state = .resolvedState → Finalized (f r)) :
    Step a (v.modifyRes env f) where
  envs := h.envs
  entries := h.entries
  validEnvs := h.validEnvs
  keep := fun k r1 hk => by
    obtain ⟨r2, hr2⟩ := h.keep k r1 hk
    by_cases hke : k = env
    · subst hke
      have : r2 = r := by
        unfold Bound at hr2 hb; rw [hb] at hr2; simpa using hr2.symm
      subst this
      exact ⟨f r2, modifyRes_bound_self f hr2⟩
    · exact ⟨r2, (modifyRes_bound_ne f hke r2).2 hr2⟩
  evolve := fun k r1 hk => by
    by_cases hke : k = env
    · subst hke
      have h2 := modifyRes_bound_self f hb
      have : r1 = f r := by
        unfold Bound at hk h2; rw [h2] at hk; simpa using hk.symm
      subst this
      rw [origin_of_bound hb0]
      exact Or.inr ⟨h0, hf1, hf2, hf3, hf4⟩
    · exact h.evolve k r1 ((modifyRes_bound_ne f hke r1).1 hk)

theorem Evolve.wildcard_eq {a b : resolvedEnvGroup} (h : Evolve a b) : b.wildcard = a.wildcard := by
  rcases h with h | h
  · rw [h]
  · exact h.2.2.1

theorem Evolve.err_eq {a b : resolvedEnvGroup} (h : Evolve a b) : b.err = a.err := by
  rcases h with h | h
  · rw [h]
  · exact h.2.2.2.1

theorem finalize_included (r : resolvedEnvGroup) : r.finalize.included = r.included := by
  unfold resolvedEnvGroup.finalize
  split
  · split <;> rfl
  · rfl

theorem finalize_state (r : resolvedEnvGroup) : r.finalize.state = r.state := by
  unfold resolvedEnvGroup.finalize
  split
  · split <;> rfl
  · rfl

theorem finalize_wildcard (r : resolvedEnvGroup) : r.finalize.wildcard = r.wildcard := by
  unfold resolvedEnvGroup.finalize
  split
  · split <;> rfl
  · rfl

theorem finalize_err (r : resolvedEnvGroup) : r.finalize.err = r.err := by
  unfold resolvedEnvGroup.finalize
  split
  · split <;> rfl
  · rfl

theorem finalized_finish (r : resolvedEnvGroup) :
    Finalized { r.finalize with state := .resolvedState } := by
  unfold Finalized resolvedEnvGroup.finalize
  rcases hinc : r.included with _ | ⟨env, _ | ⟨env2, rest⟩⟩
  · simp [hinc]
  · by_cases hw : IsWildcard env <;> simp [hinc, hw]
  · simp [hinc]

/-- The end of `resolveEnv` is a step, and its result is the stored group. -/
theorem finishResolve_step {a v v1 : Values} {env : String} {r0 r : resolvedEnvGroup}
    {res : Except String resolvedEnvGroup} (hfin : finishResolve v env = some (v1, res))
    (h : Step a v) (hb0 : Bound a env r0)
    (h0 : r0.state = .mentionedState) (hb : Bound v env r) :
    Step a v1 ∧
    Bound v1 env { r.finalize with state := .resolvedState } ∧
    (∀ g, res = .ok g → g = { r.finalize with state := .resolvedState } ∧ g.err = none) := by
  have hev := h.evolve env r hb
  rw [origin_of_bound hb0] at hev
  have hstep : Step a (v.modifyRes env (fun r => { r.finalize with state := .resolvedState })) :=
    Step.modify _ h hb0 h0 hb (by simp) (by simp [finalize_wildcard, hev.wildcard_eq])
      (by simp [finalize_err, hev.err_eq]) (fun _ => finalized_finish r)
  have hbnd := modifyRes_bound_self (fun r => { r.finalize with state := .resolvedState }) hb
  unfold finishResolve at hfin
  simp only at hfin
  unfold Bound at hbnd
  rw [hbnd] at hfin
  simp only at hfin
  split at hfin
  · simp only [Option.some.injEq, Prod.mk.injEq] at hfin
    obtain ⟨hv, hres⟩ := hfin
    subst hv
    refine ⟨hstep, hbnd, ?_⟩
    intro g hg; rw [← hres] at hg; simp at hg
  · next herr =>
    simp only [Option.some.injEq, Prod.mk.injEq] at hfin
    obtain ⟨hv, hres⟩ := hfin
    subst hv
    refine ⟨hstep, hbnd, ?_⟩
    intro g hg
    rw [← hres] at hg
    simp only [Except.ok.injEq] at hg
    subst hg
    exact ⟨rfl, herr⟩

/-- The item loop of a plain group is a step from the instance `a` in which
the group was still in state `mentioned`, and leaves the group in state
`resolving`. -/
theorem resolveIncluded_step {self : Values → String → ResolveResult} (hself : ResolveSpec self)
    {a : Values} {env : String} {r0 : resolvedEnvGroup} (hb0 : Bound a env r0)
    (h0 : r0.state = .mentionedState) :
    ∀ (items : List String) (v v1 : Values) (err : Option String), Step a v →
      (∃ r, Bound v env r ∧ r.state = .resolvingState) →
      resolveIncluded self env items v = some (v1, err) →
      Step a v1 ∧ ∃ r, Bound v1 env r ∧ r.state = .resolvingState := by
  intro items
  induction items with
  | nil =>
    intro v v1 err hs hr h
    simp only [resolveIncluded, Option.some.injEq, Prod.mk.injEq] at h
    rw [← h.1]
    exact ⟨hs, hr⟩
  | cons subenv items ih =>
    intro v v1 err hs hr h
    obtain ⟨r, hb, hst⟩ := hr
    unfold resolveIncluded at h
    cases hcall : self v subenv with
    | none => rw [hcall] at h; simp at h
    | some p =>
      obtain ⟨v2, res⟩ := p
      rw [hcall] at h
      obtain ⟨hstep2, _⟩ := hself v subenv v2 res hcall
      have hb2 : Bound v2 env r := hstep2.stable hb (by rw [hst]; simp)
      cases res with
      | error e =>
        simp only [Option.some.injEq, Prod.mk.injEq] at h
        rw [← h.1]
        exact ⟨hs.trans hstep2, r, hb2, hst⟩
      | ok subres =>
        simp only at h
        have hev := hs.evolve env r hb
        rw [origin_of_bound hb0] at hev
        refine ih _ v1 err ?_ ?_ h
        · exact Step.modify _ (hs.trans hstep2) hb0 h0 hb2 (by simp [hst])
            (by simp [hev.wildcard_eq]) (by simp [hev.err_eq]) (by simp [hst])
        · exact ⟨_, modifyRes_bound_self _ hb2, by simp [hst]⟩

/-- The item loop of a negated group is a step and leaves the group as it is. -/
theorem resolveExcluded_step {self : Values → String → ResolveResult} (hself : ResolveSpec self)
    {env : String} {r : resolvedEnvGroup} (hst : r.state = .resolvingState) :
    ∀ (items : List String) (v v1 : Values) (excluded : List String)
      (res : Except String (List String)),
      Bound v env r → resolveExcluded self env items v excluded = some (v1, res) →
      Step v v1 ∧ Bound v1 env r := by
  intro items
  induction items with
  | nil =>
    intro v v1 excluded res hb h
    simp only [resolveExcluded, Option.some.injEq, Prod.mk.injEq] at h
    rw [← h.1]
    exact ⟨Step.refl v, hb⟩
  | cons subenv items ih =>
    intro v v1 excluded res hb h
    unfold resolveExcluded at h
    cases hcall : self v subenv with
    | none => rw [hcall] at h; simp at h
    | some p =>
      obtain ⟨v2, res2⟩ := p
      rw [hcall] at h
      obtain ⟨hstep2, _⟩ := hself v subenv v2 res2 hcall
      have hb2 : Bound v2 env r := hstep2.stable hb (by rw [hst]; simp)
      cases res2 with
      | error e =>
        simp only [Option.some.injEq, Prod.mk.injEq] at h
        rw [← h.1]
        exact ⟨hstep2, hb2⟩
      | ok subres =>
        simp only at h
        obtain ⟨h3, h4⟩ := ih v2 v1 _ res hb2 h
        exact ⟨hstep2.trans h3, h4⟩

/-- Every call of `resolveEnv` that returns is a step, and a successful call
returns the stored group, resolved and without error. -/
theorem resolveEnvAux_spec : ∀ fuel, ResolveSpec (resolveEnvAux fuel) := by
  intro fuel
  induction fuel with
  | zero => intro vals env vals1 res h; simp [resolveEnvAux] at h
  | succ fuel ih =>
    intro vals env vals1 res h
    obtain ⟨hb0, hor⟩ := lookupEnv_bound vals env
    have hs0 := lookupEnv_step vals env
    unfold resolveEnvAux at h
    simp only at h
    generalize (vals.lookupEnv env).1 = a at h hb0 hs0
    generalize (vals.lookupEnv env).2.1 = r0 at h hb0 hor
    by_cases hres : r0.state = .resolvedState
    · rw [if_pos hres] at h
      split at h
      · simp only [Option.some.injEq, Prod.mk.injEq] at h
        rw [← h.1, ← h.2]
        exact ⟨hs0, by intro g hg; simp at hg⟩
      · next herr =>
        simp only [Option.some.injEq, Prod.mk.injEq] at h
        rw [← h.1, ← h.2]
        refine ⟨hs0, ?_⟩
        intro g hg
        simp only [Except.ok.injEq] at hg
        subst hg
        exact ⟨hb0, hres, herr⟩
    · rw [if_neg hres] at h
      by_cases hing : r0.state = .resolvingState
      · rw [if_pos hing] at h
        simp only [Option.some.injEq, Prod.mk.injEq] at h
        rw [← h.1, ← h.2]
        exact ⟨hs0, by intro g hg; simp at hg⟩
      · rw [if_neg hing] at h
        have h0 : r0.state = .mentionedState := by
          cases hst : r0.state <;> simp_all
        -- the group is marked as being resolved
        have hs1 : Step a (a.modifyRes env (fun r => { r with state := .resolvingState })) :=
          Step.modify _ (Step.refl a) hb0 h0 hb0 (by simp) rfl rfl (by simp)
        have hb1 := modifyRes_bound_self (fun r => { r with state := .resolvingState }) hb0
        generalize a.modifyRes env (fun r => { r with state := .resolvingState }) = v1 at h hs1 hb1
        suffices hsuff : Step a vals1 ∧
            (∀ g, res = .ok g → Bound vals1 env g ∧ g.state = .resolvedState ∧ g.err = none) from
          ⟨hs0.trans hsuff.1, hsuff.2⟩
        split at h
        · -- no definition
          have hs2 : Step a (v1.modifyRes env (fun r => { r with included := [env] })) :=
            Step.modify _ hs1 hb0 h0 hb1 (by simp) rfl rfl (by simp)
          have hb2 := modifyRes_bound_self (fun r => { r with included := [env] }) hb1
          obtain ⟨h5, h6, h7⟩ := finishResolve_step h hs2 hb0 h0 hb2
          refine ⟨h5, ?_⟩
          intro g hg
          obtain ⟨h8, h9⟩ := h7 g hg
          rw [h8]
          exact ⟨h6, rfl, by rw [← h8]; exact h9⟩
        · next definition hdef =>
          split at h
          · -- negated group
            split at h
            · simp only [Option.some.injEq, Prod.mk.injEq] at h
              rw [← h.1, ← h.2]
              exact ⟨hs1, by intro g hg; simp at hg⟩
            · split at h
              · simp at h
              · next v2 err hloop =>
                simp only [Option.some.injEq, Prod.mk.injEq] at h
                rw [← h.1, ← h.2]
                obtain ⟨h3, _⟩ := resolveExcluded_step ih (r := { r0 with state := .resolvingState })
                  rfl _ _ _ _ _ hb1 hloop
                exact ⟨hs1.trans h3, by intro g hg; simp at hg⟩
              · next v2 excluded hloop =>
                obtain ⟨h3, h4⟩ := resolveExcluded_step ih
                  (r := { r0 with state := .resolvingState }) rfl _ _ _ _ _ hb1 hloop
                obtain ⟨h5, h6, h7⟩ := finishResolve_step h
                  (Step.modify _ (hs1.trans h3) hb0 h0 h4 (by simp) rfl rfl (by simp)) hb0 h0
                  (modifyRes_bound_self _ h4)
                refine ⟨h5, ?_⟩
                intro g hg
                obtain ⟨h8, h9⟩ := h7 g hg
                rw [h8]
                exact ⟨h6, rfl, by rw [← h8]; exact h9⟩
          · -- plain group
            split at h
            · simp at h
            · next v2 err hloop =>
              simp only [Option.some.injEq, Prod.mk.injEq] at h
              rw [← h.1, ← h.2]
              obtain ⟨h3, _⟩ := resolveIncluded_step ih hb0 h0 _ _ _ _ hs1
                ⟨_, hb1, rfl⟩ hloop
              exact ⟨h3, by intro g hg; simp at hg⟩
            · next v2 hloop =>
              obtain ⟨h3, r2, h4, _⟩ := resolveIncluded_step ih hb0 h0 _ _ _ _ hs1
                ⟨_, hb1, rfl⟩ hloop
              obtain ⟨h5, h6, h7⟩ := finishResolve_step h h3 hb0 h0 h4
              refine ⟨h5, ?_⟩
              intro g hg
              obtain ⟨h8, h9⟩ := h7 g hg
              rw [h8]
              exact ⟨h6, rfl, by rw [← h8]; exact h9⟩

/-! ## The resolver as called from outside -/

theorem resolveEnv_step (vals : Values) (env : String) : Step vals (vals.resolveEnv env).1 := by
  unfold Values.resolveEnv
  cases h : resolveEnvAux (resolveFuel vals) vals env with
  | none => exact Step.refl vals
  | some p => exact (resolveEnvAux_spec _ vals env p.1 p.2 h).1

theorem resolveEnv_ok {vals vals1 : Values} {env : String} {g : resolvedEnvGroup}
    (h : vals.resolveEnv env = (vals1, .ok g)) :
    Bound vals1 env g ∧ g.state = .resolvedState ∧ g.err = none := by
  unfold Values.resolveEnv at h
  cases h2 : resolveEnvAux (resolveFuel vals) vals env with
  | none => rw [h2] at h; simp at h
  | some p =>
    rw [h2] at h
    simp only [Option.getD_some] at h
    exact (resolveEnvAux_spec _ vals env vals1 (.ok g) (by rw [h2, h])).2 g rfl

/-- An env whose group is resolved without error is returned as it is, and the
instance is left as it is. -/
theorem resolveEnv_of_resolved {vals : Values} {env : String} {g : resolvedEnvGroup}
    (hb : Bound vals env g) (hs : g.state = .resolvedState) (he : g.err = none) :
    vals.resolveEnv env = (vals, .ok g) := by
  unfold Values.resolveEnv resolveFuel resolveEnvAux Values.lookupEnv
  unfold Bound at hb
  simp [hb, hs, he]

/-- An env whose group is resolved with an error gives that error. -/
theorem resolveEnv_of_error {vals : Values} {env : String} {g : resolvedEnvGroup} {err : String}
    (hb : Bound vals env g) (hs : g.state = .resolvedState) (he : g.err = some err) :
    vals.resolveEnv env = (vals, .error err) := by
  unfold Values.resolveEnv resolveFuel resolveEnvAux Values.lookupEnv
  unfold Bound at hb
  simp [hb, hs, he]

theorem mentionEnv_step (vals : Values) (env : String) : Step vals (vals.mentionEnv env).1 :=
  lookupEnv_step vals env

theorem pickVariant_step (vals : Values) (name env : String) (entries : List entry) :
    Step vals (vals.pickVariant name env entries).1 := by
  unfold Values.pickVariant
  have := resolveEnv_step vals env
  split
  · next v1 err h => rw [h] at this; exact this
  · next v1 envRes h => rw [h] at this; exact this

theorem foldl_step {α : Type} (f : Values → α → Values) (hf : ∀ v x, Step v (f v x)) :
    ∀ (l : List α) (v : Values), Step v (l.foldl f v) := by
  intro l
  induction l with
  | nil => intro v; exact Step.refl v
  | cons x l ih => intro v; exact (hf v x).trans (ih (f v x))

theorem mentionAll_step (vals : Values) : Step vals vals.mentionAll := by
  unfold Values.mentionAll
  simp only
  refine (foldl_step _ ?_ _ _).trans (foldl_step _ ?_ _ _)
  · intro v p
    exact (mentionEnv_step v p.1).trans (foldl_step _ (fun v x => mentionEnv_step v x) _ _)
  · intro v p
    exact foldl_step _ (fun v (e : entry) => mentionEnv_step v e.Env) _ _

theorem resolveGroups_step : ∀ (envs : List String) (vals : Values),
    Step vals (resolveGroups envs vals).1 := by
  intro envs
  induction envs with
  | nil => intro vals; exact Step.refl vals
  | cons env envs ih =>
    intro vals
    unfold resolveGroups
    have := resolveEnv_step vals env
    split
    · next v1 err h => rw [h] at this; exact this
    · next v1 g h => rw [h] at this; exact this.trans (ih v1)

theorem resolveEntryEnvs_step (name : String) : ∀ (es : List entry) (vals : Values),
    Step vals (resolveEntryEnvs name es vals).1 := by
  intro es
  induction es with
  | nil => intro vals; exact Step.refl vals
  | cons e es ih =>
    intro vals
    unfold resolveEntryEnvs
    have := resolveEnv_step vals e.Env
    split
    · next v1 err h => rw [h] at this; exact this
    · next v1 g h => rw [h] at this; exact this.trans (ih v1)

theorem sanityCheck_step (name : String) (entries : List entry) :
    ∀ (envs : List String) (vals : Values), Step vals (sanityCheck name entries envs vals).1 := by
  intro envs
  induction envs with
  | nil => intro vals; exact Step.refl vals
  | cons env envs ih =>
    intro vals
    unfold sanityCheck
    have := pickVariant_step vals name (replaceStars env) entries
    split
    · next v1 _ err h => rw [h] at this; exact this
    · next v1 h => rw [h] at this; exact this
    · next v1 _ h => rw [h] at this; exact this.trans (ih v1)

theorem rebuildEntries_step : ∀ (l : List (String × List entry)) (vals : Values),
    Step vals (rebuildEntries l vals).1 := by
  intro l
  induction l with
  | nil => intro vals; exact Step.refl vals
  | cons p l ih =>
    intro vals
    obtain ⟨name, entries⟩ := p
    unfold rebuildEntries
    have h1 := resolveEntryEnvs_step name entries vals
    split
    · next v1 err h => rw [h] at h1; exact h1
    · next v1 h =>
      rw [h] at h1
      have h2 := sanityCheck_step name entries v1.validEnvs v1
      split
      · next v2 err h3 => rw [h3] at h2; exact h1.trans h2
      · next v2 h3 => rw [h3] at h2; exact (h1.trans h2).trans (ih v2)

/-! ## Finalized groups -/

theorem finalized_newGroup (vals : Values) (k : String) : Finalized (vals.newGroup k) := by
  unfold Finalized Values.newGroup resolvedEnvGroup.finalize
  simp only
  split_ifs <;> rfl

theorem FinInv.step {a b : Values} (h : FinInv a) (hs : Step a b) : FinInv b := by
  intro k r1 hb hres
  have hev := hs.evolve k r1 hb
  rcases hev with hev | hev
  · rw [hev]
    cases hk : mapGet a.resolvedEnvs k with
    | none => rw [origin_of_unbound hk]; exact finalized_newGroup a k
    | some r =>
      rw [origin_of_bound (show Bound a k r from hk)]
      rw [hev, origin_of_bound (show Bound a k r from hk)] at hres
      exact h k r hk hres
  · exact hev.2.2.2.2 hres

theorem FinInv.of_resolvedEnvs {a b : Values} (h : FinInv a)
    (hr : b.resolvedEnvs = a.resolvedEnvs) : FinInv b := by
  intro k r hb hres
  unfold Bound at hb
  rw [hr] at hb
  exact h k r hb hres

theorem FinInv_New : FinInv New := by
  intro k r hb
  simp [Bound, New, mapGet] at hb

theorem mapGet_map_snd {β : Type} (f : β → β) (m : List (String × β)) (k : String) :
    mapGet (m.map (fun p => (p.1, f p.2))) k = (mapGet m k).map f := by
  induction m with
  | nil => rfl
  | cons p m ih =>
    obtain ⟨k1, w⟩ := p
    by_cases h : k1 = k
    · subst h; simp [mapGet]
    · simp [mapGet, h, ih]

/-- What the reset at the start of `rebuild` stores under a key. -/
theorem mapGet_resetStates (m : List (String × resolvedEnvGroup)) (k : String) :
    mapGet (resetStates m) k = (mapGet m k).map (fun r =>
      if r.err.isNone then { r with state := .mentionedState } else r) := by
  unfold resetStates
  exact mapGet_map_snd (fun r : resolvedEnvGroup =>
    if r.err.isNone then { r with state := .mentionedState } else r) m k

theorem FinInv.rebuild {vals : Values} (h : FinInv vals) : FinInv vals.rebuild.1 := by
  unfold Values.rebuild
  simp only
  have h0 : FinInv vals.resetForRebuild := by
    intro k r hb hres
    unfold Bound Values.resetForRebuild at hb
    simp only at hb
    rw [mapGet_resetStates] at hb
    cases hk : mapGet vals.resolvedEnvs k with
    | none => rw [hk] at hb; simp at hb
    | some r0 =>
      rw [hk] at hb
      simp only [Option.map_some', Option.some.injEq] at hb
      by_cases he : r0.err.isNone
      · rw [if_pos he] at hb; rw [← hb] at hres; simp at hres
      · rw [if_neg he] at hb; rw [← hb]; rw [← hb] at hres; exact h k r0 hk hres
  generalize vals.resetForRebuild = v0 at h0
  split
  · exact h0
  · have h1 := h0.step (resolveEnv_step v0 All)
    split
    · next v1 err hr => rw [hr] at h1; exact h1
    · next v1 valid hr =>
      rw [hr] at h1
      have h2 : FinInv (v1.setValidEnvs valid.included) := h1.of_resolvedEnvs rfl
      have h3 := h2.step (mentionAll_step _)
      have h4 : FinInv ((v1.setValidEnvs valid.included).mentionAll).fillKnownEnvs :=
        h3.of_resolvedEnvs rfl
      have h5 := h4.step (resolveGroups_step
        (List.map Prod.fst ((v1.setValidEnvs valid.included).mentionAll).fillKnownEnvs.envs) _)
      split
      · next v5 err hg => rw [hg] at h5; exact h5
      · next v5 hg =>
        rw [hg] at h5
        exact h5.step (rebuildEntries_step _ _)

/-! ## Parsing leaves the resolver state alone -/

theorem parseLine_resolvedEnvs {x : Extern} {vals vals1 : Values} {lhs rhs : String}
    (h : parseLine x vals lhs rhs = .ok vals1) :
    vals1.resolvedEnvs = vals.resolvedEnvs ∧ vals1.validEnvs = vals.validEnvs := by
  unfold parseLine at h
  split at h
  · split at h
    · simp at h
    · split at h
      · simp at h
      · simp only [Except.ok.injEq] at h; rw [← h]; exact ⟨rfl, rfl⟩
  · split at h
    split at h
    · simp at h
    · simp only at h
      split at h
      · simp at h
      · split at h
        · simp at h
        · simp only [Except.ok.injEq] at h; rw [← h]; exact ⟨rfl, rfl⟩

theorem parseLines_resolvedEnvs (x : Extern) : ∀ (m : List (String × String)) (vals : Values),
    (parseLines x m vals).1.resolvedEnvs = vals.resolvedEnvs := by
  intro m
  induction m with
  | nil => intro vals; rfl
  | cons p m ih =>
    intro vals
    obtain ⟨lhs, rhs⟩ := p
    unfold parseLines
    split
    · rfl
    · next vals1 h => rw [ih vals1]; exact (parseLine_resolvedEnvs h).1

theorem FinInv.parseMap {vals : Values} (h : FinInv vals) (x : Extern)
    (m : List (String × String)) : FinInv (vals.ParseMap x m).1 := by
  unfold Values.ParseMap
  have h1 : FinInv (parseLines x m vals).1 := h.of_resolvedEnvs (parseLines_resolvedEnvs x m vals)
  split
  · next v1 err h2 => rw [h2] at h1; exact h1
  · next v1 h2 => rw [h2] at h1; exact h1.rebuild

theorem FinInv.parseString (x : Extern) (data : String) : FinInv (ParseString x data).1 := by
  unfold ParseString
  split
  · exact FinInv_New
  · exact FinInv_New.parseMap x _

theorem FinInv.value {vals : Values} (h : FinInv vals) (x : Extern) (name env : String)
    (keyring : Keyring) : FinInv (vals.Value x name env keyring).1 := by
  unfold Values.Value
  have h1 := h.step (mentionEnv_step vals env)
  split
  · next v1 _ err h2 => rw [h2] at h1; exact h1
  · next v1 isNew h2 =>
    rw [h2] at h1
    simp only
    have h3 : FinInv (if isNew = true then v1.rebuild.1 else v1) := by
      split_ifs
      · exact h1.rebuild
      · exact h1
    generalize (if isNew = true then v1.rebuild.1 else v1) = v2 at h3
    split
    · exact h3
    · next entries _ =>
      have h4 := h3.step (pickVariant_step v2 name env entries)
      split
      · next v3 _ err h5 => rw [h5] at h4; exact h4
      · next v3 h5 => rw [h5] at h4; exact h4
      · next v3 e h5 =>
        rw [h5] at h4
        split <;> exact h4

/-! ## What `pickVariant` returns -/

theorem string_length_eq_zero (s : String) : s.length = 0 ↔ s = "" := by
  obtain ⟨l⟩ := s
  constructor
  · intro h
    have : l = [] := List.length_eq_zero.1 h
    subst this; rfl
  · intro h
    rw [h]; rfl

theorem findMatch_mem {pats : List String} {c : String} (h : findMatch pats c ≠ "") :
    findMatch pats c ∈ pats ∧ «matches» (findMatch pats c) c = true := by
  induction pats with
  | nil => simp [findMatch] at h
  | cons p pats ih =>
    unfold findMatch at h ⊢
    by_cases hm : «matches» p c = true
    · simp [hm]
    · simp only [hm] at h ⊢
      simp only [Bool.false_eq_true, ↓reduceIte] at h ⊢
      have := ih h
      exact ⟨List.mem_cons_of_mem _ this.1, this.2⟩

theorem findMatch_eq_empty {pats : List String} {c : String} (h : findMatch pats c = "")
    (hne : "" ∉ pats) : ∀ p ∈ pats, «matches» p c = false := by
  induction pats with
  | nil => simp
  | cons p pats ih =>
    unfold findMatch at h
    by_cases hm : «matches» p c = true
    · simp only [hm, ↓reduceIte] at h
      exact absurd (by rw [h]; simp) hne
    · simp only [hm] at h
      simp only [Bool.false_eq_true, ↓reduceIte] at h
      intro q hq
      rcases List.mem_cons.1 hq with hq | hq
      · rw [hq]; simpa using hm
      · exact ih h (fun hmem => hne (List.mem_cons_of_mem _ hmem)) q hq

/-- With no empty token among the patterns, `findMatch` finds a token exactly
when some pattern matches. -/
theorem findMatch_ne_empty_iff {pats : List String} {c : String} (hne : "" ∉ pats) :
    findMatch pats c ≠ "" ↔ ∃ p ∈ pats, «matches» p c = true := by
  constructor
  · intro h
    exact ⟨_, (findMatch_mem h).1, (findMatch_mem h).2⟩
  · intro ⟨p, hp, hm⟩ h
    have := findMatch_eq_empty h hne p hp
    rw [hm] at this
    simp at this

theorem finalized_trivial_single {r : resolvedEnvGroup} (h : Finalized r) {t : String}
    (hinc : r.included = [t]) (hw : IsWildcard t = false) : r.trivial = t := by
  unfold Finalized resolvedEnvGroup.finalize at h
  rw [hinc] at h
  simp only [hw, Bool.not_false, ↓reduceIte] at h
  rw [← h]

theorem finalized_trivial_other {r : resolvedEnvGroup} (h : Finalized r)
    (hno : ∀ t, r.included = [t] → IsWildcard t = false → t = "") : r.trivial = "" := by
  unfold Finalized resolvedEnvGroup.finalize at h
  rcases hinc : r.included with _ | ⟨env, _ | ⟨env2, rest⟩⟩
  · rw [hinc] at h; rw [← h]
  · rw [hinc] at h
    by_cases hw : IsWildcard env = true
    · simp only [hw, Bool.not_true, Bool.false_eq_true, ↓reduceIte] at h; rw [← h]
    · simp only [hw] at h
      simp only [Bool.not_false, ↓reduceIte] at h
      rw [← h]
      exact hno env hinc (by simpa using hw)
  · rw [hinc] at h; rw [← h]

theorem strLt_asymm : ∀ (a b : List Char), strLt a b = true → strLt b a = false := by
  intro a
  induction a with
  | nil => intro b _; cases b <;> rfl
  | cons x xs ih =>
    intro b h
    cases b with
    | nil => simp [strLt] at h
    | cons y ys =>
      simp only [strLt, Bool.or_eq_true, decide_eq_true_eq, Bool.and_eq_true] at h
      simp only [strLt, Bool.or_eq_false_iff, decide_eq_false_iff_not, Bool.and_eq_false_imp,
        decide_eq_true_eq, not_lt]
      rcases h with h | ⟨h1, h2⟩
      · exact ⟨le_of_lt h, fun hyx => by rw [hyx] at h; omega⟩
      · subst h1
        exact ⟨le_refl _, fun _ => ih ys h2⟩

/-- The optimal candidates are those that tie with `best`. -/
theorem isOptimal_iff_ties {vals : Values} {envRes : resolvedEnvGroup} {entries : List entry}
    {b : entry} (hb : b ∈ entries) (hpos : 0 < vals.score envRes b)
    (hmax : ∀ e ∈ entries, vals.score envRes e ≤ vals.score envRes b)
    (hmin : ∀ e ∈ entries, vals.score envRes e = vals.score envRes b → vals.size b ≤ vals.size e)
    {e : entry} (he : e ∈ entries) :
    vals.isOptimal envRes entries e = vals.ties envRes (vals.score envRes b) b e := by
  rw [Bool.eq_iff_iff]
  unfold Values.isOptimal Values.ties
  simp only [Bool.and_eq_true, decide_eq_true_eq, List.all_eq_true, Bool.or_eq_true,
    ne_eq, decide_not, Bool.not_eq_true', decide_eq_false_iff_not]
  constructor
  · rintro ⟨⟨h1, h2⟩, h3⟩
    have h4 := h2 b hb
    have h5 := hmax e he
    have h6 : vals.score envRes e = vals.score envRes b := by omega
    refine ⟨h6, ?_⟩
    have h7 := hmin e he h6
    rcases h3 b hb with h8 | h8
    · exact absurd h6.symm h8
    · omega
  · rintro ⟨h1, h2⟩
    refine ⟨⟨by omega, ?_⟩, ?_⟩
    · intro e1 he1; have := hmax e1 he1; omega
    · intro e1 he1
      by_cases h3 : vals.score envRes e1 = vals.score envRes e
      · right
        have := hmin e1 he1 (by omega)
        omega
      · left; exact h3

theorem optimal_length {vals : Values} {envRes : resolvedEnvGroup} {entries : List entry}
    {b : entry} (hb : b ∈ entries) (hpos : 0 < vals.score envRes b)
    (hmax : ∀ e ∈ entries, vals.score envRes e ≤ vals.score envRes b)
    (hmin : ∀ e ∈ entries, vals.score envRes e = vals.score envRes b → vals.size b ≤ vals.size e) :
    (vals.optimal envRes entries).length =
      entries.countP (vals.ties envRes (vals.score envRes b) b) ∧
    b ∈ vals.optimal envRes entries := by
  unfold Values.optimal
  constructor
  · rw [List.countP_eq_length_filter]
    congr 1
    apply List.filter_congr
    intro e he
    exact isOptimal_iff_ties hb hpos hmax hmin he
  · rw [List.mem_filter]
    refine ⟨hb, ?_⟩
    rw [isOptimal_iff_ties hb hpos hmax hmin hb]
    simp [Values.ties]

theorem optimal_eq_nil_of_zero {vals : Values} {envRes : resolvedEnvGroup} {entries : List entry}
    (h : ∀ e ∈ entries, vals.score envRes e = 0) : vals.optimal envRes entries = [] := by
  unfold Values.optimal
  rw [List.filter_eq_nil_iff]
  intro e he
  unfold Values.isOptimal
  simp [h e he]

/-- The outcome of the loop of `pickVariant` in terms of the optimal
candidates. -/
theorem pickResult_spec (vals : Values) (envRes : resolvedEnvGroup) (name env : String)
    (entries : List entry) :
    let r := pickResult name env (entries.foldl (vals.pickStep envRes) pickInit)
    ((r.1 = none ∧ r.2 = none) ↔ ∀ e ∈ entries, vals.score envRes e = 0) ∧
    (∀ e, vals.optimal envRes entries = [e] → r.1 = some e ∧ r.2 = none) ∧
    (r.2 ≠ none ↔ 2 ≤ (vals.optimal envRes entries).length) ∧
    (vals.optimal envRes entries = [] ↔ ∀ e ∈ entries, vals.score envRes e = 0) ∧
    (∀ msg, r.2 = some msg → ∃ a b, a ∈ vals.optimal envRes entries ∧
      b ∈ vals.optimal envRes entries ∧ strLt b.Env.data a.Env.data = false ∧
      msg = conflictMessage (vals.score envRes a) name a.Env b.Env env) := by
  intro r
  have hinv := pickInv_foldl vals envRes entries
  generalize hst : (entries.foldl (vals.pickStep envRes) pickInit) = st at hinv
  have hr : r = pickResult name env st := by rw [← hst]
  obtain ⟨hn, hs⟩ := hinv
  cases hbest : st.best with
  | none =>
    obtain ⟨_, hc, hz⟩ := hn hbest
    have hr2 : r = (none, none) := by rw [hr]; unfold pickResult; rw [hc, hbest]
    have hopt := optimal_eq_nil_of_zero hz
    rw [hr2, hopt]
    refine ⟨⟨fun _ => hz, fun _ => ⟨rfl, rfl⟩⟩, by simp, by simp, ⟨fun _ => hz, fun _ => rfl⟩,
      by simp⟩
  | some b =>
    obtain ⟨hb, hsc, hpos, hmax, hmin, hc1, hc2⟩ := hs b hbest
    rw [← hsc] at hpos hmax hmin hc1 hc2
    obtain ⟨hlen, hbo⟩ := optimal_length hb hpos hmax hmin
    have hnz : ¬ ∀ e ∈ entries, vals.score envRes e = 0 := by
      intro h; have := h b hb; omega
    have hne : vals.optimal envRes entries ≠ [] := List.ne_nil_of_mem hbo
    cases hconf : st.conflict with
    | none =>
      have hr2 : r = (some b, none) := by rw [hr]; unfold pickResult; rw [hconf]; simp [hbest]
      have h1 := hc1 hconf
      rw [← hlen] at h1
      obtain ⟨a, ha⟩ := List.length_eq_one.1 h1
      have hab : b = a := by rw [ha] at hbo; simpa using hbo
      subst hab
      rw [hr2, ha]
      refine ⟨by simp [hnz], by simp, by simp, by simp [hnz], by simp⟩
    | some c =>
      obtain ⟨hcm, hct, hcc⟩ := hc2 c hconf
      rw [← hlen] at hcc
      have hco : c ∈ vals.optimal envRes entries := by
        unfold Values.optimal
        rw [List.mem_filter]
        exact ⟨hcm, by rw [isOptimal_iff_ties hb hpos hmax hmin hcm]; exact hct⟩
      have hcsc : vals.score envRes c = vals.score envRes b := by
        unfold Values.ties at hct; simp at hct; exact hct.1
      have hr2 : r = (some (if strLt c.Env.data b.Env.data then c else b),
          some (conflictMessage st.bestScore name
            (if strLt c.Env.data b.Env.data then c else b).Env
            (if strLt c.Env.data b.Env.data then b else c).Env env)) := by
        rw [hr]; unfold pickResult conflictMessage; rw [hconf]; simp [hbest]
      rw [hr2]
      refine ⟨by simp [hnz], ?_, by simp; exact hcc, by simp [hnz, hne], ?_⟩
      · intro e he
        rw [he] at hcc
        simp at hcc
      · intro msg hmsg
        simp only [Option.some.injEq] at hmsg
        by_cases hlt : strLt c.Env.data b.Env.data = true
        · refine ⟨c, b, hco, hbo, ?_, ?_⟩
          · cases hbc : strLt b.Env.data c.Env.data with
            | false => rfl
            | true => exact absurd hlt (by
                have := strLt_asymm _ _ hbc
                simpa using this)
          · rw [← hmsg, hcsc, hsc]; simp [hlt]
        · refine ⟨b, c, hbo, hco, by simpa using hlt, ?_⟩
          rw [← hmsg, hsc]; simp [hlt]

/-! ## The sanity pass of `rebuild` -/

theorem resolvedOf_of_bound {v : Values} {e : entry} {r : resolvedEnvGroup}
    (h : Bound v e.Env r) : v.resolvedOf e = r := by
  unfold Values.resolvedOf
  unfold Bound at h
  rw [h]; rfl

/-- The entry `best` after a round of the loop is the old one or the
candidate. -/
theorem pickStep_best (v : Values) (g : resolvedEnvGroup) (st : PickState) (e x : entry)
    (h : (v.pickStep g st e).best = some x) : x = e ∨ st.best = some x := by
  unfold Values.pickStep at h
  simp only at h
  by_cases h1 : v.score g e > st.bestScore
  · rw [if_pos h1] at h
    left; simpa using h.symm
  · rw [if_neg h1] at h
    cases hb : st.best with
    | none => rw [hb] at h; simp only at h; rw [hb] at h; simp at h
    | some y =>
      rw [hb] at h
      simp only at h
      by_cases h2 : v.score g e = st.bestScore
      · rw [if_pos h2] at h
        by_cases h3 : (v.resolvedOf e).CompareSpecificity (v.resolvedOf y) > 0
        · rw [if_pos h3] at h; left; simpa using h.symm
        · rw [if_neg h3] at h
          by_cases h4 : (v.resolvedOf e).CompareSpecificity (v.resolvedOf y) = 0
          · rw [if_pos h4] at h; right; exact h
          · rw [if_neg h4] at h; right; rw [hb] at h; exact h
      · rw [if_neg h2] at h; right; rw [hb] at h; exact h

/-- The loop of `pickVariant` reads the instance only through the groups of
the candidates. -/
theorem pickStep_foldl_congr {a b : Values} (g : resolvedEnvGroup) (entries : List entry)
    (h : ∀ en ∈ entries, a.resolvedOf en = b.resolvedOf en) :
    ∀ (l : List entry) (st : PickState), (∀ en ∈ l, en ∈ entries) →
      (∀ x, st.best = some x → x ∈ entries) →
      l.foldl (a.pickStep g) st = l.foldl (b.pickStep g) st := by
  intro l
  induction l with
  | nil => intro st _ _; rfl
  | cons e l ih =>
    intro st hl hst
    have he : e ∈ entries := hl e (List.mem_cons_self _ _)
    have hstep : a.pickStep g st e = b.pickStep g st e := by
      unfold Values.pickStep Values.score
      rw [h e he]
      cases hb : st.best with
      | none => rfl
      | some x => simp only; rw [h x (hst x hb)]
    simp only [List.foldl_cons]
    rw [hstep]
    apply ih
    · intro en hen; exact hl en (List.mem_cons_of_mem _ hen)
    · intro x hx
      rcases pickStep_best b g st e x hx with h1 | h1
      · rw [h1]; exact he
      · exact hst x h1

theorem PickOK.later {v v1 : Values} {name : String} {entries : List entry} {env : String}
    (h : PickOK v name entries env) (hs : Step v v1) : PickOK v1 name entries env := by
  obtain ⟨g, picked, hb, hst, herr, hen, hpick⟩ := h
  refine ⟨g, picked, hs.stable hb (by rw [hst]; simp), hst, herr, ?_, ?_⟩
  · intro en he
    obtain ⟨r, hr, hrs⟩ := hen en he
    exact ⟨r, hs.stable hr (by rw [hrs]; simp), hrs⟩
  · rw [← hpick]
    congr 1
    apply pickStep_foldl_congr g entries
    · intro en he
      obtain ⟨r, hr, hrs⟩ := hen en he
      rw [resolvedOf_of_bound hr, resolvedOf_of_bound (hs.stable hr (by rw [hrs]; simp))]
    · intro en he; exact he
    · intro x hx; simp [pickInit] at hx

/-- After the loop that resolves the envs of the entries of one name, each of
these envs is resolved. -/
theorem resolveEntryEnvs_ok (name : String) : ∀ (es : List entry) (v v1 : Values),
    resolveEntryEnvs name es v = (v1, none) →
    ∀ en ∈ es, ∃ r, Bound v1 en.Env r ∧ r.state = .resolvedState ∧ r.err = none := by
  intro es
  induction es with
  | nil => intro v v1 _ en hen; simp at hen
  | cons e es ih =>
    intro v v1 h en hen
    unfold resolveEntryEnvs at h
    split at h
    · simp at h
    · next v2 g hr =>
      rcases List.mem_cons.1 hen with heq | hmem
      · subst heq
        obtain ⟨hb, hs, he⟩ := resolveEnv_ok hr
        have hstep := resolveEntryEnvs_step name es v2
        rw [h] at hstep
        exact ⟨g, hstep.stable hb (by rw [hs]; simp), hs, he⟩
      · exact ih v2 v1 h en hmem

/-- What a successful call of `pickVariant` establishes at the instance it
returns. -/
theorem pickVariant_ok {v v1 : Values} {name env : String} {entries : List entry}
    {picked : entry}
    (hen : ∀ en ∈ entries, ∃ r, Bound v en.Env r ∧ r.state = .resolvedState)
    (h : v.pickVariant name (replaceStars env) entries = (v1, some picked, none)) :
    PickOK v1 name entries env := by
  unfold Values.pickVariant at h
  have hstep := resolveEnv_step v (replaceStars env)
  split at h
  · simp at h
  · next v2 g hr =>
    rw [hr] at hstep
    simp only [Prod.mk.injEq] at h
    obtain ⟨hv, hp⟩ := h
    subst hv
    obtain ⟨hb, hs, he⟩ := resolveEnv_ok hr
    refine ⟨g, picked, hb, hs, he, ?_, ?_⟩
    · intro en hmem
      obtain ⟨r, hr1, hr2⟩ := hen en hmem
      exact ⟨r, hstep.stable hr1 (by rw [hr2]; simp), hr2⟩
    · exact hp

theorem sanityCheck_ok (name : String) (entries : List entry) :
    ∀ (envs : List String) (v v1 : Values),
    (∀ en ∈ entries, ∃ r, Bound v en.Env r ∧ r.state = .resolvedState) →
    sanityCheck name entries envs v = (v1, none) →
    ∀ env ∈ envs, PickOK v1 name entries env := by
  intro envs
  induction envs with
  | nil => intro v v1 _ _ env henv; simp at henv
  | cons env0 envs ih =>
    intro v v1 hen h env henv
    unfold sanityCheck at h
    have hstep := pickVariant_step v name (replaceStars env0) entries
    split at h
    · simp at h
    · simp at h
    · next v2 picked hp =>
      rw [hp] at hstep
      have hen2 : ∀ en ∈ entries, ∃ r, Bound v2 en.Env r ∧ r.state = .resolvedState := by
        intro en hmem
        obtain ⟨r, hr1, hr2⟩ := hen en hmem
        exact ⟨r, hstep.stable hr1 (by rw [hr2]; simp), hr2⟩
      rcases List.mem_cons.1 henv with heq | hmem
      · subst heq
        have hrest := sanityCheck_step name entries envs v2
        rw [h] at hrest
        exact (pickVariant_ok hen hp).later hrest
      · exact ih v2 v1 hen2 h env hmem

theorem rebuildEntries_ok : ∀ (l : List (String × List entry)) (v v1 : Values),
    rebuildEntries l v = (v1, none) →
    ∀ p ∈ l, ∀ env ∈ v.validEnvs, PickOK v1 p.1 p.2 env := by
  intro l
  induction l with
  | nil => intro v v1 _ p hp; simp at hp
  | cons p0 l ih =>
    intro v v1 h p hp env henv
    obtain ⟨name, entries⟩ := p0
    unfold rebuildEntries at h
    have hs1 := resolveEntryEnvs_step name entries v
    split at h
    · simp at h
    · next v2 hr =>
      rw [hr] at hs1
      have hs2 := sanityCheck_step name entries v2.validEnvs v2
      split at h
      · simp at h
      · next v3 hsan =>
        rw [hsan] at hs2
        rcases List.mem_cons.1 hp with heq | hmem
        · subst heq
          have hen : ∀ en ∈ entries, ∃ r, Bound v2 en.Env r ∧ r.state = .resolvedState := by
            intro en hmem
            obtain ⟨r, h1, h2, _⟩ := resolveEntryEnvs_ok name entries v v2 hr en hmem
            exact ⟨r, h1, h2⟩
          have hrest := rebuildEntries_step l v3
          rw [h] at hrest
          have henv2 : env ∈ v2.validEnvs := by rw [hs1.validEnvs]; exact henv
          exact (sanityCheck_ok name entries _ v2 v3 hen hsan env henv2).later hrest
        · have henv3 : env ∈ v3.validEnvs := by
            rw [hs2.validEnvs, hs1.validEnvs]; exact henv
          exact ih v3 v1 h p hmem env henv3

theorem mapGet_mem {β : Type} {m : List (String × β)} {k : String} {v : β}
    (h : mapGet m k = some v) : (k, v) ∈ m := by
  induction m with
  | nil => simp [mapGet] at h
  | cons p m ih =>
    obtain ⟨k1, w⟩ := p
    unfold mapGet at h
    by_cases hk : k1 = k
    · simp only [hk, ↓reduceIte, Option.some.injEq] at h
      subst hk; subst h; exact List.mem_cons_self _ _
    · simp only [hk, ↓reduceIte] at h
      exact List.mem_cons_of_mem _ (ih h)

/-- The stages of a successful `rebuild`: `@all` resolves to `valid`, every
group resolves, and the loop over the entries succeeds from an instance `v5`
with the entries and groups of the start and the valid envs of `@all`. -/
theorem rebuild_ok {vals0 vals : Values} (h : vals0.rebuild = (vals, none)) :
    ∃ v1 valid v5,
      (mapGet vals0.envs All).isSome ∧
      vals0.resetForRebuild.resolveEnv All = (v1, .ok valid) ∧
      resolveGroups (vals0.envs.map Prod.fst)
        ((v1.setValidEnvs valid.included).mentionAll).fillKnownEnvs = (v5, none) ∧
      rebuildEntries vals0.entries v5 = (vals, none) ∧
      v5.validEnvs = valid.included ∧ v5.envs = vals0.envs ∧ v5.entries = vals0.entries := by
  unfold Values.rebuild at h
  simp only at h
  split at h
  · simp at h
  · next hall =>
    have hs1 := resolveEnv_step vals0.resetForRebuild All
    split at h
    · simp at h
    · next v1 valid hr =>
      rw [hr] at hs1
      have hs3 := mentionAll_step (v1.setValidEnvs valid.included)
      have hs5 := resolveGroups_step
        (List.map Prod.fst ((v1.setValidEnvs valid.included).mentionAll).fillKnownEnvs.envs)
        ((v1.setValidEnvs valid.included).mentionAll).fillKnownEnvs
      split at h
      · simp at h
      · next v5 hg =>
        rw [hg] at hs5
        have he0 : vals0.resetForRebuild.envs = vals0.envs := rfl
        have hn0 : vals0.resetForRebuild.entries = vals0.entries := rfl
        have henvs4 : ((v1.setValidEnvs valid.included).mentionAll).fillKnownEnvs.envs
            = vals0.envs := by
          show ((v1.setValidEnvs valid.included).mentionAll).envs = vals0.envs
          rw [hs3.envs]
          show v1.envs = vals0.envs
          rw [hs1.envs, he0]
        have hentries4 : ((v1.setValidEnvs valid.included).mentionAll).fillKnownEnvs.entries
            = vals0.entries := by
          show ((v1.setValidEnvs valid.included).mentionAll).entries = vals0.entries
          rw [hs3.entries]
          show v1.entries = vals0.entries
          rw [hs1.entries, hn0]
        have hvalid4 : ((v1.setValidEnvs valid.included).mentionAll).fillKnownEnvs.validEnvs
            = valid.included := by
          show ((v1.setValidEnvs valid.included).mentionAll).validEnvs = valid.included
          rw [hs3.validEnvs]
          rfl
        have henvs : v5.envs = vals0.envs := by rw [hs5.envs, henvs4]
        have hentries : v5.entries = vals0.entries := by rw [hs5.entries, hentries4]
        have hvalid : v5.validEnvs = valid.included := by rw [hs5.validEnvs, hvalid4]
        rw [henvs4] at hg
        rw [hentries] at h
        refine ⟨v1, valid, v5, ?_, hr, hg, h, hvalid, henvs, hentries⟩
        have : vals0.resetForRebuild.envs = vals0.envs := rfl
        rw [this] at hall
        cases hm : mapGet vals0.envs All with
        | none => rw [hm] at hall; simp at hall
        | some d => rfl

/-! ## Queries on a parsed instance -/

/-- `Value` for an env that is already known, when `pickVariant` picks an
entry: no rebuild happens and the value of the entry is returned. -/
theorem value_of_pick {x : Extern} {vals : Values} {name env : String} {g : resolvedEnvGroup}
    {entries : List entry} {picked : entry} (keyring : Keyring)
    (hb : Bound vals env g) (herr : g.err = none)
    (hent : mapGet vals.entries name = some entries)
    (hpick : vals.pickVariant name env entries = (vals, some picked, none)) :
    vals.Value x name env keyring = (vals, valueOf x name picked keyring) := by
  unfold Values.Value Values.mentionEnv Values.lookupEnv
  unfold Bound at hb
  simp only [hb, herr, Bool.false_eq_true, ↓reduceIte, hent, hpick]
  unfold valueOf
  cases picked.Value x keyring <;> rfl

/-- `pickVariant` for an env that is resolved without error: the instance is
left as it is and the loop runs with the stored group. -/
theorem pickVariant_of_resolved {vals : Values} {name env : String} {g : resolvedEnvGroup}
    (entries : List entry) (hb : Bound vals env g) (hs : g.state = .resolvedState)
    (herr : g.err = none) :
    vals.pickVariant name env entries =
      (vals, pickResult name env (entries.foldl (vals.pickStep g) pickInit)) := by
  unfold Values.pickVariant
  rw [resolveEnv_of_resolved hb hs herr]

theorem pickResult_some_mem {vals : Values} {g : resolvedEnvGroup} {name env : String}
    {entries : List entry} {picked : entry}
    (h : pickResult name env (entries.foldl (vals.pickStep g) pickInit) = (some picked, none)) :
    picked ∈ entries := by
  have hinv := pickInv_foldl vals g entries
  generalize entries.foldl (vals.pickStep g) pickInit = st at h hinv
  unfold pickResult at h
  cases hc : st.conflict with
  | none =>
    rw [hc] at h
    simp only [Prod.mk.injEq, and_true] at h
    exact (hinv.some_case picked h).1
  | some c =>
    rw [hc] at h
    cases hbst : st.best with
    | none => rw [hbst] at h; simp at h
    | some b => rw [hbst] at h; simp at h

/-- What the sanity pass gives for queries on the instance. -/
theorem PickOK.query {x : Extern} {vals : Values} {name env : String} {entries : List entry}
    (h : PickOK vals name entries env) (hent : mapGet vals.entries name = some entries)
    (keyring : Keyring) :
    ∃ picked, picked ∈ entries ∧
      vals.pickVariant name (replaceStars env) entries = (vals, some picked, none) ∧
      vals.Value x name (replaceStars env) keyring = (vals, valueOf x name picked keyring) := by
  obtain ⟨g, picked, hb, hst, herr, _, hpick⟩ := h
  have hpv : vals.pickVariant name (replaceStars env) entries = (vals, some picked, none) := by
    rw [pickVariant_of_resolved entries hb hst herr, hpick]
  exact ⟨picked, pickResult_some_mem hpick, hpv, value_of_pick keyring hb herr hent hpv⟩

/-- A successful `ParseMap` on a new instance: the loop over the bindings
succeeds and `rebuild` succeeds on what it leaves. -/
theorem parseMap_ok {x : Extern} {m : List (String × String)} {vals0 vals : Values}
    (h : vals0.ParseMap x m = (vals, none)) :
    ∃ v0, parseLines x m vals0 = (v0, none) ∧ v0.rebuild = (vals, none) := by
  unfold Values.ParseMap at h
  split at h
  · simp at h
  · next v1 h1 => exact ⟨v1, h1, h⟩

/-- `ParseString` is `ParseMap` on the bindings the lexer returns. -/
theorem parseString_ok {x : Extern} {data : String} {vals : Values}
    (h : ParseString x data = (vals, none)) :
    ∃ m, parseMultilineKVString data = .ok m ∧ New.ParseMap x m = (vals, none) := by
  unfold ParseString at h
  split at h
  · simp at h
  · next m hm => exact ⟨m, hm, h⟩

/-- After a successful `ParseMap` the sanity pass holds at the returned
instance for every name and every valid env. -/
theorem parseMap_pickOK {x : Extern} {m : List (String × String)} {vals0 vals : Values}
    (h : vals0.ParseMap x m = (vals, none)) {name : String} {entries : List entry}
    (hent : mapGet vals.entries name = some entries) {env : String}
    (henv : env ∈ vals.validEnvs) : PickOK vals name entries env := by
  obtain ⟨v0, _, hreb⟩ := parseMap_ok h
  obtain ⟨v1, valid, v5, _, _, _, hre, hvalid, _, hentries⟩ := rebuild_ok hreb
  have hstep := rebuildEntries_step v0.entries v5
  rw [hre] at hstep
  have hmem : (name, entries) ∈ v0.entries := by
    apply mapGet_mem
    rw [← hentries, ← hstep.entries]
    exact hent
  have henv5 : env ∈ v5.validEnvs := by rw [← hstep.validEnvs]; exact henv
  exact rebuildEntries_ok v0.entries v5 vals hre (name, entries) hmem env henv5

/-! ## The loop of `ParseMap` -/

theorem cutPrefix_eq {s p t : String} (h : CutPrefix s p = some t) : s = p ++ t := by
  unfold CutPrefix at h
  split_ifs at h with hp
  simp only [Option.some.injEq] at h
  rw [← h]
  have hpre : p.data <+: s.data := List.isPrefixOf_iff_prefix.1 hp
  obtain ⟨r, hr⟩ := hpre
  apply String.ext
  simp only [String.data_append]
  rw [← hr]
  simp

/-- A group stored after a line was stored before, or the line defines it. -/
theorem parseLine_envs {x : Extern} {vals vals1 : Values} {lhs rhs : String}
    (h : parseLine x vals lhs rhs = .ok vals1) (k : String)
    (hk : (mapGet vals1.envs k).isSome) : (mapGet vals.envs k).isSome ∨ lhs = "@" ++ k := by
  unfold parseLine at h
  split at h
  · next groupName hcut =>
    split at h
    · simp at h
    · split at h
      · simp at h
      · simp only [Except.ok.injEq] at h
        rw [← h] at hk
        simp only at hk
        by_cases hkg : k = groupName
        · right; rw [hkg]; exact cutPrefix_eq hcut
        · left; rw [mapGet_mapSet_ne _ _ _ _ hkg] at hk; exact hk
  · split at h
    split at h
    · simp at h
    · simp only at h
      split at h
      · simp at h
      · split at h
        · simp at h
        · simp only [Except.ok.injEq] at h; rw [← h] at hk; left; exact hk

theorem parseLines_envs (x : Extern) : ∀ (m : List (String × String)) (vals : Values) (k : String),
    (mapGet (parseLines x m vals).1.envs k).isSome →
    (mapGet vals.envs k).isSome ∨ ∃ p ∈ m, p.1 = "@" ++ k := by
  intro m
  induction m with
  | nil => intro vals k hk; left; exact hk
  | cons p m ih =>
    intro vals k hk
    obtain ⟨lhs, rhs⟩ := p
    unfold parseLines at hk
    split at hk
    · left; exact hk
    · next vals1 h =>
      rcases ih vals1 k hk with h1 | ⟨q, hq, hq2⟩
      · rcases parseLine_envs h k h1 with h2 | h2
        · left; exact h2
        · right; exact ⟨(lhs, rhs), List.mem_cons_self _ _, h2⟩
      · right; exact ⟨q, List.mem_cons_of_mem _ hq, hq2⟩

/-- A line that is well formed on its own is accepted by the loop unless it
defines a group that is already stored. -/
theorem parseLine_indep {x : Extern} {vals v1 : Values} {lhs rhs : String}
    (h : parseLine x New lhs rhs = .ok v1)
    (hnew : ∀ g, lhs = "@" ++ g → mapGet vals.envs g = none) :
    ∃ v2, parseLine x vals lhs rhs = .ok v2 := by
  unfold parseLine at h ⊢
  cases hcut : CutPrefix lhs "@" with
  | some groupName =>
    rw [hcut] at h
    simp only at h ⊢
    cases hg : parseEnvGroup groupName rhs with
    | error e => rw [hg] at h; simp at h
    | ok g =>
      simp only [hnew groupName (cutPrefix_eq hcut)]
      exact ⟨_, rfl⟩
  | none =>
    rw [hcut] at h
    simp only at h ⊢
    generalize Cut lhs '.' = c at h ⊢
    obtain ⟨name, env0, found⟩ := c
    simp only at h ⊢
    by_cases hv : (found && !IsValidEnvName env0) = true
    · rw [if_pos hv] at h; simp at h
    · rw [if_neg hv] at h ⊢
      by_cases hn : (!IsValidValueName name) = true
      · rw [if_pos hn] at h; simp at h
      · rw [if_neg hn] at h ⊢
        cases hpv : parseValue x rhs (newEntry (if found = true then env0 else All) lhs rhs) with
        | error e => rw [hpv] at h; simp at h
        | ok e => exact ⟨_, rfl⟩

theorem parseLines_wf (x : Extern) : ∀ (m : List (String × String)) (vals : Values),
    (m.map Prod.fst).Nodup →
    (∀ p ∈ m, ∃ v, parseLine x New p.1 p.2 = .ok v) →
    (∀ k, (mapGet vals.envs k).isSome → ∀ p ∈ m, p.1 ≠ "@" ++ k) →
    (parseLines x m vals).2 = none := by
  intro m
  induction m with
  | nil => intro vals _ _ _; rfl
  | cons p m ih =>
    intro vals hnd hwf hkeys
    obtain ⟨lhs, rhs⟩ := p
    obtain ⟨v, hv⟩ := hwf (lhs, rhs) (List.mem_cons_self _ _)
    have hnew : ∀ g, lhs = "@" ++ g → mapGet vals.envs g = none := by
      intro g hg
      cases hm : mapGet vals.envs g with
      | none => rfl
      | some d =>
        exact absurd hg (hkeys g (by rw [hm]; rfl) (lhs, rhs) (List.mem_cons_self _ _))
    obtain ⟨v2, hv2⟩ := parseLine_indep hv hnew
    unfold parseLines
    rw [hv2]
    simp only
    simp only [List.map_cons, List.nodup_cons] at hnd
    apply ih v2 hnd.2 (fun q hq => hwf q (List.mem_cons_of_mem _ hq))
    intro k hk q hq hqk
    rcases parseLine_envs hv2 k hk with h1 | h1
    · exact hkeys k h1 q (List.mem_cons_of_mem _ hq) hqk
    · apply hnd.1
      simp only at h1
      rw [h1, ← hqk]
      exact List.mem_map_of_mem Prod.fst hq

/-- `rebuild` without a group `all` fails with `missing @all=...`. -/
theorem rebuild_missing_all {vals : Values} (h : mapGet vals.envs All = none) :
    vals.rebuild.2 = some "missing @all=..." := by
  unfold Values.rebuild
  have : vals.resetForRebuild.envs = vals.envs := rfl
  simp only [this, h]
  rfl

/-! ## The wire form of an encrypted value -/

theorem splitChars_no_sep (sep : Char) : ∀ (l : List Char), sep ∉ l → splitChars sep l = [l] := by
  intro l
  induction l with
  | nil => intro _; rfl
  | cons c cs ih =>
    intro h
    have hc : c ≠ sep := fun hc => h (by rw [hc]; exact List.mem_cons_self _ _)
    have hcs : sep ∉ cs := fun hm => h (List.mem_cons_of_mem _ hm)
    unfold splitChars
    rw [if_neg hc, ih hcs]

theorem splitChars_append (sep : Char) : ∀ (a b : List Char), sep ∉ a →
    splitChars sep (a ++ sep :: b) = a :: splitChars sep b := by
  intro a
  induction a with
  | nil => intro b _; simp [splitChars]
  | cons c cs ih =>
    intro b h
    have hc : c ≠ sep := fun hc => h (by rw [hc]; exact List.mem_cons_self _ _)
    have hcs : sep ∉ cs := fun hm => h (List.mem_cons_of_mem _ hm)
    have e : splitChars sep (c :: cs ++ sep :: b) =
        (match splitChars sep (cs ++ sep :: b) with
          | [] => [[c]]
          | w :: ws => (c :: w) :: ws) := by
      simp only [List.cons_append]
      conv_lhs => unfold splitChars
      rw [if_neg hc]
    rw [e, ih b hcs]

/-- A valid key name holds no colon. -/
theorem validKeyName_no_colon {k : String} (h : IsValidKeyName k = true) : ':' ∉ k.data := by
  unfold IsValidKeyName at h
  simp only [Bool.and_eq_true, List.all_eq_true] at h
  intro hm
  have := h.2 ':' hm
  revert this
  decide

/-- The three fields of the wire form are found again by `Split`. -/
theorem split_wire {k n c : String} (hk : ':' ∉ k.data) (hn : ':' ∉ n.data)
    (hc : ':' ∉ c.data) : Split (k ++ ":" ++ n ++ ":" ++ c) ':' = [k, n, c] := by
  unfold Split
  have hd : (k ++ ":" ++ n ++ ":" ++ c).data = k.data ++ ':' :: (n.data ++ ':' :: c.data) := by
    simp [String.data_append]
  rw [hd, splitChars_append _ _ _ hk, splitChars_append _ _ _ hn, splitChars_no_sep _ _ hc]
  rfl

theorem cutPrefix_append (p s : String) : CutPrefix (p ++ s) p = some s := by
  unfold CutPrefix
  have h1 : p.data.isPrefixOf (p ++ s).data = true := by
    rw [List.isPrefixOf_iff_prefix, String.data_append]
    exact List.prefix_append _ _
  rw [if_pos h1]
  simp [String.data_append]

theorem cutPrefix_enc_secret (s : String) : CutPrefix ("secret:" ++ s) "enc:" = none := by
  unfold CutPrefix
  have h1 : "enc:".data.isPrefixOf ("secret:" ++ s).data = false := by
    rw [String.data_append]
    rfl
  rw [h1]
  rfl

/-- `parseValue` on a well-formed wire form. -/
theorem parseValue_wire (x : Extern) (e0 : entry) {k : String} {nonce ct : Bytes}
    (hk : IsValidKeyName k = true)
    (hb64 : ∀ b, x.DecodeString (x.EncodeToString b) = some b)
    (hcolon : ∀ b, ':' ∉ (x.EncodeToString b).data)
    (hlen : nonce.length = NonceSize) :
    parseValue x ("secret:" ++ k ++ ":" ++ x.EncodeToString nonce ++ ":" ++ x.EncodeToString ct) e0
      = .ok { e0 with Encoding := .Encrypted, KeyName := k, Nonce := nonce, Ciphertext := ct } := by
  have hs : "secret:" ++ k ++ ":" ++ x.EncodeToString nonce ++ ":" ++ x.EncodeToString ct =
      "secret:" ++ (k ++ ":" ++ x.EncodeToString nonce ++ ":" ++ x.EncodeToString ct) := by
    simp [String.append_assoc]
  rw [hs]
  unfold parseValue
  rw [cutPrefix_enc_secret, cutPrefix_append]
  simp only
  rw [split_wire (validKeyName_no_colon hk) (hcolon nonce) (hcolon ct)]
  simp [hk, hb64, hlen]

/-- The key that `EncryptValue` used when it succeeded, and the string it
returned. -/
theorem encryptValue_ok {x : Extern} {vals vals1 : Values} {val env keyName s : String}
    {keyring : Keyring} {nonce : Bytes}
    (h : vals.EncryptValue x val env keyName keyring (some nonce) = (vals1, .ok s)) :
    ∃ k key, keyring.ByName k = some key ∧
      (keyName ≠ "" → k = keyName) ∧
      (keyName = "" → (vals.Value x DefaultKey env []).2 = .ok k) ∧
      s = "secret:" ++ k ++ ":" ++ x.EncodeToString nonce ++ ":" ++
        x.EncodeToString (x.Seal val nonce key.Data) := by
  unfold Values.EncryptValue at h
  simp only at h
  split at h
  · simp at h
  · next v2 k derived hd =>
    split at h
    · split at h <;> simp at h
    · next key hkey =>
      simp only [Prod.mk.injEq, Except.ok.injEq] at h
      refine ⟨k, key, hkey, ?_, ?_, h.2.symm⟩
      · intro hne
        rw [if_neg hne] at hd
        simp only [Prod.mk.injEq, Except.ok.injEq] at hd
        exact hd.2.1.symm
      · intro heq
        rw [if_pos heq] at hd
        split_ifs at hd with h1
        · simp at hd
        · split at hd
          · simp at hd
          · next v3 k1 hv =>
            split_ifs at hd with h2
            · simp at hd
            · simp only [Prod.mk.injEq, Except.ok.injEq] at hd
              rw [hv, ← hd.2.1]

theorem byName_mem {keyring : Keyring} {name : String} {key : Key}
    (h : keyring.ByName name = some key) : key ∈ keyring ∧ key.Name = name := by
  induction keyring with
  | nil => simp [Keyring.ByName] at h
  | cons k ks ih =>
    unfold Keyring.ByName at h
    by_cases hk : k.Name = name
    · rw [if_pos hk] at h
      simp only [Option.some.injEq] at h
      subst h
      exact ⟨List.mem_cons_self _ _, hk⟩
    · rw [if_neg hk] at h
      exact ⟨List.mem_cons_of_mem _ (ih h).1, (ih h).2⟩

/-! ### The stand-in functions satisfy the laws of base64 and secretbox -/

theorem unaryDecode_replicate (n acc : Nat) (rest : List Char) :
    unaryDecode acc (List.replicate n 'a' ++ 'b' :: rest) =
      (unaryDecode 0 rest).map (fun l => (acc + n) :: l) := by
  induction n generalizing acc with
  | zero => simp [unaryDecode]
  | succ n ih =>
    simp only [List.replicate_succ, List.cons_append]
    conv_lhs => unfold unaryDecode
    simp only [↓reduceIte]
    rw [ih]
    have : acc + 1 + n = acc + (n + 1) := by omega
    rw [this]

theorem unaryDecode_encode (b : List Nat) : unaryDecode 0 (unaryEncode b) = some b := by
  induction b with
  | nil => rfl
  | cons n rest ih =>
    unfold unaryEncode
    rw [unaryDecode_replicate, ih]
    simp

theorem unaryEncode_no_colon (b : List Nat) : ':' ∉ unaryEncode b := by
  induction b with
  | nil => simp [unaryEncode]
  | cons n rest ih =>
    unfold unaryEncode
    intro h
    rcases List.mem_append.1 h with h1 | h1
    · have := List.eq_of_mem_replicate h1
      revert this; decide
    · rcases List.mem_cons.1 h1 with h2 | h2
      · revert h2; decide
      · exact ih h2

theorem sampleExtern_open (p : String) (n k : Bytes) :
    sampleExtern.Open (sampleExtern.Seal p n k) n k = some p := by
  unfold sampleExtern
  simp only [List.map_map, Option.some.injEq]
  apply String.ext
  simp only
  have : (Char.ofNat ∘ Char.toNat) = id := by
    funext c; simp
  rw [this]; simp

/-! ## The resolver as a sequence of writes -/

theorem modifyRes_frame (v : Values) (env : String) (f : resolvedEnvGroup → resolvedEnvGroup) :
    (v.modifyRes env f).envs = v.envs ∧ (v.modifyRes env f).entries = v.entries ∧
    (v.modifyRes env f).validEnvs = v.validEnvs := ⟨rfl, rfl, rfl⟩

theorem Prim.frame {v v1 : Values} (h : Prim v v1) :
    v1.envs = v.envs ∧ v1.entries = v.entries ∧ v1.validEnvs = v.validEnvs := by
  cases h with
  | lookup env =>
    have := lookupEnv_step v env
    exact ⟨this.envs, this.entries, this.validEnvs⟩
  | mark env r _ _ => exact modifyRes_frame _ _ _
  | leaf env r _ _ _ => exact modifyRes_frame _ _ _
  | append env r d sub rs _ _ _ _ _ _ _ _ => exact modifyRes_frame _ _ _
  | negate env r d _ _ _ _ _ _ => exact modifyRes_frame _ _ _
  | finish env r _ _ _ _ _ => exact modifyRes_frame _ _ _

theorem Steps.frames {v v1 : Values} (h : Steps v v1) :
    v1.envs = v.envs ∧ v1.entries = v.entries ∧ v1.validEnvs = v.validEnvs := by
  induction h with
  | refl => exact ⟨rfl, rfl, rfl⟩
  | tail _ hp ih =>
    obtain ⟨h1, h2, h3⟩ := hp.frame
    exact ⟨h1.trans ih.1, h2.trans ih.2.1, h3.trans ih.2.2⟩

/-- A write through the pointer of a group that is not resolved leaves every
resolved group as it is. -/
theorem modifyRes_keeps_resolved {v : Values} {env k : String} {r rk : resolvedEnvGroup}
    (f : resolvedEnvGroup → resolvedEnvGroup) (hb : Bound v env r)
    (hs : r.state ≠ .resolvedState) (hk : Bound v k rk) (hks : rk.state = .resolvedState) :
    Bound (v.modifyRes env f) k rk := by
  have hne : k ≠ env := by
    intro heq
    subst heq
    unfold Bound at hb hk
    rw [hb] at hk
    simp only [Option.some.injEq] at hk
    rw [hk] at hs
    exact hs hks
  exact (modifyRes_bound_ne f hne rk).2 hk

/-- No write changes a resolved group. -/
theorem Prim.keeps_resolved {v v1 : Values} (h : Prim v v1) {k : String} {rk : resolvedEnvGroup}
    (hk : Bound v k rk) (hks : rk.state = .resolvedState) : Bound v1 k rk := by
  cases h with
  | lookup env => exact (lookupEnv_step v env).stable hk (by rw [hks]; simp)
  | mark env r hb hs => exact modifyRes_keeps_resolved _ hb (by rw [hs]; simp) hk hks
  | leaf env r hb hs _ => exact modifyRes_keeps_resolved _ hb (by rw [hs]; simp) hk hks
  | append env r d sub rs hb hs _ _ _ _ _ _ =>
    exact modifyRes_keeps_resolved _ hb (by rw [hs]; simp) hk hks
  | negate env r d hb hs _ _ _ _ => exact modifyRes_keeps_resolved _ hb (by rw [hs]; simp) hk hks
  | finish env r hb hs _ _ _ => exact modifyRes_keeps_resolved _ hb (by rw [hs]; simp) hk hks

theorem Steps.keep_resolved {v v1 : Values} (h : Steps v v1) {k : String}
    {rk : resolvedEnvGroup} (hk : Bound v k rk) (hks : rk.state = .resolvedState) :
    Bound v1 k rk := by
  induction h with
  | refl => exact hk
  | tail _ hp ih => exact hp.keeps_resolved ih hks

theorem ResolvedOK.steps {v v1 : Values} {i : String} (h : ResolvedOK v i) (hs : Steps v v1) :
    ResolvedOK v1 i := by
  obtain ⟨r, hb, hst, he⟩ := h
  exact ⟨r, hs.keep_resolved hb hst, hst, he⟩

theorem includedOf_of_bound {v : Values} {i : String} {r : resolvedEnvGroup}
    (h : Bound v i r) : v.includedOf i = r.included := by
  unfold Values.includedOf
  unfold Bound at h
  rw [h]; rfl

theorem Steps.single {v v1 : Values} (h : Prim v v1) : Steps v v1 :=
  Relation.ReflTransGen.single h

theorem Steps.append {a b c : Values} (h1 : Steps a b) (h2 : Steps b c) : Steps a c :=
  Relation.ReflTransGen.trans h1 h2

/-- The item loop of a plain group as a sequence of writes; when it ends
without error every item is resolved. -/
theorem resolveIncluded_prims {self : Values → String → ResolveResult}
    (hself : ResolveSpec self) (hprim : PrimSpec self) {env : String} {d : envGroup}
    (hneg : d.Negated = false) :
    ∀ (items : List String) (v v1 : Values) (err : Option String),
      (∀ i ∈ items, i ∈ d.Items) → mapGet v.envs env = some d →
      (∃ r, Bound v env r ∧ r.state = .resolvingState) →
      resolveIncluded self env items v = some (v1, err) →
      Steps v v1 ∧ (∃ r, Bound v1 env r ∧ r.state = .resolvingState) ∧
      (err = none → ∀ i ∈ items, ResolvedOK v1 i) := by
  intro items
  induction items with
  | nil =>
    intro v v1 err _ _ hr h
    simp only [resolveIncluded, Option.some.injEq, Prod.mk.injEq] at h
    rw [← h.1]
    exact ⟨Relation.ReflTransGen.refl, hr, fun _ i hi => by simp at hi⟩
  | cons subenv items ih =>
    intro v v1 err hitems hdef hr h
    obtain ⟨r, hb, hst⟩ := hr
    unfold resolveIncluded at h
    cases hcall : self v subenv with
    | none => rw [hcall] at h; simp at h
    | some p =>
      obtain ⟨v2, res⟩ := p
      rw [hcall] at h
      obtain ⟨hstep2, hres2⟩ := hself v subenv v2 res hcall
      have hsteps2 := hprim v subenv v2 res hcall
      have hb2 : Bound v2 env r := hstep2.stable hb (by rw [hst]; simp)
      cases res with
      | error e =>
        simp only [Option.some.injEq, Prod.mk.injEq] at h
        rw [← h.1]
        refine ⟨hsteps2, ⟨r, hb2, hst⟩, ?_⟩
        intro he; rw [← h.2] at he; simp at he
      | ok subres =>
        simp only at h
        obtain ⟨hbs, hss, hes⟩ := hres2 subres rfl
        have hdef2 : mapGet v2.envs env = some d := by rw [hstep2.envs]; exact hdef
        have hp : Prim v2 (v2.modifyRes env
            (fun r => { r with included := appendNew r.included subres.included })) :=
          Prim.append v2 env r d subenv subres hb2 hst hdef2 hneg
            (hitems subenv (List.mem_cons_self _ _)) hbs hss hes
        obtain ⟨h3, h4, h5⟩ := ih _ v1 err
          (fun i hi => hitems i (List.mem_cons_of_mem _ hi))
          (by rw [hp.frame.1]; exact hdef2)
          ⟨_, modifyRes_bound_self _ hb2, by simp [hst]⟩ h
        refine ⟨(hsteps2.append (Steps.single hp)).append h3, h4, ?_⟩
        intro he i hi
        rcases List.mem_cons.1 hi with heq | hmem
        · rw [heq]
          exact (ResolvedOK.steps ⟨subres, hbs, hss, hes⟩ (Steps.single hp)).steps h3
        · exact h5 he i hmem

/-- The item loop of a negated group as a sequence of writes; when it ends
without error every item is resolved and the list it returns is built from
the stored included lists of the items. -/
theorem resolveExcluded_prims {self : Values → String → ResolveResult}
    (hself : ResolveSpec self) (hprim : PrimSpec self) {env : String} :
    ∀ (items : List String) (v v1 : Values) (excluded : List String)
      (res : Except String (List String)),
      resolveExcluded self env items v excluded = some (v1, res) →
      Steps v v1 ∧
      (∀ exc, res = .ok exc → (∀ i ∈ items, ResolvedOK v1 i) ∧
        exc = items.foldl (fun acc i => appendNew acc (v1.includedOf i)) excluded) := by
  intro items
  induction items with
  | nil =>
    intro v v1 excluded res h
    simp only [resolveExcluded, Option.some.injEq, Prod.mk.injEq] at h
    rw [← h.1, ← h.2]
    refine ⟨Relation.ReflTransGen.refl, ?_⟩
    intro exc he
    simp only [Except.ok.injEq] at he
    exact ⟨fun i hi => by simp at hi, by rw [← he]; rfl⟩
  | cons subenv items ih =>
    intro v v1 excluded res h
    unfold resolveExcluded at h
    cases hcall : self v subenv with
    | none => rw [hcall] at h; simp at h
    | some p =>
      obtain ⟨v2, res2⟩ := p
      rw [hcall] at h
      obtain ⟨_, hres2⟩ := hself v subenv v2 res2 hcall
      have hsteps2 := hprim v subenv v2 res2 hcall
      cases res2 with
      | error e =>
        simp only [Option.some.injEq, Prod.mk.injEq] at h
        rw [← h.1, ← h.2]
        exact ⟨hsteps2, by intro exc he; simp at he⟩
      | ok subres =>
        simp only at h
        obtain ⟨hbs, hss, hes⟩ := hres2 subres rfl
        obtain ⟨h3, h4⟩ := ih v2 v1 _ res h
        refine ⟨hsteps2.append h3, ?_⟩
        intro exc he
        obtain ⟨h5, h6⟩ := h4 exc he
        have hsub : ResolvedOK v1 subenv := ResolvedOK.steps ⟨subres, hbs, hss, hes⟩ h3
        refine ⟨?_, ?_⟩
        · intro i hi
          rcases List.mem_cons.1 hi with heq | hmem
          · rw [heq]; exact hsub
          · exact h5 i hmem
        · rw [h6]
          simp only [List.foldl_cons]
          rw [includedOf_of_bound (h3.keep_resolved hbs hss)]

theorem mapModify_comp {β : Type} (f g : β → β) (k : String) : ∀ (m : List (String × β)),
    mapModify (mapModify m k f) k g = mapModify m k (fun b => g (f b)) := by
  intro m
  induction m with
  | nil => rfl
  | cons p m ih =>
    obtain ⟨k1, w⟩ := p
    by_cases hk : k1 = k
    · simp [mapModify, hk]
    · simp [mapModify, hk, ih]

/-- Two writes to the same group in a row are one write. -/
theorem modifyRes_comp (v : Values) (env : String) (f g : resolvedEnvGroup → resolvedEnvGroup) :
    (v.modifyRes env f).modifyRes env g = v.modifyRes env (fun r => g (f r)) := by
  unfold Values.modifyRes
  simp only [mapModify_comp]

theorem finishResolve_eq {v v1 : Values} {env : String} {res : Except String resolvedEnvGroup}
    (h : finishResolve v env = some (v1, res)) :
    v1 = v.modifyRes env (fun r => { r.finalize with state := .resolvedState }) := by
  unfold finishResolve at h
  simp only at h
  split at h
  · simp at h
  · split at h
    · simp only [Option.some.injEq, Prod.mk.injEq] at h; exact h.1.symm
    · simp only [Option.some.injEq, Prod.mk.injEq] at h; exact h.1.symm

/-- Every call of `resolveEnv` that returns is a sequence of writes. -/
theorem resolveEnvAux_prims : ∀ fuel, PrimSpec (resolveEnvAux fuel) := by
  intro fuel
  induction fuel with
  | zero => intro vals env vals1 res h; simp [resolveEnvAux] at h
  | succ fuel ih =>
    intro vals env vals1 res h
    have hspec := resolveEnvAux_spec fuel
    obtain ⟨hb0, _⟩ := lookupEnv_bound vals env
    have hs0 : Steps vals (vals.lookupEnv env).1 := Steps.single (Prim.lookup vals env)
    unfold resolveEnvAux at h
    simp only at h
    generalize (vals.lookupEnv env).1 = a at h hb0 hs0
    generalize (vals.lookupEnv env).2.1 = r0 at h hb0
    by_cases hres : r0.state = .resolvedState
    · rw [if_pos hres] at h
      split at h
      · simp only [Option.some.injEq, Prod.mk.injEq] at h; rw [← h.1]; exact hs0
      · simp only [Option.some.injEq, Prod.mk.injEq] at h; rw [← h.1]; exact hs0
    · rw [if_neg hres] at h
      by_cases hing : r0.state = .resolvingState
      · rw [if_pos hing] at h
        simp only [Option.some.injEq, Prod.mk.injEq] at h
        rw [← h.1]; exact hs0
      · rw [if_neg hing] at h
        have h0 : r0.state = .mentionedState := by
          cases hst : r0.state <;> simp_all
        have hs1 : Steps a (a.modifyRes env (fun r => { r with state := .resolvingState })) :=
          Steps.single (Prim.mark a env r0 hb0 h0)
        have hb1 := modifyRes_bound_self (fun r => { r with state := .resolvingState }) hb0
        generalize a.modifyRes env (fun r => { r with state := .resolvingState }) = v1 at h hs1 hb1
        suffices hsuff : Steps v1 vals1 from (hs0.append hs1).append hsuff
        split at h
        · next hdef =>
          -- no definition
          have hp := Prim.leaf v1 env _ hb1 rfl hdef
          have hb2 := modifyRes_bound_self (fun r => { r with included := [env] }) hb1
          have hfin := finishResolve_eq h
          rw [hfin]
          refine (Steps.single hp).append (Steps.single (Prim.finish _ env _ hb2 rfl ?_ ?_ ?_))
          · intro d hd
            rw [hp.frame.1, hdef] at hd
            simp at hd
          · intro _; rfl
          · intro d hd
            rw [hp.frame.1, hdef] at hd
            simp at hd
        · next definition hdef =>
          split at h
          · next hneg =>
            split at h
            · simp only [Option.some.injEq, Prod.mk.injEq] at h
              rw [← h.1]; exact Relation.ReflTransGen.refl
            · next hvalid =>
              split at h
              · simp at h
              · next v2 err hloop =>
                simp only [Option.some.injEq, Prod.mk.injEq] at h
                rw [← h.1]
                exact (resolveExcluded_prims hspec ih _ _ _ _ _ hloop).1
              · next v2 excluded hloop =>
                obtain ⟨h3, h4⟩ := resolveExcluded_prims hspec ih _ _ _ _ _ hloop
                obtain ⟨hitems, hexc⟩ := h4 excluded rfl
                obtain ⟨_, hb2⟩ := resolveExcluded_step hspec
                  (r := { r0 with state := .resolvingState }) rfl _ _ _ _ _ hb1 hloop
                have hdef2 : mapGet v2.envs env = some definition := by
                  rw [h3.frames.1]; exact hdef
                have hvalid2 : v2.validEnvs.isEmpty = false := by
                  rw [h3.frames.2.2]; simpa using hvalid
                have hp := Prim.negate v2 env _ definition hb2 rfl hdef2 hneg hvalid2 hitems
                have hexc2 : excluded = v2.excludedOf definition.Items := hexc
                rw [hexc2] at h
                have hfin := finishResolve_eq h
                rw [hfin, modifyRes_comp]
                exact h3.append (Steps.single hp)
          · next hneg =>
            have hneg2 : definition.Negated = false := by simpa using hneg
            split at h
            · simp at h
            · next v2 err hloop =>
              simp only [Option.some.injEq, Prod.mk.injEq] at h
              rw [← h.1]
              exact (resolveIncluded_prims hspec ih hneg2 _ _ _ _ (fun i hi => hi) hdef
                ⟨_, hb1, rfl⟩ hloop).1
            · next v2 hloop =>
              obtain ⟨h3, ⟨r2, hb2, hst2⟩, h5⟩ := resolveIncluded_prims hspec ih hneg2 _ _ _ _
                (fun i hi => hi) hdef ⟨_, hb1, rfl⟩ hloop
              have hdef2 : mapGet v2.envs env = some definition := by
                rw [h3.frames.1]; exact hdef
              have hfin := finishResolve_eq h
              rw [hfin]
              refine h3.append (Steps.single (Prim.finish _ env _ hb2 hst2 ?_ ?_ ?_))
              · intro d hd i hi
                rw [hdef2] at hd
                simp only [Option.some.injEq] at hd
                rw [← hd] at hi
                exact h5 rfl i hi
              · intro hn
                rw [hdef2] at hn
                simp at hn
              · intro d hd
                rw [hdef2] at hd
                simp only [Option.some.injEq] at hd
                rw [← hd]
                exact hneg2

/-- The calls of the resolver from `rebuild`, `pickVariant` and `Value` are
sequences of writes. -/
theorem resolveEnv_prims (vals : Values) (env : String) :
    Steps vals (vals.resolveEnv env).1 := by
  unfold Values.resolveEnv
  cases h : resolveEnvAux (resolveFuel vals) vals env with
  | none => exact Relation.ReflTransGen.refl
  | some p => exact resolveEnvAux_prims _ vals env p.1 p.2 h

/-! ## The loops of `rebuild` as sequences of writes -/

theorem pickVariant_prims (vals : Values) (name env : String) (entries : List entry) :
    Steps vals (vals.pickVariant name env entries).1 := by
  unfold Values.pickVariant
  have := resolveEnv_prims vals env
  split
  · next v1 err h => rw [h] at this; exact this
  · next v1 envRes h => rw [h] at this; exact this

theorem foldl_prims {α : Type} (f : Values → α → Values) (hf : ∀ v x, Steps v (f v x)) :
    ∀ (l : List α) (v : Values), Steps v (l.foldl f v) := by
  intro l
  induction l with
  | nil => intro v; exact Relation.ReflTransGen.refl
  | cons x l ih => intro v; exact (hf v x).append (ih (f v x))

theorem mentionAll_prims (vals : Values) : Steps vals vals.mentionAll := by
  unfold Values.mentionAll
  simp only
  refine (foldl_prims _ ?_ _ _).append (foldl_prims _ ?_ _ _)
  · intro v p
    exact (Steps.single (Prim.lookup v p.1)).append
      (foldl_prims _ (fun v x => Steps.single (Prim.lookup v x)) _ _)
  · intro v p
    exact foldl_prims _ (fun v (e : entry) => Steps.single (Prim.lookup v e.Env)) _ _

theorem resolveGroups_prims : ∀ (envs : List String) (vals : Values),
    Steps vals (resolveGroups envs vals).1 := by
  intro envs
  induction envs with
  | nil => intro vals; exact Relation.ReflTransGen.refl
  | cons env envs ih =>
    intro vals
    unfold resolveGroups
    have := resolveEnv_prims vals env
    split
    · next v1 err h => rw [h] at this; exact this
    · next v1 g h => rw [h] at this; exact this.append (ih v1)

theorem resolveEntryEnvs_prims (name : String) : ∀ (es : List entry) (vals : Values),
    Steps vals (resolveEntryEnvs name es vals).1 := by
  intro es
  induction es with
  | nil => intro vals; exact Relation.ReflTransGen.refl
  | cons e es ih =>
    intro vals
    unfold resolveEntryEnvs
    have := resolveEnv_prims vals e.Env
    split
    · next v1 err h => rw [h] at this; exact this
    · next v1 g h => rw [h] at this; exact this.append (ih v1)

theorem sanityCheck_prims (name : String) (entries : List entry) :
    ∀ (envs : List String) (vals : Values), Steps vals (sanityCheck name entries envs vals).1 := by
  intro envs
  induction envs with
  | nil => intro vals; exact Relation.ReflTransGen.refl
  | cons env envs ih =>
    intro vals
    unfold sanityCheck
    have := pickVariant_prims vals name (replaceStars env) entries
    split
    · next v1 _ err h => rw [h] at this; exact this
    · next v1 h => rw [h] at this; exact this
    · next v1 _ h => rw [h] at this; exact this.append (ih v1)

theorem rebuildEntries_prims : ∀ (l : List (String × List entry)) (vals : Values),
    Steps vals (rebuildEntries l vals).1 := by
  intro l
  induction l with
  | nil => intro vals; exact Relation.ReflTransGen.refl
  | cons p l ih =>
    intro vals
    obtain ⟨name, entries⟩ := p
    unfold rebuildEntries
    have h1 := resolveEntryEnvs_prims name entries vals
    split
    · next v1 err h => rw [h] at h1; exact h1
    · next v1 h =>
      rw [h] at h1
      have h2 := sanityCheck_prims name entries v1.validEnvs v1
      split
      · next v2 err h3 => rw [h3] at h2; exact h1.append h2
      · next v2 h3 => rw [h3] at h2; exact (h1.append h2).append (ih v2)

/-- An invariant kept by every write is kept by every sequence of writes. -/
theorem Steps.invariant {I : Values → Prop} (hI : ∀ v v1, Prim v v1 → I v → I v1)
    {v v1 : Values} (h : Steps v v1) (h0 : I v) : I v1 := by
  induction h with
  | refl => exact h0
  | tail _ hp ih => exact hI _ _ hp ih

/-! ## Invariants of the resolved groups -/

/-- A resolved group found after a write to a group that stays unresolved was
there before the write. -/
theorem modifyRes_resolved_inv {v : Values} {env k : String} {r rk : resolvedEnvGroup}
    (f : resolvedEnvGroup → resolvedEnvGroup) (hb : Bound v env r)
    (hf : (f r).state ≠ .resolvedState) (hk : Bound (v.modifyRes env f) k rk)
    (hks : rk.state = .resolvedState) : Bound v k rk := by
  by_cases hke : k = env
  · subst hke
    have h2 := modifyRes_bound_self f hb
    unfold Bound at hk h2
    rw [h2] at hk
    simp only [Option.some.injEq] at hk
    rw [← hk] at hks
    exact absurd hks hf
  · exact (modifyRes_bound_ne f hke rk).1 hk

/-- The groups found after `lookupEnv`: those of before, and the new group of
`env` when it had none. -/
theorem lookupEnv_bound_inv {v : Values} {env k : String} {rk : resolvedEnvGroup}
    (hk : Bound (v.lookupEnv env).1 k rk) :
    Bound v k rk ∨ (k = env ∧ mapGet v.resolvedEnvs env = none ∧ rk = v.newGroup env) := by
  unfold Values.lookupEnv at hk
  cases h : mapGet v.resolvedEnvs env with
  | some r => rw [h] at hk; left; exact hk
  | none =>
    rw [h] at hk
    unfold Bound at hk
    simp only at hk
    by_cases hke : k = env
    · subst hke
      rw [mapGet_mapSet_self] at hk
      simp only [Option.some.injEq] at hk
      right; exact ⟨rfl, rfl, hk.symm⟩
    · rw [mapGet_mapSet_ne _ _ _ _ hke] at hk
      left; exact hk

/-- A new group is resolved only when it carries an error. -/
theorem newGroup_resolved {v : Values} {env : String}
    (h : (v.newGroup env).state = .resolvedState) : (v.newGroup env).err ≠ none := by
  unfold Values.newGroup at h ⊢
  simp only at h ⊢
  split_ifs at h ⊢ <;> simp_all

theorem LeafInv.leaf_prim {v v1 : Values} (hp : Prim v v1) (h : LeafInv v) : LeafInv v1 := by
  intro k rk hk hks hke hleaf
  rw [hp.frame.1] at hleaf
  cases hp with
  | lookup env =>
    rcases lookupEnv_bound_inv hk with h1 | ⟨_, _, h3⟩
    · exact h k rk h1 hks hke hleaf
    · rw [h3] at hks hke
      exact absurd hke (newGroup_resolved hks)
  | mark env r hb hs =>
    exact h k rk (modifyRes_resolved_inv _ hb (by simp) hk hks) hks hke hleaf
  | leaf env r hb hs _ =>
    exact h k rk (modifyRes_resolved_inv _ hb (by simp [hs]) hk hks) hks hke hleaf
  | append env r d sub rs hb hs _ _ _ _ _ _ =>
    exact h k rk (modifyRes_resolved_inv _ hb (by simp [hs]) hk hks) hks hke hleaf
  | negate env r d hb hs hd _ _ _ =>
    by_cases hkenv : k = env
    · rw [hkenv, hd] at hleaf
      simp at hleaf
    · exact h k rk ((modifyRes_bound_ne _ hkenv rk).1 hk) hks hke hleaf
  | finish env r hb hs _ hl _ =>
    by_cases hkenv : k = env
    · subst hkenv
      have h2 := modifyRes_bound_self (fun r => { r.finalize with state := .resolvedState }) hb
      unfold Bound at hk h2
      rw [h2] at hk
      simp only [Option.some.injEq] at hk
      rw [← hk]
      simp only [finalize_included]
      exact hl hleaf
    · exact h k rk ((modifyRes_bound_ne _ hkenv rk).1 hk) hks hke hleaf

/-- What the reset at the start of `rebuild` leaves resolved carries an
error. -/
theorem reset_resolved {vals : Values} {k : String} {r : resolvedEnvGroup}
    (hb : Bound vals.resetForRebuild k r) (hs : r.state = .resolvedState) : r.err ≠ none := by
  unfold Bound Values.resetForRebuild at hb
  simp only at hb
  rw [mapGet_resetStates] at hb
  cases hk : mapGet vals.resolvedEnvs k with
  | none => rw [hk] at hb; simp at hb
  | some r0 =>
    rw [hk] at hb
    simp only [Option.map_some', Option.some.injEq] at hb
    by_cases he : r0.err.isNone
    · rw [if_pos he] at hb; rw [← hb] at hs; simp at hs
    · rw [if_neg he] at hb; rw [← hb]
      intro hn; rw [hn] at he; simp at he

/-- The stages of `rebuild` after the reset, for an invariant that every
write keeps and that does not read `validEnvs` and `knownEnvs`. -/
theorem rebuild_invariant {I : Values → Prop} (hI : ∀ v v1, Prim v v1 → I v → I v1)
    (hval : ∀ v l, I v → I (v.setValidEnvs l)) (hknown : ∀ v, I v → I v.fillKnownEnvs)
    {vals : Values} (h0 : I vals.resetForRebuild) : I vals.rebuild.1 := by
  unfold Values.rebuild
  simp only
  generalize vals.resetForRebuild = v0 at h0
  split
  · exact h0
  · have h1 := (resolveEnv_prims v0 All).invariant hI h0
    split
    · next v1 err hr => rw [hr] at h1; exact h1
    · next v1 valid hr =>
      rw [hr] at h1
      have h4 := hknown _ ((mentionAll_prims _).invariant hI (hval v1 valid.included h1))
      have h5 := (resolveGroups_prims
        (List.map Prod.fst ((v1.setValidEnvs valid.included).mentionAll).fillKnownEnvs.envs)
        _).invariant hI h4
      split
      · next v5 err hg => rw [hg] at h5; exact h5
      · next v5 hg =>
        rw [hg] at h5
        exact (rebuildEntries_prims _ _).invariant hI h5

theorem LeafInv.leaf_rebuild (vals : Values) : LeafInv vals.rebuild.1 := by
  apply rebuild_invariant (I := LeafInv) (fun _ _ hp h => LeafInv.leaf_prim hp h)
  · intro v l h; exact h
  · intro v h; exact h
  · intro k r hb hs he _
    exact absurd he (reset_resolved hb hs)

/-! ## `path.Match` on patterns without special characters -/

theorem plainChar_of_envNameChar {c : Char} (h : isEnvNameChar c = true) : PlainChar c := by
  refine ⟨?_, ?_, ?_, ?_⟩ <;> (intro hc; rw [hc] at h; revert h; decide)

theorem scanChunkBody_plain : ∀ (p : List Char) (b : Bool), (∀ c ∈ p, PlainChar c) →
    scanChunkBody b p = (p, []) := by
  intro p
  induction p with
  | nil => intro b _; rfl
  | cons c cs ih =>
    intro b h
    obtain ⟨h1, _, h3, h4⟩ := h c (List.mem_cons_self _ _)
    have hcs : ∀ c ∈ cs, PlainChar c := fun c hc => h c (List.mem_cons_of_mem _ hc)
    unfold scanChunkBody
    rw [if_neg h4, if_neg h3]
    by_cases h5 : c = ']'
    · rw [if_pos h5]; simp only [ih false hcs]
    · rw [if_neg h5, if_neg h1]; simp only [ih b hcs]

theorem scanChunk_plain {p : List Char} (h : ∀ c ∈ p, PlainChar c) :
    scanChunk p = (false, p, []) := by
  unfold scanChunk
  have hd : p.dropWhile (fun c => decide (c = '*')) = p := by
    cases p with
    | nil => rfl
    | cons c cs =>
      have := (h c (List.mem_cons_self _ _)).1
      simp [List.dropWhile, this]
  simp only [hd, scanChunkBody_plain p false h, lt_self_iff_false, decide_False]

theorem matchChunkLoop_failed : ∀ (p : List Char) (fuel : Nat) (s : List Char),
    (∀ c ∈ p, PlainChar c) → p.length ≤ fuel → matchChunkLoop fuel true p s = some none := by
  intro p
  induction p with
  | nil => intro fuel s _ _; cases fuel <;> rfl
  | cons c cs ih =>
    intro fuel s h hf
    obtain ⟨_, h2, h3, h4⟩ := h c (List.mem_cons_self _ _)
    have hcs : ∀ c ∈ cs, PlainChar c := fun c hc => h c (List.mem_cons_of_mem _ hc)
    cases fuel with
    | zero => simp at hf
    | succ f =>
      unfold matchChunkLoop
      simp only [Bool.true_or, ↓reduceIte, if_neg h3, if_neg h2, if_neg h4]
      exact ih f s hcs (by simpa using hf)

/-- A chunk of plain characters matches exactly when it is a prefix of the
name. -/
theorem matchChunkLoop_plain : ∀ (p : List Char) (fuel : Nat) (s : List Char),
    (∀ c ∈ p, PlainChar c) → p.length ≤ fuel →
    matchChunkLoop fuel false p s =
      if p.isPrefixOf s then some (some (s.drop p.length)) else some none := by
  intro p
  induction p with
  | nil => intro fuel s _ _; cases fuel <;> simp [matchChunkLoop]
  | cons c cs ih =>
    intro fuel s h hf
    obtain ⟨_, h2, h3, h4⟩ := h c (List.mem_cons_self _ _)
    have hcs : ∀ c ∈ cs, PlainChar c := fun c hc => h c (List.mem_cons_of_mem _ hc)
    cases fuel with
    | zero => simp at hf
    | succ f =>
      have hf2 : cs.length ≤ f := by simpa using hf
      unfold matchChunkLoop
      simp only [Bool.false_or, if_neg h3, if_neg h2, if_neg h4]
      cases s with
      | nil =>
        simp only [List.isEmpty_nil, ↓reduceIte]
        rw [matchChunkLoop_failed cs f [] hcs hf2]
        simp [List.isPrefixOf]
      | cons d ds =>
        simp only [List.isEmpty_cons, Bool.false_eq_true, ↓reduceIte, List.head?_cons,
          List.tail_cons]
        by_cases hdc : d = c
        · subst hdc
          simp only [ne_eq, not_true_eq_false, decide_False]
          rw [ih f ds hcs hf2]
          simp [List.isPrefixOf]
        · have : (some d ≠ some c) := by simpa using hdc
          simp only [ne_eq, Option.some.injEq, hdc, not_false_eq_true, decide_True]
          rw [matchChunkLoop_failed cs f ds hcs hf2]
          have hcd : (c == d) = false := by
            simp only [beq_eq_false_iff_ne, ne_eq]
            exact fun h => hdc h.symm
          simp [List.isPrefixOf, hcd]

theorem matchLoop_nil (fuel : Nat) (name : List Char) :
    matchLoop fuel [] name = some name.isEmpty := by
  cases fuel <;> simp [matchLoop]

/-- A pattern of plain characters matches its own text and nothing else. -/
theorem pathMatch_plain {p : String} (h : ∀ c ∈ p.data, PlainChar c) (s : String) :
    pathMatch p s = some (decide (p = s)) := by
  unfold pathMatch
  obtain ⟨pd⟩ := p
  obtain ⟨sd⟩ := s
  simp only at h ⊢
  have heq : (String.mk pd = String.mk sd) ↔ pd = sd := by
    constructor
    · intro h; injection h
    · intro h; rw [h]
  cases pd with
  | nil =>
    simp only [List.length_nil]
    unfold matchLoop
    cases sd with
    | nil => simp
    | cons d ds => simp [heq]
  | cons c cs =>
    simp only [List.length_cons]
    unfold matchLoop
    simp only [List.isEmpty_cons, Bool.false_eq_true, ↓reduceIte, scanChunk_plain h,
      Bool.false_and, List.isEmpty_nil, Bool.not_true, Bool.or_false]
    unfold matchChunk
    rw [matchChunkLoop_plain (c :: cs) _ sd h (le_refl _)]
    by_cases hp : (c :: cs).isPrefixOf sd = true
    · rw [if_pos hp]
      simp only
      obtain ⟨t, ht⟩ := List.isPrefixOf_iff_prefix.1 hp
      have hdrop : sd.drop (c :: cs).length = t := by rw [← ht]; simp
      rw [hdrop]
      cases t with
      | nil =>
        simp only [List.isEmpty_nil, ↓reduceIte, matchLoop_nil]
        have : c :: cs = sd := by rw [← ht]; simp
        simp [heq, this]
      | cons d ds =>
        simp only [List.isEmpty_cons, Bool.false_eq_true, ↓reduceIte, checkRest,
          List.length_nil, Option.map_some']
        have : c :: cs ≠ sd := by
          intro hh
          rw [← ht] at hh
          have := congrArg List.length hh
          simp at this
        simp [heq, this]
    · rw [if_neg hp]
      simp only [Bool.false_eq_true, ↓reduceIte, checkRest, List.length_nil, Option.map_some']
      have : c :: cs ≠ sd := by
        intro hh
        apply hp
        rw [← hh]
        exact List.isPrefixOf_iff_prefix.2 (List.prefix_refl _)
      simp [heq, this]

theorem matches_plain {p : String} (h : ∀ c ∈ p.data, PlainChar c) (s : String) :
    «matches» p s = decide (p = s) := by
  unfold «matches»
  rw [pathMatch_plain h]
  rfl

/-- A valid env name is a pattern of plain characters. -/
theorem validEnvName_plain {e : String} (h : IsValidEnvName e = true) :
    ∀ c ∈ e.data, PlainChar c := by
  unfold IsValidEnvName at h
  simp only [Bool.and_eq_true, List.all_eq_true] at h
  intro c hc
  exact plainChar_of_envNameChar (h.2 c hc)

theorem validEnvName_not_wildcard {e : String} (h : IsValidEnvName e = true) :
    IsWildcard e = false := by
  unfold IsWildcard
  have hp := validEnvName_plain h
  cases hc : e.data.contains '*' with
  | false => rfl
  | true =>
    have hm : '*' ∈ e.data := by simpa using hc
    exact absurd rfl (hp '*' hm).1

theorem validEnvName_ne_empty {e : String} (h : IsValidEnvName e = true) : e ≠ "" := by
  intro he
  rw [he] at h
  revert h
  decide

/-! ## Entries after a successful parse -/

theorem parseValue_env {x : Extern} {str : String} {e e1 : entry}
    (h : parseValue x str e = .ok e1) : e1.Env = e.Env := by
  unfold parseValue at h
  repeat' split at h
  all_goals first
    | (simp only [Except.ok.injEq] at h; rw [← h])
    | simp at h

theorem entriesValid_New : EntriesValid New := by
  intro name l h
  simp [New, mapGet] at h

theorem parseLine_entriesValid {x : Extern} {vals vals1 : Values} {lhs rhs : String}
    (h : parseLine x vals lhs rhs = .ok vals1) (hv : EntriesValid vals) :
    EntriesValid vals1 := by
  unfold parseLine at h
  cases hcut : CutPrefix lhs "@" with
  | some groupName =>
    rw [hcut] at h
    simp only at h
    split at h
    · simp at h
    · split at h
      · simp at h
      · simp only [Except.ok.injEq] at h; rw [← h]; exact hv
  | none =>
    rw [hcut] at h
    simp only at h
    generalize Cut lhs '.' = c at h
    obtain ⟨name, env0, envFound⟩ := c
    simp only at h
    by_cases h1 : (envFound && !IsValidEnvName env0) = true
    · rw [if_pos h1] at h; simp at h
    · rw [if_neg h1] at h
      by_cases h2 : (!IsValidValueName name) = true
      · rw [if_pos h2] at h; simp at h
      · rw [if_neg h2] at h
        cases hp : parseValue x rhs (newEntry (if envFound = true then env0 else All) lhs rhs) with
        | error err => rw [hp] at h; simp at h
        | ok e =>
          rw [hp] at h
          simp only [Except.ok.injEq] at h
          have hee := parseValue_env hp
          have hnew : e.Env = All ∨ IsValidEnvName e.Env = true := by
            rw [hee]
            show (if envFound = true then env0 else All) = All ∨
              IsValidEnvName (if envFound = true then env0 else All) = true
            cases envFound with
            | false => left; rfl
            | true =>
              right
              simp only [↓reduceIte]
              simpa using h1
          intro n l hl en hen
          rw [← h] at hl
          simp only at hl
          by_cases hn : n = name
          · subst hn
            rw [mapGet_mapSet_self] at hl
            simp only [Option.some.injEq] at hl
            rw [← hl] at hen
            rcases List.mem_append.1 hen with hold | hlast
            · cases hm : mapGet vals.entries n with
              | none => rw [hm] at hold; simp at hold
              | some l0 =>
                rw [hm] at hold
                exact hv n l0 hm en hold
            · simp only [List.mem_singleton] at hlast
              rw [hlast]; exact hnew
          · rw [mapGet_mapSet_ne _ _ _ _ hn] at hl
            exact hv n l hl en hen

theorem parseLines_entriesValid (x : Extern) : ∀ (m : List (String × String)) (vals : Values),
    EntriesValid vals → EntriesValid (parseLines x m vals).1 := by
  intro m
  induction m with
  | nil => intro vals h; exact h
  | cons p m ih =>
    intro vals h
    obtain ⟨lhs, rhs⟩ := p
    unfold parseLines
    split
    · exact h
    · next vals1 hp => exact ih vals1 (parseLine_entriesValid hp h)

theorem ResolvedOK.after_step {v v1 : Values} {i : String} (h : ResolvedOK v i) (hs : Step v v1) :
    ResolvedOK v1 i := by
  obtain ⟨r, hb, hst, he⟩ := h
  exact ⟨r, hs.stable hb (by rw [hst]; simp), hst, he⟩

/-- After a successful loop over the entries every entry env is resolved
without error. -/
theorem rebuildEntries_resolved : ∀ (l : List (String × List entry)) (v v1 : Values),
    rebuildEntries l v = (v1, none) →
    ∀ p ∈ l, ∀ en ∈ p.2, ResolvedOK v1 en.Env := by
  intro l
  induction l with
  | nil => intro v v1 _ p hp; simp at hp
  | cons p0 l ih =>
    intro v v1 h p hp en hen
    obtain ⟨name, entries⟩ := p0
    unfold rebuildEntries at h
    split at h
    · simp at h
    · next v2 hr =>
      have hs2 := sanityCheck_step name entries v2.validEnvs v2
      split at h
      · simp at h
      · next v3 hsan =>
        rw [hsan] at hs2
        rcases List.mem_cons.1 hp with heq | hmem
        · subst heq
          have hrest := rebuildEntries_step l v3
          rw [h] at hrest
          have h0 : ResolvedOK v2 en.Env := resolveEntryEnvs_ok name entries v v2 hr en hen
          exact (h0.after_step hs2).after_step hrest
        · exact ih v3 v1 h p hmem en hen

/-- What holds of the instance that a successful `ParseString` returns. -/
theorem parseString_facts {x : Extern} {data : String} {vals : Values}
    (h : ParseString x data = (vals, none)) :
    FinInv vals ∧ LeafInv vals ∧ EntriesValid vals ∧ (mapGet vals.envs All).isSome ∧
    (∀ name l, mapGet vals.entries name = some l → ∀ en ∈ l, ResolvedOK vals en.Env) := by
  have hfin : FinInv vals := by
    have := FinInv.parseString x data
    rw [h] at this; exact this
  obtain ⟨m, _, hm⟩ := parseString_ok h
  obtain ⟨v0, hl, hr⟩ := parseMap_ok hm
  have hleaf : LeafInv vals := by
    have := LeafInv.leaf_rebuild v0
    rw [hr] at this; exact this
  obtain ⟨v1, valid, v5, hall, _, _, hre, _, henvs, hentries⟩ := rebuild_ok hr
  have hstep := rebuildEntries_step v0.entries v5
  rw [hre] at hstep
  have hent : vals.entries = v0.entries := by rw [hstep.entries, hentries]
  have henv : vals.envs = v0.envs := by rw [hstep.envs, henvs]
  have hvalid : EntriesValid vals := by
    have h0 : EntriesValid v0 := by
      have := parseLines_entriesValid x m New entriesValid_New
      rw [hl] at this; exact this
    intro name l hl1
    rw [hent] at hl1
    exact h0 name l hl1
  refine ⟨hfin, hleaf, hvalid, ?_, ?_⟩
  · rw [henv]; exact hall
  · intro name l hl1 en hen
    rw [hent] at hl1
    exact rebuildEntries_resolved v0.entries v5 vals hre (name, l) (mapGet_mem hl1) en hen

/-! ## An entry qualified by the queried env -/

theorem findMatch_self {e : String} (h : ∀ c ∈ e.data, PlainChar c) : findMatch [e] e = e := by
  simp [findMatch, matches_plain h]

theorem optimal_single {vals : Values} {g : resolvedEnvGroup} {l1 l2 : List entry} {eE : entry}
    (hE : vals.isOptimal g (l1 ++ eE :: l2) eE = true)
    (hO : ∀ e1 ∈ l1 ++ l2, vals.isOptimal g (l1 ++ eE :: l2) e1 = false) :
    vals.optimal g (l1 ++ eE :: l2) = [eE] := by
  unfold Values.optimal
  have h1 : l1.filter (vals.isOptimal g (l1 ++ eE :: l2)) = [] := by
    rw [List.filter_eq_nil_iff]
    intro a ha
    rw [hO a (List.mem_append_left _ ha)]
    simp
  have h2 : l2.filter (vals.isOptimal g (l1 ++ eE :: l2)) = [] := by
    rw [List.filter_eq_nil_iff]
    intro a ha
    rw [hO a (List.mem_append_right _ ha)]
    simp
  rw [List.filter_append, List.filter_cons, h1, h2, if_pos hE]
  rfl

/-- The loop of `pickVariant` picks the entry qualified by the queried env `e`
when every other entry matches `e` by a shorter token, or by a token as long
as `e` in a group of more than one env. -/
theorem exact_pick {vals : Values} {e N : String} {l1 l2 : List entry} {eE : entry}
    {g : resolvedEnvGroup}
    (hb : Bound vals e g) (hinc : g.included = [e]) (htriv : g.trivial = e) (hne : e ≠ "")
    (hplain : ∀ c ∈ e.data, PlainChar c) (henv : eE.Env = e)
    (hothers : ∀ e1 ∈ l1 ++ l2,
      ((vals.resolvedOf e1).FindMatch e).length < e.length ∨
      (((vals.resolvedOf e1).FindMatch e).length = e.length ∧
        1 < (vals.resolvedOf e1).included.length)) :
    pickResult N e ((l1 ++ eE :: l2).foldl (vals.pickStep g) pickInit) = (some eE, none) := by
  have hscore : ∀ en, vals.score g en = ((vals.resolvedOf en).FindMatch e).length := by
    intro en
    unfold Values.score
    rw [htriv, if_pos hne]
    rfl
  have hres : vals.resolvedOf eE = g := resolvedOf_of_bound (by rw [henv]; exact hb)
  have hsE : vals.score g eE = e.length := by
    rw [hscore, hres]
    unfold resolvedEnvGroup.FindMatch
    rw [hinc, findMatch_self hplain]
  have hzE : vals.size eE = 1 := by
    unfold Values.size
    rw [hres, hinc]; rfl
  have hpos : e.length ≠ 0 := fun h => hne ((string_length_eq_zero e).1 h)
  have hmem : ∀ e1 ∈ l1 ++ eE :: l2, e1 = eE ∨ e1 ∈ l1 ++ l2 := by
    intro e1 h1
    rcases List.mem_append.1 h1 with h | h
    · exact Or.inr (List.mem_append_left _ h)
    · rcases List.mem_cons.1 h with h | h
      · exact Or.inl h
      · exact Or.inr (List.mem_append_right _ h)
  have hEmem : eE ∈ l1 ++ eE :: l2 := List.mem_append_right _ (List.mem_cons_self _ _)
  have hE : vals.isOptimal g (l1 ++ eE :: l2) eE = true := by
    unfold Values.isOptimal
    simp only [Bool.and_eq_true, List.all_eq_true, decide_eq_true_eq, Bool.or_eq_true, ne_eq]
    refine ⟨⟨by rw [hsE]; exact hpos, ?_⟩, ?_⟩
    · intro e1 h1
      rcases hmem e1 h1 with h | h
      · rw [h]
      · rw [hsE, hscore]
        rcases hothers e1 h with h2 | h2
        · exact le_of_lt h2
        · exact le_of_eq h2.1
    · intro e1 h1
      rcases hmem e1 h1 with h | h
      · right; rw [h]
      · rcases hothers e1 h with h2 | h2
        · left; rw [hsE, hscore]; exact ne_of_lt h2
        · right; rw [hzE]; exact le_of_lt h2.2
  have hO : ∀ e1 ∈ l1 ++ l2, vals.isOptimal g (l1 ++ eE :: l2) e1 = false := by
    intro e1 h1
    cases hopt : vals.isOptimal g (l1 ++ eE :: l2) e1 with
    | false => rfl
    | true =>
      exfalso
      unfold Values.isOptimal at hopt
      simp only [Bool.and_eq_true, List.all_eq_true, decide_eq_true_eq, Bool.or_eq_true,
        ne_eq] at hopt
      obtain ⟨⟨_, hmax⟩, hmin⟩ := hopt
      have h2 := hmax eE hEmem
      have h3 := hmin eE hEmem
      rw [hsE, hscore] at h2
      rw [hsE, hscore, hzE] at h3
      unfold Values.size at h3
      rcases hothers e1 h1 with h4 | h4
      · omega
      · rcases h3 with h3 | h3
        · exact h3 h4.1.symm
        · omega
  have hspec := (pickResult_spec vals g N e (l1 ++ eE :: l2)).2.1 eE (optimal_single hE hO)
  exact Prod.ext hspec.1 hspec.2

/-! ## Termination of `resolveEnv` -/

theorem Step.fresh_mono {a v : Values} (h : Step a v) (k : String) (hk : v.fresh k = true) :
    a.fresh k = true := by
  unfold Values.fresh at hk ⊢
  simp only [decide_eq_true_eq] at hk ⊢
  cases hm : mapGet v.resolvedEnvs k with
  | some r1 =>
    have hb : Bound v k r1 := hm
    rw [origin_of_bound hb] at hk
    rcases h.evolve k r1 hb with he | he
    · rw [← he]; exact hk
    · exact he.1
  | none =>
    have hu : mapGet a.resolvedEnvs k = none := by
      cases hma : mapGet a.resolvedEnvs k with
      | none => rfl
      | some r =>
        obtain ⟨r1, hr1⟩ := h.keep k r hma
        unfold Bound at hr1
        rw [hm] at hr1
        simp at hr1
    rw [origin_of_unbound hm, newGroup_congr h.envs h.validEnvs] at hk
    rw [origin_of_unbound hu]
    exact hk

theorem countP_lt_of_imp {α : Type} (p q : α → Bool) : ∀ (l : List α),
    (∀ x ∈ l, p x = true → q x = true) → (∃ x ∈ l, q x = true ∧ p x = false) →
    l.countP p < l.countP q := by
  intro l
  induction l with
  | nil => intro _ ⟨x, hx, _⟩; simp at hx
  | cons y l ih =>
    intro himp ⟨x, hx, hq, hp⟩
    have hle : l.countP p ≤ l.countP q :=
      List.countP_mono_left (fun z hz => himp z (List.mem_cons_of_mem _ hz))
    rcases List.mem_cons.1 hx with hxy | hxl
    · subst hxy
      rw [List.countP_cons_of_pos _ _ hq, List.countP_cons_of_neg]
      · omega
      · rw [hp]; simp
    · have hlt := ih (fun z hz => himp z (List.mem_cons_of_mem _ hz)) ⟨x, hxl, hq, hp⟩
      by_cases hpy : p y = true
      · rw [List.countP_cons_of_pos _ _ hpy,
          List.countP_cons_of_pos _ _ (himp y (List.mem_cons_self _ _) hpy)]
        omega
      · rw [List.countP_cons_of_neg _ _ hpy]
        by_cases hqy : q y = true
        · rw [List.countP_cons_of_pos _ _ hqy]; omega
        · rw [List.countP_cons_of_neg _ _ hqy]; exact hlt

theorem Step.pending_le {a v : Values} (h : Step a v) : v.pending ≤ a.pending := by
  unfold Values.pending
  rw [h.envs]
  exact List.countP_mono_left (fun p _ hp => h.fresh_mono p.1 hp)

/-- Entering a defined group lowers the number of groups not yet entered. -/
theorem Step.pending_lt {a v : Values} (h : Step a v) {env : String} {d : envGroup}
    (hd : mapGet a.envs env = some d) (ha : a.fresh env = true) (hv : v.fresh env = false) :
    v.pending < a.pending := by
  unfold Values.pending
  rw [h.envs]
  exact countP_lt_of_imp _ _ _ (fun p _ hp => h.fresh_mono p.1 hp)
    ⟨(env, d), mapGet_mem hd, ha, hv⟩

theorem fresh_of_bound {v : Values} {k : String} {r : resolvedEnvGroup} (h : Bound v k r) :
    v.fresh k = decide (r.state = .mentionedState) := by
  unfold Values.fresh
  rw [origin_of_bound h]

theorem finishResolve_isSome {v : Values} {env : String} {r : resolvedEnvGroup}
    (h : Bound v env r) : (finishResolve v env).isSome = true := by
  have hb := modifyRes_bound_self (fun r => { r.finalize with state := .resolvedState }) h
  unfold finishResolve
  simp only
  unfold Bound at hb
  rw [hb]
  simp only
  split <;> rfl

/-- The item loop of a plain group returns when the recursive call returns at
every instance the loop reaches. -/
theorem resolveIncluded_total {self : Values → String → ResolveResult}
    (hself : ResolveSpec self) {a : Values} {env : String} {r0 : resolvedEnvGroup}
    (hb0 : Bound a env r0) (h0 : r0.state = .mentionedState)
    (htot : ∀ v, Step a v → (∃ r, Bound v env r ∧ r.state = .resolvingState) →
      ∀ s, (self v s).isSome = true) :
    ∀ (items : List String) (v : Values), Step a v →
      (∃ r, Bound v env r ∧ r.state = .resolvingState) →
      (resolveIncluded self env items v).isSome = true := by
  intro items
  induction items with
  | nil => intro v _ _; rfl
  | cons sub items ih =>
    intro v hs hr
    have hcall := htot v hs hr sub
    cases hc : self v sub with
    | none => rw [hc] at hcall; simp at hcall
    | some p =>
      obtain ⟨v1, res⟩ := p
      cases res with
      | error err =>
        unfold resolveIncluded
        rw [hc]
        rfl
      | ok subres =>
        have hone : resolveIncluded self env [sub] v =
            some (v1.modifyRes env
              (fun r => { r with included := appendNew r.included subres.included }), none) := by
          unfold resolveIncluded
          rw [hc]
          simp only
          unfold resolveIncluded
          rfl
        obtain ⟨hs2, hr2⟩ := resolveIncluded_step hself hb0 h0 _ _ _ _ hs hr hone
        unfold resolveIncluded
        rw [hc]
        exact ih _ hs2 hr2

/-- The item loop of a negated group returns when the recursive call returns
at every instance the loop reaches. -/
theorem resolveExcluded_total {self : Values → String → ResolveResult}
    (hself : ResolveSpec self) {a : Values} {env : String} {r : resolvedEnvGroup}
    (hst : r.state = .resolvingState)
    (htot : ∀ v, Step a v → ∀ s, (self v s).isSome = true) :
    ∀ (items : List String) (v : Values) (excluded : List String), Step a v → Bound v env r →
      (resolveExcluded self env items v excluded).isSome = true := by
  intro items
  induction items with
  | nil => intro v excluded _ _; rfl
  | cons sub items ih =>
    intro v excluded hs hb
    have hcall := htot v hs sub
    cases hc : self v sub with
    | none => rw [hc] at hcall; simp at hcall
    | some p =>
      obtain ⟨v1, res⟩ := p
      cases res with
      | error err =>
        unfold resolveExcluded
        rw [hc]
        rfl
      | ok subres =>
        have hone : resolveExcluded self env [sub] v excluded =
            some (v1, .ok (appendNew excluded subres.included)) := by
          unfold resolveExcluded
          rw [hc]
          simp only
          unfold resolveExcluded
          rfl
        obtain ⟨hs2, hb2⟩ := resolveExcluded_step hself hst _ _ _ _ _ hb hone
        unfold resolveExcluded
        rw [hc]
        exact ih _ _ (hs.trans hs2) hb2

/-- The recursion of `resolveEnv` returns within a budget larger than the
number of groups not yet entered. -/
theorem resolveEnvAux_terminates : ∀ (fuel : Nat) (vals : Values) (env : String),
    vals.pending < fuel → (resolveEnvAux fuel vals env).isSome = true := by
  intro fuel
  induction fuel with
  | zero => intro vals env h; simp at h
  | succ fuel ih =>
    intro vals env hp
    obtain ⟨hb0, hor⟩ := lookupEnv_bound vals env
    have hs0 := lookupEnv_step vals env
    unfold resolveEnvAux
    simp only
    generalize (vals.lookupEnv env).1 = a at hb0 hs0
    generalize (vals.lookupEnv env).2.1 = r0 at hb0 hor
    have hpa : a.pending < fuel + 1 := lt_of_le_of_lt hs0.pending_le hp
    by_cases hres : r0.state = .resolvedState
    · rw [if_pos hres]
      split <;> rfl
    · rw [if_neg hres]
      by_cases hing : r0.state = .resolvingState
      · rw [if_pos hing]; rfl
      · rw [if_neg hing]
        have h0 : r0.state = .mentionedState := by
          cases hst : r0.state <;> simp_all
        have hs1 : Step a (a.modifyRes env (fun r => { r with state := .resolvingState })) :=
          Step.modify _ (Step.refl a) hb0 h0 hb0 (by simp) rfl rfl (by simp)
        have hb1 := modifyRes_bound_self (fun r => { r with state := .resolvingState }) hb0
        generalize a.modifyRes env (fun r => { r with state := .resolvingState }) = v1
          at hs1 hb1
        cases hd : mapGet v1.envs env with
        | none =>
          simp only
          exact finishResolve_isSome
            (modifyRes_bound_self (fun r => { r with included := [env] }) hb1)
        | some definition =>
          simp only
          have hda : mapGet a.envs env = some definition := by rw [← hs1.envs]; exact hd
          have hfa : a.fresh env = true := by rw [fresh_of_bound hb0, h0]; rfl
          have hlt : ∀ v, Step a v → (∃ r, Bound v env r ∧ r.state = .resolvingState) →
              v.pending < fuel := by
            intro v hs ⟨r, hb, hr⟩
            have hfv : v.fresh env = false := by rw [fresh_of_bound hb, hr]; rfl
            have := hs.pending_lt hda hfa hfv
            omega
          by_cases hneg : definition.Negated = true
          · rw [if_pos hneg]
            by_cases hve : v1.validEnvs.isEmpty = true
            · rw [if_pos hve]; rfl
            · rw [if_neg hve]
              have hlt1 := hlt v1 hs1 ⟨_, hb1, rfl⟩
              have htot := resolveExcluded_total (resolveEnvAux_spec fuel) (a := v1)
                (r := { r0 with state := .resolvingState }) rfl
                (fun v hs s => ih v s (lt_of_le_of_lt hs.pending_le hlt1))
                definition.Items v1 [] (Step.refl v1) hb1
              cases hl : resolveExcluded (resolveEnvAux fuel) env definition.Items v1 [] with
              | none => rw [hl] at htot; simp at htot
              | some p =>
                obtain ⟨v2, res⟩ := p
                cases res with
                | error err => rfl
                | ok excluded =>
                  simp only
                  obtain ⟨_, hb2⟩ := resolveExcluded_step (resolveEnvAux_spec fuel)
                    (r := { r0 with state := .resolvingState }) rfl _ _ _ _ _ hb1 hl
                  exact finishResolve_isSome (modifyRes_bound_self _ hb2)
          · rw [if_neg hneg]
            have htot := resolveIncluded_total (resolveEnvAux_spec fuel) hb0 h0
              (fun v hs hr s => ih v s (hlt v hs hr))
              definition.Items v1 hs1 ⟨_, hb1, rfl⟩
            cases hl : resolveIncluded (resolveEnvAux fuel) env definition.Items v1 with
            | none => rw [hl] at htot; simp at htot
            | some p =>
              obtain ⟨v2, err⟩ := p
              cases err with
              | some err => rfl
              | none =>
                simp only
                obtain ⟨_, r2, hb2, _⟩ := resolveIncluded_step (resolveEnvAux_spec fuel) hb0 h0
                  _ _ _ _ hs1 ⟨_, hb1, rfl⟩ hl
                exact finishResolve_isSome hb2

/-! ## The result does not depend on the budget -/

theorem resolveIncluded_mono {self self1 : Values → String → ResolveResult}
    (h : ∀ v s r, self v s = some r → self1 v s = some r) (env : String) :
    ∀ (items : List String) (v : Values) (r : Values × Option String),
      resolveIncluded self env items v = some r → resolveIncluded self1 env items v = some r := by
  intro items
  induction items with
  | nil => intro v r hr; exact hr
  | cons sub items ih =>
    intro v r hr
    unfold resolveIncluded at hr ⊢
    cases hc : self v sub with
    | none => rw [hc] at hr; simp at hr
    | some p =>
      rw [hc] at hr
      rw [h v sub p hc]
      obtain ⟨v1, res⟩ := p
      cases res with
      | error err => exact hr
      | ok subres => exact ih _ _ hr

theorem resolveExcluded_mono {self self1 : Values → String → ResolveResult}
    (h : ∀ v s r, self v s = some r → self1 v s = some r) (env : String) :
    ∀ (items : List String) (v : Values) (excluded : List String)
      (r : Values × Except String (List String)),
      resolveExcluded self env items v excluded = some r →
      resolveExcluded self1 env items v excluded = some r := by
  intro items
  induction items with
  | nil => intro v excluded r hr; exact hr
  | cons sub items ih =>
    intro v excluded r hr
    unfold resolveExcluded at hr ⊢
    cases hc : self v sub with
    | none => rw [hc] at hr; simp at hr
    | some p =>
      rw [hc] at hr
      rw [h v sub p hc]
      obtain ⟨v1, res⟩ := p
      cases res with
      | error err => exact hr
      | ok subres => exact ih _ _ _ hr

/-- A larger budget gives the same result. -/
theorem resolveEnvAux_mono : ∀ (fuel : Nat) (vals : Values) (env : String)
    (r : Values × Except String resolvedEnvGroup),
    resolveEnvAux fuel vals env = some r → resolveEnvAux (fuel + 1) vals env = some r := by
  intro fuel
  induction fuel with
  | zero => intro vals env r h; simp [resolveEnvAux] at h
  | succ fuel ih =>
    intro vals env r h
    rw [resolveEnvAux] at h ⊢
    simp only at h ⊢
    generalize (vals.lookupEnv env).1 = a at h ⊢
    generalize (vals.lookupEnv env).2.1 = r0 at h ⊢
    by_cases hres : r0.state = .resolvedState
    · rw [if_pos hres] at h ⊢; exact h
    · rw [if_neg hres] at h ⊢
      by_cases hing : r0.state = .resolvingState
      · rw [if_pos hing] at h ⊢; exact h
      · rw [if_neg hing] at h ⊢
        generalize a.modifyRes env (fun r => { r with state := .resolvingState }) = v1 at h ⊢
        cases hd : mapGet v1.envs env with
        | none => rw [hd] at h; exact h
        | some definition =>
          rw [hd] at h
          simp only at h ⊢
          by_cases hneg : definition.Negated = true
          · rw [if_pos hneg] at h ⊢
            by_cases hve : v1.validEnvs.isEmpty = true
            · rw [if_pos hve] at h ⊢; exact h
            · rw [if_neg hve] at h ⊢
              cases hl : resolveExcluded (resolveEnvAux fuel) env definition.Items v1 [] with
              | none => rw [hl] at h; simp at h
              | some p =>
                rw [hl] at h
                rw [resolveExcluded_mono ih env _ _ _ _ hl]
                exact h
          · rw [if_neg hneg] at h ⊢
            cases hl : resolveIncluded (resolveEnvAux fuel) env definition.Items v1 with
            | none => rw [hl] at h; simp at h
            | some p =>
              rw [hl] at h
              rw [resolveIncluded_mono ih env _ _ _ hl]
              exact h

theorem resolveEnvAux_mono_le (fuel : Nat) (vals : Values) (env : String)
    (r : Values × Except String resolvedEnvGroup) (h : resolveEnvAux fuel vals env = some r) :
    ∀ n, fuel ≤ n → resolveEnvAux n vals env = some r := by
  intro n hn
  induction n, hn using Nat.le_induction with
  | base => exact h
  | succ n _ ih => exact resolveEnvAux_mono n vals env r ih

theorem pending_lt_fuel (vals : Values) : vals.pending < resolveFuel vals := by
  unfold Values.pending resolveFuel
  exact Nat.lt_succ_of_le (List.countP_le_length _)

/-- With any budget larger than the number of groups not yet entered, and so
with any budget from `resolveFuel` on, the recursion returns the result of
`resolveEnv`. -/
theorem resolveEnvAux_eq (vals : Values) (env : String) (fuel : Nat)
    (h : vals.pending < fuel) : resolveEnvAux fuel vals env = some (vals.resolveEnv env) := by
  have h1 := resolveEnvAux_terminates fuel vals env h
  have h2 := resolveEnvAux_terminates (resolveFuel vals) vals env (pending_lt_fuel vals)
  cases hc1 : resolveEnvAux fuel vals env with
  | none => rw [hc1] at h1; simp at h1
  | some r1 =>
    cases hc2 : resolveEnvAux (resolveFuel vals) vals env with
    | none => rw [hc2] at h2; simp at h2
    | some r2 =>
      have hv : vals.resolveEnv env = r2 := by
        unfold Values.resolveEnv
        rw [hc2]; rfl
      rw [hv]
      have h3 := resolveEnvAux_mono_le _ _ _ _ hc1 (max fuel (resolveFuel vals)) (le_max_left _ _)
      have h4 := resolveEnvAux_mono_le _ _ _ _ hc2 (max fuel (resolveFuel vals))
        (le_max_right _ _)
      rw [h3] at h4
      exact h4

/-! ## Reference cycles -/

theorem resolveGroups_ok : ∀ (names : List String) (v v1 : Values),
    resolveGroups names v = (v1, none) → ∀ k ∈ names, ResolvedOK v1 k := by
  intro names
  induction names with
  | nil => intro v v1 _ k hk; simp at hk
  | cons n names ih =>
    intro v v1 h k hk
    unfold resolveGroups at h
    split at h
    · simp at h
    · next v2 g hr =>
      rcases List.mem_cons.1 hk with heq | hmem
      · subst heq
        obtain ⟨hb, hs, he⟩ := resolveEnv_ok hr
        have hstep := resolveGroups_step names v2
        rw [h] at hstep
        exact ResolvedOK.after_step ⟨g, hb, hs, he⟩ hstep
      · exact ih v2 v1 h k hmem

theorem le_sum_of_mem (f : String → Nat) : ∀ (l : List String) (i : String), i ∈ l →
    f i ≤ (l.map f).sum := by
  intro l
  induction l with
  | nil => intro i hi; simp at hi
  | cons a l ih =>
    intro i hi
    simp only [List.map_cons, List.sum_cons]
    rcases List.mem_cons.1 hi with h | h
    · rw [h]; omega
    · have := ih i h; omega

/-- A group that is being resolved is not resolved. -/
theorem not_resolvedOK_of_resolving {v : Values} {env : String} {r : resolvedEnvGroup}
    (hb : Bound v env r) (hs : r.state = .resolvingState) : ¬ ResolvedOK v env := by
  intro ⟨r1, hb1, hs1, _⟩
  unfold Bound at hb hb1
  rw [hb] at hb1
  simp only [Option.some.injEq] at hb1
  rw [hb1, hs1] at hs
  simp at hs

theorem ResolvedOK.after_prim {v v1 : Values} {i : String} (h : ResolvedOK v i) (hp : Prim v v1) :
    ResolvedOK v1 i :=
  h.steps (Steps.single hp)

/-- A write that resolves no group keeps the invariant. -/
theorem AccInv.of_inv {v v1 : Values} (hp : Prim v v1)
    (hinv : ∀ k, ResolvedOK v1 k → ResolvedOK v k) (h : AccInv v) : AccInv v1 := by
  obtain ⟨rank, hr⟩ := h
  refine ⟨rank, ?_⟩
  intro k d hk hd i hi
  rw [hp.frame.1] at hd
  obtain ⟨h1, h2⟩ := hr k d (hinv k hk) hd i hi
  exact ⟨h1.after_prim hp, h2⟩

theorem resolvedOK_modify_inv {v : Values} {env k : String} {r : resolvedEnvGroup}
    (f : resolvedEnvGroup → resolvedEnvGroup) (hb : Bound v env r)
    (hf : (f r).state ≠ .resolvedState) (h : ResolvedOK (v.modifyRes env f) k) :
    ResolvedOK v k := by
  obtain ⟨rk, hk, hks, hke⟩ := h
  exact ⟨rk, modifyRes_resolved_inv f hb hf hk hks, hks, hke⟩

/-- A write that resolves a group whose items are resolved keeps the
invariant. -/
theorem AccInv.of_resolve {v : Values} {env : String} {r : resolvedEnvGroup}
    (f : resolvedEnvGroup → resolvedEnvGroup) (hb : Bound v env r)
    (hs : r.state = .resolvingState)
    (hitems : ∀ d, mapGet v.envs env = some d → ∀ i ∈ d.Items, ResolvedOK v i)
    (hp : Prim v (v.modifyRes env f)) (h : AccInv v) : AccInv (v.modifyRes env f) := by
  have hnot := not_resolvedOK_of_resolving hb hs
  obtain ⟨rank, hr⟩ := h
  refine ⟨fun s => if s = env then
    1 + ((((mapGet v.envs env).map (fun d => d.Items)).getD []).map rank).sum else rank s, ?_⟩
  intro k d hk hd i hi
  have hd0 : mapGet v.envs k = some d := hd
  by_cases hkenv : k = env
  · subst hkenv
    have hiok := hitems d hd0 i hi
    have hine : i ≠ k := fun heq => hnot (heq ▸ hiok)
    refine ⟨hiok.after_prim hp, ?_⟩
    simp only [if_neg hine, ↓reduceIte, hd0, Option.map_some', Option.getD_some]
    have := le_sum_of_mem rank d.Items i hi
    omega
  · obtain ⟨rk, hbk, hks, hke⟩ := hk
    have hkok : ResolvedOK v k := ⟨rk, (modifyRes_bound_ne _ hkenv rk).1 hbk, hks, hke⟩
    obtain ⟨hiok, hlt⟩ := hr k d hkok hd0 i hi
    have hine : i ≠ env := fun heq => hnot (heq ▸ hiok)
    refine ⟨hiok.after_prim hp, ?_⟩
    simp only [if_neg hine, if_neg hkenv]
    exact hlt

theorem AccInv.acc_prim {v v1 : Values} (hp : Prim v v1) (h : AccInv v) : AccInv v1 := by
  cases hp with
  | lookup env =>
    apply AccInv.of_inv (Prim.lookup v env) _ h
    intro k ⟨rk, hk, hks, hke⟩
    rcases lookupEnv_bound_inv hk with h1 | ⟨_, _, h3⟩
    · exact ⟨rk, h1, hks, hke⟩
    · rw [h3] at hks hke
      exact absurd hke (newGroup_resolved hks)
  | mark env r hb hs =>
    exact AccInv.of_inv (Prim.mark v env r hb hs)
      (fun k hk => resolvedOK_modify_inv _ hb (by simp) hk) h
  | leaf env r hb hs hl =>
    exact AccInv.of_inv (Prim.leaf v env r hb hs hl)
      (fun k hk => resolvedOK_modify_inv _ hb (by simp [hs]) hk) h
  | append env r d sub rs hb hs h1 h2 h3 h4 h5 h6 =>
    exact AccInv.of_inv (Prim.append v env r d sub rs hb hs h1 h2 h3 h4 h5 h6)
      (fun k hk => resolvedOK_modify_inv _ hb (by simp [hs]) hk) h
  | negate env r d hb hs h1 h2 h3 h4 =>
    refine AccInv.of_resolve _ hb hs ?_ (Prim.negate v env r d hb hs h1 h2 h3 h4) h
    intro d1 hd1 i hi
    rw [h1] at hd1
    simp only [Option.some.injEq] at hd1
    rw [← hd1] at hi
    exact h4 i hi
  | finish env r hb hs hitems hl hng =>
    exact AccInv.of_resolve _ hb hs hitems (Prim.finish v env r hb hs hitems hl hng) h

theorem AccInv.acc_rebuild (vals : Values) : AccInv vals.rebuild.1 := by
  apply rebuild_invariant (I := AccInv) (fun _ _ hp h => AccInv.acc_prim hp h)
  · intro v l h; exact h
  · intro v h; exact h
  · refine ⟨fun _ => 0, ?_⟩
    intro k d ⟨r, hb, hs, he⟩
    exact absurd he (reset_resolved hb hs)

/-- Along a chain of references from a group resolved without error the rank
falls. -/
theorem refers_chain {v : Values} {rank : String → Nat}
    (hr : ∀ k d, ResolvedOK v k → mapGet v.envs k = some d →
      ∀ i ∈ d.Items, ResolvedOK v i ∧ rank i < rank k)
    {a b : String} (h : Relation.TransGen (Refers v.envs) a b) :
    (∃ d, mapGet v.envs a = some d) ∧ (ResolvedOK v a → ResolvedOK v b ∧ rank b < rank a) := by
  induction h with
  | single hab =>
    obtain ⟨d, hd, hi⟩ := hab
    exact ⟨⟨d, hd⟩, fun ha => hr a d ha hd _ hi⟩
  | tail _ hbc ih =>
    obtain ⟨d, hd, hi⟩ := hbc
    refine ⟨ih.1, fun ha => ?_⟩
    obtain ⟨hb, hlt⟩ := ih.2 ha
    obtain ⟨hc, hlt2⟩ := hr _ d hb hd _ hi
    exact ⟨hc, lt_trans hlt2 hlt⟩

/-- Where every defined group is resolved without error, no group reaches
itself through its items. -/
theorem AccInv.acyclic {v : Values} (h : AccInv v)
    (hall : ∀ k d, mapGet v.envs k = some d → ResolvedOK v k) : ¬ Cyclic v.envs := by
  intro ⟨a, hcyc⟩
  obtain ⟨rank, hr⟩ := h
  obtain ⟨⟨d, hd⟩, hlt⟩ := refers_chain hr hcyc
  exact lt_irrefl _ (hlt (hall a d hd)).2

theorem mapGet_fst_mem {β : Type} {m : List (String × β)} {k : String} {v : β}
    (h : mapGet m k = some v) : k ∈ m.map Prod.fst :=
  List.mem_map.2 ⟨(k, v), mapGet_mem h, rfl⟩

/-- After a successful `rebuild` every defined group is resolved without
error. -/
theorem rebuild_groups_ok {vals0 vals : Values} (h : vals0.rebuild = (vals, none)) :
    vals.envs = vals0.envs ∧ ∀ k d, mapGet vals.envs k = some d → ResolvedOK vals k := by
  obtain ⟨v1, valid, v5, _, _, hg, hre, _, henvs, _⟩ := rebuild_ok h
  have hstep := rebuildEntries_step vals0.entries v5
  rw [hre] at hstep
  have henv : vals.envs = vals0.envs := by rw [hstep.envs, henvs]
  refine ⟨henv, ?_⟩
  intro k d hd
  rw [henv] at hd
  exact (resolveGroups_ok _ _ _ hg k (mapGet_fst_mem hd)).after_step hstep

/-- With a reference cycle among the definitions `rebuild` fails. -/
theorem rebuild_cyclic {vals : Values} (h : Cyclic vals.envs) : vals.rebuild.2 ≠ none := by
  intro hn
  have heq : vals.rebuild = (vals.rebuild.1, none) := Prod.ext rfl hn
  obtain ⟨henv, hall⟩ := rebuild_groups_ok heq
  have hacc := AccInv.acc_rebuild vals
  apply hacc.acyclic hall
  rw [henv]
  exact h

/-- Entering a group that is being resolved. -/
theorem resolveEnv_reentry {vals : Values} {env : String} {r : resolvedEnvGroup}
    (hb : Bound vals env r) (hs : r.state = .resolvingState) :
    vals.resolveEnv env = (vals, .error ("@" ++ env ++ ": infinite recursion")) := by
  unfold Values.resolveEnv resolveFuel
  rw [resolveEnvAux]
  unfold Bound at hb
  simp only [Values.lookupEnv, hb, hs]
  rfl

/-! ## Invariants of an instance that was parsed from scratch -/

/-- The stages of `rebuild` after the reset, for an invariant that every
write keeps; the assignment of `validEnvs` is the one `rebuild` makes. -/
theorem rebuild_invariant_from {I : Values → Prop} (hI : ∀ v v1, Prim v v1 → I v → I v1)
    (hknown : ∀ v, I v → I v.fillKnownEnvs) {vals : Values}
    (hval : ∀ v1 valid, (mapGet vals.envs All).isSome = true →
      vals.resetForRebuild.resolveEnv All = (v1, .ok valid) → I v1 →
      I (v1.setValidEnvs valid.included))
    (h0 : I vals.resetForRebuild) : I vals.rebuild.1 := by
  unfold Values.rebuild
  simp only
  have henvs : vals.resetForRebuild.envs = vals.envs := rfl
  rw [← henvs] at hval
  generalize vals.resetForRebuild = v0 at h0 hval
  split
  · exact h0
  · next hall =>
    have hall2 : (mapGet v0.envs All).isSome = true := by
      cases hm : mapGet v0.envs All with
      | none => rw [hm] at hall; simp at hall
      | some d => rfl
    have h1 := (resolveEnv_prims v0 All).invariant hI h0
    split
    · next v1 err hr => rw [hr] at h1; exact h1
    · next v1 valid hr =>
      rw [hr] at h1
      have h4 := hknown _ ((mentionAll_prims _).invariant hI (hval v1 valid hall2 hr h1))
      have h5 := (resolveGroups_prims
        (List.map Prod.fst ((v1.setValidEnvs valid.included).mentionAll).fillKnownEnvs.envs)
        _).invariant hI h4
      split
      · next v5 err hg => rw [hg] at h5; exact h5
      · next v5 hg =>
        rw [hg] at h5
        exact (rebuildEntries_prims _ _).invariant hI h5

/-- The groups found after a write to the group of `env`. -/
theorem modifyRes_bound_cases {v : Values} {env k : String} {r rk : resolvedEnvGroup}
    (f : resolvedEnvGroup → resolvedEnvGroup) (hb : Bound v env r)
    (hk : Bound (v.modifyRes env f) k rk) :
    (k = env ∧ rk = f r) ∨ (k ≠ env ∧ Bound v k rk) := by
  by_cases hke : k = env
  · left
    subst hke
    have h2 := modifyRes_bound_self f hb
    unfold Bound at hk h2
    rw [h2] at hk
    simp only [Option.some.injEq] at hk
    exact ⟨rfl, hk.symm⟩
  · right
    exact ⟨hke, (modifyRes_bound_ne f hke rk).1 hk⟩

theorem newGroup_included (v : Values) (env : String) : (v.newGroup env).included = [] := by
  unfold Values.newGroup
  simp only
  split_ifs <;> rfl

theorem newGroup_err {v : Values} {env : String} (h : (v.newGroup env).err ≠ none) :
    (v.newGroup env).state = .resolvedState := by
  unfold Values.newGroup at h ⊢
  simp only at h ⊢
  split_ifs at h ⊢ <;> simp_all

/-- A write that keeps `err` of a group that is not resolved keeps the
invariant. -/
theorem ErrInv.err_modify {v : Values} {env : String} {r : resolvedEnvGroup}
    (f : resolvedEnvGroup → resolvedEnvGroup) (hb : Bound v env r)
    (hne : r.state ≠ .resolvedState) (hf : (f r).err = r.err) (h : ErrInv v) :
    ErrInv (v.modifyRes env f) := by
  intro k rk hk he
  rcases modifyRes_bound_cases f hb hk with ⟨_, h2⟩ | ⟨_, h2⟩
  · rw [h2, hf] at he
    exact absurd (h env r hb he) hne
  · exact h k rk h2 he

theorem ErrInv.err_prim {v v1 : Values} (hp : Prim v v1) (h : ErrInv v) : ErrInv v1 := by
  cases hp with
  | lookup env =>
    intro k rk hk he
    rcases lookupEnv_bound_inv hk with h1 | ⟨_, _, h3⟩
    · exact h k rk h1 he
    · rw [h3] at he ⊢
      exact newGroup_err he
  | mark env r hb hs => exact ErrInv.err_modify _ hb (by rw [hs]; simp) rfl h
  | leaf env r hb hs _ => exact ErrInv.err_modify _ hb (by rw [hs]; simp) rfl h
  | append env r d sub rs hb hs _ _ _ _ _ _ => exact ErrInv.err_modify _ hb (by rw [hs]; simp) rfl h
  | negate env r d hb hs _ _ _ _ =>
    exact ErrInv.err_modify _ hb (by rw [hs]; simp) (by simp [finalize_err]) h
  | finish env r hb hs _ _ _ =>
    exact ErrInv.err_modify _ hb (by rw [hs]; simp) (by simp [finalize_err]) h

/-- A group that is not resolved carries no error. -/
theorem ErrInv.no_err {v : Values} (h : ErrInv v) {k : String} {r : resolvedEnvGroup}
    (hb : Bound v k r) (hs : r.state ≠ .resolvedState) : r.err = none := by
  cases he : r.err with
  | none => rfl
  | some e => exact absurd (h k r hb (by rw [he]; simp)) hs

theorem FreshInv.fresh_prim {v v1 : Values} (hp : Prim v v1) (h : FreshInv v) : FreshInv v1 := by
  cases hp with
  | lookup env =>
    intro k rk hk
    rcases lookupEnv_bound_inv hk with h1 | ⟨_, _, h3⟩
    · have := h k rk h1
      exact ⟨this.1, fun hs d hd hn => this.2 hs d (by
        rw [(lookupEnv_step v env).envs] at hd; exact hd) hn⟩
    · rw [h3]
      exact ⟨fun _ => newGroup_included _ _, fun _ _ _ _ => newGroup_included _ _⟩
  | mark env r hb hs =>
    intro k rk hk
    rcases modifyRes_bound_cases _ hb hk with ⟨_, h2⟩ | ⟨_, h2⟩
    · rw [h2]
      exact ⟨fun hc => by simp at hc, fun _ _ _ _ => (h env r hb).1 hs⟩
    · exact h k rk h2
  | leaf env r hb hs hl =>
    intro k rk hk
    rcases modifyRes_bound_cases _ hb hk with ⟨h1, h2⟩ | ⟨_, h2⟩
    · rw [h2]
      refine ⟨fun hc => by simp [hs] at hc, fun _ d hd _ => ?_⟩
      rw [h1] at hd
      have hd0 : mapGet v.envs env = some d := hd
      rw [hl] at hd0
      simp at hd0
    · exact h k rk h2
  | append env r d sub rs hb hs hd hneg _ _ _ _ =>
    intro k rk hk
    rcases modifyRes_bound_cases _ hb hk with ⟨h1, h2⟩ | ⟨_, h2⟩
    · rw [h2]
      refine ⟨fun hc => by simp [hs] at hc, fun _ d1 hd1 hn => ?_⟩
      rw [h1] at hd1
      have hd0 : mapGet v.envs env = some d1 := hd1
      rw [hd] at hd0
      simp only [Option.some.injEq] at hd0
      rw [← hd0, hneg] at hn
      simp at hn
    · exact h k rk h2
  | negate env r d hb hs _ _ _ _ =>
    intro k rk hk
    rcases modifyRes_bound_cases _ hb hk with ⟨_, h2⟩ | ⟨_, h2⟩
    · rw [h2]
      exact ⟨fun hc => by simp at hc, fun hc => by simp at hc⟩
    · exact h k rk h2
  | finish env r hb hs _ _ _ =>
    intro k rk hk
    rcases modifyRes_bound_cases _ hb hk with ⟨_, h2⟩ | ⟨_, h2⟩
    · rw [h2]
      exact ⟨fun hc => by simp at hc, fun hc => by simp at hc⟩
    · exact h k rk h2

theorem contains_iff (l : List String) (c : String) : contains l c = true ↔ c ∈ l := by
  unfold contains
  simp only [List.any_eq_true, decide_eq_true_eq]
  constructor
  · intro ⟨x, hx, he⟩; rw [← he]; exact hx
  · intro h; exact ⟨c, h, rfl⟩

theorem mem_appendNew (t : String) : ∀ (sub acc : List String),
    t ∈ appendNew acc sub ↔ t ∈ acc ∨ t ∈ sub := by
  intro sub
  induction sub with
  | nil => intro acc; simp [appendNew]
  | cons s sub ih =>
    intro acc
    have hstep : appendNew acc (s :: sub) =
        appendNew (if contains acc s then acc else acc ++ [s]) sub := rfl
    rw [hstep, ih]
    by_cases hc : contains acc s = true
    · rw [if_pos hc]
      have hs := (contains_iff acc s).1 hc
      constructor
      · rintro (h | h)
        · exact Or.inl h
        · exact Or.inr (List.mem_cons_of_mem _ h)
      · rintro (h | h)
        · exact Or.inl h
        · rcases List.mem_cons.1 h with h1 | h1
          · rw [h1]; exact Or.inl hs
          · exact Or.inr h1
    · rw [if_neg hc]
      simp only [List.mem_append, List.mem_singleton, List.mem_cons]
      tauto

theorem appendNew_nodup : ∀ (sub acc : List String), acc.Nodup → (appendNew acc sub).Nodup := by
  intro sub
  induction sub with
  | nil => intro acc h; exact h
  | cons s sub ih =>
    intro acc h
    have hstep : appendNew acc (s :: sub) =
        appendNew (if contains acc s then acc else acc ++ [s]) sub := rfl
    rw [hstep]
    apply ih
    by_cases hc : contains acc s = true
    · rw [if_pos hc]; exact h
    · rw [if_neg hc]
      have hs : s ∉ acc := fun hm => hc ((contains_iff acc s).2 hm)
      rw [List.nodup_append]
      refine ⟨h, List.nodup_singleton s, ?_⟩
      intro a ha hb
      simp only [List.mem_singleton] at hb
      rw [hb] at ha
      exact hs ha

theorem NodupInv.nodup_modify {v : Values} {env : String} {r : resolvedEnvGroup}
    (f : resolvedEnvGroup → resolvedEnvGroup) (hb : Bound v env r)
    (hf : (f r).included.Nodup) (h : NodupInv v) : NodupInv (v.modifyRes env f) := by
  refine ⟨h.1, ?_⟩
  intro k rk hk
  rcases modifyRes_bound_cases f hb hk with ⟨_, h2⟩ | ⟨_, h2⟩
  · rw [h2]; exact hf
  · exact h.2 k rk h2

theorem NodupInv.nodup_prim {v v1 : Values} (hp : Prim v v1) (hfr : FreshInv v)
    (h : NodupInv v) : NodupInv v1 := by
  cases hp with
  | lookup env =>
    refine ⟨by rw [(lookupEnv_step v env).validEnvs]; exact h.1, ?_⟩
    intro k rk hk
    rcases lookupEnv_bound_inv hk with h1 | ⟨_, _, h3⟩
    · exact h.2 k rk h1
    · rw [h3, newGroup_included]; exact List.nodup_nil
  | mark env r hb hs => exact NodupInv.nodup_modify _ hb (h.2 env r hb) h
  | leaf env r hb hs _ => exact NodupInv.nodup_modify _ hb (List.nodup_singleton env) h
  | append env r d sub rs hb hs _ _ _ _ _ _ =>
    exact NodupInv.nodup_modify _ hb (appendNew_nodup _ _ (h.2 env r hb)) h
  | negate env r d hb hs hd hneg _ _ =>
    refine NodupInv.nodup_modify _ hb ?_ h
    simp only [finalize_included]
    rw [(hfr env r hb).2 hs d hd hneg, List.nil_append]
    exact h.1.filter _
  | finish env r hb hs _ _ _ =>
    refine NodupInv.nodup_modify _ hb ?_ h
    simp only [finalize_included]
    exact h.2 env r hb

theorem ResolvedLeaf.leaf_after {v v1 : Values} {t : String} (h : ResolvedLeaf v t)
    (hp : Prim v v1) : ResolvedLeaf v1 t := by
  obtain ⟨hl, rt, hb, he, hi, hs⟩ := h
  exact ⟨by rw [hp.frame.1]; exact hl, rt, hp.keeps_resolved hb hs, he, hi, hs⟩

/-- A write to a group that is being resolved keeps the invariant when every
new element of its included list is a resolved env without definition. -/
theorem TokInv.tok_modify {v : Values} {env : String} {r : resolvedEnvGroup}
    (f : resolvedEnvGroup → resolvedEnvGroup) (hb : Bound v env r)
    (hp : Prim v (v.modifyRes env f))
    (hf : ∀ t ∈ (f r).included, ResolvedLeaf (v.modifyRes env f) t ∨
      (t = env ∧ mapGet v.envs env = none ∧ (f r).state = .resolvingState))
    (h : TokInv v) : TokInv (v.modifyRes env f) := by
  refine ⟨fun t ht => (h.1 t ht).leaf_after hp, ?_⟩
  intro k rk hk t ht
  rcases modifyRes_bound_cases f hb hk with ⟨h1, h2⟩ | ⟨_, h2⟩
  · rw [h2] at ht
    rw [h1, h2]
    exact hf t ht
  · rcases h.2 k rk h2 t ht with h3 | h3
    · exact Or.inl (h3.leaf_after hp)
    · exact Or.inr h3

theorem TokInv.tok_prim {v v1 : Values} (hp : Prim v v1) (herr : ErrInv v) (h : TokInv v) :
    TokInv v1 := by
  have hp0 := hp
  cases hp with
  | lookup env =>
    have hs := lookupEnv_step v env
    refine ⟨fun t ht => (h.1 t (by rw [hs.validEnvs] at ht; exact ht)).leaf_after hp0, ?_⟩
    intro k rk hk t ht
    rcases lookupEnv_bound_inv hk with h1 | ⟨_, _, h3⟩
    · rcases h.2 k rk h1 t ht with h4 | h4
      · exact Or.inl (h4.leaf_after hp0)
      · rw [hs.envs]; exact Or.inr h4
    · rw [h3, newGroup_included] at ht
      simp at ht
  | mark env r hb hs =>
    refine TokInv.tok_modify _ hb hp0 ?_ h
    intro t ht
    rcases h.2 env r hb t ht with h4 | ⟨_, _, h5⟩
    · exact Or.inl (h4.leaf_after hp0)
    · rw [hs] at h5; simp at h5
  | leaf env r hb hs hl =>
    refine TokInv.tok_modify _ hb hp0 ?_ h
    intro t ht
    simp only [List.mem_singleton] at ht
    exact Or.inr ⟨ht, hl, hs⟩
  | append env r d sub rs hb hs hd _ _ hbs hss _ =>
    refine TokInv.tok_modify _ hb hp0 ?_ h
    intro t ht
    rcases (mem_appendNew t _ _).1 ht with h1 | h1
    · rcases h.2 env r hb t h1 with h4 | ⟨_, h5, _⟩
      · exact Or.inl (h4.leaf_after hp0)
      · rw [hd] at h5; simp at h5
    · rcases h.2 sub rs hbs t h1 with h4 | ⟨_, _, h5⟩
      · exact Or.inl (h4.leaf_after hp0)
      · rw [hss] at h5; simp at h5
  | negate env r d hb hs hd _ _ _ =>
    refine TokInv.tok_modify _ hb hp0 ?_ h
    intro t ht
    simp only [finalize_included, List.mem_append, List.mem_filter] at ht
    rcases ht with h1 | h1
    · rcases h.2 env r hb t h1 with h4 | ⟨_, h5, _⟩
      · exact Or.inl (h4.leaf_after hp0)
      · rw [hd] at h5; simp at h5
    · exact Or.inl ((h.1 t h1.1).leaf_after hp0)
  | finish env r hb hs _ hl _ =>
    refine TokInv.tok_modify _ hb hp0 ?_ h
    intro t ht
    simp only [finalize_included] at ht
    rcases h.2 env r hb t ht with h4 | ⟨h5, h6, _⟩
    · exact Or.inl (h4.leaf_after hp0)
    · left
      rw [h5]
      refine ⟨h6, _, modifyRes_bound_self _ hb, ?_, ?_, rfl⟩
      · simp only [finalize_err]
        exact herr.no_err hb (by rw [hs]; simp)
      · simp only [finalize_included]
        exact hl h6

theorem ItemInv.item_modify {v : Values} {env : String} {r : resolvedEnvGroup}
    (f : resolvedEnvGroup → resolvedEnvGroup) (hb : Bound v env r)
    (hf : ∀ d, mapGet v.envs env = some d → ∀ t ∈ (f r).included, IsItem v.envs t)
    (h : ItemInv v) : ItemInv (v.modifyRes env f) := by
  refine ⟨h.1, ?_⟩
  intro k rk d hk hd t ht
  rcases modifyRes_bound_cases f hb hk with ⟨h1, h2⟩ | ⟨_, h2⟩
  · rw [h2] at ht
    rw [h1] at hd
    exact hf d hd t ht
  · exact h.2 k rk d h2 hd t ht

theorem ItemInv.item_prim {v v1 : Values} (hp : Prim v v1) (hleaf : LeafInv v) (h : ItemInv v) :
    ItemInv v1 := by
  cases hp with
  | lookup env =>
    have hs := lookupEnv_step v env
    refine ⟨fun t ht => ?_, ?_⟩
    · rw [hs.validEnvs] at ht
      rw [hs.envs]
      exact h.1 t ht
    · intro k rk d hk hd t ht
      rw [hs.envs] at hd ⊢
      rcases lookupEnv_bound_inv hk with h1 | ⟨_, _, h3⟩
      · exact h.2 k rk d h1 hd t ht
      · rw [h3, newGroup_included] at ht
        simp at ht
  | mark env r hb hs => exact ItemInv.item_modify _ hb (fun d hd t ht => h.2 env r d hb hd t ht) h
  | leaf env r hb hs hl =>
    refine ItemInv.item_modify _ hb ?_ h
    intro d hd
    rw [hl] at hd
    simp at hd
  | append env r d sub rs hb hs hd _ hsub hbs hss hes =>
    refine ItemInv.item_modify _ hb ?_ h
    intro d1 hd1 t ht
    rcases (mem_appendNew t _ _).1 ht with h1 | h1
    · exact h.2 env r d1 hb hd1 t h1
    · cases hds : mapGet v.envs sub with
      | some ds => exact h.2 sub rs ds hbs hds t h1
      | none =>
        rw [hleaf sub rs hbs hss hes hds] at h1
        simp only [List.mem_singleton] at h1
        rw [h1]
        exact ⟨env, d, hd, hsub⟩
  | negate env r d hb hs hd _ _ _ =>
    refine ItemInv.item_modify _ hb ?_ h
    intro d1 hd1 t ht
    simp only [finalize_included, List.mem_append, List.mem_filter] at ht
    rcases ht with h1 | h1
    · exact h.2 env r d1 hb hd1 t h1
    · exact h.1 t h1.1
  | finish env r hb hs _ _ _ =>
    refine ItemInv.item_modify _ hb ?_ h
    intro d1 hd1 t ht
    simp only [finalize_included] at ht
    exact h.2 env r d1 hb hd1 t ht

theorem MatchInv.match_modify {v : Values} {env : String} {r : resolvedEnvGroup}
    (f : resolvedEnvGroup → resolvedEnvGroup) (hb : Bound v env r)
    (hf : (f r).err = r.err) (h : MatchInv v) : MatchInv (v.modifyRes env f) := by
  intro hv t rt hk hl he
  rcases modifyRes_bound_cases f hb hk with ⟨h1, h2⟩ | ⟨_, h2⟩
  · rw [h2, hf] at he
    rw [h1] at hl ⊢
    exact h hv env r hb hl he
  · exact h hv t rt h2 hl he

theorem MatchInv.match_prim {v v1 : Values} (hp : Prim v v1) (h : MatchInv v) : MatchInv v1 := by
  cases hp with
  | lookup env =>
    have hs := lookupEnv_step v env
    intro hv t rt hk hl he
    rw [hs.validEnvs] at hv ⊢
    rw [hs.envs] at hl
    rcases lookupEnv_bound_inv hk with h1 | ⟨h2, _, h3⟩
    · exact h hv t rt h1 hl he
    · right
      rw [h3] at he
      rw [h2] at hl ⊢
      unfold Values.newGroup at he
      simp only [hl, Option.isNone_none, ↓reduceIte, hv, Bool.false_eq_true] at he
      intro hfm
      rw [if_pos hfm] at he
      simp at he
  | mark env r hb hs => exact MatchInv.match_modify _ hb rfl h
  | leaf env r hb hs _ => exact MatchInv.match_modify _ hb rfl h
  | append env r d sub rs hb hs _ _ _ _ _ _ => exact MatchInv.match_modify _ hb rfl h
  | negate env r d hb hs _ _ _ _ => exact MatchInv.match_modify _ hb (by simp [finalize_err]) h
  | finish env r hb hs _ _ _ => exact MatchInv.match_modify _ hb (by simp [finalize_err]) h

/-! ## The first resolution of `@all` -/

/-- The item loop of a plain group while `validEnvs` is not set: the included
list of the group grows, and it takes in every env without definition that
the loop stores without error. -/
theorem resolveIncluded_up {self : Values → String → ResolveResult} (hself : ResolveSpec self)
    (hup : UpSpec self) {env : String} {d : envGroup} :
    ∀ (items : List String) (v v2 : Values) (r : resolvedEnvGroup),
      v.validEnvs.isEmpty = true → mapGet v.envs env = some d →
      Bound v env r → r.state = .resolvingState →
      resolveIncluded self env items v = some (v2, none) →
      ∃ r2, Bound v2 env r2 ∧ v2.envs = v.envs ∧ (∀ t ∈ r.included, t ∈ r2.included) ∧
        ∀ t rt, Bound v2 t rt → mapGet v2.envs t = none → rt.err = none →
          (∃ rt0, Bound v t rt0 ∧ rt0.err = none) ∨ t ∈ r2.included := by
  intro items
  induction items with
  | nil =>
    intro v v2 r _ _ hb _ h
    simp only [resolveIncluded, Option.some.injEq, Prod.mk.injEq] at h
    rw [← h.1]
    exact ⟨r, hb, rfl, fun t ht => ht, fun t rt hk _ he => Or.inl ⟨rt, hk, he⟩⟩
  | cons sub items ih =>
    intro v v2 r hv hd hb hs h
    unfold resolveIncluded at h
    cases hcall : self v sub with
    | none => rw [hcall] at h; simp at h
    | some p =>
      obtain ⟨v1, res⟩ := p
      rw [hcall] at h
      cases res with
      | error e => simp at h
      | ok subres =>
        simp only at h
        obtain ⟨hstep, _⟩ := hself v sub v1 (.ok subres) hcall
        have hb1 : Bound v1 env r := hstep.stable hb (by rw [hs]; simp)
        have hb1m := modifyRes_bound_self
          (fun r => { r with included := appendNew r.included subres.included }) hb1
        obtain ⟨r2, hb2, henv2, hsub2, hall2⟩ := ih _ v2 _
          (by rw [← hv]; exact congrArg List.isEmpty hstep.validEnvs)
          (by rw [← hd]; exact congrArg (fun e => mapGet e env) hstep.envs)
          hb1m hs h
        have henv1 : v2.envs = v1.envs := henv2
        refine ⟨r2, hb2, henv1.trans hstep.envs, ?_, ?_⟩
        · intro t ht
          exact hsub2 t ((mem_appendNew t _ _).2 (Or.inl ht))
        · intro t rt hk hl he
          rcases hall2 t rt hk hl he with ⟨rt0, hk0, he0⟩ | hin
          · have hl1 : mapGet v1.envs t = none := by rw [← henv1]; exact hl
            have hl0 : mapGet v.envs t = none := by
              rw [← hstep.envs]; exact hl1
            have hne : t ≠ env := by
              intro heq
              rw [heq, hd] at hl0
              simp at hl0
            have hk1 : Bound v1 t rt0 := (modifyRes_bound_ne _ hne rt0).1 hk0
            rcases hup v sub v1 subres hcall hv t rt0 hk1 hl1 he0 with hold | hnew
            · exact Or.inl hold
            · exact Or.inr (hsub2 t ((mem_appendNew t _ _).2 (Or.inr hnew)))
          · exact Or.inr hin

theorem resolveEnvAux_up : ∀ fuel, UpSpec (resolveEnvAux fuel) := by
  intro fuel
  induction fuel with
  | zero => intro vals env vals1 g h; simp [resolveEnvAux] at h
  | succ fuel ih =>
    intro vals env vals1 g h hv t rt hk hl he
    obtain ⟨hb0, _⟩ := lookupEnv_bound vals env
    have hs0 := lookupEnv_step vals env
    have hlk : ∀ k rk, Bound (vals.lookupEnv env).1 k rk → Bound vals k rk ∨ k = env :=
      fun k rk hk => (lookupEnv_bound_inv hk).imp id (fun h => h.1)
    have hnew : ∀ rk, Bound (vals.lookupEnv env).1 env rk → rk.state = .resolvedState →
        rk.err = none → Bound vals env rk := by
      intro rk hk1 hs1 he1
      rcases lookupEnv_bound_inv hk1 with h1 | ⟨_, _, h3⟩
      · exact h1
      · rw [h3] at hs1 he1
        exact absurd he1 (newGroup_resolved hs1)
    unfold resolveEnvAux at h
    simp only at h
    generalize (vals.lookupEnv env).1 = a at h hb0 hs0 hlk hnew
    generalize (vals.lookupEnv env).2.1 = r0 at h hb0
    have hva : a.validEnvs.isEmpty = true := by rw [hs0.validEnvs]; exact hv
    by_cases hres : r0.state = .resolvedState
    · rw [if_pos hres] at h
      split at h
      · simp at h
      · next herr =>
        simp only [Option.some.injEq, Prod.mk.injEq, Except.ok.injEq] at h
        rw [← h.1] at hk
        rcases hlk t rt hk with h1 | h1
        · exact Or.inl ⟨rt, h1, he⟩
        · left
          rw [h1] at hk ⊢
          unfold Bound at hk hb0
          rw [hb0] at hk
          simp only [Option.some.injEq] at hk
          rw [← hk] at he
          exact ⟨r0, hnew r0 hb0 hres herr, herr⟩
    · rw [if_neg hres] at h
      by_cases hing : r0.state = .resolvingState
      · rw [if_pos hing] at h
        simp at h
      · rw [if_neg hing] at h
        have h0 : r0.state = .mentionedState := by
          cases hst : r0.state <;> simp_all
        have hs1 : Step a (a.modifyRes env (fun r => { r with state := .resolvingState })) :=
          Step.modify _ (Step.refl a) hb0 h0 hb0 (by simp) rfl rfl (by simp)
        have hb1 := modifyRes_bound_self (fun r => { r with state := .resolvingState }) hb0
        have hback : ∀ k rk, k ≠ env →
            Bound (a.modifyRes env (fun r => { r with state := .resolvingState })) k rk →
            Bound vals k rk := by
          intro k rk hne hk1
          rcases hlk k rk ((modifyRes_bound_ne _ hne rk).1 hk1) with h1 | h1
          · exact h1
          · exact absurd h1 hne
        generalize a.modifyRes env (fun r => { r with state := .resolvingState }) = v1
          at h hs1 hb1 hback
        have hv1 : v1.validEnvs.isEmpty = true := by rw [hs1.validEnvs]; exact hva
        split at h
        · -- no definition
          have hs2 : Step a (v1.modifyRes env (fun r => { r with included := [env] })) :=
            Step.modify _ hs1 hb0 h0 hb1 (by simp) rfl rfl (by simp)
          have hb2 := modifyRes_bound_self (fun r => { r with included := [env] }) hb1
          obtain ⟨_, _, h7⟩ := finishResolve_step h hs2 hb0 h0 hb2
          have hfin := finishResolve_eq h
          by_cases hte : t = env
          · right
            rw [(h7 g rfl).1, hte]
            simp [finalize_included]
          · left
            rw [hfin] at hk
            have hk2 := (modifyRes_bound_ne _ hte rt).1 ((modifyRes_bound_ne _ hte rt).1 hk)
            exact ⟨rt, hback t rt hte hk2, he⟩
        · next definition hdef =>
          by_cases hneg : definition.Negated = true
          · -- negated group
            rw [if_pos hneg, if_pos hv1] at h
            simp at h
          · -- plain group
            rw [if_neg hneg] at h
            split at h
            · simp at h
            · simp at h
            · next v2 hloop =>
              obtain ⟨r2, hb2, henv2, _, hall2⟩ := resolveIncluded_up (resolveEnvAux_spec fuel) ih
                _ _ _ _ hv1 hdef hb1 rfl hloop
              obtain ⟨h3, r3, hb3, _⟩ := resolveIncluded_step (resolveEnvAux_spec fuel) hb0 h0
                _ _ _ _ hs1 ⟨_, hb1, rfl⟩ hloop
              obtain ⟨_, _, h7⟩ := finishResolve_step h h3 hb0 h0 hb2
              have hfin := finishResolve_eq h
              have hl2 : mapGet v2.envs t = none := by rw [hfin] at hl; exact hl
              have hte : t ≠ env := by
                intro heq
                rw [henv2, heq, hdef] at hl2
                simp at hl2
              rw [hfin] at hk
              have hk2 := (modifyRes_bound_ne _ hte rt).1 hk
              rcases hall2 t rt hk2 hl2 he with ⟨rt0, hk0, he0⟩ | hin
              · exact Or.inl ⟨rt0, hback t rt0 hte hk0, he0⟩
              · right
                rw [(h7 g rfl).1]
                simp only [finalize_included]
                exact hin

/-- The first resolution of `@all` by `rebuild`, from an instance without
stored groups: every env without definition that is stored without error is
in the included list of `@all`. -/
theorem resolveEnv_up {vals v1 : Values} {env : String} {g : resolvedEnvGroup}
    (h : vals.resolveEnv env = (v1, .ok g)) (hv : vals.validEnvs.isEmpty = true)
    (hnil : vals.resolvedEnvs = []) :
    ∀ t rt, Bound v1 t rt → mapGet v1.envs t = none → rt.err = none → t ∈ g.included := by
  intro t rt hk hl he
  unfold Values.resolveEnv at h
  cases hc : resolveEnvAux (resolveFuel vals) vals env with
  | none => rw [hc] at h; simp at h
  | some p =>
    rw [hc] at h
    simp only [Option.getD_some] at h
    rw [h] at hc
    rcases resolveEnvAux_up _ vals env v1 g hc hv t rt hk hl he with ⟨rt0, hk0, _⟩ | hin
    · unfold Bound at hk0
      rw [hnil] at hk0
      simp [mapGet] at hk0
    · exact hin

/-! ## The invariants after `ParseString` -/

theorem Good.good_prim {v v1 : Values} (hp : Prim v v1) (h : Good v) : Good v1 where
  err := h.err.err_prim hp
  fresh := h.fresh.fresh_prim hp
  nodup := h.nodup.nodup_prim hp h.fresh
  tok := h.tok.tok_prim hp h.err
  item := h.item.item_prim hp h.leaf
  leaf := h.leaf.leaf_prim hp
  matched := h.matched.match_prim hp

theorem Good.of_nil {v : Values} (hnil : v.resolvedEnvs = []) (hv : v.validEnvs = []) :
    Good v := by
  have hno : ∀ k r, ¬ Bound v k r := by
    intro k r hb
    unfold Bound at hb
    rw [hnil] at hb
    simp [mapGet] at hb
  refine ⟨?_, ?_, ?_, ?_, ?_, ?_, ?_⟩
  · intro k r hb; exact absurd hb (hno k r)
  · intro k r hb; exact absurd hb (hno k r)
  · exact ⟨by rw [hv]; exact List.nodup_nil, fun k r hb => absurd hb (hno k r)⟩
  · exact ⟨fun t ht => by rw [hv] at ht; simp at ht, fun k r hb => absurd hb (hno k r)⟩
  · exact ⟨fun t ht => by rw [hv] at ht; simp at ht, fun k r d hb => absurd hb (hno k r)⟩
  · intro k r hb; exact absurd hb (hno k r)
  · intro hne; rw [hv] at hne; simp at hne

/-- The assignment of `validEnvs` in `rebuild` keeps the invariants, given
what the first resolution of `@all` has established. -/
theorem Good.setValid {v1 : Values} {valid : resolvedEnvGroup} {d : envGroup} (h : Good v1)
    (hb : Bound v1 All valid) (hs : valid.state = .resolvedState)
    (hd : mapGet v1.envs All = some d)
    (hup : ∀ t rt, Bound v1 t rt → mapGet v1.envs t = none → rt.err = none →
      t ∈ valid.included) :
    Good (v1.setValidEnvs valid.included) where
  err := h.err
  fresh := h.fresh
  nodup := ⟨h.nodup.2 All valid hb, h.nodup.2⟩
  tok := by
    refine ⟨?_, h.tok.2⟩
    intro t ht
    rcases h.tok.2 All valid hb t ht with h1 | ⟨_, _, h3⟩
    · exact h1
    · rw [hs] at h3; simp at h3
  item := ⟨fun t ht => h.item.2 All valid d hb hd t ht, h.item.2⟩
  leaf := h.leaf
  matched := fun _ t rt hk hl he => Or.inl (hup t rt hk hl he)

/-- After `rebuild` on an instance without stored groups the invariants
hold. -/
theorem Good.good_rebuild {vals : Values} (hnil : vals.resolvedEnvs = []) :
    Good vals.rebuild.1 := by
  apply rebuild_invariant_from (I := Good) (fun _ _ hp h => Good.good_prim hp h)
  · intro v h
    exact ⟨h.err, h.fresh, h.nodup, h.tok, h.item, h.leaf, h.matched⟩
  · intro v1 valid hall hr h
    obtain ⟨hb, hs, _⟩ := resolveEnv_ok hr
    have hstep := resolveEnv_step vals.resetForRebuild All
    rw [hr] at hstep
    have henvs : v1.envs = vals.envs := hstep.envs
    cases hd : mapGet vals.envs All with
    | none => rw [hd] at hall; simp at hall
    | some d =>
      refine h.setValid hb hs (by rw [henvs]; exact hd) ?_
      exact resolveEnv_up hr rfl (by
        show resetStates vals.resolvedEnvs = []
        rw [hnil]; rfl)
  · exact Good.of_nil (by
      show resetStates vals.resolvedEnvs = []
      rw [hnil]; rfl) rfl

theorem Good.good_parse {x : Extern} {data : String} {vals : Values}
    (h : ParseString x data = (vals, none)) : Good vals := by
  obtain ⟨m, _, hm⟩ := parseString_ok h
  obtain ⟨v0, hl, hr⟩ := parseMap_ok hm
  have hnil : v0.resolvedEnvs = [] := by
    have := parseLines_resolvedEnvs x m New
    rw [hl] at this
    exact this
  have := Good.good_rebuild hnil
  rw [hr] at this
  exact this

theorem parseEnvGroup_items {name str : String} {g : envGroup}
    (h : parseEnvGroup name str = .ok g) : ∀ i ∈ g.Items, IsValidEnvNameWildcard i = true := by
  unfold parseEnvGroup at h
  split at h
  · simp at h
  · cases hl : parseEnvList str with
    | error err => rw [hl] at h; simp at h
    | ok p =>
      obtain ⟨negated, items⟩ := p
      rw [hl] at h
      simp only [Except.ok.injEq] at h
      rw [← h]
      simp only
      unfold parseEnvList at hl
      simp only at hl
      split at hl
      · simp at hl
      · next hfind =>
        simp only [Except.ok.injEq, Prod.mk.injEq] at hl
        rw [← hl.2]
        intro i hi
        have := List.find?_eq_none.1 hfind i hi
        simpa using this

theorem parseLine_itemsValid {x : Extern} {vals vals1 : Values} {lhs rhs : String}
    (h : parseLine x vals lhs rhs = .ok vals1) (hv : ItemsValid vals) : ItemsValid vals1 := by
  unfold parseLine at h
  cases hcut : CutPrefix lhs "@" with
  | some groupName =>
    rw [hcut] at h
    simp only at h
    cases hg : parseEnvGroup groupName rhs with
    | error err => rw [hg] at h; simp at h
    | ok g =>
      rw [hg] at h
      simp only at h
      split at h
      · simp at h
      · simp only [Except.ok.injEq] at h
        rw [← h]
        intro k d hd i hi
        simp only at hd
        by_cases hk : k = groupName
        · rw [hk, mapGet_mapSet_self] at hd
          simp only [Option.some.injEq] at hd
          rw [← hd] at hi
          exact parseEnvGroup_items hg i hi
        · rw [mapGet_mapSet_ne _ _ _ _ hk] at hd
          exact hv k d hd i hi
  | none =>
    rw [hcut] at h
    simp only at h
    generalize Cut lhs '.' = c at h
    obtain ⟨name, env0, envFound⟩ := c
    simp only at h
    split at h
    · simp at h
    · split at h
      · simp at h
      · split at h
        · simp at h
        · simp only [Except.ok.injEq] at h
          rw [← h]
          exact hv

theorem parseLines_itemsValid (x : Extern) : ∀ (m : List (String × String)) (vals : Values),
    ItemsValid vals → ItemsValid (parseLines x m vals).1 := by
  intro m
  induction m with
  | nil => intro vals h; exact h
  | cons p m ih =>
    intro vals h
    obtain ⟨lhs, rhs⟩ := p
    unfold parseLines
    split
    · exact h
    · next vals1 hp => exact ih vals1 (parseLine_itemsValid hp h)

theorem itemsValid_parse {x : Extern} {data : String} {vals : Values}
    (h : ParseString x data = (vals, none)) : ItemsValid vals := by
  obtain ⟨m, _, hm⟩ := parseString_ok h
  obtain ⟨v0, hl, hr⟩ := parseMap_ok hm
  have h0 : ItemsValid v0 := by
    have := parseLines_itemsValid x m New (by
      intro k d hd
      simp [New, mapGet] at hd)
    rw [hl] at this
    exact this
  intro k d hd
  rw [(rebuild_groups_ok hr).1] at hd
  exact h0 k d hd

/-! ## A valid wildcard matches its own text -/

theorem envNameChar_ne {c d : Char} (h : isEnvNameChar c = true) (hd : isEnvNameChar d = false) :
    c ≠ d := by
  intro hcd
  rw [hcd, hd] at h
  simp at h

theorem scanChunkBody_wild : ∀ (q : List Char), (∀ c ∈ q, WildChar c) →
    scanChunkBody false q =
      (q.takeWhile (fun c => decide (c ≠ '*')), q.dropWhile (fun c => decide (c ≠ '*'))) := by
  intro q
  induction q with
  | nil => intro _; rfl
  | cons c cs ih =>
    intro h
    have hcs : ∀ c ∈ cs, WildChar c := fun c hc => h c (List.mem_cons_of_mem _ hc)
    by_cases hc : c = '*'
    · subst hc
      unfold scanChunkBody
      simp
    · have he : isEnvNameChar c = true := (h c (List.mem_cons_self _ _)).resolve_left hc
      have h1 : c ≠ '\\' := envNameChar_ne he (by decide)
      have h2 : c ≠ '[' := envNameChar_ne he (by decide)
      have h3 : c ≠ ']' := envNameChar_ne he (by decide)
      unfold scanChunkBody
      rw [if_neg h1, if_neg h2, if_neg h3, if_neg hc]
      simp only [ih hcs]
      simp [List.takeWhile_cons, List.dropWhile_cons, hc]

theorem matchChunk_append {chunk : List Char} (h : ∀ c ∈ chunk, PlainChar c) (rest : List Char) :
    matchChunk chunk (chunk ++ rest) = some (some rest) := by
  unfold matchChunk
  rw [matchChunkLoop_plain chunk _ _ h (le_refl _)]
  have hp : chunk.isPrefixOf (chunk ++ rest) = true :=
    List.isPrefixOf_iff_prefix.2 (List.prefix_append _ _)
  rw [if_pos hp]
  simp

theorem matchChunk_star_head {chunk : List Char} (h : ∀ c ∈ chunk, PlainChar c)
    (hne : chunk ≠ []) (s : List Char) : matchChunk chunk ('*' :: s) = some none := by
  unfold matchChunk
  rw [matchChunkLoop_plain chunk _ _ h (le_refl _)]
  cases chunk with
  | nil => exact absurd rfl hne
  | cons c cs =>
    have hc : c ≠ '*' := (h c (List.mem_cons_self _ _)).1
    have hp : (c :: cs).isPrefixOf ('*' :: s) = false := by
      simp [List.isPrefixOf, hc]
    rw [hp]
    simp

/-- The search after a star finds the chunk behind the stars of the name. -/
theorem starSearch_stars {chunk : List Char} (h : ∀ c ∈ chunk, PlainChar c) (hne : chunk ≠ [])
    (rest : List Char) ( last : Bool) (hlast : (last && !rest.isEmpty) = false) :
    ∀ (stars : List Char), stars ≠ [] → (∀ c ∈ stars, c = '*') →
      starSearch chunk last (stars ++ (chunk ++ rest)) = some (some rest) := by
  intro stars
  induction stars with
  | nil => intro hn; exact absurd rfl hn
  | cons c stars ih =>
    intro _ hall
    have hc : c = '*' := hall c (List.mem_cons_self _ _)
    subst hc
    have hs : ∀ c ∈ stars, c = '*' := fun c hc => hall c (List.mem_cons_of_mem _ hc)
    simp only [List.cons_append]
    unfold starSearch
    rw [if_neg (by decide)]
    cases stars with
    | nil =>
      simp only [List.nil_append]
      rw [matchChunk_append h rest]
      simp only [hlast, Bool.false_eq_true, ↓reduceIte]
    | cons c2 stars2 =>
      have hc2 : c2 = '*' := hs c2 (List.mem_cons_self _ _)
      subst hc2
      simp only [List.cons_append]
      rw [matchChunk_star_head h hne]
      simp only
      exact ih (by simp) hs

/-- The first round of `path.Match` on a valid wildcard: the leading stars,
the chunk of plain characters after them, and the rest. -/
theorem wild_decompose (p : List Char) (hv : ∀ c ∈ p, WildChar c) :
    ∃ stars chunk rest, p = stars ++ (chunk ++ rest) ∧ (∀ c ∈ stars, c = '*') ∧
      (∀ c ∈ chunk, PlainChar c) ∧ (∀ c ∈ rest, WildChar c) ∧
      ((scanChunk p).1 = true ↔ stars ≠ []) ∧ (scanChunk p).2.1 = chunk ∧
      (scanChunk p).2.2 = rest ∧ (p ≠ [] → stars = [] → chunk ≠ []) := by
  have hsplit : p = p.takeWhile (fun c => decide (c = '*')) ++
      p.dropWhile (fun c => decide (c = '*')) :=
    (List.takeWhile_append_dropWhile _ p).symm
  have hqv : ∀ c ∈ p.dropWhile (fun c => decide (c = '*')), WildChar c :=
    fun c hc => hv c ((List.dropWhile_suffix _).subset hc)
  have hsplit2 : p.dropWhile (fun c => decide (c = '*')) =
      (p.dropWhile (fun c => decide (c = '*'))).takeWhile (fun c => decide (c ≠ '*')) ++
      (p.dropWhile (fun c => decide (c = '*'))).dropWhile (fun c => decide (c ≠ '*')) :=
    (List.takeWhile_append_dropWhile _ _).symm
  have hsc : scanChunk p = (decide ((p.dropWhile (fun c => decide (c = '*'))).length < p.length),
      (p.dropWhile (fun c => decide (c = '*'))).takeWhile (fun c => decide (c ≠ '*')),
      (p.dropWhile (fun c => decide (c = '*'))).dropWhile (fun c => decide (c ≠ '*'))) := by
    unfold scanChunk
    simp only [scanChunkBody_wild _ hqv]
  generalize hs : p.takeWhile (fun c => decide (c = '*')) = stars at hsplit
  generalize hq : p.dropWhile (fun c => decide (c = '*')) = q at hsplit hqv hsplit2 hsc
  generalize hc : q.takeWhile (fun c => decide (c ≠ '*')) = chunk at hsplit2 hsc
  generalize hr : q.dropWhile (fun c => decide (c ≠ '*')) = rest at hsplit2 hsc
  refine ⟨stars, chunk, rest, by rw [← hsplit2]; exact hsplit, ?_, ?_, ?_, ?_, ?_, ?_, ?_⟩
  · intro c hmem
    rw [← hs] at hmem
    simpa using List.mem_takeWhile_imp hmem
  · intro c hmem
    rw [← hc] at hmem
    have h1 : c ≠ '*' := by simpa using List.mem_takeWhile_imp hmem
    have h2 : c ∈ q := (List.takeWhile_prefix _).subset hmem
    exact plainChar_of_envNameChar ((hqv c h2).resolve_left h1)
  · intro c hmem
    rw [← hr] at hmem
    exact hqv c ((List.dropWhile_suffix _).subset hmem)
  · rw [hsc]
    simp only [decide_eq_true_eq]
    have hlen : p.length = stars.length + q.length := by
      rw [hsplit, List.length_append]
    constructor
    · intro hlt hnil
      rw [hnil] at hlen
      simp at hlen
      omega
    · intro hne
      have : 0 < stars.length := List.length_pos.2 hne
      omega
  · rw [hsc]
  · rw [hsc]
  · intro hpne hnil
    rw [hnil, List.nil_append] at hsplit
    intro hcn
    rw [hcn, List.nil_append] at hsplit2
    cases hp : p with
    | nil => exact hpne hp
    | cons c cs =>
      rw [hp] at hs hq
      by_cases hstar : c = '*'
      · rw [List.takeWhile_cons_of_pos (by simpa using hstar)] at hs
        rw [hnil] at hs
        simp at hs
      · rw [List.dropWhile_cons_of_neg (by simpa using hstar)] at hq
        rw [← hq] at hc
        rw [List.takeWhile_cons_of_pos (by simpa using hstar)] at hc
        rw [hcn] at hc
        simp at hc

theorem wildChar_no_slash {p : List Char} (hv : ∀ c ∈ p, WildChar c) :
    p.contains '/' = false := by
  cases hc : p.contains '/' with
  | false => rfl
  | true =>
    have hm : '/' ∈ p := by simpa using hc
    rcases hv '/' hm with h | h
    · exact absurd h (by decide)
    · revert h; decide

/-- A pattern of stars and env name characters matches its own text. -/
theorem matchLoop_self : ∀ (fuel : Nat) (p : List Char), p.length ≤ fuel →
    (∀ c ∈ p, WildChar c) → matchLoop fuel p p = some true := by
  intro fuel
  induction fuel with
  | zero =>
    intro p hlen _
    have : p = [] := List.length_eq_zero.1 (Nat.le_zero.1 hlen)
    rw [this]
    rfl
  | succ fuel ih =>
    intro p hlen hv
    by_cases hpe : p = []
    · rw [hpe]; rfl
    · obtain ⟨stars, chunk, rest, hp, hstars, hchunk, hrest, hstar, h21, h22, hne⟩ :=
        wild_decompose p hv
      have hpl : p.length = stars.length + (chunk.length + rest.length) := by
        rw [hp]; simp
      have hlast : (rest.isEmpty && !rest.isEmpty) = false := by
        cases rest <;> rfl
      unfold matchLoop
      have hpe2 : p.isEmpty = false := by
        cases p with
        | nil => exact absurd rfl hpe
        | cons _ _ => rfl
      simp only [hpe2, Bool.false_eq_true, ↓reduceIte, h21, h22]
      by_cases hsn : stars = []
      · -- no leading star
        have hst : (scanChunk p).1 = false := by
          cases h : (scanChunk p).1 with
          | false => rfl
          | true => exact absurd hsn (hstar.1 h)
        have hcne := hne hpe hsn
        rw [hst]
        simp only [Bool.false_and, Bool.false_eq_true, ↓reduceIte]
        have hp2 : p = chunk ++ rest := by rw [hp, hsn, List.nil_append]
        have hm : matchChunk chunk p = some (some rest) := by
          rw [hp2]; exact matchChunk_append hchunk rest
        rw [hm]
        simp only
        have hor : (rest.isEmpty || !rest.isEmpty) = true := by cases rest <;> rfl
        rw [if_pos hor]
        apply ih rest _ hrest
        have : 0 < chunk.length := List.length_pos.2 hcne
        omega
      · have hst : (scanChunk p).1 = true := hstar.2 hsn
        rw [hst]
        by_cases hce : chunk = []
        · rw [hce]
          simp only [List.isEmpty_nil, Bool.and_self, ↓reduceIte]
          rw [wildChar_no_slash hv]
          rfl
        · have hce2 : chunk.isEmpty = false := by
            cases chunk with
            | nil => exact absurd rfl hce
            | cons _ _ => rfl
          simp only [hce2, Bool.and_false, Bool.false_eq_true, ↓reduceIte]
          have hsl : 0 < stars.length := List.length_pos.2 hsn
          have hm : matchChunk chunk p = some none := by
            rw [hp]
            cases stars with
            | nil => exact absurd rfl hsn
            | cons c cs =>
              have hc : c = '*' := hstars c (List.mem_cons_self _ _)
              rw [hc, List.cons_append]
              exact matchChunk_star_head hchunk hce _
          have hss : starSearch chunk rest.isEmpty p = some (some rest) := by
            rw [hp]
            exact starSearch_stars hchunk hce rest _ hlast stars hsn hstars
          rw [hm]
          simp only [hss]
          apply ih rest _ hrest
          omega

/-- A valid env name or wildcard matches its own text. -/
theorem matches_self {t : String} (h : IsValidEnvNameWildcard t = true) :
    «matches» t t = true := by
  unfold IsValidEnvNameWildcard at h
  simp only [Bool.and_eq_true, List.all_eq_true, Bool.or_eq_true, decide_eq_true_eq] at h
  unfold «matches» pathMatch
  rw [matchLoop_self _ _ (le_refl _) (fun c hc => h.2 c hc)]
  rfl

theorem validWildcard_ne_empty {t : String} (h : IsValidEnvNameWildcard t = true) : t ≠ "" := by
  intro he
  rw [he] at h
  revert h
  decide

/-- A valid wildcard without a star is a pattern of plain characters. -/
theorem validWildcard_plain {t : String} (h : IsValidEnvNameWildcard t = true)
    (hw : IsWildcard t = false) : ∀ c ∈ t.data, PlainChar c := by
  unfold IsValidEnvNameWildcard at h
  simp only [Bool.and_eq_true, List.all_eq_true, Bool.or_eq_true, decide_eq_true_eq] at h
  unfold IsWildcard at hw
  intro c hc
  have hne : c ≠ '*' := by
    intro heq
    rw [heq] at hc
    have : t.data.contains '*' = true := by simpa using hc
    rw [this] at hw
    simp at hw
  exact plainChar_of_envNameChar ((h.2 c hc).resolve_left hne)

/-! ## Override semantics -/

/-- After a successful `rebuild` the group of `@all` is resolved without
error and `validEnvs` is its included list. -/
theorem rebuild_all_bound {vals0 vals : Values} (h : vals0.rebuild = (vals, none)) :
    ∃ valid, Bound vals All valid ∧ valid.state = .resolvedState ∧ valid.err = none ∧
      vals.validEnvs = valid.included := by
  obtain ⟨v1, valid, v5, _, hr, hg, hre, hvalid, _, _⟩ := rebuild_ok h
  obtain ⟨hb, hs, he⟩ := resolveEnv_ok hr
  have hne : valid.state ≠ .mentionedState := by rw [hs]; simp
  have hb2 : Bound (v1.setValidEnvs valid.included) All valid := hb
  have hb3 := (mentionAll_step (v1.setValidEnvs valid.included)).stable hb2 hne
  have hb4 : Bound ((v1.setValidEnvs valid.included).mentionAll).fillKnownEnvs All valid := hb3
  have hs5 := resolveGroups_step (vals0.envs.map Prod.fst)
    ((v1.setValidEnvs valid.included).mentionAll).fillKnownEnvs
  rw [hg] at hs5
  have hb5 := hs5.stable hb4 hne
  have hs6 := rebuildEntries_step vals0.entries v5
  rw [hre] at hs6
  exact ⟨valid, hs6.stable hb5 hne, hs, he, by rw [hs6.validEnvs, hvalid]⟩

theorem parse_all_bound {x : Extern} {data : String} {vals : Values}
    (h : ParseString x data = (vals, none)) :
    ∃ valid, Bound vals All valid ∧ valid.state = .resolvedState ∧ valid.err = none ∧
      vals.validEnvs = valid.included := by
  obtain ⟨m, _, hm⟩ := parseString_ok h
  obtain ⟨v0, _, hr⟩ := parseMap_ok hm
  exact rebuild_all_bound hr

/-- Among patterns of plain characters `findMatch` finds the candidate itself
or nothing. -/
theorem findMatch_plain : ∀ (pats : List String) (e : String),
    (∀ p ∈ pats, ∀ c ∈ p.data, PlainChar c) →
    findMatch pats e = if e ∈ pats then e else "" := by
  intro pats
  induction pats with
  | nil => intro e _; rfl
  | cons p pats ih =>
    intro e h
    unfold findMatch
    rw [matches_plain (h p (List.mem_cons_self _ _))]
    by_cases hpe : p = e
    · simp [hpe]
    · have hne : e ≠ p := fun h => hpe h.symm
      simp only [hpe, decide_False, Bool.false_eq_true, ↓reduceIte, List.mem_cons, hne,
        false_or]
      exact ih e (fun q hq => h q (List.mem_cons_of_mem _ hq))

theorem replaceStars_id {e : String} (h : IsWildcard e = false) : replaceStars e = e := by
  unfold replaceStars
  unfold IsWildcard at h
  obtain ⟨d⟩ := e
  simp only at h ⊢
  congr 1
  induction d with
  | nil => rfl
  | cons c cs ih =>
    have hc : c ≠ '*' := by
      intro heq
      rw [heq] at h
      simp at h
    have hcs : cs.contains '*' = false := by
      cases hh : cs.contains '*' with
      | false => rfl
      | true =>
        have hm : '*' ∈ cs := by simpa using hh
        have : (c :: cs).contains '*' = true := by
          simp only [List.contains_eq_any_beq, List.any_eq_true, beq_iff_eq]
          exact ⟨'*', List.mem_cons_of_mem _ hm, rfl⟩
        rw [this] at h
        simp at h
    simp only [List.flatMap_cons, if_neg hc, List.singleton_append]
    rw [ih hcs]

/-- The loop of `pickVariant` picks `b` when every other candidate has a
lower score, or the same score and more included envs. -/
theorem optimal_of_dominates {vals : Values} {g : resolvedEnvGroup} (l1 l2 : List entry)
    {b : entry} (hpos : vals.score g b ≠ 0)
    (hothers : ∀ e1 ∈ l1 ++ l2, vals.score g e1 < vals.score g b ∨
      (vals.score g e1 = vals.score g b ∧ vals.size b < vals.size e1)) :
    vals.optimal g (l1 ++ b :: l2) = [b] := by
  have hmem : ∀ e1 ∈ l1 ++ b :: l2, e1 = b ∨ e1 ∈ l1 ++ l2 := by
    intro e1 h1
    rcases List.mem_append.1 h1 with h | h
    · exact Or.inr (List.mem_append_left _ h)
    · rcases List.mem_cons.1 h with h | h
      · exact Or.inl h
      · exact Or.inr (List.mem_append_right _ h)
  have hbmem : b ∈ l1 ++ b :: l2 := List.mem_append_right _ (List.mem_cons_self _ _)
  apply optimal_single
  · unfold Values.isOptimal
    simp only [Bool.and_eq_true, List.all_eq_true, decide_eq_true_eq, Bool.or_eq_true, ne_eq]
    refine ⟨⟨hpos, ?_⟩, ?_⟩
    · intro e1 h1
      rcases hmem e1 h1 with h | h
      · rw [h]
      · rcases hothers e1 h with h2 | h2
        · exact le_of_lt h2
        · exact le_of_eq h2.1
    · intro e1 h1
      rcases hmem e1 h1 with h | h
      · right; rw [h]
      · rcases hothers e1 h with h2 | h2
        · left; exact ne_of_lt h2
        · right; exact le_of_lt h2.2
  · intro e1 h1
    cases hopt : vals.isOptimal g (l1 ++ b :: l2) e1 with
    | false => rfl
    | true =>
      exfalso
      unfold Values.isOptimal at hopt
      simp only [Bool.and_eq_true, List.all_eq_true, decide_eq_true_eq, Bool.or_eq_true,
        ne_eq] at hopt
      obtain ⟨⟨_, hmax⟩, hmin⟩ := hopt
      have h2 := hmax b hbmem
      have h3 := hmin b hbmem
      rcases hothers e1 h1 with h4 | h4
      · omega
      · rcases h3 with h3 | h3
        · exact h3 h4.1.symm
        · omega

/-- The group that a query for a resolved env without definition finds. -/
theorem token_query {vals : Values} (hfin : FinInv vals) {e : String}
    (h : ResolvedLeaf vals e) :
    ∃ re, Bound vals e re ∧ re.state = .resolvedState ∧ re.err = none ∧ re.included = [e] ∧
      (IsWildcard e = false → re.trivial = e) ∧ (IsWildcard e = true → re.trivial = "") := by
  obtain ⟨_, re, hb, he, hi, hs⟩ := h
  have hfz := hfin e re hb hs
  refine ⟨re, hb, hs, he, hi, fun hw => finalized_trivial_single hfz hi hw, fun hw => ?_⟩
  apply finalized_trivial_other hfz
  intro t ht hwt
  rw [hi] at ht
  simp only [List.cons.injEq, and_true] at ht
  rw [← ht, hw] at hwt
  simp at hwt

theorem score_concrete {vals : Values} {re : resolvedEnvGroup} {e : String}
    (htriv : re.trivial = e) (hne : e ≠ "") (en : entry) :
    vals.score re en = (findMatch (vals.resolvedOf en).included e).length := by
  unfold Values.score
  rw [htriv, if_pos hne]
  rfl

theorem score_wild {vals : Values} {re : resolvedEnvGroup} {e : String}
    (hinc : re.included = [e]) (htriv : re.trivial = "") (en : entry) :
    vals.score re en = if findMatch (vals.resolvedOf en).included e ≠ "" then 1 else 0 := by
  unfold Values.score
  rw [htriv]
  simp only [ne_eq, not_true_eq_false, ↓reduceIte]
  unfold resolvedEnvGroup.Includes resolvedEnvGroup.Match resolvedEnvGroup.FindMatch
  rw [hinc]
  simp only [List.all_cons, List.all_nil, Bool.and_true, ne_eq, decide_not,
    Bool.not_eq_true', decide_eq_false_iff_not, string_length_eq_zero, ite_not]

/-- The score for a query for a resolved env without definition is positive
exactly when an element of the candidate's included list matches the env. -/
theorem score_ne_zero_iff {vals : Values} {re : resolvedEnvGroup} {e : String}
    (hinc : re.included = [e]) (hne : e ≠ "")
    (ht1 : IsWildcard e = false → re.trivial = e) (ht2 : IsWildcard e = true → re.trivial = "")
    (en : entry) :
    vals.score re en ≠ 0 ↔ findMatch (vals.resolvedOf en).included e ≠ "" := by
  cases hw : IsWildcard e with
  | false =>
    rw [score_concrete (ht1 hw) hne, ne_eq, string_length_eq_zero]
  | true =>
    rw [score_wild hinc (ht2 hw)]
    by_cases hm : findMatch (vals.resolvedOf en).included e = ""
    · simp [hm]
    · simp [hm]

theorem validEnvName_wildcard {g : String} (h : IsValidEnvName g = true) :
    IsValidEnvNameWildcard g = true := by
  unfold IsValidEnvName at h
  unfold IsValidEnvNameWildcard
  simp only [Bool.and_eq_true, List.all_eq_true, Bool.or_eq_true, decide_eq_true_eq] at h ⊢
  exact ⟨h.1, fun c hc => Or.inr (h.2 c hc)⟩

/-- The elements of the included list of an entry's group are valid env
names or wildcards. -/
theorem included_valid {vals : Values} (hgood : Good vals) (hitems : ItemsValid vals)
    {g : String} {rg : resolvedEnvGroup} (hg : g = All ∨ IsValidEnvName g = true)
    (hb : Bound vals g rg) (hs : rg.state = .resolvedState) (he : rg.err = none) :
    ∀ t ∈ rg.included, IsValidEnvNameWildcard t = true := by
  intro t ht
  cases hd : mapGet vals.envs g with
  | some d =>
    obtain ⟨k, d1, hd1, hmem⟩ := hgood.item.2 g rg d hb hd t ht
    exact hitems k d1 hd1 t hmem
  | none =>
    rw [hgood.leaf g rg hb hs he hd] at ht
    simp only [List.mem_singleton] at ht
    rw [ht]
    apply validEnvName_wildcard
    rcases hg with h | h
    · rw [h]; decide
    · exact h

theorem validEnvs_valid {vals : Values} (hgood : Good vals) (hitems : ItemsValid vals) :
    ∀ t ∈ vals.validEnvs, IsValidEnvNameWildcard t = true := by
  intro t ht
  obtain ⟨k, d1, hd1, hmem⟩ := hgood.item.1 t ht
  exact hitems k d1 hd1 t hmem

/-- The elements of the included list of a resolved group are resolved envs
without definition. -/
theorem included_resolved {vals : Values} (hgood : Good vals) {g : String}
    {rg : resolvedEnvGroup} (hb : Bound vals g rg) (hs : rg.state = .resolvedState) :
    ∀ t ∈ rg.included, ResolvedLeaf vals t := by
  intro t ht
  rcases hgood.tok.2 g rg hb t ht with h | ⟨_, _, h⟩
  · exact h
  · rw [hs] at h; simp at h

/-- With `validEnvs` set and free of wildcards, every resolved env without
definition is one of `validEnvs`. -/
theorem resolvedLeaf_valid {vals : Values} (hgood : Good vals) (hitems : ItemsValid vals)
    (hne : vals.validEnvs.isEmpty = false) (hconc : ∀ t ∈ vals.validEnvs, IsWildcard t = false)
    {t : String} (h : ResolvedLeaf vals t) : t ∈ vals.validEnvs := by
  obtain ⟨hl, rt, hb, he, _, _⟩ := h
  rcases hgood.matched hne t rt hb hl he with h1 | h1
  · exact h1
  · have hplain : ∀ p ∈ vals.validEnvs, ∀ c ∈ p.data, PlainChar c :=
      fun p hp => validWildcard_plain (validEnvs_valid hgood hitems p hp) (hconc p hp)
    rw [findMatch_plain _ _ hplain] at h1
    by_cases hm : t ∈ vals.validEnvs
    · exact hm
    · rw [if_neg hm] at h1
      exact absurd rfl h1

theorem Bound.unique {v : Values} {k : String} {r1 r2 : resolvedEnvGroup}
    (h1 : Bound v k r1) (h2 : Bound v k r2) : r1 = r2 := by
  unfold Bound at h1 h2
  rw [h1] at h2
  exact Option.some.inj h2

/-- Of two candidates, `Value` returns the one with the higher score, or with
the same score and fewer included envs. -/
theorem pair_pick {x : Extern} {vals : Values} {N e : String} {entries : List entry}
    {a b : entry} {re : resolvedEnvGroup} (keyring : Keyring)
    (hb : Bound vals e re) (hs : re.state = .resolvedState) (he : re.err = none)
    (hmap : mapGet vals.entries N = some entries)
    (hent : entries = [a, b] ∨ entries = [b, a])
    (hpos : vals.score re b ≠ 0)
    (hdom : vals.score re a < vals.score re b ∨
      (vals.score re a = vals.score re b ∧ vals.size b < vals.size a)) :
    vals.Value x N e keyring = (vals, valueOf x N b keyring) := by
  have hopt : vals.optimal re entries = [b] := by
    rcases hent with h | h
    · rw [h]
      exact optimal_of_dominates [a] [] hpos (fun e1 h1 => by
        simp only [List.append_nil, List.mem_singleton] at h1
        rw [h1]; exact hdom)
    · rw [h]
      exact optimal_of_dominates [] [a] hpos (fun e1 h1 => by
        simp only [List.nil_append, List.mem_singleton] at h1
        rw [h1]; exact hdom)
  have hspec := (pickResult_spec vals re N e entries).2.1 b hopt
  have hpick : pickResult N e (entries.foldl (vals.pickStep re) pickInit) = (some b, none) :=
    Prod.ext hspec.1 hspec.2
  have hpv : vals.pickVariant N e entries = (vals, some b, none) := by
    rw [pickVariant_of_resolved _ hb hs he, hpick]
  exact value_of_pick keyring hb he hmap hpv

/-- Two candidates with the same positive score and as many included envs are
a conflict. -/
theorem pair_tie {vals : Values} {N e : String} {entries : List entry} {a b : entry}
    {re : resolvedEnvGroup} (hent : entries = [a, b] ∨ entries = [b, a])
    (hpos : vals.score re a ≠ 0) (hsc : vals.score re a = vals.score re b)
    (hsz : vals.size a = vals.size b) :
    (pickResult N e (entries.foldl (vals.pickStep re) pickInit)).2 ≠ none := by
  rw [(pickResult_spec vals re N e entries).2.2.1]
  have hmem : ∀ e1 ∈ entries, e1 = a ∨ e1 = b := by
    intro e1 h1
    rcases hent with h | h <;> rw [h] at h1 <;> simp at h1 <;> tauto
  have hall : ∀ c ∈ entries, vals.isOptimal re entries c = true := by
    intro c hc
    unfold Values.isOptimal
    simp only [Bool.and_eq_true, List.all_eq_true, decide_eq_true_eq, Bool.or_eq_true, ne_eq]
    have hcs : vals.score re c = vals.score re a := by
      rcases hmem c hc with h | h <;> rw [h]
      exact hsc.symm
    have hcz : vals.size c = vals.size a := by
      rcases hmem c hc with h | h <;> rw [h]
      exact hsz.symm
    refine ⟨⟨by rw [hcs]; exact hpos, ?_⟩, ?_⟩
    · intro e1 h1
      rcases hmem e1 h1 with h | h <;> rw [h, hcs]
      exact le_of_eq hsc.symm
    · intro e1 h1
      right
      rcases hmem e1 h1 with h | h <;> rw [h, hcz]
      exact le_of_eq hsz
  have hfil : vals.optimal re entries = entries := by
    unfold Values.optimal
    exact List.filter_eq_self.2 hall
  rw [hfil]
  rcases hent with h | h <;> rw [h] <;> simp

theorem valueOf_plain (x : Extern) (N : String) (en : entry) (keyring : Keyring) {v : String}
    (he : en.Encoding = .Plain) (hv : en.PlainValue = v) :
    valueOf x N en keyring = .ok v := by
  unfold valueOf entry.Value
  rw [he]
  simp only [hv]

/-- The two parts of the override semantics, from the invariants of a parsed
instance. -/
theorem override_core {x : Extern} {vals : Values} {N g : String} {entries : List entry}
    {eU eG : entry} {rA rg : resolvedEnvGroup} (keyring : Keyring)
    (hgood : Good vals) (hfin : FinInv vals) (hitems : ItemsValid vals)
    (hbA : Bound vals All rA) (hVA : vals.validEnvs = rA.included)
    (hbg : Bound vals g rg) (hsg : rg.state = .resolvedState) (heg : rg.err = none)
    (hgv : g = All ∨ IsValidEnvName g = true)
    (hconc : ∀ t ∈ vals.validEnvs, IsWildcard t = false)
    (hmap : mapGet vals.entries N = some entries)
    (hent : entries = [eU, eG] ∨ entries = [eG, eU])
    (hU : eU.Env = All) (hG : eG.Env = g)
    (hok : ∀ e ∈ vals.validEnvs, PickOK vals N entries e) :
    (∀ e ∈ rg.included, vals.Value x N e keyring = (vals, valueOf x N eG keyring)) ∧
    (∀ e ∈ vals.validEnvs, e ∉ rg.included →
      vals.Value x N e keyring = (vals, valueOf x N eU keyring)) := by
  have hresU : vals.resolvedOf eU = rA := resolvedOf_of_bound (by rw [hU]; exact hbA)
  have hresG : vals.resolvedOf eG = rg := resolvedOf_of_bound (by rw [hG]; exact hbg)
  have hGvalid := included_valid hgood hitems hgv hbg hsg heg
  have hVvalid := validEnvs_valid hgood hitems
  have hent2 : entries = [eG, eU] ∨ entries = [eU, eG] := hent.symm
  by_cases hVe : vals.validEnvs = []
  · -- `@all` is empty
    refine ⟨?_, fun e he => by rw [hVe] at he; simp at he⟩
    intro e he
    obtain ⟨re, hb, hs, herr, hinc, ht1, ht2⟩ :=
      token_query hfin (included_resolved hgood hbg hsg e he)
    have hne : e ≠ "" := validWildcard_ne_empty (hGvalid e he)
    have hnoempty : "" ∉ rg.included := fun hm => validWildcard_ne_empty (hGvalid "" hm) rfl
    have hsU : vals.score re eU = 0 := by
      by_contra hc
      have := (score_ne_zero_iff hinc hne ht1 ht2 eU).1 hc
      rw [hresU, ← hVA, hVe] at this
      exact this rfl
    have hsG : vals.score re eG ≠ 0 := by
      rw [score_ne_zero_iff hinc hne ht1 ht2 eG, hresG]
      exact (findMatch_ne_empty_iff hnoempty).2 ⟨e, he, matches_self (hGvalid e he)⟩
    exact pair_pick keyring hb hs herr hmap hent hsG
      (Or.inl (by rw [hsU]; exact Nat.pos_of_ne_zero hsG))
  · -- `@all` lists concrete envs
    have hne : vals.validEnvs.isEmpty = false := by
      cases hv : vals.validEnvs with
      | nil => exact absurd hv hVe
      | cons _ _ => rfl
    have hplainV : ∀ p ∈ vals.validEnvs, ∀ c ∈ p.data, PlainChar c :=
      fun p hp => validWildcard_plain (hVvalid p hp) (hconc p hp)
    have hsub : ∀ t ∈ rg.included, t ∈ vals.validEnvs :=
      fun t ht => resolvedLeaf_valid hgood hitems hne hconc (included_resolved hgood hbg hsg t ht)
    have hplainG : ∀ p ∈ rg.included, ∀ c ∈ p.data, PlainChar c :=
      fun p hp => hplainV p (hsub p hp)
    have hquery : ∀ e ∈ vals.validEnvs, ∃ re, Bound vals e re ∧ re.state = .resolvedState ∧
        re.err = none ∧ e.length ≠ 0 ∧ vals.score re eU = e.length ∧
        vals.score re eG = (if e ∈ rg.included then e.length else 0) := by
      intro e he
      obtain ⟨re, hb, hs, herr, _, ht1, _⟩ := token_query hfin (hgood.tok.1 e he)
      have hne0 : e ≠ "" := validWildcard_ne_empty (hVvalid e he)
      have htriv := ht1 (hconc e he)
      refine ⟨re, hb, hs, herr, fun h0 => hne0 ((string_length_eq_zero e).1 h0), ?_, ?_⟩
      · rw [score_concrete htriv hne0, hresU, ← hVA, findMatch_plain _ _ hplainV, if_pos he]
      · rw [score_concrete htriv hne0, hresG, findMatch_plain _ _ hplainG]
        by_cases hm : e ∈ rg.included
        · rw [if_pos hm, if_pos hm]
        · rw [if_neg hm, if_neg hm]; rfl
    refine ⟨?_, ?_⟩
    · intro e he
      have heV := hsub e he
      obtain ⟨re, hb, hs, herr, hlen, hsU, hsG⟩ := hquery e heV
      rw [if_pos he] at hsG
      have hzU : vals.size eU = vals.validEnvs.length := by
        unfold Values.size; rw [hresU, hVA]
      have hzG : vals.size eG = rg.included.length := by
        unfold Values.size; rw [hresG]
      have hle : rg.included.length ≤ vals.validEnvs.length :=
        (List.subperm_of_subset (hgood.nodup.2 g rg hbg) hsub).length_le
      have hneq : vals.size eU ≠ vals.size eG := by
        intro heq
        obtain ⟨g0, picked, hb0, _, _, _, hpick⟩ := hok e heV
        rw [replaceStars_id (hconc e heV)] at hb0 hpick
        rw [Bound.unique hb0 hb] at hpick
        have := pair_tie (N := N) (e := e) hent (by rw [hsU]; exact hlen)
          (by rw [hsU, hsG]) heq
        rw [hpick] at this
        exact this rfl
      refine pair_pick keyring hb hs herr hmap hent (by rw [hsG]; exact hlen)
        (Or.inr ⟨by rw [hsU, hsG], ?_⟩)
      rw [hzU, hzG] at hneq ⊢
      omega
    · intro e heV he
      obtain ⟨re, hb, hs, herr, hlen, hsU, hsG⟩ := hquery e heV
      rw [if_neg he] at hsG
      exact pair_pick keyring hb hs herr hmap hent2 (by rw [hsU]; exact hlen)
        (Or.inl (by rw [hsU, hsG]; exact Nat.pos_of_ne_zero hlen))

/-! ## `strings.Cut` and `strings.Split` -/

theorem cutChars_some (sep : Char) : ∀ (l a b : List Char), cutChars sep l = some (a, b) →
    l = a ++ sep :: b ∧ sep ∉ a := by
  intro l
  induction l with
  | nil => intro a b h; simp [cutChars] at h
  | cons c cs ih =>
    intro a b h
    unfold cutChars at h
    by_cases hc : c = sep
    · rw [if_pos hc] at h
      simp only [Option.some.injEq, Prod.mk.injEq] at h
      rw [← h.1, ← h.2, hc]
      exact ⟨rfl, by simp⟩
    · rw [if_neg hc] at h
      cases hr : cutChars sep cs with
      | none => rw [hr] at h; simp at h
      | some p =>
        obtain ⟨a1, b1⟩ := p
        rw [hr] at h
        simp only [Option.some.injEq, Prod.mk.injEq] at h
        obtain ⟨h1, h2⟩ := ih a1 b1 hr
        rw [← h.1, ← h.2, h1]
        refine ⟨rfl, ?_⟩
        intro hm
        rcases List.mem_cons.1 hm with h3 | h3
        · exact hc h3.symm
        · exact h2 h3

theorem cutChars_none (sep : Char) : ∀ (l : List Char), cutChars sep l = none → sep ∉ l := by
  intro l
  induction l with
  | nil => intro _; simp
  | cons c cs ih =>
    intro h
    unfold cutChars at h
    by_cases hc : c = sep
    · rw [if_pos hc] at h; simp at h
    · rw [if_neg hc] at h
      cases hr : cutChars sep cs with
      | none =>
        intro hm
        rcases List.mem_cons.1 hm with h3 | h3
        · exact hc h3.symm
        · exact ih hr h3
      | some p => rw [hr] at h; simp at h

theorem cutChars_append (sep : Char) : ∀ (a b : List Char), sep ∉ a →
    cutChars sep (a ++ sep :: b) = some (a, b) := by
  intro a
  induction a with
  | nil => intro b _; simp [cutChars]
  | cons c cs ih =>
    intro b h
    have hc : c ≠ sep := fun hc => h (by rw [hc]; exact List.mem_cons_self _ _)
    have hcs : sep ∉ cs := fun hm => h (List.mem_cons_of_mem _ hm)
    simp only [List.cons_append]
    unfold cutChars
    rw [if_neg hc, ih b hcs]

/-- `Cut` finds the separator exactly when the string contains it, and then
splits at its first occurrence. -/
theorem cut_found {s k p : String} {sep : Char} (h : Cut s sep = (k, p, true)) :
    s = k ++ String.singleton sep ++ p ∧ sep ∉ k.data := by
  unfold Cut at h
  cases hc : cutChars sep s.data with
  | none => rw [hc] at h; simp at h
  | some q =>
    obtain ⟨a, b⟩ := q
    rw [hc] at h
    simp only [Prod.mk.injEq, and_true] at h
    obtain ⟨h1, h2⟩ := cutChars_some sep _ _ _ hc
    rw [← h.1, ← h.2]
    refine ⟨?_, h2⟩
    apply String.ext
    simp only [String.data_append, String.singleton, List.append_assoc]
    rw [h1]
    rfl

theorem cut_not_found {s k p : String} {sep : Char} (h : Cut s sep = (k, p, false)) :
    sep ∉ s.data ∧ k = s ∧ p = "" := by
  unfold Cut at h
  cases hc : cutChars sep s.data with
  | none =>
    rw [hc] at h
    simp only [Prod.mk.injEq, and_true] at h
    exact ⟨cutChars_none sep _ hc, h.1.symm, h.2.symm⟩
  | some q =>
    obtain ⟨a, b⟩ := q
    rw [hc] at h
    simp at h

theorem cut_append {k p : String} {sep : Char} (hk : sep ∉ k.data) :
    Cut (k ++ String.singleton sep ++ p) sep = (k, p, true) := by
  unfold Cut
  have hd : (k ++ String.singleton sep ++ p).data = k.data ++ sep :: p.data := by
    simp [String.data_append, String.singleton]
  rw [hd, cutChars_append sep _ _ hk]

theorem string_append_cancel {p a b : String} (h : p ++ a = p ++ b) : a = b := by
  have := congrArg String.data h
  simp only [String.data_append, List.append_cancel_left_eq] at this
  exact String.ext this

theorem cutPrefix_none {s p : String} (h : CutPrefix s p = none) (rest : String) :
    s ≠ p ++ rest := by
  intro hs
  rw [hs, cutPrefix_append] at h
  simp at h

/-- The pieces of `splitChars` hold no separator, and joined by the separator
they give the text back. -/
theorem splitChars_spec (sep : Char) : ∀ (l : List Char),
    (∀ w ∈ splitChars sep l, sep ∉ w) ∧ l = List.intercalate [sep] (splitChars sep l) ∧
    splitChars sep l ≠ [] := by
  intro l
  induction l with
  | nil => simp [splitChars, List.intercalate]
  | cons c cs ih =>
    obtain ⟨h1, h2, h3⟩ := ih
    unfold splitChars
    by_cases hc : c = sep
    · rw [if_pos hc]
      refine ⟨?_, ?_, by simp⟩
      · intro w hw
        rcases List.mem_cons.1 hw with h | h
        · rw [h]; simp
        · exact h1 w h
      · cases hs : splitChars sep cs with
        | nil => exact absurd hs h3
        | cons w ws =>
          rw [hs] at h2
          rw [h2, hc]
          simp [List.intercalate, List.intersperse]
    · rw [if_neg hc]
      cases hs : splitChars sep cs with
      | nil => exact absurd hs h3
      | cons w ws =>
        rw [hs] at h1 h2
        simp only
        refine ⟨?_, ?_, by simp⟩
        · intro w1 hw1
          rcases List.mem_cons.1 hw1 with h | h
          · rw [h]
            intro hm
            rcases List.mem_cons.1 hm with h4 | h4
            · exact hc h4.symm
            · exact h1 w (List.mem_cons_self _ _) h4
          · exact h1 w1 (List.mem_cons_of_mem _ h)
        · rw [h2]
          cases ws with
          | nil => simp [List.intercalate, List.intersperse]
          | cons w2 ws2 => simp [List.intercalate, List.intersperse]

/-! ## The cases of `parseValue` -/

theorem append_ne_of_head {p q : String} {c d : Char} {p1 q1 : List Char}
    (hp : p.data = c :: p1) (hq : q.data = d :: q1) (hcd : c ≠ d) (a b : String) :
    p ++ a ≠ q ++ b := by
  intro h
  have := congrArg String.data h
  simp only [String.data_append, hp, hq, List.cons_append, List.cons.injEq] at this
  exact hcd this.1

theorem cutPrefix_clash {p q : String} {c d : Char} {p1 q1 : List Char}
    (hp : p.data = c :: p1) (hq : q.data = d :: q1) (hcd : c ≠ d) (a : String) :
    CutPrefix (p ++ a) q = none := by
  cases h : CutPrefix (p ++ a) q with
  | none => rfl
  | some t => exact absurd (cutPrefix_eq h) (append_ne_of_head hp hq hcd a t)

theorem cutPrefix_of_ne {s p : String} (h : ∀ rest, s ≠ p ++ rest) : CutPrefix s p = none := by
  cases hc : CutPrefix s p with
  | none => rfl
  | some t => exact absurd (cutPrefix_eq hc) (h t)

/-- `parseValue` on a text that starts with `enc:`. -/
theorem parseValue_enc (x : Extern) (r : String) (e : entry) :
    parseValue x ("enc:" ++ r) e =
      if (Cut r ':').2.2 = false then
        .error "missing another colon, expected \"enc::<value>\" or \"enc:<keyname>:<value>\""
      else if (Cut r ':').1 ≠ "" ∧ IsValidKeyName (Cut r ':').1 = false then
        .error ("invalid key name " ++ quote (Cut r ':').1 ++ " in \"enc:<keyname>:<value>\"")
      else .ok { e with Encoding := .ToBeEncrypted, PlainValue := (Cut r ':').2.1,
                        KeyName := (Cut r ':').1 } := by
  unfold parseValue
  rw [cutPrefix_append]
  simp only
  generalize Cut r ':' = c
  obtain ⟨k, p, ok⟩ := c
  cases ok <;> simp

/-- `parseValue` on a text that starts with `TODO:`. -/
theorem parseValue_todo (x : Extern) (r : String) (e : entry) :
    parseValue x ("TODO:" ++ r) e = .ok { e with Encoding := .Placeholder, PlainValue := r } := by
  unfold parseValue
  rw [cutPrefix_clash (p := "TODO:") (q := "enc:") rfl rfl (by decide),
    cutPrefix_clash (p := "TODO:") (q := "secret:") rfl rfl (by decide), cutPrefix_append]

/-- `parseValue` on a text without one of the three prefixes. -/
theorem parseValue_other (x : Extern) {s : String} (e : entry)
    (h1 : ∀ rest, s ≠ "enc:" ++ rest) (h2 : ∀ rest, s ≠ "secret:" ++ rest)
    (h3 : ∀ rest, s ≠ "TODO:" ++ rest) :
    parseValue x s e =
      if s = "TODO" then .ok { e with Encoding := .Placeholder }
      else if s = "NONE" ∨ s = "none" then .ok { e with Encoding := .NoValue }
      else .ok { e with Encoding := .Plain, PlainValue := s } := by
  unfold parseValue
  rw [cutPrefix_of_ne h1, cutPrefix_of_ne h2, cutPrefix_of_ne h3]

theorem cutChars_of_not_mem (sep : Char) : ∀ (l : List Char), sep ∉ l → cutChars sep l = none := by
  intro l
  induction l with
  | nil => intro _; rfl
  | cons c cs ih =>
    intro h
    have hc : c ≠ sep := fun hc => h (by rw [hc]; exact List.mem_cons_self _ _)
    have hcs : sep ∉ cs := fun hm => h (List.mem_cons_of_mem _ hm)
    unfold cutChars
    rw [if_neg hc, ih hcs]

theorem cut_of_not_mem {s : String} {sep : Char} (h : sep ∉ s.data) : Cut s sep = (s, "", false) := by
  unfold Cut
  rw [cutChars_of_not_mem sep _ h]

/-- `Split` gives three fields exactly on a text of three fields. -/
theorem split_three {r k n c : String} :
    Split r ':' = [k, n, c] ↔
      r = k ++ ":" ++ n ++ ":" ++ c ∧ ':' ∉ k.data ∧ ':' ∉ n.data ∧ ':' ∉ c.data := by
  constructor
  · intro h
    unfold Split at h
    obtain ⟨h1, h2, _⟩ := splitChars_spec ':' r.data
    have hs : splitChars ':' r.data = [k.data, n.data, c.data] := by
      have := congrArg (List.map String.data) h
      simpa [List.map_map, Function.comp_def] using this
    rw [hs] at h1 h2
    refine ⟨?_, h1 _ (by simp), h1 _ (by simp), h1 _ (by simp)⟩
    apply String.ext
    rw [h2]
    simp [List.intercalate, List.intersperse, String.data_append]
  · rintro ⟨h, hk, hn, hc⟩
    rw [h]
    exact split_wire hk hn hc

/-- `parseValue` on a text that starts with `secret:`. -/
theorem parseValue_secret (x : Extern) (r : String) (e : entry) :
    parseValue x ("secret:" ++ r) e =
      match Split r ':' with
      | [keyName, nonceStr, ciphertextStr] =>
        if !IsValidKeyName keyName then
          .error ("invalid key name " ++ quote keyName ++
            " in \"secret:<keyname>:<nonce>:<ciphertext>\"")
        else
          match x.DecodeString nonceStr with
          | none =>
            .error "invalid nonce in \"secret:<keyname>:<nonce>:<ciphertext>\": illegal base64 data"
          | some nonce =>
            if nonce.length ≠ NonceSize then
              .error ("invalid nonce len in \"secret:<keyname>:<nonce>:<ciphertext>\", got " ++
                Nat.repr nonce.length ++ ", wanted " ++ Nat.repr NonceSize)
            else
              match x.DecodeString ciphertextStr with
              | none =>
                .error
                  "invalid cihertext in \"secret:<keyname>:<nonce>:<ciphertext>\": illegal base64 data"
              | some ciphertext =>
                .ok { e with Encoding := .Encrypted, KeyName := keyName, Nonce := nonce,
                             Ciphertext := ciphertext }
      | _ => .error "invalid secret value, expected \"secret:<keyname>:<nonce>:<ciphertext>\"" := by
  unfold parseValue
  rw [cutPrefix_enc_secret, cutPrefix_append]

theorem parseValue_rest_ok (x : Extern) {s : String} (e : entry)
    (h1 : ∀ rest, s ≠ "enc:" ++ rest) (h2 : ∀ rest, s ≠ "secret:" ++ rest) :
    ∃ e1, parseValue x s e = .ok e1 := by
  unfold parseValue
  rw [cutPrefix_of_ne h1, cutPrefix_of_ne h2]
  simp only
  split
  · exact ⟨_, rfl⟩
  · split_ifs <;> exact ⟨_, rfl⟩

theorem lit_ne_append {t p : String} (h : ¬ p.data <+: t.data) (rest : String) :
    t ≠ p ++ rest := by
  intro he
  apply h
  rw [he, String.data_append]
  exact List.prefix_append _ _

/-! ## The lexer -/

theorem mapGet_none_iff {β : Type} (m : List (String × β)) (k : String) :
    mapGet m k = none ↔ k ∉ m.map Prod.fst := by
  induction m with
  | nil => simp [mapGet]
  | cons p m ih =>
    obtain ⟨k1, w⟩ := p
    unfold mapGet
    by_cases hk : k1 = k
    · simp [hk]
    · simp only [hk, ↓reduceIte, List.map_cons, List.mem_cons, not_or]
      rw [ih]
      exact ⟨fun h => ⟨fun h2 => hk h2.symm, h⟩, fun h => h.2⟩

theorem mapSet_new {β : Type} (m : List (String × β)) (k : String) (v : β)
    (h : mapGet m k = none) : mapSet m k v = m ++ [(k, v)] := by
  induction m with
  | nil => rfl
  | cons p m ih =>
    obtain ⟨k1, w⟩ := p
    unfold mapGet at h
    by_cases hk : k1 = k
    · simp [hk] at h
    · simp only [hk, ↓reduceIte] at h
      unfold mapSet
      simp only [hk, ↓reduceIte, List.cons_append, ih h]

/-- `Cut` reports the separator found exactly when the text holds it. -/
theorem cut_ok_iff (s : String) (sep : Char) : (Cut s sep).2.2 = true ↔ sep ∈ s.data := by
  cases hc : Cut s sep with
  | mk k q =>
    obtain ⟨p, ok⟩ := q
    cases ok with
    | false =>
      simp only [Bool.false_eq_true, false_iff]
      exact (cut_not_found hc).1
    | true =>
      simp only [true_iff]
      rw [(cut_found hc).1]
      simp [String.data_append, String.singleton]

/-- One round of the loop of `parseMultilineKVString`. -/
theorem parseKVLines_cons (line0 : String) (lines : List String) (lno : Nat)
    (result : List (String × String)) :
    parseKVLines (line0 :: lines) lno result =
      if lineSkipped line0 = true then parseKVLines lines (lno + 1) result
      else if '=' ∉ (TrimSpace line0).data then
        .error ("line " ++ Nat.repr (lno + 1) ++ ": missing =")
      else if TrimSpace (Cut (TrimSpace line0) '=').1 = "" then
        .error ("line " ++ Nat.repr (lno + 1) ++ ": missing key")
      else if (mapGet result (TrimSpace (Cut (TrimSpace line0) '=').1)).isSome then
        .error ("line " ++ Nat.repr (lno + 1) ++ ": duplicate value for " ++
          TrimSpace (Cut (TrimSpace line0) '=').1)
      else parseKVLines lines (lno + 1)
        (mapSet result (TrimSpace (Cut (TrimSpace line0) '=').1)
          (TrimSpace (Cut (TrimSpace line0) '=').2.1)) := by
  conv_lhs => unfold parseKVLines
  simp only [lineSkipped, decide_eq_true_eq]
  by_cases hskip : TrimSpace line0 = "" ∨ (TrimSpace line0).data.head? = some '#'
  · rw [if_pos hskip, if_pos hskip]
  · rw [if_neg hskip, if_neg hskip]
    have hiff := cut_ok_iff (TrimSpace line0) '='
    generalize Cut (TrimSpace line0) '=' = c at hiff ⊢
    obtain ⟨k, p, ok⟩ := c
    simp only at hiff ⊢
    cases ok with
    | false =>
      have hn : '=' ∉ (TrimSpace line0).data := fun hm => by simpa using hiff.2 hm
      simp [hn]
    | true =>
      have hm : '=' ∈ (TrimSpace line0).data := hiff.1 rfl
      simp [hm]

/-- On success the loop has added the binding of every line, in order, and
the keys stay distinct. -/
theorem parseKVLines_ok : ∀ (lines : List String) (lno : Nat) (result m : List (String × String)),
    parseKVLines lines lno result = .ok m →
    m = result ++ lines.filterMap lexLine ∧
    ((result.map Prod.fst).Nodup → (m.map Prod.fst).Nodup) ∧
    ∀ line ∈ lines, lineSkipped line = false →
      '=' ∈ (TrimSpace line).data ∧ TrimSpace (Cut (TrimSpace line) '=').1 ≠ "" := by
  intro lines
  induction lines with
  | nil =>
    intro lno result m h
    simp only [parseKVLines, Except.ok.injEq] at h
    rw [← h]
    exact ⟨by simp, fun hn => hn, fun line hl => by simp at hl⟩
  | cons l ls ih =>
    intro lno result m h
    rw [parseKVLines_cons] at h
    by_cases hskip : lineSkipped l = true
    · rw [if_pos hskip] at h
      obtain ⟨h1, h2, h3⟩ := ih _ _ _ h
      refine ⟨?_, h2, ?_⟩
      · rw [h1, List.filterMap_cons]
        simp [lexLine, hskip]
      · intro line hl hns
        rcases List.mem_cons.1 hl with heq | hmem
        · rw [heq, hskip] at hns; simp at hns
        · exact h3 line hmem hns
    · rw [if_neg hskip] at h
      split_ifs at h with heq hkey hdup
      have hnone : mapGet result (TrimSpace (Cut (TrimSpace l) '=').1) = none := by
        cases hm : mapGet result (TrimSpace (Cut (TrimSpace l) '=').1) with
        | none => rfl
        | some v => rw [hm] at hdup; simp at hdup
      rw [mapSet_new _ _ _ hnone] at h
      obtain ⟨h1, h2, h3⟩ := ih _ _ _ h
      refine ⟨?_, ?_, ?_⟩
      · rw [h1, List.filterMap_cons]
        simp [lexLine, hskip]
      · intro hn
        apply h2
        rw [List.map_append, List.nodup_append]
        refine ⟨hn, by simp, ?_⟩
        intro a ha hb
        simp only [List.map_cons, List.map_nil, List.mem_singleton] at hb
        rw [hb] at ha
        exact (mapGet_none_iff _ _).1 hnone ha
      · intro line hl hns
        rcases List.mem_cons.1 hl with heq2 | hmem
        · rw [heq2]
          exact ⟨by simpa using heq, hkey⟩
        · exact h3 line hmem hns

theorem lexer_ok {data : String} {m : List (String × String)}
    (h : parseMultilineKVString data = .ok m) :
    m = lexSpec data ∧ (m.map Prod.fst).Nodup ∧
    ∀ line ∈ Split data (Char.ofNat 10), lineSkipped line = false →
      '=' ∈ (TrimSpace line).data ∧ TrimSpace (Cut (TrimSpace line) '=').1 ≠ "" := by
  unfold parseMultilineKVString at h
  obtain ⟨h1, h2, h3⟩ := parseKVLines_ok _ _ _ _ h
  exact ⟨by rw [h1]; rfl, h2 (by simp), h3⟩

/-- One round of the loop against the error of the line. The map `result`
holds the keys of the lines `pre` read so far. -/
theorem parseKVLines_fault_step {pre : List String} {result : List (String × String)}
    (hinv : ∀ k, (mapGet result k).isSome = true ↔ ∃ l ∈ pre, lineKey l = some k)
    (l : String) (ls : List String) :
    (∀ e, lineFault pre l = some e → parseKVLines (l :: ls) pre.length result = .error e) ∧
    (lineFault pre l = none → ∃ result1,
      parseKVLines (l :: ls) pre.length result = parseKVLines ls (pre ++ [l]).length result1 ∧
      ∀ k, (mapGet result1 k).isSome = true ↔ ∃ l1 ∈ pre ++ [l], lineKey l1 = some k) := by
  have hany : ∀ k, (pre.any (fun l => decide (lineKey l = some k))) = true ↔
      (mapGet result k).isSome = true := by
    intro k
    rw [hinv k]
    simp only [List.any_eq_true, decide_eq_true_eq]
  have hlen : (pre ++ [l]).length = pre.length + 1 := by simp
  rw [parseKVLines_cons, hlen]
  unfold lineFault
  by_cases hskip : lineSkipped l = true
  · simp only [hskip, ↓reduceIte]
    refine ⟨fun e he => by simp at he, fun _ => ?_⟩
    refine ⟨result, rfl, ?_⟩
    intro k
    rw [hinv k]
    have hk : lineKey l = none := by simp [lineKey, hskip]
    simp only [List.mem_append, List.mem_singleton]
    constructor
    · rintro ⟨l1, h1, h2⟩; exact ⟨l1, Or.inl h1, h2⟩
    · rintro ⟨l1, h1 | h1, h2⟩
      · exact ⟨l1, h1, h2⟩
      · rw [h1, hk] at h2; simp at h2
  · have hskip2 : lineSkipped l = false := by simpa using hskip
    simp only [hskip2, Bool.false_eq_true, ↓reduceIte]
    by_cases heq : '=' ∉ (TrimSpace l).data
    · simp only [heq, not_false_eq_true, ↓reduceIte, Option.some.injEq, forall_eq', true_and]
      intro hc; simp at hc
    · rw [if_neg heq, if_neg heq]
      by_cases hkey : TrimSpace (Cut (TrimSpace l) '=').1 = ""
      · simp only [hkey, ↓reduceIte, Option.some.injEq, forall_eq', true_and]
        intro hc; simp at hc
      · rw [if_neg hkey, if_neg hkey]
        by_cases hdup : (mapGet result (TrimSpace (Cut (TrimSpace l) '=').1)).isSome = true
        · rw [if_pos hdup, if_pos ((hany _).2 hdup)]
          simp only [Option.some.injEq, forall_eq', true_and]
          intro hc; simp at hc
        · rw [if_neg hdup, if_neg (fun h => hdup ((hany _).1 h))]
          refine ⟨fun e he => by simp at he, fun _ => ?_⟩
          refine ⟨_, rfl, ?_⟩
          intro k
          have hk : lineKey l = some (TrimSpace (Cut (TrimSpace l) '=').1) := by
            simp [lineKey, hskip2, heq]
          by_cases hkk : k = TrimSpace (Cut (TrimSpace l) '=').1
          · rw [hkk, mapGet_mapSet_self]
            simp only [Option.isSome_some, true_iff]
            exact ⟨l, by simp, hk⟩
          · rw [mapGet_mapSet_ne _ _ _ _ hkk, hinv k]
            simp only [List.mem_append, List.mem_singleton]
            constructor
            · rintro ⟨l1, h1, h2⟩; exact ⟨l1, Or.inl h1, h2⟩
            · rintro ⟨l1, h1 | h1, h2⟩
              · exact ⟨l1, h1, h2⟩
              · rw [h1, hk] at h2
                simp only [Option.some.injEq] at h2
                exact absurd h2.symm hkk

/-- The loop fails with the error of the first line that has one. -/
theorem parseKVLines_fault : ∀ (lines pre : List String) (result : List (String × String)),
    (∀ k, (mapGet result k).isSome = true ↔ ∃ l ∈ pre, lineKey l = some k) →
    ∀ err, parseKVLines lines pre.length result = .error err ↔
      ∃ a line b, lines = a ++ line :: b ∧ lineFault (pre ++ a) line = some err ∧
        ∀ a1 l1 b1, a = a1 ++ l1 :: b1 → lineFault (pre ++ a1) l1 = none := by
  intro lines
  induction lines with
  | nil =>
    intro pre result _ err
    simp [parseKVLines]
  | cons l ls ih =>
    intro pre result hinv err
    obtain ⟨hA, hB⟩ := parseKVLines_fault_step hinv l ls
    cases hf : lineFault pre l with
    | some e0 =>
      rw [hA e0 hf]
      constructor
      · intro h
        simp only [Except.error.injEq] at h
        refine ⟨[], l, ls, rfl, by rw [List.append_nil, hf, h], ?_⟩
        intro a1 l1 b1 hc
        simp at hc
      · rintro ⟨a, line, b, hdec, hfault, hfirst⟩
        cases a with
        | nil =>
          simp only [List.nil_append, List.cons.injEq] at hdec
          rw [List.append_nil, ← hdec.1, hf] at hfault
          simp only [Option.some.injEq] at hfault
          rw [hfault]
        | cons a0 a2 =>
          simp only [List.cons_append, List.cons.injEq] at hdec
          have := hfirst [] a0 a2 rfl
          rw [List.append_nil, ← hdec.1, hf] at this
          simp at this
    | none =>
      obtain ⟨result1, heq, hinv1⟩ := hB hf
      rw [heq, ih (pre ++ [l]) result1 hinv1 err]
      constructor
      · rintro ⟨a, line, b, hdec, hfault, hfirst⟩
        refine ⟨l :: a, line, b, by rw [hdec]; rfl, ?_, ?_⟩
        · rw [List.append_assoc] at hfault
          exact hfault
        · intro a1 l1 b1 hc
          cases a1 with
          | nil =>
            simp only [List.nil_append, List.cons.injEq] at hc
            rw [List.append_nil, ← hc.1]
            exact hf
          | cons a0 a3 =>
            simp only [List.cons_append, List.cons.injEq] at hc
            have := hfirst a3 l1 b1 hc.2
            rw [List.append_assoc] at this
            rw [← hc.1]
            exact this
      · rintro ⟨a, line, b, hdec, hfault, hfirst⟩
        cases a with
        | nil =>
          simp only [List.nil_append, List.cons.injEq] at hdec
          rw [List.append_nil, ← hdec.1, hf] at hfault
          simp at hfault
        | cons a0 a2 =>
          simp only [List.cons_append, List.cons.injEq] at hdec
          refine ⟨a2, line, b, hdec.2, ?_, ?_⟩
          · rw [List.append_assoc, hdec.1]
            exact hfault
          · intro a1 l1 b1 hc
            have := hfirst (a0 :: a1) l1 b1 (by rw [hc]; rfl)
            rw [List.append_assoc, hdec.1]
            exact this

/-- Where some line has an error, some line is the first to have one. -/
theorem first_fault (lines : List String) : ∀ (n : Nat) (a : List String) (line : String)
    (b : List String), a.length = n → lines = a ++ line :: b → (lineFault a line).isSome = true →
    ∃ a0 line0 b0 err, lines = a0 ++ line0 :: b0 ∧ lineFault a0 line0 = some err ∧
      ∀ a1 l1 b1, a0 = a1 ++ l1 :: b1 → lineFault a1 l1 = none := by
  intro n
  induction n using Nat.strong_induction_on with
  | _ n ih =>
    intro a line b hlen hdec hfault
    by_cases hearlier : ∃ a1 l1 b1, a = a1 ++ l1 :: b1 ∧ (lineFault a1 l1).isSome = true
    · obtain ⟨a1, l1, b1, ha, hf1⟩ := hearlier
      have hlt : a1.length < n := by
        rw [← hlen, ha]
        simp
      exact ih a1.length hlt a1 l1 (b1 ++ line :: b) rfl (by rw [hdec, ha]; simp) hf1
    · cases hf : lineFault a line with
      | none => rw [hf] at hfault; simp at hfault
      | some err =>
        refine ⟨a, line, b, err, hdec, hf, ?_⟩
        intro a1 l1 b1 ha
        cases hf1 : lineFault a1 l1 with
        | none => rfl
        | some e1 =>
          exfalso
          exact hearlier ⟨a1, l1, b1, ha, by rw [hf1]; rfl⟩

/-! ## Picker: subsets and orderings -/

/-- A duplicate-free list contained in a list with one more element is
shorter. -/
theorem nodup_subset_length_lt {l1 l2 : List String} (hnd : l1.Nodup)
    (hsub : ∀ t ∈ l1, t ∈ l2) {t : String} (ht : t ∈ l2) (hn : t ∉ l1) :
    l1.length < l2.length := by
  have h1 : (t :: l1).Nodup := List.nodup_cons.2 ⟨hn, hnd⟩
  have h2 : (t :: l1) ⊆ l2 := by
    intro a ha
    rcases List.mem_cons.1 ha with h | h
    · rw [h]; exact ht
    · exact hsub a h
  have h3 := (List.subperm_of_subset h1 h2).length_le
  simp only [List.length_cons] at h3
  omega

/-- With a group as query (no trivial env) every score is 0 or 1. -/
theorem score_le_one (vals : Values) {g : resolvedEnvGroup} (h : g.trivial = "") (e : entry) :
    vals.score g e ≤ 1 := by
  unfold Values.score
  rw [if_neg (by simp [h])]
  split_ifs <;> omega

/-- The loop of `pickVariant` over two candidates, in either order, picks the
one that dominates. -/
theorem pickResult_pair {vals : Values} {g : resolvedEnvGroup} (N e : String) {a b : entry}
    (hpos : vals.score g b ≠ 0)
    (hdom : vals.score g a < vals.score g b ∨
      (vals.score g a = vals.score g b ∧ vals.size b < vals.size a)) :
    pickResult N e ([a, b].foldl (vals.pickStep g) pickInit) = (some b, none) ∧
    pickResult N e ([b, a].foldl (vals.pickStep g) pickInit) = (some b, none) := by
  have h1 : vals.optimal g [a, b] = [b] :=
    optimal_of_dominates [a] [] hpos (fun e1 h1 => by
      simp only [List.append_nil, List.mem_singleton] at h1
      rw [h1]; exact hdom)
  have h2 : vals.optimal g [b, a] = [b] :=
    optimal_of_dominates [] [a] hpos (fun e1 h1 => by
      simp only [List.nil_append, List.mem_singleton] at h1
      rw [h1]; exact hdom)
  have s1 := (pickResult_spec vals g N e [a, b]).2.1 b h1
  have s2 := (pickResult_spec vals g N e [b, a]).2.1 b h2
  exact ⟨Prod.ext s1.1 s1.2, Prod.ext s2.1 s2.2⟩

/-- Being optimal does not depend on the order of the candidates. -/
theorem isOptimal_perm {vals : Values} {g : resolvedEnvGroup} {l1 l2 : List entry}
    (h : List.Perm l1 l2) (e : entry) : vals.isOptimal g l1 e = vals.isOptimal g l2 e := by
  rw [Bool.eq_iff_iff]
  unfold Values.isOptimal
  simp only [Bool.and_eq_true, List.all_eq_true]
  constructor
  · rintro ⟨⟨h1, h2⟩, h3⟩
    exact ⟨⟨h1, fun a ha => h2 a (h.mem_iff.2 ha)⟩, fun a ha => h3 a (h.mem_iff.2 ha)⟩
  · rintro ⟨⟨h1, h2⟩, h3⟩
    exact ⟨⟨h1, fun a ha => h2 a (h.mem_iff.1 ha)⟩, fun a ha => h3 a (h.mem_iff.1 ha)⟩

/-- The optimal candidates of two orderings are the same up to order. -/
theorem optimal_perm (vals : Values) (g : resolvedEnvGroup) {l1 l2 : List entry}
    (h : List.Perm l1 l2) : List.Perm (vals.optimal g l1) (vals.optimal g l2) := by
  unfold Values.optimal
  have h1 : l2.filter (vals.isOptimal g l1) = l2.filter (vals.isOptimal g l2) :=
    List.filter_congr (fun e _ => isOptimal_perm h e)
  rw [← h1]
  exact h.filter _

/-- The loop of `pickVariant` succeeds on an ordering of the candidates exactly
when it succeeds on every other ordering, and then with the same entry. -/
theorem pickResult_perm_success {vals : Values} {g : resolvedEnvGroup} (N e : String)
    {l1 l2 : List entry} (h : List.Perm l1 l2) (r : Option entry)
    (h1 : pickResult N e (l1.foldl (vals.pickStep g) pickInit) = (r, none)) :
    pickResult N e (l2.foldl (vals.pickStep g) pickInit) = (r, none) := by
  obtain ⟨a1, b1, c1, d1, _⟩ := pickResult_spec vals g N e l1
  obtain ⟨a2, b2, c2, d2, _⟩ := pickResult_spec vals g N e l2
  rw [h1] at a1 b1 c1
  simp only [ne_eq, not_true_eq_false, false_iff, not_le, and_true] at a1 b1 c1
  have hp := optimal_perm vals g h
  cases hopt : vals.optimal g l1 with
  | nil =>
    have hz := d1.1 hopt
    have hr : r = none := a1.2 hz
    have hz2 : ∀ a ∈ l2, vals.score g a = 0 := fun a ha => hz a (h.mem_iff.2 ha)
    have := a2.2 hz2
    rw [hr]
    exact Prod.ext this.1 this.2
  | cons a t =>
    rw [hopt] at c1
    have ht : t = [] := by
      cases t with
      | nil => rfl
      | cons _ _ => simp only [List.length_cons] at c1; omega
    subst ht
    have hr := b1 a hopt
    rw [hopt] at hp
    have h2 : vals.optimal g l2 = [a] := List.perm_singleton.1 hp.symm
    have := b2 a h2
    rw [hr]
    exact Prod.ext this.1 this.2

/-! ## What a resolved group lists -/

theorem foldl_appendNew_congr (f g : String → List String) : ∀ (items : List String)
    (acc : List String), (∀ i ∈ items, f i = g i) →
    items.foldl (fun acc i => appendNew acc (f i)) acc =
      items.foldl (fun acc i => appendNew acc (g i)) acc := by
  intro items
  induction items with
  | nil => intro acc _; rfl
  | cons a items ih =>
    intro acc h
    simp only [List.foldl_cons]
    rw [h a (List.mem_cons_self _ _)]
    exact ih _ (fun i hi => h i (List.mem_cons_of_mem _ hi))

theorem excludedOf_congr {v v1 : Values} {items : List String}
    (h : ∀ i ∈ items, v1.includedOf i = v.includedOf i) :
    v1.excludedOf items = v.excludedOf items := by
  unfold Values.excludedOf
  exact foldl_appendNew_congr _ _ items [] h

/-- What is known of a resolved group stays true while the resolved groups
and `validEnvs` stay as they are. -/
theorem ResFact.transfer {v v1 : Values} {r : resolvedEnvGroup} {d : envGroup}
    (h : ResFact v r d) (hval : v1.validEnvs = v.validEnvs)
    (hkeep : ∀ i rk, Bound v i rk → rk.state = .resolvedState → Bound v1 i rk) :
    ResFact v1 r d := by
  obtain ⟨h1, h2, h3⟩ := h
  have hexc : v1.excludedOf d.Items = v.excludedOf d.Items := by
    apply excludedOf_congr
    intro i hi
    obtain ⟨ri, hbi, hsi, _⟩ := h1 i hi
    rw [includedOf_of_bound hbi, includedOf_of_bound (hkeep i ri hbi hsi)]
  refine ⟨?_, ?_, ?_⟩
  · intro i hi
    obtain ⟨ri, hbi, hsi, hei⟩ := h1 i hi
    exact ⟨ri, hkeep i ri hbi hsi, hsi, hei⟩
  · intro hn; rw [hval]; exact h2 hn
  · rw [h3]
    unfold Values.resolution
    rw [hexc, hval]

/-- The invariant after a change that keeps the resolved groups: every group
resolved after it was resolved before it, or has what the invariant asks. -/
theorem ResInv.of_keep {v v1 : Values} (h : ResInv v) (henvs : v1.envs = v.envs)
    (hval : v1.validEnvs = v.validEnvs)
    (hkeep : ∀ i rk, Bound v i rk → rk.state = .resolvedState → Bound v1 i rk)
    (hback : ∀ k r d, Bound v1 k r → r.state = .resolvedState → r.err = none →
      mapGet v.envs k = some d → Bound v k r ∨ ResFact v r d) : ResInv v1 := by
  intro k r d hb hs he hd
  rw [henvs] at hd
  rcases hback k r d hb hs he hd with h1 | h1
  · exact (h k r d h1 hs he hd).transfer hval hkeep
  · exact h1.transfer hval hkeep

theorem MentInv.ment_lookup {v : Values} (h : MentInv v) (env : String) :
    MentInv (v.lookupEnv env).1 := by
  intro k r hb hs
  rcases lookupEnv_bound_inv hb with h1 | ⟨_, _, h3⟩
  · exact h k r h1 hs
  · rw [h3]; exact newGroup_included v env

theorem ResInv.res_lookup {v : Values} (h : ResInv v) (env : String) :
    ResInv (v.lookupEnv env).1 := by
  have hstep := lookupEnv_step v env
  refine h.of_keep hstep.envs hstep.validEnvs
    (fun i rk hb hs => hstep.stable hb (by rw [hs]; simp)) ?_
  intro k r d hb hs he _
  rcases lookupEnv_bound_inv hb with h1 | ⟨_, _, h3⟩
  · exact Or.inl h1
  · rw [h3] at hs he
    exact absurd he (newGroup_resolved hs)

theorem MentInv.ment_modify {v : Values} {env : String} {r : resolvedEnvGroup}
    (f : resolvedEnvGroup → resolvedEnvGroup) (hb : Bound v env r) (h : MentInv v)
    (hf : (f r).state = .mentionedState → (f r).included = []) :
    MentInv (v.modifyRes env f) := by
  intro k rk hk hs
  rcases modifyRes_bound_cases f hb hk with ⟨_, h2⟩ | ⟨_, h2⟩
  · rw [h2] at hs ⊢; exact hf hs
  · exact h k rk h2 hs

/-- A write through the pointer of a group that is not resolved keeps the
invariant, when the group has what the invariant asks in case the write
resolves it. -/
theorem ResInv.res_modify {v : Values} {env : String} {r : resolvedEnvGroup}
    (f : resolvedEnvGroup → resolvedEnvGroup) (hb : Bound v env r)
    (hs : r.state ≠ .resolvedState) (h : ResInv v)
    (hnew : (f r).state = .resolvedState → (f r).err = none →
      ∀ d, mapGet v.envs env = some d → ResFact v (f r) d) :
    ResInv (v.modifyRes env f) := by
  refine h.of_keep rfl rfl (fun i rk hbi hsi => modifyRes_keeps_resolved f hb hs hbi hsi) ?_
  intro k rk d hk hks hke hd
  rcases modifyRes_bound_cases f hb hk with ⟨h1, h2⟩ | ⟨_, h2⟩
  · right
    rw [h1] at hd
    rw [h2] at hks hke ⊢
    exact hnew hks hke d hd
  · exact Or.inl h2

/-- The item loop of a negated group keeps the invariants. -/
theorem resolveExcluded_res {self : Values → String → ResolveResult} (hres : ResSpec self)
    {env : String} :
    ∀ (items : List String) (v v1 : Values) (excluded : List String)
      (res : Except String (List String)),
      MentInv v → ResInv v → resolveExcluded self env items v excluded = some (v1, res) →
      MentInv v1 ∧ ResInv v1 := by
  intro items
  induction items with
  | nil =>
    intro v v1 excluded res hm hr h
    simp only [resolveExcluded, Option.some.injEq, Prod.mk.injEq] at h
    rw [← h.1]
    exact ⟨hm, hr⟩
  | cons subenv items ih =>
    intro v v1 excluded res hm hr h
    unfold resolveExcluded at h
    cases hcall : self v subenv with
    | none => rw [hcall] at h; simp at h
    | some p =>
      obtain ⟨v2, res2⟩ := p
      rw [hcall] at h
      obtain ⟨hm2, hr2⟩ := hres v subenv v2 res2 hcall hm hr
      cases res2 with
      | error e =>
        simp only [Option.some.injEq, Prod.mk.injEq] at h
        rw [← h.1]
        exact ⟨hm2, hr2⟩
      | ok subres =>
        simp only at h
        exact ih v2 v1 _ res hm2 hr2 h

/-- The item loop of a plain group keeps the invariants and the resolved
groups; when it ends without error the items are resolved and the included
list of the group is the list it had, with the lists of the items appended in
order, repeated envs skipped. -/
theorem resolveIncluded_res {self : Values → String → ResolveResult}
    (hself : ResolveSpec self) (hres : ResSpec self) {env : String} :
    ∀ (items : List String) (v v1 : Values) (err : Option String) (r : resolvedEnvGroup),
      MentInv v → ResInv v → Bound v env r → r.state = .resolvingState →
      resolveIncluded self env items v = some (v1, err) →
      MentInv v1 ∧ ResInv v1 ∧
      (∀ k rk, Bound v k rk → rk.state = .resolvedState → Bound v1 k rk) ∧
      (err = none → (∀ i ∈ items, ResolvedOK v1 i) ∧
        ∃ r1, Bound v1 env r1 ∧ r1.state = .resolvingState ∧
          r1.included = items.foldl (fun acc i => appendNew acc (v1.includedOf i)) r.included) := by
  intro items
  induction items with
  | nil =>
    intro v v1 err r hm hr hb hs h
    simp only [resolveIncluded, Option.some.injEq, Prod.mk.injEq] at h
    rw [← h.1]
    exact ⟨hm, hr, fun k rk hk _ => hk, fun _ => ⟨fun i hi => by simp at hi, r, hb, hs, rfl⟩⟩
  | cons subenv items ih =>
    intro v v1 err r hm hr hb hs h
    unfold resolveIncluded at h
    cases hcall : self v subenv with
    | none => rw [hcall] at h; simp at h
    | some p =>
      obtain ⟨v2, res⟩ := p
      rw [hcall] at h
      obtain ⟨hstep2, hres2⟩ := hself v subenv v2 res hcall
      obtain ⟨hm2, hr2⟩ := hres v subenv v2 res hcall hm hr
      have hb2 : Bound v2 env r := hstep2.stable hb (by rw [hs]; simp)
      have hkeep2 : ∀ k rk, Bound v k rk → rk.state = .resolvedState → Bound v2 k rk :=
        fun k rk hk hks => hstep2.stable hk (by rw [hks]; simp)
      cases res with
      | error e =>
        simp only [Option.some.injEq, Prod.mk.injEq] at h
        rw [← h.1]
        refine ⟨hm2, hr2, hkeep2, ?_⟩
        intro he; rw [← h.2] at he; simp at he
      | ok subres =>
        simp only at h
        obtain ⟨hbs, hss, hes⟩ := hres2 subres rfl
        have hne : r.state ≠ .resolvedState := by rw [hs]; simp
        have hm3 := hm2.ment_modify
          (fun r => { r with included := appendNew r.included subres.included }) hb2
          (by simp [hs])
        have hr3 := hr2.res_modify
          (fun r => { r with included := appendNew r.included subres.included }) hb2 hne
          (by simp [hs])
        have hb3 := modifyRes_bound_self
          (fun r => { r with included := appendNew r.included subres.included }) hb2
        have hkeep3 : ∀ k rk, Bound v2 k rk → rk.state = .resolvedState →
            Bound (v2.modifyRes env
              (fun r => { r with included := appendNew r.included subres.included })) k rk :=
          fun k rk hk hks => modifyRes_keeps_resolved _ hb2 hne hk hks
        obtain ⟨hm4, hr4, hkeep4, hfin⟩ := ih _ v1 err _ hm3 hr3 hb3 (by simp [hs]) h
        refine ⟨hm4, hr4, fun k rk hk hks => hkeep4 k rk (hkeep3 k rk (hkeep2 k rk hk hks) hks) hks,
          ?_⟩
        intro he
        obtain ⟨hitems, r1, hb1, hs1, hinc⟩ := hfin he
        have hsub1 : Bound v1 subenv subres := hkeep4 _ _ (hkeep3 _ _ hbs hss) hss
        refine ⟨?_, r1, hb1, hs1, ?_⟩
        · intro i hi
          rcases List.mem_cons.1 hi with heq | hmem
          · rw [heq]; exact ⟨subres, hsub1, hss, hes⟩
          · exact hitems i hmem
        · rw [hinc]
          simp only [List.foldl_cons]
          rw [includedOf_of_bound hsub1]

/-- Every call of `resolveEnv` keeps the invariants: a group that it resolves
lists what `resolution` computes from the lists of its items. -/
theorem resolveEnvAux_res : ∀ fuel, ResSpec (resolveEnvAux fuel) := by
  intro fuel
  induction fuel with
  | zero => intro vals env vals1 res h; simp [resolveEnvAux] at h
  | succ fuel ih =>
    intro vals env vals1 res h hm hr
    obtain ⟨hb0, _⟩ := lookupEnv_bound vals env
    have hm0 := hm.ment_lookup env
    have hr0 := hr.res_lookup env
    unfold resolveEnvAux at h
    simp only at h
    generalize (vals.lookupEnv env).1 = a at h hb0 hm0 hr0
    generalize (vals.lookupEnv env).2.1 = r0 at h hb0
    by_cases hres : r0.state = .resolvedState
    · rw [if_pos hres] at h
      split at h
      · simp only [Option.some.injEq, Prod.mk.injEq] at h
        rw [← h.1]; exact ⟨hm0, hr0⟩
      · simp only [Option.some.injEq, Prod.mk.injEq] at h
        rw [← h.1]; exact ⟨hm0, hr0⟩
    · rw [if_neg hres] at h
      by_cases hing : r0.state = .resolvingState
      · rw [if_pos hing] at h
        simp only [Option.some.injEq, Prod.mk.injEq] at h
        rw [← h.1]; exact ⟨hm0, hr0⟩
      · rw [if_neg hing] at h
        have h0 : r0.state = .mentionedState := by
          cases hst : r0.state <;> simp_all
        have hinc0 : r0.included = [] := hm0 env r0 hb0 h0
        have hm1 := hm0.ment_modify (fun r => { r with state := .resolvingState }) hb0 (by simp)
        have hr1 := hr0.res_modify (fun r => { r with state := .resolvingState }) hb0 hres
          (by simp)
        have hb1 := modifyRes_bound_self (fun r => { r with state := .resolvingState }) hb0
        generalize a.modifyRes env (fun r => { r with state := .resolvingState }) = v1
          at h hm1 hr1 hb1
        have hne1 : ({ r0 with state := .resolvingState } : resolvedEnvGroup).state ≠
            .resolvedState := by simp
        split at h
        · -- no definition
          next hdef =>
          have hfin := finishResolve_eq h
          rw [modifyRes_comp] at hfin
          rw [hfin]
          refine ⟨hm1.ment_modify _ hb1 (by simp), hr1.res_modify _ hb1 hne1 ?_⟩
          intro _ _ d hd
          rw [hdef] at hd
          simp at hd
        · next definition hdef =>
          by_cases hneg : definition.Negated = true
          · -- negated group
            rw [if_pos hneg] at h
            by_cases hv : v1.validEnvs.isEmpty = true
            · rw [if_pos hv] at h
              simp only [Option.some.injEq, Prod.mk.injEq] at h
              rw [← h.1]; exact ⟨hm1, hr1⟩
            · rw [if_neg hv] at h
              split at h
              · simp at h
              · next v2 err hloop =>
                simp only [Option.some.injEq, Prod.mk.injEq] at h
                rw [← h.1]
                exact resolveExcluded_res ih _ _ _ _ _ hm1 hr1 hloop
              · next v2 excluded hloop =>
                obtain ⟨hm2, hr2⟩ := resolveExcluded_res ih _ _ _ _ _ hm1 hr1 hloop
                obtain ⟨hst2, hb2⟩ := resolveExcluded_step (resolveEnvAux_spec fuel)
                  (r := { r0 with state := .resolvingState }) rfl _ _ _ _ _ hb1 hloop
                obtain ⟨_, hexc⟩ := resolveExcluded_prims (resolveEnvAux_spec fuel)
                  (resolveEnvAux_prims fuel) _ _ _ _ _ hloop
                obtain ⟨hitems, hexc2⟩ := hexc excluded rfl
                have hfin := finishResolve_eq h
                rw [modifyRes_comp] at hfin
                rw [hfin]
                refine ⟨hm2.ment_modify _ hb2 (by simp), hr2.res_modify _ hb2 hne1 ?_⟩
                intro _ _ d hd
                rw [hst2.envs, hdef] at hd
                simp only [Option.some.injEq] at hd
                subst hd
                refine ⟨hitems, fun _ => ?_, ?_⟩
                · rw [hst2.validEnvs]; simpa using hv
                · simp only [finalize_included, hinc0, List.nil_append]
                  unfold Values.resolution
                  rw [if_pos hneg, hexc2]
                  rfl
          · -- plain group
            rw [if_neg hneg] at h
            split at h
            · simp at h
            · next v2 err hloop =>
              simp only [Option.some.injEq, Prod.mk.injEq] at h
              rw [← h.1]
              obtain ⟨hm2, hr2, _, _⟩ := resolveIncluded_res (resolveEnvAux_spec fuel) ih
                _ _ _ _ _ hm1 hr1 hb1 rfl hloop
              exact ⟨hm2, hr2⟩
            · next v2 hloop =>
              obtain ⟨hm2, hr2, _, hfin2⟩ := resolveIncluded_res (resolveEnvAux_spec fuel) ih
                _ _ _ _ _ hm1 hr1 hb1 rfl hloop
              obtain ⟨hitems, r2, hb2, hs2, hinc2⟩ := hfin2 rfl
              have henvs : v2.envs = v1.envs :=
                (resolveIncluded_prims (resolveEnvAux_spec fuel) (resolveEnvAux_prims fuel)
                  (by simpa using hneg) _ _ _ _ (fun i hi => hi) hdef ⟨_, hb1, rfl⟩ hloop).1.frames.1
              have hfin := finishResolve_eq h
              rw [hfin]
              refine ⟨hm2.ment_modify _ hb2 (by simp),
                hr2.res_modify _ hb2 (by rw [hs2]; simp) ?_⟩
              intro _ _ d hd
              rw [henvs, hdef] at hd
              simp only [Option.some.injEq] at hd
              subst hd
              refine ⟨hitems, fun hn => absurd hn hneg, ?_⟩
              simp only [finalize_included, hinc2, hinc0]
              unfold Values.resolution
              rw [if_neg hneg]
              rfl

theorem resolveEnv_res {v : Values} (env : String) (hm : MentInv v) (hr : ResInv v) :
    MentInv (v.resolveEnv env).1 ∧ ResInv (v.resolveEnv env).1 := by
  unfold Values.resolveEnv
  cases h : resolveEnvAux (resolveFuel v) v env with
  | none => exact ⟨hm, hr⟩
  | some p => exact resolveEnvAux_res _ v env p.1 p.2 h hm hr

/-! ## The loops of `rebuild` as sequences of calls of the resolver -/

theorem calls_single {v v1 : Values} (h : Call v v1) : Calls v v1 :=
  Relation.ReflTransGen.single h

theorem calls_append {a b c : Values} (h1 : Calls a b) (h2 : Calls b c) : Calls a c :=
  Relation.ReflTransGen.trans h1 h2

/-- An invariant kept by every call is kept by every sequence of calls. -/
theorem calls_invariant {I : Values → Prop} (hI : ∀ v v1, Call v v1 → I v → I v1)
    {v v1 : Values} (h : Calls v v1) (h0 : I v) : I v1 := by
  induction h with
  | refl => exact h0
  | tail _ hp ih => exact hI _ _ hp ih

theorem pickVariant_calls (vals : Values) (name env : String) (entries : List entry) :
    Calls vals (vals.pickVariant name env entries).1 := by
  unfold Values.pickVariant
  have := calls_single (Call.resolve vals env)
  split
  · next v1 err h => rw [h] at this; exact this
  · next v1 envRes h => rw [h] at this; exact this

theorem foldl_calls {α : Type} (f : Values → α → Values) (hf : ∀ v x, Calls v (f v x)) :
    ∀ (l : List α) (v : Values), Calls v (l.foldl f v) := by
  intro l
  induction l with
  | nil => intro v; exact Relation.ReflTransGen.refl
  | cons x l ih => intro v; exact calls_append (hf v x) (ih (f v x))

theorem mentionAll_calls (vals : Values) : Calls vals vals.mentionAll := by
  unfold Values.mentionAll
  simp only
  refine calls_append (foldl_calls _ ?_ _ _) (foldl_calls _ ?_ _ _)
  · intro v p
    exact calls_append (calls_single (Call.lookup v p.1))
      (foldl_calls _ (fun v x => calls_single (Call.lookup v x)) _ _)
  · intro v p
    exact foldl_calls _ (fun v (e : entry) => calls_single (Call.lookup v e.Env)) _ _

theorem resolveGroups_calls : ∀ (envs : List String) (vals : Values),
    Calls vals (resolveGroups envs vals).1 := by
  intro envs
  induction envs with
  | nil => intro vals; exact Relation.ReflTransGen.refl
  | cons env envs ih =>
    intro vals
    unfold resolveGroups
    have := calls_single (Call.resolve vals env)
    split
    · next v1 err h => rw [h] at this; exact this
    · next v1 g h => rw [h] at this; exact calls_append this (ih v1)

theorem resolveEntryEnvs_calls (name : String) : ∀ (es : List entry) (vals : Values),
    Calls vals (resolveEntryEnvs name es vals).1 := by
  intro es
  induction es with
  | nil => intro vals; exact Relation.ReflTransGen.refl
  | cons e es ih =>
    intro vals
    unfold resolveEntryEnvs
    have := calls_single (Call.resolve vals e.Env)
    split
    · next v1 err h => rw [h] at this; exact this
    · next v1 g h => rw [h] at this; exact calls_append this (ih v1)

theorem sanityCheck_calls (name : String) (entries : List entry) :
    ∀ (envs : List String) (vals : Values), Calls vals (sanityCheck name entries envs vals).1 := by
  intro envs
  induction envs with
  | nil => intro vals; exact Relation.ReflTransGen.refl
  | cons env envs ih =>
    intro vals
    unfold sanityCheck
    have := pickVariant_calls vals name (replaceStars env) entries
    split
    · next v1 _ err h => rw [h] at this; exact this
    · next v1 h => rw [h] at this; exact this
    · next v1 _ h => rw [h] at this; exact calls_append this (ih v1)

theorem rebuildEntries_calls : ∀ (l : List (String × List entry)) (vals : Values),
    Calls vals (rebuildEntries l vals).1 := by
  intro l
  induction l with
  | nil => intro vals; exact Relation.ReflTransGen.refl
  | cons p l ih =>
    intro vals
    obtain ⟨name, entries⟩ := p
    unfold rebuildEntries
    have h1 := resolveEntryEnvs_calls name entries vals
    split
    · next v1 err h => rw [h] at h1; exact h1
    · next v1 h =>
      rw [h] at h1
      have h2 := sanityCheck_calls name entries v1.validEnvs v1
      split
      · next v2 err h3 => rw [h3] at h2; exact calls_append h1 h2
      · next v2 h3 => rw [h3] at h2; exact calls_append (calls_append h1 h2) (ih v2)

/-- The stages of `rebuild` after the reset, for an invariant that every call
of the resolver keeps; the assignment of `validEnvs` is the one `rebuild`
makes. -/
theorem rebuild_invariant_calls {I : Values → Prop} (hI : ∀ v v1, Call v v1 → I v → I v1)
    (hknown : ∀ v, I v → I v.fillKnownEnvs) {vals : Values}
    (hval : ∀ v1 valid, vals.resetForRebuild.resolveEnv All = (v1, .ok valid) → I v1 →
      I (v1.setValidEnvs valid.included))
    (h0 : I vals.resetForRebuild) : I vals.rebuild.1 := by
  unfold Values.rebuild
  simp only
  generalize vals.resetForRebuild = v0 at h0 hval
  split
  · exact h0
  · have h1 := hI _ _ (Call.resolve v0 All) h0
    split
    · next v1 err hr => rw [hr] at h1; exact h1
    · next v1 valid hr =>
      rw [hr] at h1
      have h4 := hknown _ (calls_invariant hI (mentionAll_calls _) (hval v1 valid hr h1))
      have h5 := calls_invariant hI (resolveGroups_calls
        (List.map Prod.fst ((v1.setValidEnvs valid.included).mentionAll).fillKnownEnvs.envs)
        _) h4
      split
      · next v5 err hg => rw [hg] at h5; exact h5
      · next v5 hg =>
        rw [hg] at h5
        exact calls_invariant hI (rebuildEntries_calls _ _) h5

/-- Every call of the resolver keeps the two invariants. -/
theorem call_res {v v1 : Values} (hc : Call v v1) (h : MentInv v ∧ ResInv v) :
    MentInv v1 ∧ ResInv v1 := by
  cases hc with
  | resolve env => exact resolveEnv_res env h.1 h.2
  | lookup env => exact ⟨h.1.ment_lookup env, h.2.res_lookup env⟩

/-- After `rebuild` on an instance without stored groups every defined group
that is resolved without error lists what `resolution` computes. -/
theorem resInv_rebuild {vals : Values} (hnil : vals.resolvedEnvs = []) :
    MentInv vals.rebuild.1 ∧ ResInv vals.rebuild.1 := by
  apply rebuild_invariant_calls (I := fun v => MentInv v ∧ ResInv v)
    (fun _ _ hc h => call_res hc h)
  · intro v h
    exact h
  · intro v1 valid hr h
    have hstep := resolveEnv_step vals.resetForRebuild All
    rw [hr] at hstep
    have hv1 : v1.validEnvs = [] := hstep.validEnvs
    refine ⟨h.1, ?_⟩
    intro k r d hb hs he hd
    obtain ⟨f1, f2, f3⟩ := h.2 k r d hb hs he hd
    have hneg : d.Negated = false := by
      cases hn : d.Negated with
      | false => rfl
      | true =>
        have := f2 hn
        rw [hv1] at this
        simp at this
    refine ⟨f1, fun hn => by rw [hneg] at hn; simp at hn, ?_⟩
    rw [f3]
    unfold Values.resolution
    simp only [hneg]
    rfl
  · have hno : ∀ k r, ¬ Bound vals.resetForRebuild k r := by
      intro k r hb
      unfold Bound at hb
      have : vals.resetForRebuild.resolvedEnvs = [] := by
        show resetStates vals.resolvedEnvs = []
        rw [hnil]; rfl
      rw [this] at hb
      simp [mapGet] at hb
    exact ⟨fun k r hb => absurd hb (hno k r), fun k r d hb => absurd hb (hno k r)⟩

theorem resInv_parse {x : Extern} {data : String} {vals : Values}
    (h : ParseString x data = (vals, none)) : ResInv vals := by
  obtain ⟨m, _, hm⟩ := parseString_ok h
  obtain ⟨v0, hl, hr⟩ := parseMap_ok hm
  have hnil : v0.resolvedEnvs = [] := by
    have := parseLines_resolvedEnvs x m New
    rw [hl] at this
    exact this
  have := (resInv_rebuild hnil).2
  rw [hr] at this
  exact this

/-! ## Flattening and negation in the words of the spec -/

theorem appendNew_append (acc l1 l2 : List String) :
    appendNew acc (l1 ++ l2) = appendNew (appendNew acc l1) l2 := by
  unfold appendNew
  rw [List.foldl_append]

theorem appendNew_cons (acc : List String) (a : String) (l : List String) :
    appendNew acc (a :: l) = appendNew (if contains acc a then acc else acc ++ [a]) l := rfl

theorem firstSeen_cons (a : String) (l : List String) :
    firstSeen (a :: l) = a :: (firstSeen l).filter (fun x => x ≠ a) := rfl

/-- The loop that appends the envs not yet listed adds the envs of `sub` in the
order of their first occurrence, each once, without those already listed. -/
theorem appendNew_eq_firstSeen : ∀ (l acc : List String),
    appendNew acc l = acc ++ (firstSeen l).filter (fun x => decide (x ∉ acc)) := by
  intro l
  induction l with
  | nil => intro acc; simp [appendNew, firstSeen]
  | cons a l ih =>
    intro acc
    rw [appendNew_cons]
    by_cases ha : a ∈ acc
    · rw [if_pos ((contains_iff acc a).2 ha), ih acc]
      congr 1
      rw [firstSeen_cons, List.filter_cons, if_neg (by simpa using ha), List.filter_filter]
      apply List.filter_congr
      intro x _
      by_cases hx : x ∈ acc
      · simp [hx]
      · have hxa : x ≠ a := fun h => hx (h ▸ ha)
        simp [hx, hxa]
    · have hc : ¬ contains acc a = true := fun h => ha ((contains_iff acc a).1 h)
      rw [if_neg hc, ih (acc ++ [a])]
      rw [firstSeen_cons, List.filter_cons, if_pos (by simpa using ha), List.filter_filter, List.append_assoc]
      congr 1
      simp only [List.singleton_append]
      congr 1
      apply List.filter_congr
      intro x _
      by_cases hx : x ∈ acc <;> by_cases hxa : x = a <;> simp [hx, hxa]

theorem appendNew_nil_eq (l : List String) : appendNew [] l = firstSeen l := by
  rw [appendNew_eq_firstSeen]
  simp

theorem foldl_appendNew_flat (f : String → List String) : ∀ (items : List String)
    (acc : List String),
    items.foldl (fun acc i => appendNew acc (f i)) acc =
      appendNew acc ((items.map f).foldr (fun l acc => l ++ acc) []) := by
  intro items
  induction items with
  | nil => intro acc; rfl
  | cons a items ih =>
    intro acc
    simp only [List.foldl_cons, List.map_cons, List.foldr_cons]
    rw [ih, appendNew_append]

/-- The list that the resolver builds from the lists of the items is the
flattening of the spec. -/
theorem excludedOf_eq_flattenSpec (v : Values) (items : List String) :
    v.excludedOf items = flattenSpec (items.map v.includedOf) := by
  unfold Values.excludedOf flattenSpec
  rw [foldl_appendNew_flat, appendNew_nil_eq]

theorem mem_foldl_appendNew (f : String → List String) (t : String) : ∀ (items : List String)
    (acc : List String),
    t ∈ items.foldl (fun acc i => appendNew acc (f i)) acc ↔ t ∈ acc ∨ ∃ i ∈ items, t ∈ f i := by
  intro items
  induction items with
  | nil => intro acc; simp
  | cons a items ih =>
    intro acc
    simp only [List.foldl_cons]
    rw [ih, mem_appendNew]
    simp only [List.mem_cons, exists_eq_or_imp]
    tauto

/-- The list `excluded` holds the envs of the included lists of the items. -/
theorem mem_excludedOf (v : Values) (items : List String) (t : String) :
    t ∈ v.excludedOf items ↔ ∃ i ∈ items, t ∈ v.includedOf i := by
  unfold Values.excludedOf
  rw [mem_foldl_appendNew]
  simp

/-- With no empty token among the patterns, `findMatch` finds nothing exactly
when no pattern matches. -/
theorem findMatch_eq_empty_iff {pats : List String} {c : String} (hne : "" ∉ pats) :
    findMatch pats c = "" ↔ pats.all (fun p => !«matches» p c) = true := by
  rw [List.all_eq_true]
  constructor
  · intro h p hp
    rw [findMatch_eq_empty h hne p hp]
    rfl
  · intro h
    by_contra hc
    obtain ⟨hm, hmm⟩ := findMatch_mem hc
    have := h _ hm
    rw [hmm] at this
    simp at this

/-- In an instance with the invariants, the envs that the items of a group
list are items of group definitions. -/
theorem excluded_isItem {v : Values} (hgood : Good v) {k : String} {d : envGroup}
    (hd : mapGet v.envs k = some d) (hitems : ∀ i ∈ d.Items, ResolvedOK v i) {t : String}
    (ht : t ∈ v.excludedOf d.Items) : IsItem v.envs t := by
  obtain ⟨i, hi, hti⟩ := (mem_excludedOf v d.Items t).1 ht
  obtain ⟨ri, hbi, hsi, hei⟩ := hitems i hi
  rw [includedOf_of_bound hbi] at hti
  cases hdi : mapGet v.envs i with
  | none =>
    rw [hgood.leaf i ri hbi hsi hei hdi] at hti
    simp only [List.mem_singleton] at hti
    rw [hti]
    exact ⟨k, d, hd, hi⟩
  | some di => exact hgood.item.2 i ri di hbi hdi t hti

/-! ## Valid wildcards are well-formed patterns -/

theorem matchChunk_plain_ne_none {chunk : List Char} (h : ∀ c ∈ chunk, PlainChar c)
    (s : List Char) : matchChunk chunk s ≠ none := by
  unfold matchChunk
  rw [matchChunkLoop_plain chunk _ _ h (le_refl _)]
  split_ifs <;> simp

theorem starSearch_ne_none {chunk : List Char} (h : ∀ c ∈ chunk, PlainChar c) ( last : Bool) :
    ∀ (name : List Char), starSearch chunk last name ≠ none := by
  intro name
  induction name with
  | nil => simp [starSearch]
  | cons c rest ih =>
    unfold starSearch
    by_cases hc : c = '/'
    · simp [hc]
    · rw [if_neg hc]
      cases hm : matchChunk chunk rest with
      | none => exact absurd hm (matchChunk_plain_ne_none h rest)
      | some r =>
        cases r with
        | none => exact ih
        | some t =>
          simp only
          split_ifs
          · exact ih
          · simp

theorem checkRest_wild : ∀ (fuel : Nat) (p : List Char), (∀ c ∈ p, WildChar c) →
    checkRest fuel p = some () := by
  intro fuel
  induction fuel with
  | zero => intro p _; rfl
  | succ fuel ih =>
    intro p hv
    unfold checkRest
    by_cases hpe : p.isEmpty = true
    · rw [if_pos hpe]
    · rw [if_neg hpe]
      obtain ⟨stars, chunk, rest, _, _, hchunk, hrest, _, h21, h22, _⟩ := wild_decompose p hv
      simp only [h21, h22]
      cases hm : matchChunk chunk [] with
      | none => exact absurd hm (matchChunk_plain_ne_none hchunk [])
      | some r => exact ih rest hrest

/-- On a pattern of env name characters and stars `path.Match` never reports a
malformed pattern. -/
theorem matchLoop_wild : ∀ (fuel : Nat) (p name : List Char), (∀ c ∈ p, WildChar c) →
    matchLoop fuel p name ≠ none := by
  intro fuel
  induction fuel with
  | zero => intro p name _; simp [matchLoop]
  | succ fuel ih =>
    intro p name hv
    unfold matchLoop
    by_cases hpe : p.isEmpty = true
    · rw [if_pos hpe]; simp
    · rw [if_neg hpe]
      obtain ⟨stars, chunk, rest, _, _, hchunk, hrest, _, h21, h22, _⟩ := wild_decompose p hv
      simp only [h21, h22]
      have hcr : (checkRest rest.length rest).map (fun _ => false) ≠ none := by
        rw [checkRest_wild _ rest hrest]; simp
      have hstar : ∀ (r : Option (Option (List Char))), r ≠ none →
          (match r with
            | none => none
            | some (some t1) => matchLoop fuel rest t1
            | some none => (checkRest rest.length rest).map (fun _ => false)) ≠ none := by
        intro r hr
        cases r with
        | none => exact absurd rfl hr
        | some q =>
          cases q with
          | none => exact hcr
          | some t1 => exact ih rest t1 hrest
      by_cases hse : ((scanChunk p).1 && chunk.isEmpty) = true
      · rw [if_pos hse]; simp
      · rw [if_neg hse]
        cases hm : matchChunk chunk name with
        | none => exact absurd hm (matchChunk_plain_ne_none hchunk name)
        | some r =>
          cases r with
          | none =>
            simp only
            by_cases hst : (scanChunk p).1 = true
            · rw [if_pos hst]
              exact hstar _ (starSearch_ne_none hchunk _ name)
            · rw [if_neg hst]
              exact hcr
          | some t =>
            simp only
            by_cases ht : (t.isEmpty || !rest.isEmpty) = true
            · rw [if_pos ht]
              exact ih rest t hrest
            · rw [if_neg ht]
              by_cases hst : (scanChunk p).1 = true
              · rw [if_pos hst]
                exact hstar _ (starSearch_ne_none hchunk _ name)
              · rw [if_neg hst]
                exact hcr

theorem pathMatch_valid {t : String} (h : IsValidEnvNameWildcard t = true) (s : String) :
    (pathMatch t s).isNone = false := by
  unfold IsValidEnvNameWildcard at h
  simp only [Bool.and_eq_true, List.all_eq_true, Bool.or_eq_true, decide_eq_true_eq] at h
  unfold pathMatch
  cases hm : matchLoop t.data.length t.data s.data with
  | none => exact absurd hm (matchLoop_wild _ _ _ (fun c hc => h.2 c hc))
  | some b => rfl

/-! ## Negation and `@all` -/

theorem NoNegInv.noneg_of_inv {v v1 : Values} (hp : Prim v v1)
    (hinv : ∀ k, ResolvedOK v1 k → ResolvedOK v k) (h : NoNegInv v) : NoNegInv v1 := by
  intro hv k d hk hd
  rw [hp.frame.2.2] at hv
  rw [hp.frame.1] at hd
  exact h hv k d (hinv k hk) hd

theorem NoNegInv.noneg_prim {v v1 : Values} (hp : Prim v v1) (h : NoNegInv v) : NoNegInv v1 := by
  cases hp with
  | lookup env =>
    apply NoNegInv.noneg_of_inv (Prim.lookup v env) _ h
    intro k ⟨rk, hk, hks, hke⟩
    rcases lookupEnv_bound_inv hk with h1 | ⟨_, _, h3⟩
    · exact ⟨rk, h1, hks, hke⟩
    · rw [h3] at hks hke
      exact absurd hke (newGroup_resolved hks)
  | mark env r hb hs =>
    exact NoNegInv.noneg_of_inv (Prim.mark v env r hb hs)
      (fun k hk => resolvedOK_modify_inv _ hb (by simp) hk) h
  | leaf env r hb hs hl =>
    exact NoNegInv.noneg_of_inv (Prim.leaf v env r hb hs hl)
      (fun k hk => resolvedOK_modify_inv _ hb (by simp [hs]) hk) h
  | append env r d sub rs hb hs h1 h2 h3 h4 h5 h6 =>
    exact NoNegInv.noneg_of_inv (Prim.append v env r d sub rs hb hs h1 h2 h3 h4 h5 h6)
      (fun k hk => resolvedOK_modify_inv _ hb (by simp [hs]) hk) h
  | negate env r d hb hs h1 h2 h3 h4 =>
    intro hv
    have : v.validEnvs.isEmpty = true := hv
    rw [h3] at this
    simp at this
  | finish env r hb hs hitems hl hng =>
    intro hv k d hk hd
    have hd0 : mapGet v.envs k = some d := hd
    obtain ⟨rk, hbk, hks, hke⟩ := hk
    rcases modifyRes_bound_cases _ hb hbk with ⟨h1, _⟩ | ⟨_, h2⟩
    · rw [h1] at hd0
      exact hng d hd0
    · exact h hv k d ⟨rk, h2, hks, hke⟩ hd0

/-- When the first resolution of `@all` by `rebuild` succeeds, `@all` reaches
no negated group. -/
theorem resolveAll_not_negated {vals v1 : Values} {valid : resolvedEnvGroup}
    (hr : vals.resetForRebuild.resolveEnv All = (v1, .ok valid)) {X : String} :
    ¬ ReachesNegated vals.envs X := by
  intro ⟨hreach, d, hd, hneg⟩
  have hsteps : Steps vals.resetForRebuild v1 := by
    have := resolveEnv_prims vals.resetForRebuild All
    rw [hr] at this
    exact this
  have hacc0 : AccInv vals.resetForRebuild := by
    refine ⟨fun _ => 0, ?_⟩
    intro k d ⟨r, hb, hs, he⟩
    exact absurd he (reset_resolved hb hs)
  have hnn0 : NoNegInv vals.resetForRebuild := by
    intro _ k d ⟨r, hb, hs, he⟩
    exact absurd he (reset_resolved hb hs)
  obtain ⟨rank, hacc⟩ := hsteps.invariant (fun _ _ hp h => AccInv.acc_prim hp h) hacc0
  have hnn := hsteps.invariant (fun _ _ hp h => NoNegInv.noneg_prim hp h) hnn0
  have henvs : v1.envs = vals.envs := hsteps.frames.1
  have hval : v1.validEnvs.isEmpty = true := by
    rw [hsteps.frames.2.2]; rfl
  obtain ⟨hb, hs, he⟩ := resolveEnv_ok hr
  have hok : ∀ Y, Relation.ReflTransGen (Refers vals.envs) All Y → ResolvedOK v1 Y := by
    intro Y hY
    induction hY with
    | refl => exact ⟨valid, hb, hs, he⟩
    | tail _ hbc ih =>
      obtain ⟨db, hdb, hi⟩ := hbc
      exact (hacc _ db ih (by rw [henvs]; exact hdb) _ hi).1
  have := hnn hval X d (hok X hreach) (by rw [henvs]; exact hd)
  rw [hneg] at this
  simp at this

/-- With a negated group that `@all` is or reaches, `rebuild` fails. -/
theorem rebuild_negated {vals : Values} {X : String} (h : ReachesNegated vals.envs X) :
    vals.rebuild.2 ≠ none := by
  intro hn
  have heq : vals.rebuild = (vals.rebuild.1, none) := Prod.ext rfl hn
  obtain ⟨v1, valid, _, _, hr, _⟩ := rebuild_ok heq
  exact resolveAll_not_negated hr h

theorem empty_append_str (s : String) : "" ++ s = s := by
  apply String.ext
  simp

theorem CycleError.cycle_wrap {err : String} (h : CycleError err) (p : String) :
    CycleError (p ++ err) := by
  obtain ⟨pre, X, he⟩ := h
  exact ⟨p ++ pre, X, by rw [he]; exact (String.append_assoc _ _ _).symm⟩

theorem NegError.neg_wrap {envs : List (String × envGroup)} {sub err env : String} {d : envGroup}
    (h : NegError envs sub err) (hd : mapGet envs env = some d) (hi : sub ∈ d.Items)
    (p : String) : NegError envs env (p ++ err) := by
  obtain ⟨pre, X, dx, he, hdx, hneg, hreach⟩ := h
  exact ⟨p ++ pre, X, dx, by rw [he]; exact (String.append_assoc _ _ _).symm, hdx, hneg,
    Relation.ReflTransGen.head ⟨d, hd, hi⟩ hreach⟩

theorem NoErr.noerr_modify {v : Values} {env : String} {r : resolvedEnvGroup}
    (f : resolvedEnvGroup → resolvedEnvGroup) (hb : Bound v env r) (h : NoErr v)
    (hf : (f r).err = r.err) : NoErr (v.modifyRes env f) := by
  intro k rk hk
  rcases modifyRes_bound_cases f hb hk with ⟨_, h2⟩ | ⟨_, h2⟩
  · rw [h2, hf]; exact h env r hb
  · exact h k rk h2

/-- While `validEnvs` is not set, the group created for a defined group or for
a valid env name or wildcard carries no error. -/
theorem newGroup_noErr {v : Values} {env : String} (hv : v.validEnvs.isEmpty = true)
    (h : (mapGet v.envs env).isSome = true ∨ IsValidEnvNameWildcard env = true) :
    (v.newGroup env).err = none := by
  unfold Values.newGroup
  simp only
  by_cases hd : (mapGet v.envs env).isNone = true
  · rw [if_pos hd, if_pos hv]
    have hvalid : IsValidEnvNameWildcard env = true := by
      rcases h with h | h
      · cases hm : mapGet v.envs env with
        | none => rw [hm] at h; simp at h
        | some d => rw [hm] at hd; simp at hd
      · exact h
    rw [if_neg (by rw [pathMatch_valid hvalid]; simp)]
  · rw [if_neg hd]

theorem NoErr.noerr_lookup {v : Values} {env : String} (h : NoErr v)
    (hv : v.validEnvs.isEmpty = true)
    (henv : (mapGet v.envs env).isSome = true ∨ IsValidEnvNameWildcard env = true) :
    NoErr (v.lookupEnv env).1 := by
  intro k rk hk
  rcases lookupEnv_bound_inv hk with h1 | ⟨_, _, h3⟩
  · exact h k rk h1
  · rw [h3]; exact newGroup_noErr hv henv

/-- The end of `resolveEnv` on a group without error returns the group. -/
theorem finishResolve_noErr {v v1 : Values} {env : String} {r : resolvedEnvGroup}
    {res : Except String resolvedEnvGroup} (h : NoErr v) (hb : Bound v env r)
    (hfin : finishResolve v env = some (v1, res)) :
    NoErr v1 ∧ ∀ err, res ≠ .error err := by
  have hv1 := finishResolve_eq hfin
  have hn1 : NoErr v1 := by
    rw [hv1]
    exact h.noerr_modify _ hb (by simp [finalize_err])
  refine ⟨hn1, ?_⟩
  intro err he
  have hbnd := modifyRes_bound_self (fun r => { r.finalize with state := .resolvedState }) hb
  unfold finishResolve at hfin
  simp only at hfin
  unfold Bound at hbnd
  rw [hbnd] at hfin
  simp only at hfin
  split at hfin
  · next e herr =>
    simp only [finalize_err] at herr
    rw [h env r hb] at herr
    simp at herr
  · simp only [Option.some.injEq, Prod.mk.injEq] at hfin
    rw [← hfin.2] at he
    simp at he

/-- The item loop of a plain group while `validEnvs` is not set. -/
theorem resolveIncluded_err {self : Values → String → ResolveResult}
    (hself : ResolveSpec self) (herr : ErrSpec self) {env : String} {d : envGroup} :
    ∀ (items : List String) (v v1 : Values) (err : Option String),
      (∀ i ∈ items, i ∈ d.Items) → mapGet v.envs env = some d →
      v.validEnvs.isEmpty = true → NoErr v → ItemsValid v →
      (∃ r, Bound v env r ∧ r.state = .resolvingState) →
      resolveIncluded self env items v = some (v1, err) →
      NoErr v1 ∧ (∃ r, Bound v1 env r) ∧
      ∀ e, err = some e → CycleError e ∨ NegError v.envs env e := by
  intro items
  induction items with
  | nil =>
    intro v v1 err _ _ _ hn _ hr h
    simp only [resolveIncluded, Option.some.injEq, Prod.mk.injEq] at h
    rw [← h.1]
    obtain ⟨r, hb, _⟩ := hr
    exact ⟨hn, ⟨r, hb⟩, fun e he => by rw [← h.2] at he; simp at he⟩
  | cons subenv items ih =>
    intro v v1 err hitems hdef hv hn hiv hr h
    obtain ⟨r, hb, hst⟩ := hr
    unfold resolveIncluded at h
    cases hcall : self v subenv with
    | none => rw [hcall] at h; simp at h
    | some p =>
      obtain ⟨v2, res⟩ := p
      rw [hcall] at h
      obtain ⟨hstep2, _⟩ := hself v subenv v2 res hcall
      have hsub : subenv ∈ d.Items := hitems subenv (List.mem_cons_self _ _)
      obtain ⟨hn2, herr2⟩ := herr v subenv v2 res hcall hv hn hiv
        (Or.inr (hiv env d hdef subenv hsub))
      have hb2 : Bound v2 env r := hstep2.stable hb (by rw [hst]; simp)
      cases res with
      | error e =>
        simp only [Option.some.injEq, Prod.mk.injEq] at h
        rw [← h.1]
        refine ⟨hn2, ⟨r, hb2⟩, ?_⟩
        intro e1 he1
        rw [← h.2] at he1
        simp only [Option.some.injEq] at he1
        rw [← he1]
        rcases herr2 e rfl with hc | hg
        · exact Or.inl (hc.cycle_wrap _)
        · exact Or.inr (hg.neg_wrap hdef hsub _)
      | ok subres =>
        simp only at h
        have hn3 := hn2.noerr_modify
          (fun r => { r with included := appendNew r.included subres.included }) hb2 rfl
        have henvs : (v2.modifyRes env
            (fun r => { r with included := appendNew r.included subres.included })).envs =
            v.envs := hstep2.envs
        obtain ⟨h5, h6, h7⟩ := ih _ v1 err
          (fun i hi => hitems i (List.mem_cons_of_mem _ hi))
          (by rw [henvs]; exact hdef)
          (by rw [← hv]; exact congrArg List.isEmpty hstep2.validEnvs) hn3
          (by intro k dk hk; rw [henvs] at hk; exact hiv k dk hk)
          ⟨_, modifyRes_bound_self _ hb2, by simp [hst]⟩ h
        refine ⟨h5, h6, ?_⟩
        intro e he
        rw [henvs] at h7
        exact h7 e he

/-- While `validEnvs` is not set, a call of `resolveEnv` on an instance
without stored errors fails only with a cycle error or with the negation
error for a negated group that the env reaches. -/
theorem resolveEnvAux_err : ∀ fuel, ErrSpec (resolveEnvAux fuel) := by
  intro fuel
  induction fuel with
  | zero => intro vals env vals1 res h; simp [resolveEnvAux] at h
  | succ fuel ih =>
    intro vals env vals1 res h hv hn hiv henv
    obtain ⟨hb0, _⟩ := lookupEnv_bound vals env
    have hs0 := lookupEnv_step vals env
    have hn0 := hn.noerr_lookup hv henv
    unfold resolveEnvAux at h
    simp only at h
    generalize (vals.lookupEnv env).1 = a at h hb0 hs0 hn0
    generalize (vals.lookupEnv env).2.1 = r0 at h hb0
    have he0 : r0.err = none := hn0 env r0 hb0
    by_cases hres : r0.state = .resolvedState
    · rw [if_pos hres] at h
      split at h
      · next e herr => rw [he0] at herr; simp at herr
      · simp only [Option.some.injEq, Prod.mk.injEq] at h
        rw [← h.1, ← h.2]
        exact ⟨hn0, by intro err he; simp at he⟩
    · rw [if_neg hres] at h
      by_cases hing : r0.state = .resolvingState
      · rw [if_pos hing] at h
        simp only [Option.some.injEq, Prod.mk.injEq] at h
        rw [← h.1, ← h.2]
        refine ⟨hn0, ?_⟩
        intro err he
        simp only [Except.error.injEq] at he
        exact Or.inl ⟨"", env, by rw [← he, empty_append_str]⟩
      · rw [if_neg hing] at h
        have hn1 := hn0.noerr_modify (fun r => { r with state := .resolvingState }) hb0 rfl
        have hb1 := modifyRes_bound_self (fun r => { r with state := .resolvingState }) hb0
        have henvs1 : (a.modifyRes env (fun r => { r with state := .resolvingState })).envs =
            vals.envs := hs0.envs
        have hv1 : (a.modifyRes env
            (fun r => { r with state := .resolvingState })).validEnvs.isEmpty = true := by
          rw [← hv]; exact congrArg List.isEmpty hs0.validEnvs
        generalize a.modifyRes env (fun r => { r with state := .resolvingState }) = v1
          at h hn1 hb1 henvs1 hv1
        split at h
        · -- no definition
          have hb2 := modifyRes_bound_self (fun r => { r with included := [env] }) hb1
          obtain ⟨h5, h6⟩ := finishResolve_noErr
            (hn1.noerr_modify (fun r => { r with included := [env] }) hb1 rfl) hb2 h
          exact ⟨h5, fun err he => absurd he (h6 err)⟩
        · next definition hdef =>
          by_cases hneg : definition.Negated = true
          · -- negated group
            rw [if_pos hneg, if_pos hv1] at h
            simp only [Option.some.injEq, Prod.mk.injEq] at h
            rw [← h.1, ← h.2]
            refine ⟨hn1, ?_⟩
            intro err he
            simp only [Except.error.injEq] at he
            exact Or.inr ⟨"", env, definition, by rw [← he, empty_append_str],
              by rw [← henvs1]; exact hdef, hneg, Relation.ReflTransGen.refl⟩
          · -- plain group
            rw [if_neg hneg] at h
            have hiv1 : ItemsValid v1 := by
              intro k dk hk; rw [henvs1] at hk; exact hiv k dk hk
            split at h
            · simp at h
            · next v2 err hloop =>
              simp only [Option.some.injEq, Prod.mk.injEq] at h
              rw [← h.1, ← h.2]
              obtain ⟨h5, _, h7⟩ := resolveIncluded_err (resolveEnvAux_spec fuel) ih
                _ _ _ _ (fun i hi => hi) hdef hv1 hn1 hiv1 ⟨_, hb1, rfl⟩ hloop
              refine ⟨h5, ?_⟩
              intro e he
              simp only [Except.error.injEq] at he
              rw [henvs1] at h7
              rw [← he]
              exact h7 err rfl
            · next v2 hloop =>
              obtain ⟨h5, ⟨r2, hb2⟩, _⟩ := resolveIncluded_err (resolveEnvAux_spec fuel) ih
                _ _ _ _ (fun i hi => hi) hdef hv1 hn1 hiv1 ⟨_, hb1, rfl⟩ hloop
              obtain ⟨h8, h9⟩ := finishResolve_noErr h5 hb2 h
              exact ⟨h8, fun err he => absurd he (h9 err)⟩

/-- The error of the first resolution of `@all` by `rebuild`, on an instance
without stored groups and with valid items. -/
theorem resolveAll_error {vals v1 : Values} {err : String} (hnil : vals.resolvedEnvs = [])
    (hiv : ItemsValid vals) (hall : (mapGet vals.envs All).isSome = true)
    (hr : vals.resetForRebuild.resolveEnv All = (v1, .error err)) :
    CycleError err ∨ NegError vals.envs All err := by
  have heq := resolveEnvAux_eq vals.resetForRebuild All (resolveFuel vals.resetForRebuild)
    (pending_lt_fuel _)
  rw [hr] at heq
  have hno : NoErr vals.resetForRebuild := by
    intro k r hb
    unfold Bound at hb
    have : vals.resetForRebuild.resolvedEnvs = [] := by
      show resetStates vals.resolvedEnvs = []
      rw [hnil]; rfl
    rw [this] at hb
    simp [mapGet] at hb
  exact (resolveEnvAux_err _ vals.resetForRebuild All v1 (.error err) heq rfl hno hiv
    (Or.inl hall)).2 err rfl

/-- With a negated group that `@all` is or reaches, `rebuild` on an instance
without stored groups and with valid items fails with a cycle error or with
the negation error. -/
theorem rebuild_negated_error {vals : Values} {X : String} (hnil : vals.resolvedEnvs = [])
    (hiv : ItemsValid vals) (h : ReachesNegated vals.envs X) :
    ∃ err, vals.rebuild.2 = some err ∧ (CycleError err ∨ NegError vals.envs All err) := by
  have hall : (mapGet vals.envs All).isSome = true := by
    obtain ⟨hreach, d, hd, _⟩ := h
    rcases Relation.ReflTransGen.cases_head hreach with heq | ⟨b, ⟨db, hdb, _⟩, _⟩
    · rw [heq, hd]; rfl
    · rw [hdb]; rfl
  unfold Values.rebuild
  simp only
  have hall0 : (mapGet vals.resetForRebuild.envs All).isNone = false := by
    show (mapGet vals.envs All).isNone = false
    cases hm : mapGet vals.envs All with
    | none => rw [hm] at hall; simp at hall
    | some d => rfl
  rw [if_neg (by rw [hall0]; simp)]
  split
  · next v1 err hr => exact ⟨err, rfl, resolveAll_error hnil hiv hall hr⟩
  · next v1 valid hr => exact absurd h (resolveAll_not_negated hr)

/-! ## Resolution does not read the entries -/

theorem lookupEnv_sim {v w : Values} {env : String} (h : SameCore v w)
    (hm : Mentioned v.envs env) :
    (w.lookupEnv env).2.1 = (v.lookupEnv env).2.1 ∧
    SameCore (v.lookupEnv env).1 (w.lookupEnv env).1 := by
  obtain ⟨h1, h2, h3⟩ := h
  have hk := h3 env hm
  unfold Values.lookupEnv
  rw [hk]
  cases hg : mapGet v.resolvedEnvs env with
  | some r => exact ⟨rfl, h1, h2, h3⟩
  | none =>
    simp only
    rw [newGroup_congr h1 h2]
    refine ⟨rfl, h1, h2, ?_⟩
    intro k hkm
    by_cases hke : k = env
    · rw [hke, mapGet_mapSet_self, mapGet_mapSet_self]
    · rw [mapGet_mapSet_ne _ _ _ _ hke, mapGet_mapSet_ne _ _ _ _ hke]
      exact h3 k hkm

theorem modifyRes_sim {v w : Values} (env : String) (f : resolvedEnvGroup → resolvedEnvGroup)
    (h : SameCore v w) : SameCore (v.modifyRes env f) (w.modifyRes env f) := by
  refine ⟨h.1, h.2.1, ?_⟩
  intro k hk
  unfold Values.modifyRes
  simp only
  by_cases hke : k = env
  · rw [hke, mapGet_mapModify_self, mapGet_mapModify_self, h.2.2 env (hke ▸ hk)]
  · rw [mapGet_mapModify_ne _ _ _ _ hke, mapGet_mapModify_ne _ _ _ _ hke]
    exact h.2.2 k hk

theorem finishResolve_sim {v w v1 : Values} {env : String}
    {res : Except String resolvedEnvGroup} (h : SameCore v w) (hm : Mentioned v.envs env)
    (hf : finishResolve v env = some (v1, res)) :
    ∃ w1, finishResolve w env = some (w1, res) ∧ SameCore v1 w1 := by
  have hs := modifyRes_sim env (fun r => { r.finalize with state := .resolvedState }) h
  have hk := hs.2.2 env hm
  unfold finishResolve at hf ⊢
  simp only at hf ⊢
  rw [hk]
  cases hg : mapGet (v.modifyRes env
      (fun r => { r.finalize with state := .resolvedState })).resolvedEnvs env with
  | none => rw [hg] at hf; simp at hf
  | some result =>
    rw [hg] at hf
    simp only at hf ⊢
    cases he : result.err with
    | some e =>
      rw [he] at hf
      simp only [Option.some.injEq, Prod.mk.injEq] at hf
      exact ⟨_, by rw [← hf.2], by rw [← hf.1]; exact hs⟩
    | none =>
      rw [he] at hf
      simp only [Option.some.injEq, Prod.mk.injEq] at hf
      exact ⟨_, by rw [← hf.2], by rw [← hf.1]; exact hs⟩

theorem resolveExcluded_sim {self : Values → String → ResolveResult}
    (hself : ResolveSpec self) (hsim : SimSpec self) {env : String} :
    ∀ (items : List String) (v w v1 : Values) (excluded : List String)
      (res : Except String (List String)),
      SameCore v w → (∀ i ∈ items, Mentioned v.envs i) →
      resolveExcluded self env items v excluded = some (v1, res) →
      ∃ w1, resolveExcluded self env items w excluded = some (w1, res) ∧ SameCore v1 w1 := by
  intro items
  induction items with
  | nil =>
    intro v w v1 excluded res hsc _ h
    simp only [resolveExcluded, Option.some.injEq, Prod.mk.injEq] at h ⊢
    exact ⟨w, ⟨rfl, h.2⟩, by rw [← h.1]; exact hsc⟩
  | cons subenv items ih =>
    intro v w v1 excluded res hsc hm h
    unfold resolveExcluded at h ⊢
    cases hcall : self v subenv with
    | none => rw [hcall] at h; simp at h
    | some p =>
      obtain ⟨v2, res2⟩ := p
      rw [hcall] at h
      obtain ⟨w2, hw2, hsc2⟩ := hsim v w subenv v2 res2 hsc
        (hm subenv (List.mem_cons_self _ _)) hcall
      obtain ⟨hstep2, _⟩ := hself v subenv v2 res2 hcall
      rw [hw2]
      cases res2 with
      | error e =>
        simp only [Option.some.injEq, Prod.mk.injEq] at h ⊢
        exact ⟨w2, ⟨rfl, h.2⟩, by rw [← h.1]; exact hsc2⟩
      | ok subres =>
        simp only at h ⊢
        exact ih v2 w2 v1 _ res hsc2
          (fun i hi => by rw [hstep2.envs]; exact hm i (List.mem_cons_of_mem _ hi)) h

theorem resolveIncluded_sim {self : Values → String → ResolveResult}
    (hself : ResolveSpec self) (hsim : SimSpec self) {env : String} :
    ∀ (items : List String) (v w v1 : Values) (err : Option String),
      SameCore v w → (∀ i ∈ items, Mentioned v.envs i) →
      resolveIncluded self env items v = some (v1, err) →
      ∃ w1, resolveIncluded self env items w = some (w1, err) ∧ SameCore v1 w1 ∧
        v1.envs = v.envs := by
  intro items
  induction items with
  | nil =>
    intro v w v1 err hsc _ h
    simp only [resolveIncluded, Option.some.injEq, Prod.mk.injEq] at h ⊢
    exact ⟨w, ⟨rfl, h.2⟩, by rw [← h.1]; exact hsc, by rw [← h.1]⟩
  | cons subenv items ih =>
    intro v w v1 err hsc hm h
    unfold resolveIncluded at h ⊢
    cases hcall : self v subenv with
    | none => rw [hcall] at h; simp at h
    | some p =>
      obtain ⟨v2, res2⟩ := p
      rw [hcall] at h
      obtain ⟨w2, hw2, hsc2⟩ := hsim v w subenv v2 res2 hsc
        (hm subenv (List.mem_cons_self _ _)) hcall
      obtain ⟨hstep2, _⟩ := hself v subenv v2 res2 hcall
      rw [hw2]
      cases res2 with
      | error e =>
        simp only [Option.some.injEq, Prod.mk.injEq] at h ⊢
        exact ⟨w2, ⟨rfl, h.2⟩, by rw [← h.1]; exact hsc2, by rw [← h.1]; exact hstep2.envs⟩
      | ok subres =>
        simp only at h ⊢
        obtain ⟨w1, h1, h2, h3⟩ := ih _ _ v1 err (modifyRes_sim env _ hsc2)
          (fun i hi => by
            show Mentioned v2.envs i
            rw [hstep2.envs]; exact hm i (List.mem_cons_of_mem _ hi)) h
        exact ⟨w1, h1, h2, h3.trans hstep2.envs⟩

/-- A call of `resolveEnv` for a name or an item of the definitions gives the
same result on two instances that agree on the names and items. -/
theorem resolveEnvAux_sim : ∀ fuel, SimSpec (resolveEnvAux fuel) := by
  intro fuel
  induction fuel with
  | zero => intro v w env v1 res _ _ h; simp [resolveEnvAux] at h
  | succ fuel ih =>
    intro v w env v1 res hsc hm h
    obtain ⟨hl, hsc0⟩ := lookupEnv_sim hsc hm
    have henv0 : (v.lookupEnv env).1.envs = v.envs := (lookupEnv_step v env).envs
    unfold resolveEnvAux at h ⊢
    simp only at h ⊢
    rw [hl]
    generalize (v.lookupEnv env).1 = a at h hsc0 henv0
    generalize (w.lookupEnv env).1 = b at hsc0
    generalize (v.lookupEnv env).2.1 = r0 at h
    have hma : Mentioned a.envs env := by rw [henv0]; exact hm
    by_cases hres : r0.state = .resolvedState
    · rw [if_pos hres] at h ⊢
      cases he : r0.err with
      | some e =>
        rw [he] at h
        simp only [Option.some.injEq, Prod.mk.injEq] at h ⊢
        exact ⟨b, ⟨rfl, h.2⟩, by rw [← h.1]; exact hsc0⟩
      | none =>
        rw [he] at h
        simp only [Option.some.injEq, Prod.mk.injEq] at h ⊢
        exact ⟨b, ⟨rfl, h.2⟩, by rw [← h.1]; exact hsc0⟩
    · rw [if_neg hres] at h ⊢
      by_cases hing : r0.state = .resolvingState
      · rw [if_pos hing] at h ⊢
        simp only [Option.some.injEq, Prod.mk.injEq] at h ⊢
        exact ⟨b, ⟨rfl, h.2⟩, by rw [← h.1]; exact hsc0⟩
      · rw [if_neg hing] at h ⊢
        have hsc1 := modifyRes_sim env (fun r => { r with state := .resolvingState }) hsc0
        have henv1 : (a.modifyRes env (fun r => { r with state := .resolvingState })).envs =
            a.envs := rfl
        generalize a.modifyRes env (fun r => { r with state := .resolvingState }) = a1
          at h hsc1 henv1
        generalize b.modifyRes env (fun r => { r with state := .resolvingState }) = b1
          at hsc1
        have hm1 : Mentioned a1.envs env := by rw [henv1]; exact hma
        rw [hsc1.1]
        cases hdef : mapGet a1.envs env with
        | none =>
          rw [hdef] at h
          simp only at h ⊢
          exact finishResolve_sim (modifyRes_sim env _ hsc1) hm1 h
        | some definition =>
          rw [hdef] at h
          simp only at h ⊢
          have hitems : ∀ i ∈ definition.Items, Mentioned a1.envs i :=
            fun i hi => ⟨(env, definition), mapGet_mem hdef, Or.inr hi⟩
          by_cases hneg : definition.Negated = true
          · rw [if_pos hneg] at h ⊢
            rw [hsc1.2.1]
            by_cases hv : a1.validEnvs.isEmpty = true
            · rw [if_pos hv] at h ⊢
              simp only [Option.some.injEq, Prod.mk.injEq] at h ⊢
              exact ⟨b1, ⟨rfl, h.2⟩, by rw [← h.1]; exact hsc1⟩
            · rw [if_neg hv] at h ⊢
              cases hloop : resolveExcluded (resolveEnvAux fuel) env definition.Items a1 [] with
              | none => rw [hloop] at h; simp at h
              | some p =>
                obtain ⟨a2, r2⟩ := p
                rw [hloop] at h
                obtain ⟨b2, hb2, hsc2⟩ := resolveExcluded_sim (resolveEnvAux_spec fuel) ih
                  _ _ _ _ _ _ hsc1 hitems hloop
                obtain ⟨hst2, _⟩ := resolveExcluded_prims (resolveEnvAux_spec fuel)
                  (resolveEnvAux_prims fuel) _ _ _ _ _ hloop
                rw [hb2]
                cases r2 with
                | error e =>
                  simp only [Option.some.injEq, Prod.mk.injEq] at h ⊢
                  exact ⟨b2, ⟨rfl, h.2⟩, by rw [← h.1]; exact hsc2⟩
                | ok excluded =>
                  simp only at h ⊢
                  rw [hsc2.2.1]
                  exact finishResolve_sim (modifyRes_sim env _ hsc2)
                    (by show Mentioned a2.envs env; rw [hst2.frames.1]; exact hm1) h
          · rw [if_neg hneg] at h ⊢
            cases hloop : resolveIncluded (resolveEnvAux fuel) env definition.Items a1 with
            | none => rw [hloop] at h; simp at h
            | some p =>
              obtain ⟨a2, e2⟩ := p
              rw [hloop] at h
              obtain ⟨b2, hb2, hsc2, henv2⟩ := resolveIncluded_sim (resolveEnvAux_spec fuel) ih
                _ _ _ _ _ hsc1 hitems hloop
              rw [hb2]
              cases e2 with
              | some e =>
                simp only [Option.some.injEq, Prod.mk.injEq] at h ⊢
                exact ⟨b2, ⟨rfl, h.2⟩, by rw [← h.1]; exact hsc2⟩
              | none =>
                simp only at h ⊢
                exact finishResolve_sim hsc2 (by rw [henv2]; exact hm1) h

theorem resolveEnv_sim {v w v1 : Values} {env : String} {res : Except String resolvedEnvGroup}
    (h : SameCore v w) (hm : Mentioned v.envs env) (hr : v.resolveEnv env = (v1, res)) :
    ∃ w1, w.resolveEnv env = (w1, res) ∧ SameCore v1 w1 := by
  have heq := resolveEnvAux_eq v env (resolveFuel v) (pending_lt_fuel v)
  rw [hr] at heq
  obtain ⟨w1, hw1, hsc1⟩ := resolveEnvAux_sim _ v w env v1 res h hm heq
  refine ⟨w1, ?_, hsc1⟩
  have hfuel : resolveFuel w = resolveFuel v := by
    unfold resolveFuel
    rw [h.1]
  unfold Values.resolveEnv
  rw [hfuel, hw1]
  rfl

/-- The stored group of `k` exists. -/
theorem bound_lookup (v : Values) (env : String) :
    (mapGet (v.lookupEnv env).1.resolvedEnvs env).isSome = true ∧
    ∀ k, (mapGet v.resolvedEnvs k).isSome = true →
      (mapGet (v.lookupEnv env).1.resolvedEnvs k).isSome = true := by
  constructor
  · have := (lookupEnv_bound v env).1
    unfold Bound at this
    rw [this]; rfl
  · intro k hk
    cases hg : mapGet v.resolvedEnvs k with
    | none => rw [hg] at hk; simp at hk
    | some r =>
      obtain ⟨r1, hr1⟩ := (lookupEnv_step v env).keep k r hg
      unfold Bound at hr1
      rw [hr1]; rfl

/-- A lookup on one of two instances that agree on the names and items keeps
them in agreement when it creates no group for a name or an item. -/
theorem lookupEnv_left {v w : Values} (env : String) (h : SameCore v w)
    (hb : Mentioned v.envs env → (mapGet v.resolvedEnvs env).isSome = true) :
    SameCore (v.lookupEnv env).1 w := by
  obtain ⟨h1, h2, h3⟩ := h
  unfold Values.lookupEnv
  cases hg : mapGet v.resolvedEnvs env with
  | some r => exact ⟨h1, h2, h3⟩
  | none =>
    refine ⟨h1, h2, ?_⟩
    intro k hk
    simp only
    have hke : k ≠ env := by
      intro heq
      rw [heq] at hk
      have := hb hk
      rw [hg] at this
      simp at this
    rw [mapGet_mapSet_ne _ _ _ _ hke]
    exact h3 k hk

/-- The loop over the items of one definition in `mentionAll`, on two
instances. -/
theorem mentionItems_sim : ∀ (l : List String) (v w : Values), SameCore v w →
    (∀ i ∈ l, Mentioned v.envs i) →
    SameCore (l.foldl (fun v subname => (v.mentionEnv subname).1) v)
      (l.foldl (fun v subname => (v.mentionEnv subname).1) w) := by
  intro l
  induction l with
  | nil => intro v w h _; exact h
  | cons a l ih =>
    intro v w h hm
    simp only [List.foldl_cons]
    refine ih _ _ (lookupEnv_sim h (hm a (List.mem_cons_self _ _))).2 ?_
    intro i hi
    show Mentioned (v.lookupEnv a).1.envs i
    rw [(lookupEnv_step v a).envs]
    exact hm i (List.mem_cons_of_mem _ hi)

theorem mentionItems_bound : ∀ (l : List String) (v : Values),
    (∀ k, (mapGet v.resolvedEnvs k).isSome = true →
      (mapGet (l.foldl (fun v subname => (v.mentionEnv subname).1) v).resolvedEnvs k).isSome
        = true) ∧
    ∀ i ∈ l,
      (mapGet (l.foldl (fun v subname => (v.mentionEnv subname).1) v).resolvedEnvs i).isSome
        = true := by
  intro l
  induction l with
  | nil => intro v; exact ⟨fun k hk => hk, fun i hi => by simp at hi⟩
  | cons a l ih =>
    intro v
    simp only [List.foldl_cons]
    obtain ⟨h1, h2⟩ := ih (v.mentionEnv a).1
    obtain ⟨b1, b2⟩ := bound_lookup v a
    refine ⟨fun k hk => h1 k (b2 k hk), ?_⟩
    intro i hi
    rcases List.mem_cons.1 hi with heq | hmem
    · rw [heq]; exact h1 a b1
    · exact h2 i hmem

/-- The loop of `mentionAll` over the definitions, on two instances. -/
theorem mentionGroups_sim : ∀ (l : List (String × envGroup)) (v w : Values), SameCore v w →
    (∀ p ∈ l, p ∈ v.envs) →
    SameCore
      (l.foldl (fun v p => p.2.Items.foldl (fun v subname => (v.mentionEnv subname).1)
        (v.mentionEnv p.1).1) v)
      (l.foldl (fun v p => p.2.Items.foldl (fun v subname => (v.mentionEnv subname).1)
        (v.mentionEnv p.1).1) w) := by
  intro l
  induction l with
  | nil => intro v w h _; exact h
  | cons a l ih =>
    intro v w h hm
    simp only [List.foldl_cons]
    have ha : a ∈ v.envs := hm a (List.mem_cons_self _ _)
    have h1 := (lookupEnv_sim h ⟨a, ha, Or.inl rfl⟩).2
    have henv1 : (v.lookupEnv a.1).1.envs = v.envs := (lookupEnv_step v a.1).envs
    have h2 := mentionItems_sim a.2.Items _ _ h1 (fun i hi => by
      rw [henv1]; exact ⟨a, ha, Or.inr hi⟩)
    refine ih _ _ h2 ?_
    intro p hp
    have hs : Step v (a.2.Items.foldl (fun v subname => (v.mentionEnv subname).1)
        (v.mentionEnv a.1).1) :=
      (mentionEnv_step v a.1).trans (foldl_step _ (fun v x => mentionEnv_step v x) _ _)
    rw [hs.envs]
    exact hm p (List.mem_cons_of_mem _ hp)

theorem mentionGroups_bound : ∀ (l : List (String × envGroup)) (v : Values),
    (∀ k, (mapGet v.resolvedEnvs k).isSome = true →
      (mapGet (l.foldl (fun v p => p.2.Items.foldl (fun v subname => (v.mentionEnv subname).1)
        (v.mentionEnv p.1).1) v).resolvedEnvs k).isSome = true) ∧
    ∀ p ∈ l, ∀ k, (k = p.1 ∨ k ∈ p.2.Items) →
      (mapGet (l.foldl (fun v p => p.2.Items.foldl (fun v subname => (v.mentionEnv subname).1)
        (v.mentionEnv p.1).1) v).resolvedEnvs k).isSome = true := by
  intro l
  induction l with
  | nil => intro v; exact ⟨fun k hk => hk, fun p hp => by simp at hp⟩
  | cons a l ih =>
    intro v
    simp only [List.foldl_cons]
    obtain ⟨h1, h2⟩ := ih (a.2.Items.foldl (fun v subname => (v.mentionEnv subname).1)
      (v.mentionEnv a.1).1)
    obtain ⟨b1, b2⟩ := bound_lookup v a.1
    obtain ⟨c1, c2⟩ := mentionItems_bound a.2.Items (v.mentionEnv a.1).1
    refine ⟨fun k hk => h1 k (c1 k (b2 k hk)), ?_⟩
    intro p hp k hk
    rcases List.mem_cons.1 hp with heq | hmem
    · rw [heq] at hk
      rcases hk with hk | hk
      · rw [hk]; exact h1 _ (c1 _ b1)
      · exact h1 _ (c2 k hk)
    · exact h2 p hmem k hk

/-- The loop of `mentionAll` over the entries changes no group of a name or an
item once these are all stored. -/
theorem mentionEntries_left : ∀ (l : List entry) (v w : Values), SameCore v w →
    (∀ k, Mentioned v.envs k → (mapGet v.resolvedEnvs k).isSome = true) →
    SameCore (l.foldl (fun v e => (v.mentionEnv e.Env).1) v) w ∧
    ∀ k, Mentioned v.envs k →
      (mapGet (l.foldl (fun v e => (v.mentionEnv e.Env).1) v).resolvedEnvs k).isSome = true := by
  intro l
  induction l with
  | nil => intro v w h hb; exact ⟨h, hb⟩
  | cons a l ih =>
    intro v w h hb
    simp only [List.foldl_cons]
    have henv : (v.lookupEnv a.Env).1.envs = v.envs := (lookupEnv_step v a.Env).envs
    obtain ⟨h1, h2⟩ := ih (v.mentionEnv a.Env).1 w (lookupEnv_left a.Env h (hb a.Env))
      (fun k hk => (bound_lookup v a.Env).2 k (hb k (by
        have : Mentioned (v.lookupEnv a.Env).1.envs k := hk
        rw [henv] at this
        exact this)))
    refine ⟨h1, ?_⟩
    intro k hk
    exact h2 k (by
      show Mentioned (v.lookupEnv a.Env).1.envs k
      rw [henv]; exact hk)

theorem mentionAllEntries_left : ∀ (l : List (String × List entry)) (v w : Values),
    SameCore v w →
    (∀ k, Mentioned v.envs k → (mapGet v.resolvedEnvs k).isSome = true) →
    SameCore (l.foldl (fun v p => p.2.foldl (fun v e => (v.mentionEnv e.Env).1) v) v) w := by
  intro l
  induction l with
  | nil => intro v w h _; exact h
  | cons a l ih =>
    intro v w h hb
    simp only [List.foldl_cons]
    obtain ⟨h1, h2⟩ := mentionEntries_left a.2 v w h hb
    have henv : (a.2.foldl (fun v e => (v.mentionEnv e.Env).1) v).envs = v.envs :=
      (foldl_step _ (fun v (e : entry) => mentionEnv_step v e.Env) _ _).envs
    refine ih _ w h1 ?_
    intro k hk
    rw [henv] at hk
    exact h2 k hk

/-- The mentions of `rebuild` on an instance and on the same instance without
entries. -/
theorem mentionAll_sim {v w : Values} (h : SameCore v w) (hent : w.entries = []) :
    SameCore v.mentionAll w.mentionAll := by
  unfold Values.mentionAll
  simp only
  have h1 := mentionGroups_sim v.envs v w h (fun p hp => hp)
  rw [← h.1] at h1
  have hsw : Step w (w.envs.foldl
      (fun v p => p.2.Items.foldl (fun v subname => (v.mentionEnv subname).1)
        (v.mentionEnv p.1).1) w) :=
    foldl_step _ (fun v (p : String × envGroup) => (mentionEnv_step v p.1).trans
      (foldl_step _ (fun v x => mentionEnv_step v x) _ _)) _ _
  rw [hsw.entries, hent]
  simp only [List.foldl_nil]
  rw [h.1] at h1 ⊢
  have hsv : Step v (v.envs.foldl
      (fun v p => p.2.Items.foldl (fun v subname => (v.mentionEnv subname).1)
        (v.mentionEnv p.1).1) v) :=
    foldl_step _ (fun v (p : String × envGroup) => (mentionEnv_step v p.1).trans
      (foldl_step _ (fun v x => mentionEnv_step v x) _ _)) _ _
  refine mentionAllEntries_left _ _ _ h1 ?_
  intro k hk
  rw [hsv.envs] at hk
  obtain ⟨p, hp, hkp⟩ := hk
  exact (mentionGroups_bound v.envs v).2 p hp k hkp

theorem resolveGroups_sim : ∀ (names : List String) (v w v1 : Values) (err : Option String),
    SameCore v w → (∀ n ∈ names, Mentioned v.envs n) → resolveGroups names v = (v1, err) →
    ∃ w1, resolveGroups names w = (w1, err) ∧ SameCore v1 w1 := by
  intro names
  induction names with
  | nil =>
    intro v w v1 err h _ hr
    simp only [resolveGroups, Prod.mk.injEq] at hr ⊢
    exact ⟨w, ⟨rfl, hr.2⟩, by rw [← hr.1]; exact h⟩
  | cons n names ih =>
    intro v w v1 err h hm hr
    unfold resolveGroups at hr ⊢
    cases hc : v.resolveEnv n with
    | mk v2 res =>
      rw [hc] at hr
      obtain ⟨w2, hw2, hsc2⟩ := resolveEnv_sim h (hm n (List.mem_cons_self _ _)) hc
      have hstep := resolveEnv_step v n
      rw [hc] at hstep
      rw [hw2]
      cases res with
      | error e =>
        simp only [Prod.mk.injEq] at hr ⊢
        exact ⟨w2, ⟨rfl, hr.2⟩, by rw [← hr.1]; exact hsc2⟩
      | ok g =>
        simp only at hr ⊢
        exact ih v2 w2 v1 err hsc2
          (fun k hk => by rw [hstep.envs]; exact hm k (List.mem_cons_of_mem _ hk)) hr

/-- When `rebuild` succeeds on an instance without stored groups, it succeeds
on the instance with the same definitions and no entries. -/
theorem rebuild_groups_only {v w vals : Values} (henv : w.envs = v.envs)
    (hnil : v.resolvedEnvs = []) (hnilw : w.resolvedEnvs = []) (hent : w.entries = [])
    (h : v.rebuild = (vals, none)) :
    ∃ vals1, w.rebuild = (vals1, none) ∧ vals1.envs = v.envs := by
  obtain ⟨v1, valid, v5, hall, hr, hg, _, _, _, _⟩ := rebuild_ok h
  have hsc0 : SameCore v.resetForRebuild w.resetForRebuild := by
    refine ⟨henv, rfl, ?_⟩
    intro k _
    show mapGet (resetStates w.resolvedEnvs) k = mapGet (resetStates v.resolvedEnvs) k
    rw [hnil, hnilw]
  have hmall : Mentioned v.resetForRebuild.envs All := by
    show Mentioned v.envs All
    cases hd : mapGet v.envs All with
    | none => rw [hd] at hall; simp at hall
    | some d => exact ⟨(All, d), mapGet_mem hd, Or.inl rfl⟩
  obtain ⟨w1, hw1, hsc1⟩ := resolveEnv_sim hsc0 hmall hr
  have hstepw := resolveEnv_step w.resetForRebuild All
  rw [hw1] at hstepw
  have hstepv := resolveEnv_step v.resetForRebuild All
  rw [hr] at hstepv
  have hsc2 : SameCore (v1.setValidEnvs valid.included) (w1.setValidEnvs valid.included) :=
    ⟨hsc1.1, rfl, hsc1.2.2⟩
  have hent1 : (w1.setValidEnvs valid.included).entries = [] := by
    show w1.entries = []
    rw [hstepw.entries]
    exact hent
  have hsc3 := mentionAll_sim hsc2 hent1
  have hsc4 : SameCore ((v1.setValidEnvs valid.included).mentionAll).fillKnownEnvs
      ((w1.setValidEnvs valid.included).mentionAll).fillKnownEnvs := hsc3
  have henv4 : ((v1.setValidEnvs valid.included).mentionAll).fillKnownEnvs.envs = v.envs := by
    show ((v1.setValidEnvs valid.included).mentionAll).envs = v.envs
    rw [(mentionAll_step _).envs]
    exact hstepv.envs
  have henvw4 : ((w1.setValidEnvs valid.included).mentionAll).fillKnownEnvs.envs = v.envs := by
    rw [hsc4.1, henv4]
  have hentw4 : ((w1.setValidEnvs valid.included).mentionAll).fillKnownEnvs.entries = [] := by
    show ((w1.setValidEnvs valid.included).mentionAll).entries = []
    rw [(mentionAll_step _).entries]
    exact hent1
  obtain ⟨w5, hw5, hsc5⟩ := resolveGroups_sim _ _ _ _ _ hsc4 (fun n hn => by
    rw [henv4]
    obtain ⟨p, hp, hpn⟩ := List.mem_map.1 hn
    exact ⟨p, hp, Or.inl hpn.symm⟩) hg
  have hstep5 := resolveGroups_step (v.envs.map Prod.fst)
    ((w1.setValidEnvs valid.included).mentionAll).fillKnownEnvs
  rw [hw5] at hstep5
  refine ⟨w5, ?_, by rw [hstep5.envs, henvw4]⟩
  unfold Values.rebuild
  simp only
  have hallw : (mapGet w.resetForRebuild.envs All).isNone = false := by
    show (mapGet w.envs All).isNone = false
    rw [henv]
    cases hd : mapGet v.envs All with
    | none => rw [hd] at hall; simp at hall
    | some d => rfl
  rw [if_neg (by rw [hallw]; simp), hw1]
  simp only
  rw [henvw4, hw5]
  simp only
  rw [hstep5.entries, hentw4]
  rfl

/-! ## The text of the env groups: characters and trimming -/

theorem space_cases {c : Char} (hs : isSpace c = true) :
    c.toNat = 9 ∨ c.toNat = 10 ∨ c.toNat = 11 ∨ c.toNat = 12 ∨ c.toNat = 13 ∨ c.toNat = 32 ∨
    c.toNat = 0x85 ∨ c.toNat = 0xA0 ∨ c.toNat = 0x1680 ∨
    c.toNat = 0x2000 ∨ c.toNat = 0x2001 ∨ c.toNat = 0x2002 ∨ c.toNat = 0x2003 ∨
    c.toNat = 0x2004 ∨ c.toNat = 0x2005 ∨ c.toNat = 0x2006 ∨ c.toNat = 0x2007 ∨
    c.toNat = 0x2008 ∨ c.toNat = 0x2009 ∨ c.toNat = 0x200A ∨
    c.toNat = 0x2028 ∨ c.toNat = 0x2029 ∨ c.toNat = 0x202F ∨ c.toNat = 0x205F ∨
    c.toNat = 0x3000 := by
  unfold isSpace at hs
  simp only [Bool.or_eq_true, Bool.and_eq_true, decide_eq_true_eq] at hs
  omega

/-- No character of an env name is a space. -/
theorem envNameChar_not_space {c : Char} (h : isEnvNameChar c = true) : isSpace c = false := by
  cases hs : isSpace c with
  | false => rfl
  | true =>
    have hc : Char.ofNat c.toNat = c := Char.ofNat_toNat c
    rcases space_cases hs with h1 | h1 | h1 | h1 | h1 | h1 | h1 | h1 | h1 | h1 | h1 | h1 | h1 |
      h1 | h1 | h1 | h1 | h1 | h1 | h1 | h1 | h1 | h1 | h1 | h1 <;>
    (rw [h1] at hc; rw [← hc] at h; revert h; decide)

theorem wildChar_not_space {c : Char} (h : WildChar c) : isSpace c = false := by
  rcases h with h | h
  · rw [h]; decide
  · exact envNameChar_not_space h

theorem wildChar_ne_bang {c : Char} (h : WildChar c) : c ≠ '!' := by
  rcases h with h | h
  · rw [h]; decide
  · intro hc; rw [hc] at h; revert h; decide

theorem envNameChar_ne_eq {c : Char} (h : isEnvNameChar c = true) : c ≠ '=' := by
  intro hc; rw [hc] at h; revert h; decide

/-- The characters of a valid env name or wildcard. -/
theorem validWildcard_chars {t : String} (h : IsValidEnvNameWildcard t = true) :
    t.data ≠ [] ∧ ∀ c ∈ t.data, WildChar c := by
  unfold IsValidEnvNameWildcard at h
  simp only [Bool.and_eq_true, List.all_eq_true, Bool.or_eq_true, decide_eq_true_eq,
    Bool.not_eq_true', List.isEmpty_eq_false] at h
  exact ⟨h.1, fun c hc => h.2 c hc⟩

theorem validEnvName_chars {t : String} (h : IsValidEnvName t = true) :
    t.data ≠ [] ∧ ∀ c ∈ t.data, isEnvNameChar c = true := by
  unfold IsValidEnvName at h
  simp only [Bool.and_eq_true, List.all_eq_true, Bool.not_eq_true',
    List.isEmpty_eq_false] at h
  exact ⟨h.1, fun c hc => h.2 c hc⟩


theorem trimSpace_data (s : String) : (TrimSpace s).data = trimChars s.data := rfl

theorem dropWhile_of_head {c : Char} (l : List Char) (h : isSpace c = false) :
    (c :: l).dropWhile isSpace = c :: l := by
  simp [List.dropWhile, h]

theorem rdropWhile_noSpace : ∀ (l : List Char), (∀ c ∈ l, isSpace c = false) →
    l.rdropWhile isSpace = l := by
  intro l h
  rw [List.rdropWhile_eq_self_iff]
  intro hl
  rw [h _ (List.getLast_mem hl)]
  simp

/-- Dropping spaces at the end: the spaces of the second part go, and those of
the first part as well when nothing is left of the second. -/
theorem rdropWhile_append (A : List Char) : ∀ (B : List Char),
    (A ++ B).rdropWhile isSpace =
      if B.rdropWhile isSpace = [] then A.rdropWhile isSpace
      else A ++ B.rdropWhile isSpace := by
  intro B
  induction B using List.reverseRecOn with
  | nil => simp
  | append_singleton B x ih =>
    rw [← List.append_assoc]
    by_cases hx : isSpace x = true
    · rw [List.rdropWhile_concat_pos _ _ _ hx, List.rdropWhile_concat_pos _ _ _ hx]
      exact ih
    · rw [List.rdropWhile_concat_neg _ _ _ hx, List.rdropWhile_concat_neg _ _ _ hx]
      simp

theorem dropWhile_rdropWhile {m : List Char} (h : m.dropWhile isSpace = m) :
    (m.rdropWhile isSpace).dropWhile isSpace = m.rdropWhile isSpace := by
  cases m with
  | nil => simp
  | cons c m1 =>
    have hc : isSpace c = false := by
      cases hs : isSpace c with
      | false => rfl
      | true =>
        rw [List.dropWhile_cons_of_pos hs] at h
        have := congrArg List.length h
        have hle := (List.dropWhile_suffix isSpace (l := m1)).length_le
        simp only [List.length_cons] at this
        omega
    obtain ⟨t, ht⟩ := List.rdropWhile_prefix isSpace (c :: m1)
    cases hr : (c :: m1).rdropWhile isSpace with
    | nil => rfl
    | cons d r =>
      rw [hr] at ht
      simp only [List.cons_append, List.cons.injEq] at ht
      rw [ht.1]
      exact dropWhile_of_head r hc

/-- What `TrimSpace` returns has no space at either end. -/
theorem trimmed_trimChars (l : List Char) : Trimmed (trimChars l) := by
  unfold trimChars
  exact ⟨dropWhile_rdropWhile (List.dropWhile_idempotent _ _), List.rdropWhile_idempotent _ _⟩

theorem trimChars_of_trimmed {l : List Char} (h : Trimmed l) : trimChars l = l := by
  unfold trimChars
  rw [h.1, h.2]

theorem trimChars_space_cons {l : List Char} (h : Trimmed l) : trimChars (' ' :: l) = l := by
  unfold trimChars
  rw [List.dropWhile_cons_of_pos (by decide), h.1, h.2]

theorem mem_trimChars {l : List Char} {c : Char} (h : c ∈ trimChars l) : c ∈ l := by
  unfold trimChars at h
  exact (List.dropWhile_suffix isSpace).subset ((List.rdropWhile_prefix isSpace _).subset h)

/-! ## `Fields` on the text of an item list -/

theorem fieldsChars_nil (cur : List Char) :
    fieldsChars cur [] = if cur.isEmpty then [] else [cur.reverse] := by
  rw [fieldsChars]

theorem fieldsChars_space (cur : List Char) {c : Char} (cs : List Char) (h : isSpace c = true) :
    fieldsChars cur (c :: cs) =
      if cur.isEmpty then fieldsChars [] cs else cur.reverse :: fieldsChars [] cs := by
  rw [fieldsChars, if_pos h]

theorem fieldsChars_char (cur : List Char) {c : Char} (cs : List Char) (h : isSpace c = false) :
    fieldsChars cur (c :: cs) = fieldsChars (c :: cur) cs := by
  rw [fieldsChars, if_neg (by rw [h]; simp)]

theorem fieldsChars_word : ∀ (w cur rest : List Char), (∀ c ∈ w, isSpace c = false) →
    fieldsChars cur (w ++ rest) = fieldsChars (w.reverse ++ cur) rest := by
  intro w
  induction w with
  | nil => intro cur rest _; rfl
  | cons c w ih =>
    intro cur rest h
    rw [List.cons_append, fieldsChars_char _ _ (h c (List.mem_cons_self _ _)),
      ih (c :: cur) rest (fun d hd => h d (List.mem_cons_of_mem _ hd)),
      List.reverse_cons, List.append_assoc]
    rfl

theorem fieldsChars_lead : ∀ (l : List Char),
    fieldsChars [] (l.dropWhile isSpace) = fieldsChars [] l := by
  intro l
  induction l with
  | nil => rfl
  | cons c l ih =>
    by_cases hc : isSpace c = true
    · rw [List.dropWhile_cons_of_pos hc, ih, fieldsChars_space _ _ hc]
      rfl
    · rw [List.dropWhile_cons_of_neg hc]

theorem fieldsChars_concat_space : ∀ (l cur : List Char) (c : Char), isSpace c = true →
    fieldsChars cur (l ++ [c]) = fieldsChars cur l := by
  intro l
  induction l with
  | nil =>
    intro cur c hc
    rw [List.nil_append, fieldsChars_space _ _ hc, fieldsChars_nil, fieldsChars_nil]
    cases cur <;> rfl
  | cons d l ih =>
    intro cur c hc
    rw [List.cons_append]
    by_cases hd : isSpace d = true
    · rw [fieldsChars_space _ _ hd, fieldsChars_space _ _ hd, ih [] c hc]
    · have hd2 : isSpace d = false := by simpa using hd
      rw [fieldsChars_char _ _ hd2, fieldsChars_char _ _ hd2]
      exact ih _ c hc

theorem fieldsChars_trail (cur : List Char) : ∀ (l : List Char),
    fieldsChars cur (l.rdropWhile isSpace) = fieldsChars cur l := by
  intro l
  induction l using List.reverseRecOn with
  | nil => simp
  | append_singleton l x ih =>
    by_cases hx : isSpace x = true
    · rw [List.rdropWhile_concat_pos _ _ _ hx, ih, fieldsChars_concat_space l cur x hx]
    · rw [List.rdropWhile_concat_neg _ _ _ hx]

/-- `Fields` does not see the spaces that `TrimSpace` drops. -/
theorem fields_trimSpace (s : String) : Fields (TrimSpace s) = Fields s := by
  unfold Fields
  rw [trimSpace_data]
  unfold trimChars
  rw [fieldsChars_trail, fieldsChars_lead]

theorem writeItems_data (w : String) (r : List String) :
    (writeItems (w :: r)).data = ' ' :: (w.data ++ (writeItems r).data) := by
  conv_lhs => unfold writeItems
  simp [String.data_append]

theorem fieldsChars_items : ∀ (r : List String) (w : String),
    (∀ i ∈ w :: r, IsValidEnvNameWildcard i = true) →
    fieldsChars [] (w.data ++ (writeItems r).data) = w.data :: r.map String.data := by
  intro r
  induction r with
  | nil =>
    intro w h
    obtain ⟨hne, hch⟩ := validWildcard_chars (h w (List.mem_cons_self _ _))
    have hre : (w.data.reverse ++ []).isEmpty = false := by
      cases hd : w.data with
      | nil => exact absurd hd hne
      | cons a b => simp
    rw [fieldsChars_word w.data [] _ (fun c hc => wildChar_not_space (hch c hc))]
    have : (writeItems []).data = [] := rfl
    rw [this, fieldsChars_nil, if_neg (by rw [hre]; simp)]
    simp
  | cons w2 r ih =>
    intro w h
    obtain ⟨hne, hch⟩ := validWildcard_chars (h w (List.mem_cons_self _ _))
    have hre : (w.data.reverse ++ []).isEmpty = false := by
      cases hd : w.data with
      | nil => exact absurd hd hne
      | cons a b => simp
    rw [fieldsChars_word w.data [] _ (fun c hc => wildChar_not_space (hch c hc)),
      writeItems_data, fieldsChars_space _ _ (by decide), if_neg (by rw [hre]; simp),
      ih w2 (fun i hi => h i (List.mem_cons_of_mem _ hi))]
    simp

/-- `Fields` reads the items back from the text of an item list. -/
theorem fields_writeItems (items : List String)
    (h : ∀ i ∈ items, IsValidEnvNameWildcard i = true) :
    fieldsChars [] (writeItems items).data = items.map String.data := by
  cases items with
  | nil => rfl
  | cons w r =>
    rw [writeItems_data, fieldsChars_space _ _ (by decide)]
    exact fieldsChars_items r w h

theorem map_mk_data (l : List String) : (l.map String.data).map String.mk = l := by
  induction l with
  | nil => rfl
  | cons a l ih => simp [ih]

/-- The characters of the text of an item list are spaces and characters of
items. -/
theorem mem_writeItems {c : Char} : ∀ (items : List String), c ∈ (writeItems items).data →
    c = ' ' ∨ ∃ i ∈ items, c ∈ i.data := by
  intro items
  induction items with
  | nil => intro h; simp [writeItems] at h
  | cons w r ih =>
    intro h
    rw [writeItems_data] at h
    rcases List.mem_cons.1 h with h1 | h1
    · exact Or.inl h1
    · rcases List.mem_append.1 h1 with h2 | h2
      · exact Or.inr ⟨w, List.mem_cons_self _ _, h2⟩
      · rcases ih h2 with h3 | ⟨i, hi, hc⟩
        · exact Or.inl h3
        · exact Or.inr ⟨i, List.mem_cons_of_mem _ hi, hc⟩

/-! ## Parsing the text of a group -/

theorem cutPrefix_bang_none {s : String} (h : '!' ∉ s.data) : CutPrefix s "!" = none := by
  unfold CutPrefix
  rw [if_neg]
  intro hp
  obtain ⟨t, ht⟩ := List.isPrefixOf_iff_prefix.1 hp
  apply h
  rw [← ht]
  exact List.mem_append_left _ (List.mem_singleton.2 rfl)

theorem find_invalid_none {items : List String}
    (h : ∀ i ∈ items, IsValidEnvNameWildcard i = true) :
    items.find? (fun env => !IsValidEnvNameWildcard env) = none := by
  rw [List.find?_eq_none]
  intro i hi
  simp [h i hi]

theorem string_plain_data (items : List String) :
    (TrimSpace ("" ++ writeItems items)).data = trimChars (writeItems items).data := by
  rw [empty_append_str]
  rfl

theorem string_negated_data (items : List String) :
    (TrimSpace ("! " ++ writeItems items)).data =
      '!' :: (' ' :: (writeItems items).data).rdropWhile isSpace := by
  rw [trimSpace_data]
  have hd : ("! " ++ writeItems items).data = '!' :: ' ' :: (writeItems items).data := by
    simp [String.data_append]
  rw [hd]
  unfold trimChars
  rw [dropWhile_of_head _ (by decide)]
  have := rdropWhile_append ['!'] (' ' :: (writeItems items).data)
  simp only [List.singleton_append] at this
  rw [this]
  split_ifs with h0
  · rw [h0]; rfl
  · rfl

/-- `parseEnvList` reads back the negation flag and the items from the text
that `envGroup.String` writes. -/
theorem parseEnvList_string (g : envGroup)
    (hv : ∀ i ∈ g.Items, IsValidEnvNameWildcard i = true) :
    parseEnvList g.string = .ok (g.Negated, g.Items) := by
  obtain ⟨neg, items⟩ := g
  simp only at hv
  cases neg with
  | false =>
    have hs : ({ Negated := false, Items := items } : envGroup).string =
        TrimSpace ("" ++ writeItems items) := rfl
    rw [hs]
    have hbang : '!' ∉ (TrimSpace ("" ++ writeItems items)).data := by
      rw [string_plain_data]
      intro hm
      rcases mem_writeItems items (mem_trimChars hm) with h1 | ⟨i, hi, hc⟩
      · revert h1; decide
      · exact wildChar_ne_bang ((validWildcard_chars (hv i hi)).2 _ hc) rfl
    unfold parseEnvList
    simp only
    rw [cutPrefix_bang_none hbang]
    simp only
    have hf : Fields (TrimSpace ("" ++ writeItems items)) = items := by
      rw [fields_trimSpace, empty_append_str]
      unfold Fields
      rw [fields_writeItems items hv, map_mk_data]
    rw [hf, find_invalid_none hv]
  | true =>
    have hs : ({ Negated := true, Items := items } : envGroup).string =
        TrimSpace ("! " ++ writeItems items) := rfl
    rw [hs]
    have hcut : CutPrefix (TrimSpace ("! " ++ writeItems items)) "!" =
        some (String.mk ((' ' :: (writeItems items).data).rdropWhile isSpace)) := by
      unfold CutPrefix
      rw [string_negated_data]
      have hb : ("!" : String).data = ['!'] := rfl
      rw [hb, if_pos (by simp [List.isPrefixOf])]
      rfl
    unfold parseEnvList
    simp only
    rw [hcut]
    simp only
    have hf : Fields (TrimSpace
        (String.mk ((' ' :: (writeItems items).data).rdropWhile isSpace))) = items := by
      rw [fields_trimSpace]
      unfold Fields
      simp only
      rw [fieldsChars_trail, fieldsChars_space _ _ (by decide)]
      simp only [List.isEmpty_nil, ↓reduceIte]
      rw [fields_writeItems items hv, map_mk_data]
    rw [hf, find_invalid_none hv]

theorem parseEnvGroup_string {name : String} (g : envGroup) (hn : IsValidEnvName name = true)
    (hv : ∀ i ∈ g.Items, IsValidEnvNameWildcard i = true) :
    parseEnvGroup name g.string = .ok g := by
  unfold parseEnvGroup
  rw [if_neg (by rw [hn]; simp), parseEnvList_string g hv]

theorem cutPrefix_at (name : String) : CutPrefix ("@" ++ name) "@" = some name := by
  rw [cutPrefix_append]

/-- One round of the loop of `ParseMap` on the binding of a group that is not
yet defined stores the group. -/
theorem parseLine_group (x : Extern) (vals : Values) {name : String} (g : envGroup)
    (hn : IsValidEnvName name = true)
    (hv : ∀ i ∈ g.Items, IsValidEnvNameWildcard i = true)
    (hnew : mapGet vals.envs name = none) :
    parseLine x vals ("@" ++ name) g.string =
      .ok { vals with envs := vals.envs ++ [(name, g)] } := by
  unfold parseLine
  rw [cutPrefix_at]
  simp only
  rw [parseEnvGroup_string g hn hv]
  simp only
  rw [hnew, mapSet_new _ _ _ hnew]
  rfl

/-- The loop of `ParseMap` on the bindings of groups with distinct valid names
stores the groups in order. -/
theorem parseLines_groups (x : Extern) : ∀ (gs : List (String × envGroup)) (vals : Values),
    GroupsValid gs → (∀ p ∈ gs, mapGet vals.envs p.1 = none) →
    parseLines x (gs.map groupBinding) vals = ({ vals with envs := vals.envs ++ gs }, none) := by
  intro gs
  induction gs with
  | nil => intro vals _ _; simp [parseLines]
  | cons p gs ih =>
    intro vals hg hnew
    obtain ⟨hnd, hval⟩ := hg
    obtain ⟨hn, hv⟩ := hval p (List.mem_cons_self _ _)
    rw [List.map_cons]
    unfold groupBinding
    rw [parseLines, parseLine_group x vals p.2 hn hv (hnew p (List.mem_cons_self _ _))]
    simp only
    have hnd2 : p.1 ∉ gs.map Prod.fst ∧ (gs.map Prod.fst).Nodup := by
      simpa using hnd
    have := ih { vals with envs := vals.envs ++ [(p.1, p.2)] }
      ⟨hnd2.2, fun q hq => hval q (List.mem_cons_of_mem _ hq)⟩ (by
        intro q hq
        rw [mapGet_none_iff]
        simp only [List.map_append, List.map_cons, List.map_nil, List.mem_append,
          List.mem_singleton, not_or]
        refine ⟨(mapGet_none_iff _ _).1 (hnew q (List.mem_cons_of_mem _ hq)), ?_⟩
        intro heq
        exact hnd2.1 (heq ▸ List.mem_map_of_mem Prod.fst hq))
    unfold groupBinding at this
    rw [this]
    simp

/-! ## The lexer on the text of the groups -/

theorem groupLine_data (p : String × envGroup) :
    (groupLine p).data = '@' :: (p.1.data ++ ' ' :: '=' :: ' ' :: p.2.string.data) := by
  unfold groupLine
  simp [String.data_append]

theorem string_trimmed (g : envGroup) : Trimmed g.string.data :=
  trimmed_trimChars _

/-- The characters of the text of a group: `!`, the space, and characters of
items. -/
theorem mem_group_string {g : envGroup} {c : Char} (h : c ∈ g.string.data) :
    c = '!' ∨ c = ' ' ∨ ∃ i ∈ g.Items, c ∈ i.data := by
  have h1 : c ∈ ((if g.Negated then "! " else "") ++ writeItems g.Items).data :=
    mem_trimChars h
  rw [String.data_append] at h1
  rcases List.mem_append.1 h1 with h2 | h2
  · cases hn : g.Negated with
    | false => rw [hn] at h2; simp at h2
    | true =>
      rw [hn] at h2
      have : ("! " : String).data = ['!', ' '] := rfl
      simp only [↓reduceIte, this, List.mem_cons, List.mem_singleton, List.not_mem_nil,
        or_false] at h2
      rcases h2 with h3 | h3
      · exact Or.inl h3
      · exact Or.inr (Or.inl h3)
  · rcases mem_writeItems _ h2 with h3 | h3
    · exact Or.inr (Or.inl h3)
    · exact Or.inr (Or.inr h3)

theorem groupLine_no_newline {p : String × envGroup} (hn : IsValidEnvName p.1 = true)
    (hv : ∀ i ∈ p.2.Items, IsValidEnvNameWildcard i = true) :
    Char.ofNat 10 ∉ (groupLine p).data := by
  rw [groupLine_data]
  intro hm
  have hsp : isSpace (Char.ofNat 10) = true := by decide
  rcases List.mem_cons.1 hm with h | h
  · revert h; decide
  · rcases List.mem_append.1 h with h | h
    · have := envNameChar_not_space ((validEnvName_chars hn).2 _ h)
      rw [hsp] at this
      simp at this
    · simp only [List.mem_cons] at h
      rcases h with h | h | h | h
      · revert h; decide
      · revert h; decide
      · revert h; decide
      · rcases mem_group_string h with h1 | h1 | ⟨i, hi, hc⟩
        · revert h1; decide
        · revert h1; decide
        · have := wildChar_not_space ((validWildcard_chars (hv i hi)).2 _ hc)
          rw [hsp] at this
          simp at this

theorem writeGroups_data (p : String × envGroup) (r : List (String × envGroup)) :
    (writeGroups (p :: r)).data =
      (groupLine p).data ++ Char.ofNat 10 :: (writeGroups r).data := by
  obtain ⟨name, es⟩ := p
  conv_lhs => unfold writeGroups
  unfold groupLine
  simp only [String.data_append, List.append_assoc]
  rfl

/-- The lines of the text that `Values.String` writes: one for every group,
then two empty ones. -/
theorem split_writeGroups : ∀ (gs : List (String × envGroup)), GroupsValid gs →
    splitChars (Char.ofNat 10) ((writeGroups gs).data ++ [Char.ofNat 10]) =
      gs.map (fun p => (groupLine p).data) ++ [[], []] := by
  intro gs
  induction gs with
  | nil => intro _; rfl
  | cons p gs ih =>
    intro hg
    obtain ⟨hnd, hval⟩ := hg
    obtain ⟨hn, hv⟩ := hval p (List.mem_cons_self _ _)
    have hnd2 : p.1 ∉ gs.map Prod.fst ∧ (gs.map Prod.fst).Nodup := by
      simpa using hnd
    rw [writeGroups_data, List.append_assoc, List.cons_append,
      splitChars_append _ _ _ (groupLine_no_newline hn hv),
      ih ⟨hnd2.2, fun q hq => hval q (List.mem_cons_of_mem _ hq)⟩]
    rfl

theorem split_string (vals : Values) (hg : GroupsValid vals.envs) :
    Split vals.string (Char.ofNat 10) = vals.envs.map groupLine ++ ["", ""] := by
  unfold Split Values.string
  have hd : (writeGroups vals.envs ++ "\n").data =
      (writeGroups vals.envs).data ++ [Char.ofNat 10] := by
    rw [String.data_append]
  rw [hd, split_writeGroups _ hg]
  simp only [List.map_append, List.map_map, List.map_cons, List.map_nil]
  rfl

/-- What `TrimSpace` leaves of the line of a group. -/
theorem trim_groupLine (p : String × envGroup) :
    (TrimSpace (groupLine p)).data =
      ('@' :: (p.1.data ++ [' '])) ++ '=' ::
        (if p.2.string.data = [] then [] else ' ' :: p.2.string.data) := by
  rw [trimSpace_data, groupLine_data]
  unfold trimChars
  rw [dropWhile_of_head _ (by decide)]
  have hsplit : '@' :: (p.1.data ++ ' ' :: '=' :: ' ' :: p.2.string.data) =
      ('@' :: (p.1.data ++ [' ', '='])) ++ ([' '] ++ p.2.string.data) := by simp
  rw [hsplit, rdropWhile_append, rdropWhile_append [' '], (string_trimmed p.2).2]
  by_cases hs : p.2.string.data = []
  · rw [hs]
    simp only [↓reduceIte]
    have h1 : List.rdropWhile isSpace [' '] = [] := by decide
    rw [h1]
    simp only [↓reduceIte]
    have h2 : '@' :: (p.1.data ++ [' ', '=']) = ('@' :: (p.1.data ++ [' '])) ++ ['='] := by simp
    rw [h2, List.rdropWhile_concat_neg _ _ _ (by decide)]
  · rw [if_neg hs, if_neg (by simp), if_neg hs]
    simp

/-- The lexer reads the binding of a group from its line. -/
theorem groupLine_lex (p : String × envGroup) (hn : IsValidEnvName p.1 = true) :
    lineSkipped (groupLine p) = false ∧ '=' ∈ (TrimSpace (groupLine p)).data ∧
    TrimSpace (Cut (TrimSpace (groupLine p)) '=').1 = "@" ++ p.1 ∧
    TrimSpace (Cut (TrimSpace (groupLine p)) '=').2.1 = p.2.string := by
  have ht := trim_groupLine p
  have hchars := (validEnvName_chars hn).2
  have hnoeq : '=' ∉ '@' :: (p.1.data ++ [' ']) := by
    intro hm
    rcases List.mem_cons.1 hm with h | h
    · revert h; decide
    · rcases List.mem_append.1 h with h | h
      · exact envNameChar_ne_eq (hchars _ h) rfl
      · simp only [List.mem_singleton] at h
        revert h; decide
  have hcut : Cut (TrimSpace (groupLine p)) '=' =
      (String.mk ('@' :: (p.1.data ++ [' '])),
        String.mk (if p.2.string.data = [] then [] else ' ' :: p.2.string.data), true) := by
    unfold Cut
    rw [ht, cutChars_append _ _ _ hnoeq]
  refine ⟨?_, ?_, ?_, ?_⟩
  · unfold lineSkipped
    rw [decide_eq_false_iff_not]
    intro h
    rcases h with h | h
    · have := congrArg String.data h
      rw [ht] at this
      simp at this
    · rw [ht] at h
      simp only [List.cons_append, List.head?_cons, Option.some.injEq] at h
      revert h; decide
  · rw [ht]
    simp
  · rw [hcut]
    apply String.ext
    simp only
    rw [trimSpace_data]
    unfold trimChars
    rw [dropWhile_of_head _ (by decide)]
    have h2 : '@' :: (p.1.data ++ [' ']) = ('@' :: p.1.data) ++ [' '] := by simp
    rw [h2, List.rdropWhile_concat_pos _ _ _ (by decide), rdropWhile_noSpace]
    · simp [String.data_append]
    · intro c hc
      rcases List.mem_cons.1 hc with h | h
      · rw [h]; decide
      · exact envNameChar_not_space (hchars _ h)
  · rw [hcut]
    apply String.ext
    simp only
    rw [trimSpace_data]
    by_cases hs : p.2.string.data = []
    · rw [if_pos hs, hs]; rfl
    · rw [if_neg hs]
      exact trimChars_space_cons (string_trimmed p.2)

/-- The lexer on the lines of groups with distinct valid names. -/
theorem parseKVLines_groups : ∀ (gs : List (String × envGroup)) (lno : Nat)
    (result : List (String × String)), GroupsValid gs →
    (∀ p ∈ gs, "@" ++ p.1 ∉ result.map Prod.fst) →
    parseKVLines (gs.map groupLine ++ ["", ""]) lno result =
      .ok (result ++ gs.map groupBinding) := by
  intro gs
  induction gs with
  | nil =>
    intro lno result _ _
    simp only [List.map_nil, List.nil_append, List.append_nil]
    rw [parseKVLines_cons, if_pos (by decide), parseKVLines_cons, if_pos (by decide)]
    rfl
  | cons p gs ih =>
    intro lno result hg hnew
    obtain ⟨hnd, hval⟩ := hg
    obtain ⟨hn, hv⟩ := hval p (List.mem_cons_self _ _)
    have hnd2 : p.1 ∉ gs.map Prod.fst ∧ (gs.map Prod.fst).Nodup := by
      simpa using hnd
    obtain ⟨l1, l2, l3, l4⟩ := groupLine_lex p hn
    have hfresh : mapGet result ("@" ++ p.1) = none :=
      (mapGet_none_iff _ _).2 (hnew p (List.mem_cons_self _ _))
    rw [List.map_cons, List.cons_append, parseKVLines_cons, if_neg (by rw [l1]; simp),
      if_neg (by simpa using l2), l3, l4,
      if_neg (by
        intro h
        have := validEnvName_ne_empty hn
        have hd := congrArg String.data h
        simp [String.data_append] at hd),
      hfresh]
    simp only [Option.isSome_none, Bool.false_eq_true, ↓reduceIte]
    rw [mapSet_new _ _ _ hfresh,
      ih (lno + 1) _ ⟨hnd2.2, fun q hq => hval q (List.mem_cons_of_mem _ hq)⟩ (by
        intro q hq
        simp only [List.map_append, List.map_cons, List.map_nil, List.mem_append,
          List.mem_singleton, not_or]
        refine ⟨hnew q (List.mem_cons_of_mem _ hq), ?_⟩
        intro heq
        exact hnd2.1 ((string_append_cancel heq) ▸ List.mem_map_of_mem Prod.fst hq))]
    simp [groupBinding]

theorem lex_string (vals : Values) (hg : GroupsValid vals.envs) :
    parseMultilineKVString vals.string = .ok (vals.envs.map groupBinding) := by
  unfold parseMultilineKVString
  rw [split_string vals hg, parseKVLines_groups _ _ _ hg (by intro p _; simp)]
  rfl

/-! ## The groups of a parsed file -/

theorem parseEnvGroup_name {name str : String} {g : envGroup}
    (h : parseEnvGroup name str = .ok g) : IsValidEnvName name = true := by
  unfold parseEnvGroup at h
  split at h
  · simp at h
  · next hn => simpa using hn

theorem parseLine_groupsValid {x : Extern} {vals vals1 : Values} {lhs rhs : String}
    (h : parseLine x vals lhs rhs = .ok vals1) (hv : GroupsValid vals.envs) :
    GroupsValid vals1.envs := by
  unfold parseLine at h
  cases hcut : CutPrefix lhs "@" with
  | some groupName =>
    rw [hcut] at h
    simp only at h
    cases hg : parseEnvGroup groupName rhs with
    | error err => rw [hg] at h; simp at h
    | ok g =>
      rw [hg] at h
      simp only at h
      split at h
      · simp at h
      · next hnew =>
        simp only [Except.ok.injEq] at h
        rw [← h]
        have hnone : mapGet vals.envs groupName = none := by
          cases hm : mapGet vals.envs groupName with
          | none => rfl
          | some d => rw [hm] at hnew; simp at hnew
        simp only
        rw [mapSet_new _ _ _ hnone]
        refine ⟨?_, ?_⟩
        · rw [List.map_append, List.nodup_append]
          refine ⟨hv.1, by simp, ?_⟩
          intro a ha hb
          simp only [List.map_cons, List.map_nil, List.mem_singleton] at hb
          rw [hb] at ha
          exact (mapGet_none_iff _ _).1 hnone ha
        · intro p hp
          rcases List.mem_append.1 hp with h1 | h1
          · exact hv.2 p h1
          · simp only [List.mem_singleton] at h1
            rw [h1]
            exact ⟨parseEnvGroup_name hg, parseEnvGroup_items hg⟩
  | none =>
    rw [hcut] at h
    simp only at h
    generalize Cut lhs '.' = c at h
    obtain ⟨name, env0, envFound⟩ := c
    simp only at h
    split at h
    · simp at h
    · split at h
      · simp at h
      · split at h
        · simp at h
        · simp only [Except.ok.injEq] at h
          rw [← h]
          exact hv

theorem parseLines_groupsValid (x : Extern) : ∀ (m : List (String × String)) (vals : Values),
    GroupsValid vals.envs → GroupsValid (parseLines x m vals).1.envs := by
  intro m
  induction m with
  | nil => intro vals h; exact h
  | cons p m ih =>
    intro vals h
    obtain ⟨lhs, rhs⟩ := p
    unfold parseLines
    split
    · exact h
    · next vals1 hp => exact ih vals1 (parseLine_groupsValid hp h)

theorem groupsValid_parse {x : Extern} {data : String} {vals : Values}
    (h : ParseString x data = (vals, none)) : GroupsValid vals.envs := by
  obtain ⟨m, _, hm⟩ := parseString_ok h
  obtain ⟨v0, hl, hr⟩ := parseMap_ok hm
  rw [(rebuild_groups_ok hr).1]
  have := parseLines_groupsValid x m New ⟨by simp [New], by intro p hp; simp [New] at hp⟩
  rw [hl] at this
  exact this
/-! ## Go string order and sorting -/

theorem strLt_irrefl : ∀ (a : List Char), strLt a a = false := by
  intro a
  induction a with
  | nil => rfl
  | cons c cs ih => simp [strLt, ih]

theorem strLt_connex : ∀ (a b : List Char), strLt a b = false → strLt b a = false → a = b := by
  intro a
  induction a with
  | nil =>
    intro b h1 h2
    cases b with
    | nil => rfl
    | cons _ _ => simp [strLt] at h1
  | cons c cs ih =>
    intro b h1 h2
    cases b with
    | nil => simp [strLt] at h2
    | cons d ds =>
      simp only [strLt, Bool.or_eq_false_iff, decide_eq_false_iff_not, Bool.and_eq_false_imp,
        decide_eq_true_eq, not_lt] at h1 h2
      have hcd : c = d := by
        rw [← Char.ofNat_toNat c, ← Char.ofNat_toNat d, le_antisymm h2.1 h1.1]
      subst hcd
      rw [ih ds (h1.2 rfl) (h2.2 rfl)]

theorem strLt_trans : ∀ (a b c : List Char), strLt a b = true → strLt b c = true →
    strLt a c = true := by
  intro a
  induction a with
  | nil =>
    intro b c h1 h2
    cases c with
    | nil => cases b <;> simp [strLt] at h2
    | cons _ _ => rfl
  | cons x xs ih =>
    intro b c h1 h2
    cases b with
    | nil => simp [strLt] at h1
    | cons y ys =>
      cases c with
      | nil => simp [strLt] at h2
      | cons z zs =>
        simp only [strLt, Bool.or_eq_true, decide_eq_true_eq, Bool.and_eq_true] at h1 h2 ⊢
        rcases h1 with h1 | ⟨h1, h1r⟩
        · rcases h2 with h2 | ⟨h2, _⟩
          · exact Or.inl (lt_trans h1 h2)
          · subst h2; exact Or.inl h1
        · subst h1
          rcases h2 with h2 | ⟨h2, h2r⟩
          · exact Or.inl h2
          · exact Or.inr ⟨h2, ih ys zs h1r h2r⟩

/-- "Not smaller" is transitive. -/
theorem strLe_trans {a b c : List Char} (h1 : strLt b a = false) (h2 : strLt c b = false) :
    strLt c a = false := by
  cases h : strLt c a with
  | false => rfl
  | true =>
    cases hab : strLt a b with
    | true =>
      rw [strLt_trans c a b h hab] at h2
      exact h2
    | false =>
      have := strLt_connex a b hab h1
      subst this
      rw [h] at h2
      exact h2

theorem strLt_total (a b : List Char) : strLt a b = true ∨ a = b ∨ strLt b a = true := by
  cases h1 : strLt a b with
  | true => exact Or.inl rfl
  | false =>
    cases h2 : strLt b a with
    | true => exact Or.inr (Or.inr rfl)
    | false => exact Or.inr (Or.inl (strLt_connex a b h1 h2))

theorem insertBy_perm {α : Type} (f : α → String) (a : α) : ∀ (l : List α),
    (insertBy f a l).Perm (a :: l) := by
  intro l
  induction l with
  | nil => exact List.Perm.refl _
  | cons b rest ih =>
    unfold insertBy
    by_cases h : strLt (f b).data (f a).data = true
    · rw [if_pos h]
      exact ((List.Perm.cons b ih).trans (List.Perm.swap a b rest))
    · rw [if_neg h]

theorem sortBy_perm {α : Type} (f : α → String) : ∀ (l : List α), (sortBy f l).Perm l := by
  intro l
  induction l with
  | nil => exact List.Perm.refl _
  | cons a rest ih =>
    unfold sortBy
    exact (insertBy_perm f a _).trans (List.Perm.cons a ih)

theorem insertBy_sorted {α : Type} (f : α → String) (a : α) : ∀ (l : List α),
    l.Pairwise (fun p q => strLt (f q).data (f p).data = false) →
    (insertBy f a l).Pairwise (fun p q => strLt (f q).data (f p).data = false) := by
  intro l
  induction l with
  | nil => intro _; exact List.pairwise_singleton _ _
  | cons b rest ih =>
    intro h
    unfold insertBy
    rw [List.pairwise_cons] at h
    by_cases hlt : strLt (f b).data (f a).data = true
    · rw [if_pos hlt, List.pairwise_cons]
      refine ⟨?_, ih h.2⟩
      intro q hq
      rcases List.mem_cons.1 ((insertBy_perm f a rest).subset hq) with hqa | hqr
      · subst hqa
        exact strLt_asymm _ _ hlt
      · exact h.1 q hqr
    · rw [if_neg hlt, List.pairwise_cons]
      have hle : strLt (f b).data (f a).data = false := by simpa using hlt
      refine ⟨?_, List.pairwise_cons.2 h⟩
      intro q hq
      rcases List.mem_cons.1 hq with hqb | hqr
      · subst hqb; exact hle
      · exact strLe_trans hle (h.1 q hqr)

theorem sortBy_sorted {α : Type} (f : α → String) : ∀ (l : List α),
    (sortBy f l).Pairwise (fun p q => strLt (f q).data (f p).data = false) := by
  intro l
  induction l with
  | nil => exact List.Pairwise.nil
  | cons a rest ih =>
    unfold sortBy
    exact insertBy_sorted f a _ ih

theorem map_insertBy {α : Type} (f : α → String) (a : α) : ∀ (l : List α),
    (insertBy f a l).map f = insertBy id (f a) (l.map f) := by
  intro l
  induction l with
  | nil => rfl
  | cons b rest ih =>
    unfold insertBy
    simp only [List.map_cons, id]
    by_cases hlt : strLt (f b).data (f a).data = true
    · rw [if_pos hlt, if_pos hlt, List.map_cons, ih]
    · rw [if_neg hlt, if_neg hlt]
      rfl

theorem map_sortBy {α : Type} (f : α → String) : ∀ (l : List α),
    (sortBy f l).map f = sortStrings (l.map f) := by
  intro l
  induction l with
  | nil => rfl
  | cons a rest ih =>
    unfold sortStrings at ih ⊢
    simp only [List.map_cons]
    unfold sortBy
    rw [map_insertBy, ih]

theorem sortStrings_ascending (l : List String) : Ascending (sortStrings l) :=
  sortBy_sorted id l

theorem sortStrings_perm (l : List String) : (sortStrings l).Perm l :=
  sortBy_perm id l

theorem mem_sortStrings {l : List String} {a : String} : a ∈ sortStrings l ↔ a ∈ l :=
  (sortStrings_perm l).mem_iff

/-- Two ascending lists with the same elements, each as often, are equal. -/
theorem ascending_unique : ∀ (l1 l2 : List String), l1.Perm l2 → Ascending l1 → Ascending l2 →
    l1 = l2 := by
  intro l1
  induction l1 with
  | nil => intro l2 hp _ _; exact (List.Perm.nil_eq hp)
  | cons a rest ih =>
    intro l2 hp h1 h2
    cases l2 with
    | nil => exact absurd hp.symm (List.Perm.nil_eq · |> fun h => by simp at h)
    | cons b rest2 =>
      unfold Ascending at h1 h2
      rw [List.pairwise_cons] at h1 h2
      have hab : a = b := by
        have ha : a ∈ b :: rest2 := hp.subset (List.mem_cons_self _ _)
        have hb : b ∈ a :: rest := hp.symm.subset (List.mem_cons_self _ _)
        rcases List.mem_cons.1 ha with h | h
        · exact h
        · rcases List.mem_cons.1 hb with h' | h'
          · exact h'.symm
          · have e1 := h1.1 b h'
            have e2 := h2.1 a h
            have := strLt_connex _ _ e1 e2
            exact (String.ext this).symm
      subst hab
      rw [ih rest2 (List.Perm.cons_inv hp) h1.2 h2.2]

theorem sortStrings_eq_of_perm {l1 l2 : List String} (h : l1.Perm l2) :
    sortStrings l1 = sortStrings l2 :=
  ascending_unique _ _ (((sortStrings_perm l1).trans h).trans (sortStrings_perm l2).symm)
    (sortStrings_ascending l1) (sortStrings_ascending l2)

/-! ## `Keyring.String` -/

theorem writeKeyNames_join (k : Key) : ∀ (l : List Key) (i : Nat),
    k.Name ++ writeKeyNames (i + 1) l = Join ((k :: l).map Key.Name) ", " := by
  intro l
  induction l generalizing k with
  | nil => intro i; exact String.append_empty _
  | cons k2 rest ih =>
    intro i
    unfold writeKeyNames
    rw [if_pos (Nat.succ_pos i)]
    simp only [List.map_cons, Join]
    have := ih k2 (i + 1)
    simp only [List.map_cons] at this
    rw [← this]
    simp only [String.append_assoc]

theorem writeKeyNames_zero (l : List Key) :
    writeKeyNames 0 l = Join (l.map Key.Name) ", " := by
  cases l with
  | nil => rfl
  | cons k rest =>
    rw [← writeKeyNames_join k rest 0]
    show (if 0 > 0 then ", " else "") ++ k.Name ++ writeKeyNames (0 + 1) rest = _
    rw [if_neg (Nat.lt_irrefl 0), String.empty_append]

/-- The text of `Keyring.String` is made from the key names alone. -/
theorem keyring_string_eq (keyring : Keyring) :
    keyring.string.2 = "(" ++ Join (sortStrings (keyring.map Key.Name)) ", " ++ ")" := by
  unfold Keyring.string
  simp only
  rw [writeKeyNames_zero, map_sortBy]

/-! ## The keyring file -/

theorem keyNameChar_not_space {c : Char} (h : isKeyNameChar c = true) : isSpace c = false := by
  cases hs : isSpace c with
  | false => rfl
  | true =>
    have hc : Char.ofNat c.toNat = c := Char.ofNat_toNat c
    rcases space_cases hs with h1 | h1 | h1 | h1 | h1 | h1 | h1 | h1 | h1 | h1 | h1 | h1 | h1 |
      h1 | h1 | h1 | h1 | h1 | h1 | h1 | h1 | h1 | h1 | h1 | h1 <;>
    (rw [h1] at hc; rw [← hc] at h; revert h; decide)

theorem base64Char_not_space {c : Char} (h : isBase64Char c = true) : isSpace c = false := by
  cases hs : isSpace c with
  | false => rfl
  | true =>
    have hc : Char.ofNat c.toNat = c := Char.ofNat_toNat c
    rcases space_cases hs with h1 | h1 | h1 | h1 | h1 | h1 | h1 | h1 | h1 | h1 | h1 | h1 | h1 |
      h1 | h1 | h1 | h1 | h1 | h1 | h1 | h1 | h1 | h1 | h1 | h1 <;>
    (rw [h1] at hc; rw [← hc] at h; revert h; decide)

theorem keyNameChar_ne_eq {c : Char} (h : isKeyNameChar c = true) : c ≠ '=' := by
  intro hc; rw [hc] at h; revert h; decide

theorem keyNameChar_ne_hash {c : Char} (h : isKeyNameChar c = true) : c ≠ '#' := by
  intro hc; rw [hc] at h; revert h; decide

theorem validKeyName_chars {t : String} (h : IsValidKeyName t = true) :
    t.data ≠ [] ∧ ∀ c ∈ t.data, isKeyNameChar c = true := by
  unfold IsValidKeyName at h
  simp only [Bool.and_eq_true, List.all_eq_true, Bool.not_eq_true',
    List.isEmpty_eq_false] at h
  exact ⟨h.1, fun c hc => h.2 c hc⟩

theorem trimChars_noSpace {l : List Char} (h : ∀ c ∈ l, isSpace c = false) : trimChars l = l := by
  unfold trimChars
  have hd : l.dropWhile isSpace = l := by
    cases l with
    | nil => rfl
    | cons c cs => exact dropWhile_of_head cs (h c (List.mem_cons_self _ _))
  rw [hd, rdropWhile_noSpace l h]

theorem trimSpace_noSpace {s : String} (h : ∀ c ∈ s.data, isSpace c = false) : TrimSpace s = s := by
  apply String.ext
  rw [trimSpace_data, trimChars_noSpace h]

theorem keyLine_data (x : Extern) (key : Key) :
    (keyLine x key).data = key.Name.data ++ '=' :: (x.EncodeToString key.Data).data := by
  unfold keyLine
  simp [String.data_append]

theorem keyLine_noSpace {x : Extern} {key : Key}
    (hchars : ∀ b, ∀ c ∈ (x.EncodeToString b).data, isBase64Char c = true)
    (hv : IsValidKeyName key.Name = true) : ∀ c ∈ (keyLine x key).data, isSpace c = false := by
  intro c hc
  rw [keyLine_data] at hc
  rcases List.mem_append.1 hc with h | h
  · exact keyNameChar_not_space ((validKeyName_chars hv).2 c h)
  · rcases List.mem_cons.1 h with h | h
    · rw [h]; decide
    · exact base64Char_not_space (hchars _ c h)

theorem data_data (x : Extern) (key : Key) (r : Keyring) :
    (Keyring.Data x (key :: r)).data =
      (keyLine x key).data ++ Char.ofNat 10 :: (Keyring.Data x r).data := by
  conv_lhs => unfold Keyring.Data
  unfold keyLine
  simp only [String.data_append, List.append_assoc]
  rfl

/-- The lines of the text that `Keyring.Data` writes: one for every key, then
an empty one. -/
theorem split_data {x : Extern}
    (hchars : ∀ b, ∀ c ∈ (x.EncodeToString b).data, isBase64Char c = true) :
    ∀ (keyring : Keyring), (∀ key ∈ keyring, IsValidKeyName key.Name = true) →
    Split (Keyring.Data x keyring) (Char.ofNat 10) = keyring.map (keyLine x) ++ [""] := by
  intro keyring
  induction keyring with
  | nil => intro _; rfl
  | cons key r ih =>
    intro hv
    have hnl : Char.ofNat 10 ∉ (keyLine x key).data := by
      intro hm
      have := keyLine_noSpace hchars (hv key (List.mem_cons_self _ _)) _ hm
      revert this; decide
    have ih2 := ih (fun k hk => hv k (List.mem_cons_of_mem _ hk))
    unfold Split at ih2 ⊢
    rw [data_data, splitChars_append _ _ _ hnl, List.map_cons, ih2]
    rfl

/-- The lexer reads the binding of a key from its line. -/
theorem keyLine_lex {x : Extern} {key : Key}
    (hchars : ∀ b, ∀ c ∈ (x.EncodeToString b).data, isBase64Char c = true)
    (hv : IsValidKeyName key.Name = true) :
    lineSkipped (keyLine x key) = false ∧ '=' ∈ (TrimSpace (keyLine x key)).data ∧
    TrimSpace (Cut (TrimSpace (keyLine x key)) '=').1 = key.Name ∧
    TrimSpace (Cut (TrimSpace (keyLine x key)) '=').2.1 = x.EncodeToString key.Data := by
  have ht : TrimSpace (keyLine x key) = keyLine x key := trimSpace_noSpace (keyLine_noSpace hchars hv)
  obtain ⟨hne, hkc⟩ := validKeyName_chars hv
  have hnoeq : '=' ∉ key.Name.data := fun hm => keyNameChar_ne_eq (hkc _ hm) rfl
  have hcut : Cut (keyLine x key) '=' = (key.Name, x.EncodeToString key.Data, true) := by
    unfold Cut
    rw [keyLine_data, cutChars_append _ _ _ hnoeq]
  rw [ht, hcut]
  refine ⟨?_, ?_, ?_, ?_⟩
  · unfold lineSkipped
    rw [decide_eq_false_iff_not, ht]
    intro h
    rcases h with h | h
    · have := congrArg String.data h
      rw [keyLine_data] at this
      simp at this
    · rw [keyLine_data] at h
      cases hd : key.Name.data with
      | nil => exact hne hd
      | cons c cs =>
        rw [hd] at h
        simp only [List.cons_append, List.head?_cons, Option.some.injEq] at h
        exact keyNameChar_ne_hash (hkc c (by rw [hd]; exact List.mem_cons_self _ _)) h
  · rw [keyLine_data]
    simp
  · exact trimSpace_noSpace (fun c hc => keyNameChar_not_space (hkc c hc))
  · exact trimSpace_noSpace (fun c hc => base64Char_not_space (hchars _ c hc))

/-- The lexer on the lines of keys with distinct valid names. -/
theorem parseKVLines_keys {x : Extern}
    (hchars : ∀ b, ∀ c ∈ (x.EncodeToString b).data, isBase64Char c = true) :
    ∀ (keyring : Keyring) (lno : Nat) (result : List (String × String)),
    (∀ key ∈ keyring, IsValidKeyName key.Name = true) → (keyring.map Key.Name).Nodup →
    (∀ key ∈ keyring, key.Name ∉ result.map Prod.fst) →
    parseKVLines (keyring.map (keyLine x) ++ [""]) lno result =
      .ok (result ++ keyring.map (keyBinding x)) := by
  intro keyring
  induction keyring with
  | nil =>
    intro lno result _ _ _
    simp only [List.map_nil, List.nil_append, List.append_nil]
    rw [parseKVLines_cons, if_pos (by decide)]
    rfl
  | cons key r ih =>
    intro lno result hv hnd hnew
    have hvk := hv key (List.mem_cons_self _ _)
    have hnd2 : key.Name ∉ r.map Key.Name ∧ (r.map Key.Name).Nodup := by
      simpa using hnd
    obtain ⟨l1, l2, l3, l4⟩ := keyLine_lex hchars hvk
    have hfresh : mapGet result key.Name = none :=
      (mapGet_none_iff _ _).2 (hnew key (List.mem_cons_self _ _))
    rw [List.map_cons, List.cons_append, parseKVLines_cons, if_neg (by rw [l1]; simp),
      if_neg (by simpa using l2), l3, l4,
      if_neg (by
        intro h
        have := (validKeyName_chars hvk).1
        exact this (congrArg String.data h)),
      hfresh]
    simp only [Option.isSome_none, Bool.false_eq_true, ↓reduceIte]
    rw [mapSet_new _ _ _ hfresh,
      ih (lno + 1) _ (fun k hk => hv k (List.mem_cons_of_mem _ hk)) hnd2.2 (by
        intro q hq
        simp only [List.map_append, List.map_cons, List.map_nil, List.mem_append,
          List.mem_singleton, not_or]
        refine ⟨hnew q (List.mem_cons_of_mem _ hq), ?_⟩
        intro heq
        exact hnd2.1 (heq ▸ List.mem_map_of_mem Key.Name hq))]
    simp [keyBinding]

theorem lex_data {x : Extern}
    (hchars : ∀ b, ∀ c ∈ (x.EncodeToString b).data, isBase64Char c = true)
    (keyring : Keyring) (hv : ∀ key ∈ keyring, IsValidKeyName key.Name = true)
    (hnd : (keyring.map Key.Name).Nodup) :
    parseMultilineKVString (Keyring.Data x keyring) = .ok (keyring.map (keyBinding x)) := by
  unfold parseMultilineKVString
  rw [split_data hchars keyring hv, parseKVLines_keys hchars _ _ _ hv hnd (by intro p _; simp)]
  rfl

/-- What the loop of `ParseKeyringMap` returns: it succeeds exactly when every
binding gives a key, with these keys added in order. -/
theorem parseKeys_spec (x : Extern) : ∀ (kv : List (String × String)) (acc : Keyring),
    ((∀ p ∈ kv, (keyOf x p).isSome = true) →
      parseKeys x kv acc = .ok (acc ++ kv.filterMap (keyOf x))) ∧
    ((∃ p ∈ kv, keyOf x p = none) → ∃ err, parseKeys x kv acc = .error err) := by
  intro kv
  induction kv with
  | nil =>
    intro acc
    exact ⟨fun _ => by simp [parseKeys], fun ⟨p, hp, _⟩ => by simp at hp⟩
  | cons p rest ih =>
    intro acc
    obtain ⟨name, v⟩ := p
    unfold parseKeys
    by_cases hn : IsValidKeyName name = true
    · simp only [hn, Bool.not_true, Bool.false_eq_true, ↓reduceIte]
      cases hd : x.DecodeString v with
      | none =>
        simp only
        refine ⟨fun h => ?_, fun _ => ⟨_, rfl⟩⟩
        have := h (name, v) (List.mem_cons_self _ _)
        simp [keyOf, hn, hd] at this
      | some keyData =>
        simp only
        by_cases hl : keyData.length = KeySize
        · have hk : keyOf x (name, v) = some { Name := name, Data := keyData } := by
            simp [keyOf, hn, hd, hl]
          rw [if_neg (by simpa using hl)]
          refine ⟨fun h => ?_, fun ⟨q, hq, hqn⟩ => ?_⟩
          · rw [(ih _).1 (fun q hq => h q (List.mem_cons_of_mem _ hq)),
              List.filterMap_cons, hk]
            simp
          · rcases List.mem_cons.1 hq with h1 | h1
            · rw [h1, hk] at hqn
              simp at hqn
            · exact (ih _).2 ⟨q, h1, hqn⟩
        · rw [if_pos (by simpa using hl)]
          refine ⟨fun h => ?_, fun _ => ⟨_, rfl⟩⟩
          have := h (name, v) (List.mem_cons_self _ _)
          simp [keyOf, hn, hd, hl] at this
    · have hn2 : IsValidKeyName name = false := by simpa using hn
      simp only [hn2, Bool.not_false, ↓reduceIte]
      refine ⟨fun h => ?_, fun _ => ⟨_, rfl⟩⟩
      have := h (name, v) (List.mem_cons_self _ _)
      simp [keyOf, hn2] at this

theorem keyOf_binding {x : Extern} {key : Key}
    (hb64 : ∀ b, x.DecodeString (x.EncodeToString b) = some b)
    (hv : IsValidKeyName key.Name = true) (hs : key.Data.length = KeySize) :
    keyOf x (keyBinding x key) = some key := by
  unfold keyOf keyBinding
  simp only [hv, hb64, hs, ↓reduceIte]

theorem filterMap_keyOf {x : Extern}
    (hb64 : ∀ b, x.DecodeString (x.EncodeToString b) = some b) : ∀ (keyring : Keyring),
    (∀ key ∈ keyring, IsValidKeyName key.Name = true) →
    (∀ key ∈ keyring, key.Data.length = KeySize) →
    (keyring.map (keyBinding x)).filterMap (keyOf x) = keyring := by
  intro keyring
  induction keyring with
  | nil => intro _ _; rfl
  | cons key r ih =>
    intro hv hs
    rw [List.map_cons, List.filterMap_cons,
      keyOf_binding hb64 (hv key (List.mem_cons_self _ _)) (hs key (List.mem_cons_self _ _))]
    simp only
    rw [ih (fun k hk => hv k (List.mem_cons_of_mem _ hk))
      (fun k hk => hs k (List.mem_cons_of_mem _ hk))]

/-- With distinct names, `ByName` finds exactly the key of that name. -/
theorem byName_of_mem : ∀ {keyring : Keyring} {key : Key}, (keyring.map Key.Name).Nodup →
    key ∈ keyring → keyring.ByName key.Name = some key := by
  intro keyring
  induction keyring with
  | nil => intro key _ h; simp at h
  | cons k ks ih =>
    intro key hnd hm
    have hnd2 : k.Name ∉ ks.map Key.Name ∧ (ks.map Key.Name).Nodup := by
      simpa using hnd
    unfold Keyring.ByName
    rcases List.mem_cons.1 hm with h | h
    · subst h
      rw [if_pos rfl]
    · have hne : k.Name ≠ key.Name := fun he => hnd2.1 (he ▸ List.mem_map_of_mem Key.Name h)
      rw [if_neg hne]
      exact ih hnd2.2 h

theorem byName_none {keyring : Keyring} {name : String} (h : name ∉ keyring.map Key.Name) :
    keyring.ByName name = none := by
  cases hb : keyring.ByName name with
  | none => rfl
  | some key =>
    obtain ⟨hm, hn⟩ := byName_mem hb
    exact absurd (hn ▸ List.mem_map_of_mem Key.Name hm) h

/-- Keyrings with distinct names and the same keys answer `ByName` alike. -/
theorem byName_perm {k1 k2 : Keyring} (hp : k1.Perm k2) (hnd : (k2.map Key.Name).Nodup)
    (name : String) : k1.ByName name = k2.ByName name := by
  have hnd1 : (k1.map Key.Name).Nodup := (hp.map Key.Name).nodup_iff.2 hnd
  by_cases hm : name ∈ k2.map Key.Name
  · obtain ⟨key, hk, hn⟩ := List.mem_map.1 hm
    subst hn
    rw [byName_of_mem hnd hk, byName_of_mem hnd1 (hp.symm.subset hk)]
  · rw [byName_none hm, byName_none (fun h => hm ((hp.map Key.Name).subset h))]

/-- The stand-in for base64 writes characters of the base64 alphabet. -/
theorem unaryEncode_base64 (b : List Nat) : ∀ c ∈ unaryEncode b, isBase64Char c = true := by
  induction b with
  | nil => intro c hc; simp [unaryEncode] at hc
  | cons n rest ih =>
    intro c hc
    unfold unaryEncode at hc
    rcases List.mem_append.1 hc with h | h
    · rw [(List.mem_replicate.1 h).2]; decide
    · rcases List.mem_cons.1 h with h | h
      · rw [h]; decide
      · exact ih c h

/-! ## Name validation in `ParseMap` -/

/-- The name checks of `ParseMap` on an entry line: the env part is checked
first; the message for an invalid value name shows the env. -/
theorem parseLine_name_errors (x : Extern) (vals : Values) (lhs rhs name env0 : String)
    (found : Bool) (hat : CutPrefix lhs "@" = none) (hcut : Cut lhs '.' = (name, env0, found)) :
    (found = true → IsValidEnvName env0 = false →
      parseLine x vals lhs rhs =
        .error ("malformed env name " ++ quote env0 ++ " in " ++ quote (lhs ++ "=" ++ rhs))) ∧
    ((found = true → IsValidEnvName env0 = true) → IsValidValueName name = false →
      parseLine x vals lhs rhs =
        .error ("malformed value name " ++ quote (if found then env0 else All) ++ " in " ++
          quote (lhs ++ "=" ++ rhs))) ∧
    ((found = true → IsValidEnvName env0 = true) → IsValidValueName name = true →
      parseLine x vals lhs rhs =
        match parseValue x rhs (newEntry (if found then env0 else All) lhs rhs) with
        | .error err => .error (err ++ " in " ++ quote (lhs ++ "=" ++ rhs))
        | .ok e =>
          .ok { vals with
            entries := mapSet vals.entries name ((mapGet vals.entries name).getD [] ++ [e]) }) := by
  unfold parseLine
  rw [hat]
  simp only [hcut]
  refine ⟨?_, ?_, ?_⟩
  · intro hf hv
    simp [hf, hv]
  · intro hv hn
    cases found with
    | false => simp [hn]
    | true => simp [hv rfl, hn]
  · intro hv hn
    cases found with
    | false =>
      simp only [hn, Bool.false_and, Bool.not_true, Bool.false_eq_true, if_false]
    | true =>
      simp only [hv rfl, hn, Bool.not_true, Bool.and_false, Bool.false_eq_true, if_false, if_true]

/-! ## Negated groups and glob matching -/

/-- The resolution of a negated group of a parsed file: the elements of
`validEnvs` that no excluded token matches; all tokens are valid. -/
theorem negated_parse {x : Extern} {data : String} {vals : Values} {X : String} {d : envGroup}
    (hparse : ParseString x data = (vals, none)) (hdef : mapGet vals.envs X = some d)
    (hneg : d.Negated = true) :
    ∃ r, Bound vals X r ∧ r.state = .resolvedState ∧ r.err = none ∧
      r.included = negateSpec vals.validEnvs (vals.excludedOf d.Items) ∧
      (∀ t ∈ vals.excludedOf d.Items, IsValidEnvNameWildcard t = true) ∧
      (∀ t ∈ vals.validEnvs, IsValidEnvNameWildcard t = true) := by
  obtain ⟨m, _, hm⟩ := parseString_ok hparse
  obtain ⟨v0, _, hr⟩ := parseMap_ok hm
  obtain ⟨r, hb, hs, he⟩ := (rebuild_groups_ok hr).2 X d hdef
  obtain ⟨f1, _, f3⟩ := resInv_parse hparse X r d hb hs he hdef
  have hgood := Good.good_parse hparse
  have hitemsV := itemsValid_parse hparse
  have hvalidExc : ∀ t ∈ vals.excludedOf d.Items, IsValidEnvNameWildcard t = true := by
    intro t ht
    obtain ⟨k, dk, hk, htk⟩ := excluded_isItem hgood hdef f1 ht
    exact hitemsV k dk hk t htk
  have hne : "" ∉ vals.excludedOf d.Items :=
    fun h => validWildcard_ne_empty (hvalidExc "" h) rfl
  refine ⟨r, hb, hs, he, ?_, hvalidExc, ?_⟩
  · rw [f3]
    unfold Values.resolution negateSpec
    rw [if_pos hneg]
    apply List.filter_congr
    intro t _
    rw [Bool.eq_iff_iff, decide_eq_true_eq]
    exact findMatch_eq_empty_iff hne
  · intro t ht
    obtain ⟨k, dk, hk, htk⟩ := hgood.item.1 t ht
    exact hitemsV k dk hk t htk

theorem score_trivial {vals : Values} {envRes r : resolvedEnvGroup} {e : entry}
    (hb : Bound vals e.Env r) (ht : envRes.trivial ≠ "") :
    vals.score envRes e = (findMatch r.included envRes.trivial).length := by
  unfold Values.score Values.resolvedOf
  unfold Bound at hb
  rw [if_pos ht, hb]
  rfl

/-! ## `Value` and the instance it leaves -/

theorem value_rejected {x : Extern} {vals : Values} {name env : String} {keyring : Keyring}
    {err : String} (h : (vals.mentionEnv env).2.2 = some err) :
    vals.Value x name env keyring = ((vals.mentionEnv env).1, .error err) := by
  unfold Values.Value
  generalize vals.mentionEnv env = m at h ⊢
  obtain ⟨v1, b, e⟩ := m
  simp only at h
  subst h
  rfl

theorem value_accepted {x : Extern} {vals : Values} {name env : String} {keyring : Keyring}
    (h : (vals.mentionEnv env).2.2 = none) :
    vals.Value x name env keyring = valueFrom x (vals.queryState env) name env keyring := by
  unfold Values.Value Values.queryState valueFrom
  generalize vals.mentionEnv env = m at h ⊢
  obtain ⟨v1, b, e⟩ := m
  simp only at h
  subst h
  simp only
  generalize (if b = true then v1.rebuild.1 else v1) = w
  cases hm : mapGet w.entries name with
  | none => rfl
  | some entries =>
    simp only
    generalize w.pickVariant name env entries = p
    obtain ⟨w1, e, err⟩ := p
    cases e with
    | none => cases err <;> rfl
    | some e =>
      cases err with
      | some err => rfl
      | none =>
        simp only [valueOf]
        cases e.Value x keyring <;> rfl

/-- A write keeps every stored group, with its error. -/
theorem Prim.keeps_err {v v1 : Values} (h : Prim v v1) {k : String} {g : resolvedEnvGroup}
    (hb : Bound v k g) : ∃ g1, Bound v1 k g1 ∧ g1.err = g.err := by
  have hmod : ∀ (env : String) (f : resolvedEnvGroup → resolvedEnvGroup),
      (∀ r, (f r).err = r.err) → ∃ g1, Bound (v.modifyRes env f) k g1 ∧ g1.err = g.err := by
    intro env f hf
    by_cases hke : k = env
    · subst hke
      exact ⟨f g, modifyRes_bound_self f hb, hf g⟩
    · exact ⟨g, (modifyRes_bound_ne f hke g).2 hb, rfl⟩
  cases h with
  | lookup env =>
    obtain ⟨g1, hg1⟩ := (lookupEnv_step v env).keep k g hb
    have hev := (lookupEnv_step v env).evolve k g1 hg1
    rw [origin_of_bound hb] at hev
    exact ⟨g1, hg1, hev.err_eq⟩
  | mark env r _ _ => exact hmod _ _ (fun _ => rfl)
  | leaf env r _ _ _ => exact hmod _ _ (fun _ => rfl)
  | append env r d sub rs _ _ _ _ _ _ _ _ => exact hmod _ _ (fun _ => rfl)
  | negate env r d _ _ _ _ _ _ => exact hmod _ _ (fun r => finalize_err _)
  | finish env r _ _ _ _ _ => exact hmod _ _ (fun r => finalize_err _)

/-- `rebuild` keeps every stored group, with its error. -/
theorem rebuild_keeps_err {vals : Values} {k : String} {g : resolvedEnvGroup}
    (hb : Bound vals k g) : ∃ g1, Bound vals.rebuild.1 k g1 ∧ g1.err = g.err := by
  apply rebuild_invariant (I := fun v => ∃ g1, Bound v k g1 ∧ g1.err = g.err)
  · intro v v1 hp ⟨g1, hb1, he1⟩
    obtain ⟨g2, hb2, he2⟩ := hp.keeps_err hb1
    exact ⟨g2, hb2, he2.trans he1⟩
  · intro v l h; exact h
  · intro v h; exact h
  · unfold Bound Values.resetForRebuild
    simp only
    rw [mapGet_resetStates]
    unfold Bound at hb
    rw [hb]
    simp only [Option.map_some']
    by_cases he : g.err.isNone = true
    · rw [if_pos he]; exact ⟨_, rfl, rfl⟩
    · rw [if_neg he]; exact ⟨_, rfl, rfl⟩

/-- `rebuild` changes neither the entries nor the definitions. -/
theorem rebuild_frame (vals : Values) :
    vals.rebuild.1.entries = vals.entries ∧ vals.rebuild.1.envs = vals.envs := by
  apply rebuild_invariant (I := fun v => v.entries = vals.entries ∧ v.envs = vals.envs)
  · intro v v1 hp ⟨h1, h2⟩
    obtain ⟨f1, f2, _⟩ := hp.frame
    exact ⟨f2.trans h1, f1.trans h2⟩
  · intro v l h; exact h
  · intro v h; exact h
  · exact ⟨rfl, rfl⟩

theorem lookupEnv_of_bound {vals : Values} {env : String} {g : resolvedEnvGroup}
    (hb : Bound vals env g) : vals.lookupEnv env = (vals, g, false) := by
  unfold Values.lookupEnv
  unfold Bound at hb
  rw [hb]

theorem mentionEnv_of_bound {vals : Values} {env : String} {g : resolvedEnvGroup}
    (hb : Bound vals env g) : vals.mentionEnv env = (vals, false, g.err) := by
  unfold Values.mentionEnv
  rw [lookupEnv_of_bound hb]

/-- After `mentionEnv` the env is stored, with the error that was returned. -/
theorem mentionEnv_bound (vals : Values) (env : String) :
    ∃ g, Bound (vals.mentionEnv env).1 env g ∧ g.err = (vals.mentionEnv env).2.2 :=
  ⟨_, (lookupEnv_bound vals env).1, rfl⟩

theorem mentionEnv_frame (vals : Values) (env : String) :
    (vals.mentionEnv env).1.entries = vals.entries ∧ (vals.mentionEnv env).1.envs = vals.envs :=
  ⟨(mentionEnv_step vals env).entries, (mentionEnv_step vals env).envs⟩

/-- The query state holds the entries and definitions of the instance, and
the env is stored in it with the error that `mentionEnv` returned. -/
theorem queryState_facts (vals : Values) (env : String) :
    (vals.queryState env).entries = vals.entries ∧ (vals.queryState env).envs = vals.envs ∧
    ∃ g, Bound (vals.queryState env) env g ∧ g.err = (vals.mentionEnv env).2.2 := by
  unfold Values.queryState
  obtain ⟨g, hb, he⟩ := mentionEnv_bound vals env
  obtain ⟨f1, f2⟩ := mentionEnv_frame vals env
  by_cases hn : (vals.mentionEnv env).2.1 = true
  · rw [if_pos hn]
    obtain ⟨r1, r2⟩ := rebuild_frame (vals.mentionEnv env).1
    obtain ⟨g1, hb1, he1⟩ := rebuild_keeps_err hb
    exact ⟨r1.trans f1, r2.trans f2, g1, hb1, he1.trans he⟩
  · rw [if_neg hn]
    exact ⟨f1, f2, g, hb, he⟩

/-- An env that is stored is not new: the query state is the instance. -/
theorem queryState_of_bound {vals : Values} {env : String} {g : resolvedEnvGroup}
    (hb : Bound vals env g) : vals.queryState env = vals := by
  unfold Values.queryState
  rw [mentionEnv_of_bound hb]
  rfl

/-- A call of the resolver for a stored env in state `resolved` or
`resolving` returns at once. -/
theorem resolveEnvAux_of_bound {w : Values} {env : String} {g : resolvedEnvGroup} (fuel : Nat)
    (hb : Bound w env g) (hs : g.state = .resolvedState ∨ g.state = .resolvingState) :
    resolveEnvAux (fuel + 1) w env =
      some (w, if g.state = .resolvedState then
        (match g.err with | some err => .error err | none => .ok g)
        else .error ("@" ++ env ++ ": infinite recursion")) := by
  unfold resolveEnvAux
  rw [lookupEnv_of_bound hb]
  simp only
  rcases hs with hs | hs
  · rw [if_pos hs, if_pos hs]
    cases g.err <;> rfl
  · have hne : g.state ≠ .resolvedState := by rw [hs]; simp
    rw [if_neg hne, if_pos hs, if_neg hne]

/-- A call of the resolver for an env without definition returns, and a
second call returns the same and changes nothing. -/
theorem resolveEnvAux_leaf {w : Values} {env : String} (fuel : Nat)
    (h : mapGet w.envs env = none) :
    ∃ w1 res, resolveEnvAux (fuel + 1) w env = some (w1, res) ∧
      ∀ fuel1, resolveEnvAux (fuel1 + 1) w1 env = some (w1, res) := by
  obtain ⟨hb0, _⟩ := lookupEnv_bound w env
  have henv0 : (w.lookupEnv env).1.envs = w.envs := (lookupEnv_step w env).envs
  generalize hl : w.lookupEnv env = l at hb0 henv0
  obtain ⟨w0, g, b⟩ := l
  simp only at hb0 henv0
  by_cases hs : g.state = .resolvedState ∨ g.state = .resolvingState
  · refine ⟨w0, _, ?_, fun fuel1 => resolveEnvAux_of_bound fuel1 hb0 hs⟩
    unfold resolveEnvAux
    rw [hl]
    simp only
    rcases hs with hs | hs
    · rw [if_pos hs, if_pos hs]
      cases g.err <;> rfl
    · have hne : g.state ≠ .resolvedState := by rw [hs]; simp
      rw [if_neg hne, if_pos hs, if_neg hne]
  · rw [not_or] at hs
    have hb1 := modifyRes_bound_self (fun r => { r with state := .resolvingState }) hb0
    have hb2 := modifyRes_bound_self (fun r => { r with included := [env] }) hb1
    obtain ⟨g3, hb3, hs3⟩ : ∃ g3, Bound (((w0.modifyRes env
        (fun r => { r with state := .resolvingState })).modifyRes
        env (fun r => { r with included := [env] })).modifyRes env
        (fun r => { r.finalize with state := .resolvedState })) env g3 ∧
        g3.state = .resolvedState :=
      ⟨_, modifyRes_bound_self (fun r => { r.finalize with state := .resolvedState }) hb2, rfl⟩
    generalize hw3 : (((w0.modifyRes env (fun r => { r with state := .resolvingState })).modifyRes
      env (fun r => { r with included := [env] })).modifyRes env
      (fun r => { r.finalize with state := .resolvedState })) = w3 at hb3
    have hfirst : resolveEnvAux (fuel + 1) w env =
        some (w3, match g3.err with | some err => .error err | none => .ok g3) := by
      unfold resolveEnvAux
      rw [hl]
      simp only
      rw [if_neg hs.1, if_neg hs.2]
      have he : mapGet (w0.modifyRes env (fun r => { r with state := .resolvingState })).envs env
          = none := by
        show mapGet w0.envs env = none
        rw [henv0]; exact h
      rw [he]
      simp only
      unfold finishResolve
      simp only
      rw [hw3]
      unfold Bound at hb3
      rw [hb3]
      simp only
      cases g3.err <;> rfl
    refine ⟨w3, _, hfirst, fun fuel1 => ?_⟩
    rw [resolveEnvAux_of_bound fuel1 hb3 (Or.inl hs3), if_pos hs3]

/-- For an env without definition, or resolved without error, a second call
of `resolveEnv` returns what the first one returned and changes nothing. -/
theorem resolveEnv_settled {w : Values} {env : String}
    (h : mapGet w.envs env = none ∨ ResolvedOK w env) :
    (w.resolveEnv env).1.resolveEnv env = w.resolveEnv env := by
  rcases h with h | ⟨g, hb, hs, he⟩
  · obtain ⟨w1, res, h1, h2⟩ := resolveEnvAux_leaf w.envs.length h
    have hr : w.resolveEnv env = (w1, res) := by
      unfold Values.resolveEnv resolveFuel
      rw [h1]; rfl
    rw [hr]
    unfold Values.resolveEnv resolveFuel
    simp only
    rw [h2]; rfl
  · rw [resolveEnv_of_resolved hb hs he]
    exact resolveEnv_of_resolved hb hs he

theorem pickVariant_settled {w : Values} {env : String}
    (h : mapGet w.envs env = none ∨ ResolvedOK w env) (name : String) (entries : List entry) :
    (w.pickVariant name env entries).1 = (w.resolveEnv env).1 ∧
    (w.resolveEnv env).1.pickVariant name env entries =
      ((w.resolveEnv env).1, (w.pickVariant name env entries).2) := by
  have hs := resolveEnv_settled h
  unfold Values.pickVariant
  rw [hs]
  generalize w.resolveEnv env = p
  obtain ⟨w1, res⟩ := p
  cases res <;> exact ⟨rfl, rfl⟩

theorem valueFrom_settled {x : Extern} {w : Values} {env : String}
    (h : mapGet w.envs env = none ∨ ResolvedOK w env) (name : String) (keyring : Keyring)
    (hent : (mapGet w.entries name).isSome = true) :
    valueFrom x w name env keyring =
      ((w.resolveEnv env).1, (valueFrom x w name env keyring).2) ∧
    valueFrom x (w.resolveEnv env).1 name env keyring =
      ((w.resolveEnv env).1, (valueFrom x w name env keyring).2) := by
  have he : (w.resolveEnv env).1.entries = w.entries := (resolveEnv_step w env).entries
  unfold valueFrom
  rw [he]
  cases hm : mapGet w.entries name with
  | none => rw [hm] at hent; simp at hent
  | some entries =>
    simp only
    obtain ⟨h1, h2⟩ := pickVariant_settled h name entries
    rw [h2]
    generalize w.pickVariant name env entries = p at h1
    obtain ⟨w1, e, err⟩ := p
    simp only at h1
    subst h1
    cases e with
    | none => cases err <;> exact ⟨rfl, rfl⟩
    | some e => cases err <;> exact ⟨rfl, rfl⟩

/-- In the query state of a parsed instance the env has no definition or is
resolved without error. -/
theorem queryState_ready {x : Extern} {data : String} {vals : Values}
    (hparse : ParseString x data = (vals, none)) (env : String) :
    mapGet (vals.queryState env).envs env = none ∨ ResolvedOK (vals.queryState env) env := by
  cases hd : mapGet vals.envs env with
  | none =>
    left
    rw [(queryState_facts vals env).2.1]
    exact hd
  | some d =>
    right
    obtain ⟨m, _, hm⟩ := parseString_ok hparse
    obtain ⟨v0, _, hr⟩ := parseMap_ok hm
    have hok := (rebuild_groups_ok hr).2 env d hd
    obtain ⟨r, hb, _, _⟩ := hok
    rw [queryState_of_bound hb]
    exact (rebuild_groups_ok hr).2 env d hd

/-- Every call of `Value` for the env and a name with entries leaves the
instance `settled`, and on that instance gives the same result and changes
nothing. -/
theorem value_settled {x : Extern} {data : String} {vals : Values}
    (hparse : ParseString x data = (vals, none)) (env name : String) (keyring : Keyring)
    (hent : (mapGet vals.entries name).isSome = true) :
    vals.Value x name env keyring = (vals.settled env, (vals.Value x name env keyring).2) ∧
    (vals.settled env).Value x name env keyring =
      (vals.settled env, (vals.Value x name env keyring).2) := by
  unfold Values.settled
  cases hacc : (vals.mentionEnv env).2.2 with
  | some err =>
    simp only
    obtain ⟨g, hb, he⟩ := mentionEnv_bound vals env
    rw [hacc] at he
    have h2 : ((vals.mentionEnv env).1.mentionEnv env) = ((vals.mentionEnv env).1, false, some err) := by
      rw [mentionEnv_of_bound hb, he]
    have hv2 : (vals.mentionEnv env).1.Value x name env keyring =
        (((vals.mentionEnv env).1.mentionEnv env).1, .error err) :=
      value_rejected (by rw [h2])
    rw [h2] at hv2
    rw [value_rejected hacc]
    exact ⟨rfl, hv2⟩
  | none =>
    simp only
    obtain ⟨f1, f2, g, hb, he⟩ := queryState_facts vals env
    rw [hacc] at he
    have hready := queryState_ready hparse env
    have hent2 : (mapGet (vals.queryState env).entries name).isSome = true := by
      rw [f1]; exact hent
    obtain ⟨s1, s2⟩ := valueFrom_settled (x := x) hready name keyring hent2
    rw [value_accepted hacc]
    refine ⟨s1, ?_⟩
    have hstep := resolveEnv_step (vals.queryState env) env
    obtain ⟨g1, hb1⟩ := hstep.keep env g hb
    have hev := hstep.evolve env g1 hb1
    rw [origin_of_bound hb] at hev
    have he1 : g1.err = none := hev.err_eq.trans he
    have hacc1 : (((vals.queryState env).resolveEnv env).1.mentionEnv env).2.2 = none := by
      rw [mentionEnv_of_bound hb1]; exact he1
    rw [value_accepted hacc1, queryState_of_bound hb1]
    exact s2

/-! ## The loop of `EnvValues` -/

theorem envValuesLoop_settled {x : Extern} {env : String} {keyring : Keyring} {U : Values}
    {q : String → Except String String} : ∀ (names : List String)
    (result : List (String × String)) (lastErr : Option String),
    (∀ n ∈ names, U.Value x n env keyring = (U, q n)) →
    envValuesLoop x env keyring names U result lastErr =
      (U, collectValues q names result lastErr) := by
  intro names
  induction names with
  | nil => intro result lastErr _; rfl
  | cons n rest ih =>
    intro result lastErr h
    unfold envValuesLoop collectValues
    rw [h n (List.mem_cons_self _ _)]
    have ih2 := fun r l => ih r l (fun m hm => h m (List.mem_cons_of_mem _ hm))
    cases hq : q n with
    | error err => simp only; exact ih2 _ _
    | ok val =>
      simp only
      by_cases hv : val ≠ ""
      · rw [if_pos hv, if_pos hv]; exact ih2 _ _
      · rw [if_neg hv, if_neg hv]; exact ih2 _ _

theorem envValuesLoop_first {x : Extern} {env : String} {keyring : Keyring} {S U : Values}
    {q : String → Except String String} (names : List String)
    (h : ∀ n ∈ names, S.Value x n env keyring = (U, q n) ∧ U.Value x n env keyring = (U, q n)) :
    (envValuesLoop x env keyring names S [] none).2 = collectValues q names [] none := by
  cases names with
  | nil => rfl
  | cons n rest =>
    unfold envValuesLoop collectValues
    rw [(h n (List.mem_cons_self _ _)).1]
    have ih2 := fun r l => @envValuesLoop_settled x env keyring U q rest r l
      (fun m hm => (h m (List.mem_cons_of_mem _ hm)).2)
    cases hq : q n with
    | error err => simp only; rw [ih2]
    | ok val =>
      simp only
      by_cases hv : val ≠ ""
      · rw [if_pos hv, if_pos hv, ih2]
      · rw [if_neg hv, if_neg hv, ih2]

/-- The map that the loop builds: a name is bound to the non-empty value `q`
gives for it; the other names are bound as before. -/
theorem collectValues_map (q : String → Except String String) : ∀ (names : List String)
    (result : List (String × String)) (lastErr : Option String) (k v : String),
    mapGet (collectValues q names result lastErr).1 k = some v ↔
      (k ∈ names ∧ q k = .ok v ∧ v ≠ "") ∨
      (¬ (k ∈ names ∧ ∃ v1, q k = .ok v1 ∧ v1 ≠ "") ∧ mapGet result k = some v) := by
  intro names
  induction names with
  | nil =>
    intro result lastErr k v
    simp [collectValues]
  | cons n rest ih =>
    intro result lastErr k v
    unfold collectValues
    cases hq : q n with
    | error err =>
      simp only
      rw [ih]
      constructor
      · rintro (⟨h1, h2, h3⟩ | ⟨h1, h2⟩)
        · exact Or.inl ⟨List.mem_cons_of_mem _ h1, h2, h3⟩
        · refine Or.inr ⟨?_, h2⟩
          rintro ⟨hm, v1, hv1, hne⟩
          rcases List.mem_cons.1 hm with h | h
          · subst h; rw [hq] at hv1; simp at hv1
          · exact h1 ⟨h, v1, hv1, hne⟩
      · rintro (⟨h1, h2, h3⟩ | ⟨h1, h2⟩)
        · rcases List.mem_cons.1 h1 with h | h
          · subst h; rw [hq] at h2; simp at h2
          · exact Or.inl ⟨h, h2, h3⟩
        · exact Or.inr ⟨fun ⟨hm, hv⟩ => h1 ⟨List.mem_cons_of_mem _ hm, hv⟩, h2⟩
    | ok val =>
      simp only
      by_cases hv : val ≠ ""
      · rw [if_pos hv, ih]
        constructor
        · rintro (⟨h1, h2, h3⟩ | ⟨h1, h2⟩)
          · exact Or.inl ⟨List.mem_cons_of_mem _ h1, h2, h3⟩
          · by_cases hkn : k = n
            · subst hkn
              rw [mapGet_mapSet_self] at h2
              simp only [Option.some.injEq] at h2
              subst h2
              exact Or.inl ⟨List.mem_cons_self _ _, hq, hv⟩
            · rw [mapGet_mapSet_ne _ _ _ _ hkn] at h2
              refine Or.inr ⟨?_, h2⟩
              rintro ⟨hm, hv1⟩
              rcases List.mem_cons.1 hm with h | h
              · exact hkn h
              · exact h1 ⟨h, hv1⟩
        · rintro (⟨h1, h2, h3⟩ | ⟨h1, h2⟩)
          · by_cases hr : k ∈ rest
            · exact Or.inl ⟨hr, h2, h3⟩
            · rcases List.mem_cons.1 h1 with h | h
              · subst h
                rw [hq] at h2
                simp only [Except.ok.injEq] at h2
                subst h2
                exact Or.inr ⟨fun ⟨hm, _⟩ => hr hm, mapGet_mapSet_self _ _ _⟩
              · exact absurd h hr
          · have hkn : k ≠ n := by
              intro he
              subst he
              exact h1 ⟨List.mem_cons_self _ _, val, hq, hv⟩
            refine Or.inr ⟨fun ⟨hm, hv1⟩ => h1 ⟨List.mem_cons_of_mem _ hm, hv1⟩, ?_⟩
            rw [mapGet_mapSet_ne _ _ _ _ hkn]
            exact h2
      · rw [if_neg hv, ih]
        have hv2 : val = "" := by simpa using hv
        constructor
        · rintro (⟨h1, h2, h3⟩ | ⟨h1, h2⟩)
          · exact Or.inl ⟨List.mem_cons_of_mem _ h1, h2, h3⟩
          · refine Or.inr ⟨?_, h2⟩
            rintro ⟨hm, v1, hv1, hne⟩
            rcases List.mem_cons.1 hm with h | h
            · subst h
              rw [hq] at hv1
              simp only [Except.ok.injEq] at hv1
              exact hne (hv1 ▸ hv2)
            · exact h1 ⟨h, v1, hv1, hne⟩
        · rintro (⟨h1, h2, h3⟩ | ⟨h1, h2⟩)
          · rcases List.mem_cons.1 h1 with h | h
            · subst h
              rw [hq] at h2
              simp only [Except.ok.injEq] at h2
              exact absurd (h2 ▸ hv2) h3
            · exact Or.inl ⟨h, h2, h3⟩
          · exact Or.inr ⟨fun ⟨hm, hv⟩ => h1 ⟨List.mem_cons_of_mem _ hm, hv⟩, h2⟩

/-- The error that the loop returns: the error of the last name that fails,
`lastErr` when no name fails. -/
theorem collectValues_err (q : String → Except String String) : ∀ (names : List String)
    (result : List (String × String)) (lastErr : Option String),
    ((∀ n ∈ names, ∀ e, q n ≠ .error e) ∧ (collectValues q names result lastErr).2 = lastErr) ∨
    ∃ before n after e, names = before ++ n :: after ∧ q n = .error e ∧
      (∀ m ∈ after, ∀ e1, q m ≠ .error e1) ∧ (collectValues q names result lastErr).2 = some e := by
  intro names
  induction names with
  | nil => intro result lastErr; left; exact ⟨by simp, rfl⟩
  | cons n rest ih =>
    intro result lastErr
    have hlift : ∀ (r : List (String × String)) (l : Option String),
        (∃ before n1 after e, rest = before ++ n1 :: after ∧ q n1 = .error e ∧
          (∀ m ∈ after, ∀ e1, q m ≠ .error e1) ∧ (collectValues q rest r l).2 = some e) →
        ∃ before n1 after e, n :: rest = before ++ n1 :: after ∧ q n1 = .error e ∧
          (∀ m ∈ after, ∀ e1, q m ≠ .error e1) ∧ (collectValues q rest r l).2 = some e := by
      rintro r l ⟨before, n1, after, e, h1, h2, h3, h4⟩
      exact ⟨n :: before, n1, after, e, by rw [h1]; rfl, h2, h3, h4⟩
    unfold collectValues
    cases hq : q n with
    | error err =>
      simp only
      right
      rcases ih result (some err) with ⟨h1, h2⟩ | h
      · exact ⟨[], n, rest, err, rfl, hq, h1, h2⟩
      · exact hlift _ _ h
    | ok val =>
      simp only
      have hok : ∀ e, q n ≠ .error e := by intro e; rw [hq]; simp
      by_cases hv : val ≠ ""
      · rw [if_pos hv]
        rcases ih (mapSet result n val) lastErr with ⟨h1, h2⟩ | h
        · left
          refine ⟨?_, h2⟩
          intro m hm
          rcases List.mem_cons.1 hm with h | h
          · subst h; exact hok
          · exact h1 m h
        · right; exact hlift _ _ h
      · rw [if_neg hv]
        rcases ih result lastErr with ⟨h1, h2⟩ | h
        · left
          refine ⟨?_, h2⟩
          intro m hm
          rcases List.mem_cons.1 hm with h | h
          · subst h; exact hok
          · exact h1 m h
        · right; exact hlift _ _ h

/-! ## The pattern of the in-place rewriter -/

theorem reRune_valid {bad : Char → Bool} {c : Char} (h : bad c = false) : reRune bad c = c := by
  unfold reRune
  rw [h]
  rfl

theorem reRune_ascii {bad : Char → Bool} {c a : Char} (ha : a ≠ Char.ofNat 0xFFFD)
    (h : reRune bad c = a) : c = a ∧ bad a = false := by
  unfold reRune at h
  by_cases hb : bad c = true
  · rw [if_pos hb] at h
    exact absurd h.symm ha
  · rw [if_neg hb] at h
    subst h
    exact ⟨rfl, by simpa using hb⟩

theorem map_reRune_valid {bad : Char → Bool} : ∀ {l : List Char}, (∀ c ∈ l, bad c = false) →
    l.map (reRune bad) = l := by
  intro l
  induction l with
  | nil => intro _; rfl
  | cons c cs ih =>
    intro h
    rw [List.map_cons, reRune_valid (h c (List.mem_cons_self _ _)),
      ih (fun d hd => h d (List.mem_cons_of_mem _ hd))]

theorem reSpaces_some {α : Type} {bad : Char → Bool} {k : List Char → Option α} :
    ∀ {s : List Char} {r : α}, reSpaces bad k s = some r →
    ∃ ws rest, s = ws ++ rest ∧ (∀ c ∈ ws, isReSpace (reRune bad c) = true) ∧
      k rest = some r := by
  intro s
  induction s with
  | nil =>
    intro r h
    exact ⟨[], [], rfl, by simp, h⟩
  | cons c cs ih =>
    intro r h
    unfold reSpaces at h
    by_cases hc : isReSpace (reRune bad c) = true
    · rw [if_pos hc] at h
      cases hr : reSpaces bad k cs with
      | some r1 =>
        rw [hr] at h
        simp only [Option.some.injEq] at h
        subst h
        obtain ⟨ws, rest, h1, h2, h3⟩ := ih hr
        refine ⟨c :: ws, rest, by rw [h1]; rfl, ?_, h3⟩
        intro d hd
        rcases List.mem_cons.1 hd with h4 | h4
        · rw [h4]; exact hc
        · exact h2 d h4
      | none =>
        rw [hr] at h
        exact ⟨[], c :: cs, rfl, by simp, h⟩
    · rw [if_neg hc] at h
      exact ⟨[], c :: cs, rfl, by simp, h⟩

theorem reSpaces_of_rest {α : Type} {bad : Char → Bool} {k : List Char → Option α}
    (s : List Char) (h : (k s).isSome = true) : (reSpaces bad k s).isSome = true := by
  cases s with
  | nil => exact h
  | cons c cs =>
    unfold reSpaces
    by_cases hc : isReSpace (reRune bad c) = true
    · rw [if_pos hc]
      cases hr : reSpaces bad k cs with
      | some r1 => rfl
      | none => exact h
    · rw [if_neg hc]; exact h

theorem reSpaces_complete {α : Type} {bad : Char → Bool} {k : List Char → Option α} :
    ∀ (ws rest : List Char), (∀ c ∈ ws, isReSpace (reRune bad c) = true) →
    (k rest).isSome = true → (reSpaces bad k (ws ++ rest)).isSome = true := by
  intro ws
  induction ws with
  | nil => intro rest _ h; exact reSpaces_of_rest rest h
  | cons c ws ih =>
    intro rest hws h
    have hc := hws c (List.mem_cons_self _ _)
    have ih2 := ih rest (fun d hd => hws d (List.mem_cons_of_mem _ hd)) h
    show (reSpaces bad k (c :: (ws ++ rest))).isSome = true
    unfold reSpaces
    rw [if_pos hc]
    cases hr : reSpaces bad k (ws ++ rest) with
    | some r1 => rfl
    | none => rw [hr] at ih2; simp at ih2

theorem reLiteral_some {α : Type} {bad : Char → Bool} {k : List Char → Option α} :
    ∀ {p s : List Char} {r : α}, reLiteral bad p k s = some r →
    ∃ t rest, s = t ++ rest ∧ t.map (reRune bad) = p ∧ k rest = some r := by
  intro p
  induction p with
  | nil =>
    intro s r h
    exact ⟨[], s, rfl, rfl, by simpa [reLiteral] using h⟩
  | cons a p ih =>
    intro s r h
    cases s with
    | nil => simp [reLiteral] at h
    | cons c s =>
      unfold reLiteral at h
      by_cases hc : reRune bad c = a
      · rw [if_pos hc] at h
        obtain ⟨t, rest, h1, h2, h3⟩ := ih h
        exact ⟨c :: t, rest, by rw [h1]; rfl, by rw [List.map_cons, hc, h2], h3⟩
      · rw [if_neg hc] at h
        simp at h

theorem reLiteral_append {α : Type} {bad : Char → Bool} (k : List Char → Option α) :
    ∀ (p t rest : List Char), t.map (reRune bad) = p →
    reLiteral bad p k (t ++ rest) = k rest := by
  intro p
  induction p with
  | nil =>
    intro t rest h
    have ht : t = [] := by simpa using h
    subst ht
    simp [reLiteral]
  | cons a p ih =>
    intro t rest h
    cases t with
    | nil => simp at h
    | cons c t =>
      simp only [List.map_cons, List.cons.injEq] at h
      show reLiteral bad (a :: p) k (c :: (t ++ rest)) = k rest
      unfold reLiteral
      rw [if_pos h.1]
      exact ih t rest h.2

/-- What `findSubmatch` returns on a line that matches: the line has the
shape of the pattern, and the group is its text up to the end of the spaces
after the `=`. -/
theorem findSubmatch_shape {bad : Char → Bool} {lhs rhs line m1 : String}
    (h : findSubmatch bad lhs rhs line = some m1) : LineShape bad lhs rhs line m1 := by
  unfold findSubmatch at h
  simp only [Option.map_eq_some'] at h
  obtain ⟨afterGroup, hg, hm⟩ := h
  obtain ⟨ws1, s1, e1, hw1, hg⟩ := reSpaces_some hg
  obtain ⟨l, s2, e2, hl, hg⟩ := reLiteral_some hg
  obtain ⟨ws2, s3, e3, hw2, hg⟩ := reSpaces_some hg
  obtain ⟨q, s4, e4, hq, hg⟩ := reLiteral_some hg
  obtain ⟨ws3, s5, e5, hw3, hg⟩ := reSpaces_some hg
  obtain ⟨r, s6, e6, hr, hg⟩ := reLiteral_some hg
  obtain ⟨ws4, s7, e7, hw4, hg⟩ := reSpaces_some hg
  have hq1 : q = ['='] ∧ bad '=' = false := by
    cases q with
    | nil => simp at hq
    | cons c q1 =>
      simp only [List.map_cons, List.cons.injEq, List.map_eq_nil_iff] at hq
      obtain ⟨hc, hq1⟩ := hq
      obtain ⟨h1, h2⟩ := reRune_ascii (by decide) hc
      exact ⟨by rw [h1, hq1], h2⟩
  obtain ⟨hq2, hbeq⟩ := hq1
  subst hq2
  by_cases h7 : s7.isEmpty = true
  · rw [if_pos h7] at hg
    simp only [Option.some.injEq] at hg
    have h7n : s7 = [] := List.isEmpty_iff.1 h7
    subst h7n
    have hline : line.data = ws1 ++ l ++ ws2 ++ '=' :: ws3 ++ r ++ ws4 := by
      rw [e1, e2, e3, e4, e5, e6, e7]
      simp
    refine ⟨ws1, l, ws2, ws3, r, ws4, hw1, hw2, hw3, hw4, hl, hr, hbeq, hline, ?_⟩
    rw [← hm]
    simp only
    have hag : afterGroup = r ++ ws4 := by rw [← hg, e6, e7]; simp
    rw [hline, hag]
    have hsplit : ws1 ++ l ++ ws2 ++ '=' :: ws3 ++ r ++ ws4 =
        (ws1 ++ l ++ ws2 ++ '=' :: ws3) ++ (r ++ ws4) := by simp
    rw [hsplit, List.length_append, Nat.add_sub_cancel, List.take_left']
    rfl
  · rw [if_neg h7] at hg
    simp at hg

/-- A line of the shape of the pattern matches. -/
theorem findSubmatch_complete {bad : Char → Bool} {lhs rhs line kept : String}
    (h : LineShape bad lhs rhs line kept) : (findSubmatch bad lhs rhs line).isSome = true := by
  obtain ⟨ws1, l, ws2, ws3, r, ws4, hw1, hw2, hw3, hw4, hl, hr, hbeq, hline, _⟩ := h
  unfold findSubmatch
  simp only [Option.isSome_map']
  have hsplit : line.data =
      ws1 ++ (l ++ (ws2 ++ (['='] ++ (ws3 ++ (r ++ (ws4 ++ [])))))) := by
    rw [hline]; simp
  rw [hsplit]
  apply reSpaces_complete _ _ hw1
  rw [reLiteral_append _ _ _ _ hl]
  apply reSpaces_complete _ _ hw2
  rw [reLiteral_append _ _ _ _ (by rw [List.map_singleton, reRune_valid hbeq])]
  apply reSpaces_complete _ _ hw3
  rw [reLiteral_append _ _ _ _ hr]
  apply reSpaces_complete _ _ hw4
  rfl

/-- On a line with no byte that is not valid UTF-8 the shape is the plain
one: the line is `ws1 ++ lhs ++ ws2 ++ = ++ ws3 ++ rhs ++ ws4`. -/
theorem lineShape_valid {bad : Char → Bool} {lhs rhs line kept : String}
    (hv : ∀ c ∈ line.data, bad c = false) (h : LineShape bad lhs rhs line kept) :
    ∃ ws1 ws2 ws3 ws4 : List Char,
      (∀ c ∈ ws1, isReSpace c = true) ∧ (∀ c ∈ ws2, isReSpace c = true) ∧
      (∀ c ∈ ws3, isReSpace c = true) ∧ (∀ c ∈ ws4, isReSpace c = true) ∧
      line.data = ws1 ++ lhs.data ++ ws2 ++ '=' :: ws3 ++ rhs.data ++ ws4 ∧
      kept.data = ws1 ++ lhs.data ++ ws2 ++ '=' :: ws3 := by
  obtain ⟨ws1, l, ws2, ws3, r, ws4, hw1, hw2, hw3, hw4, hl, hr, _, hline, hkept⟩ := h
  have hmem : ∀ part : List Char, (∀ c ∈ part, c ∈ line.data) → ∀ c ∈ part, bad c = false :=
    fun part hp c hc => hv c (hp c hc)
  have m1 : ∀ c ∈ ws1, c ∈ line.data := by intro c hc; rw [hline]; simp [hc]
  have m2 : ∀ c ∈ l, c ∈ line.data := by intro c hc; rw [hline]; simp [hc]
  have m3 : ∀ c ∈ ws2, c ∈ line.data := by intro c hc; rw [hline]; simp [hc]
  have m4 : ∀ c ∈ ws3, c ∈ line.data := by intro c hc; rw [hline]; simp [hc]
  have m5 : ∀ c ∈ r, c ∈ line.data := by intro c hc; rw [hline]; simp [hc]
  have m6 : ∀ c ∈ ws4, c ∈ line.data := by intro c hc; rw [hline]; simp [hc]
  have sp : ∀ part : List Char, (∀ c ∈ part, c ∈ line.data) →
      (∀ c ∈ part, isReSpace (reRune bad c) = true) → ∀ c ∈ part, isReSpace c = true := by
    intro part hp hs c hc
    have := hs c hc
    rwa [reRune_valid (hv c (hp c hc))] at this
  rw [map_reRune_valid (hmem l m2)] at hl
  rw [map_reRune_valid (hmem r m5)] at hr
  refine ⟨ws1, ws2, ws3, ws4, sp ws1 m1 hw1, sp ws2 m3 hw2, sp ws3 m4 hw3, sp ws4 m6 hw4, ?_, ?_⟩
  · rw [hline, hl, hr]
  · rw [hkept, hl]

/-! ## The loop over the lines -/

theorem rewriteLine_some {bad : Char → Bool} :
    ∀ {pats : List ((String × String) × String)} {line new : String},
    rewriteLine bad pats line = some new →
    ∃ lhs rhs replacement m1, ((lhs, rhs), replacement) ∈ pats ∧
      findSubmatch bad lhs rhs line = some m1 ∧ new = m1 ++ replacement := by
  intro pats
  induction pats with
  | nil => intro line new h; simp [rewriteLine] at h
  | cons p rest ih =>
    intro line new h
    obtain ⟨⟨lhs, rhs⟩, replacement⟩ := p
    unfold rewriteLine at h
    cases hf : findSubmatch bad lhs rhs line with
    | some m1 =>
      rw [hf] at h
      simp only [Option.some.injEq] at h
      exact ⟨lhs, rhs, replacement, m1, List.mem_cons_self _ _, hf, h.symm⟩
    | none =>
      rw [hf] at h
      obtain ⟨l, r, rep, m1, h1, h2, h3⟩ := ih h
      exact ⟨l, r, rep, m1, List.mem_cons_of_mem _ h1, h2, h3⟩

theorem rewriteLine_complete {bad : Char → Bool} :
    ∀ {pats : List ((String × String) × String)} {line : String}
    {lhs rhs replacement : String}, ((lhs, rhs), replacement) ∈ pats →
    (findSubmatch bad lhs rhs line).isSome = true → (rewriteLine bad pats line).isSome = true := by
  intro pats
  induction pats with
  | nil => intro line lhs rhs replacement h; simp at h
  | cons p rest ih =>
    intro line lhs rhs replacement h hf
    obtain ⟨⟨l, r⟩, rep⟩ := p
    unfold rewriteLine
    cases hf1 : findSubmatch bad l r line with
    | some m1 => rfl
    | none =>
      simp only
      rcases List.mem_cons.1 h with h1 | h1
      · simp only [Prod.mk.injEq] at h1
        obtain ⟨⟨e1, e2⟩, _⟩ := h1
        subst e1 e2
        rw [hf1] at hf
        simp at hf
      · exact ih h1 hf

/-- The loop over the lines maps every line on its own and counts the lines
that a pattern matches. -/
theorem rewriteLines_eq (bad : Char → Bool) (pats : List ((String × String) × String)) :
    ∀ (lines : List String),
    rewriteLines bad pats lines =
      (lines.map (fun l => (rewriteLine bad pats l).getD l),
        (lines.filter (fun l => (rewriteLine bad pats l).isSome)).length) := by
  intro lines
  induction lines with
  | nil => rfl
  | cons line rest ih =>
    unfold rewriteLines
    rw [ih]
    cases hr : rewriteLine bad pats line with
    | some new => simp [hr]
    | none => simp [hr]

/-! ## `Split` and `Join` -/

theorem split_pieces (s : String) (sep : Char) :
    Split s sep ≠ [] ∧ ∀ piece ∈ Split s sep, sep ∉ piece.data := by
  obtain ⟨h1, _, h3⟩ := splitChars_spec sep s.data
  unfold Split
  refine ⟨by simpa using h3, ?_⟩
  intro piece hp
  obtain ⟨w, hw, he⟩ := List.mem_map.1 hp
  rw [← he]
  exact h1 w hw

theorem join_cons (a b : String) (rest : List String) (sep : String) :
    Join (a :: b :: rest) sep = a ++ sep ++ Join (b :: rest) sep := rfl

theorem split_join : ∀ (l : List String), l ≠ [] →
    (∀ s ∈ l, Char.ofNat 10 ∉ s.data) → Split (Join l "\n") (Char.ofNat 10) = l := by
  intro l
  induction l with
  | nil => intro h; exact absurd rfl h
  | cons a rest ih =>
    intro _ hno
    cases rest with
    | nil =>
      show Split a (Char.ofNat 10) = [a]
      unfold Split
      rw [splitChars_no_sep _ _ (hno a (List.mem_cons_self _ _))]
      rfl
    | cons b rest2 =>
      have ih2 := ih (by simp) (fun s hs => hno s (List.mem_cons_of_mem _ hs))
      rw [join_cons]
      unfold Split at ih2 ⊢
      have hd : (a ++ "\n" ++ Join (b :: rest2) "\n").data =
          a.data ++ Char.ofNat 10 :: (Join (b :: rest2) "\n").data := by
        simp only [String.data_append, List.append_assoc]
        rfl
      rw [hd, splitChars_append _ _ _ (hno a (List.mem_cons_self _ _)), List.map_cons, ih2]

/-! ## The texts of the entries of a parsed file -/

theorem mem_mapSet {β : Type} : ∀ {m : List (String × β)} {k : String} {v : β} {p : String × β},
    p ∈ mapSet m k v → p ∈ m ∨ p = (k, v) := by
  intro m
  induction m with
  | nil =>
    intro k v p h
    simp only [mapSet, List.mem_singleton] at h
    exact Or.inr h
  | cons q rest ih =>
    intro k v p h
    obtain ⟨k1, w⟩ := q
    unfold mapSet at h
    by_cases hk : k1 = k
    · rw [if_pos hk] at h
      rcases List.mem_cons.1 h with h1 | h1
      · exact Or.inr (hk ▸ h1)
      · exact Or.inl (List.mem_cons_of_mem _ h1)
    · rw [if_neg hk] at h
      rcases List.mem_cons.1 h with h1 | h1
      · exact Or.inl (h1 ▸ List.mem_cons_self _ _)
      · rcases ih h1 with h2 | h2
        · exact Or.inl (List.mem_cons_of_mem _ h2)
        · exact Or.inr h2

/-- The fields that `parseValue` fills hold characters of the text only, and
an entry to be encrypted comes from a text that starts with `enc:`. -/
theorem parseValue_texts {x : Extern} {s : String} {e0 e : entry}
    (h : parseValue x s e0 = .ok e) (hp : e0.PlainValue = "") (hk : e0.KeyName = "")
    (hr : e0.RawRHS = s) (c : Char) (hc : c ∉ s.data) :
    c ∉ e.PlainValue.data ∧ c ∉ e.KeyName.data ∧
    (e.Encoding = .ToBeEncrypted → ∃ r, e.RawRHS = "enc:" ++ r) := by
  have hp0 : c ∉ e0.PlainValue.data := by rw [hp]; simp
  have hk0 : c ∉ e0.KeyName.data := by rw [hk]; simp
  unfold parseValue at h
  cases h1 : CutPrefix s "enc:" with
  | some str1 =>
    rw [h1] at h
    simp only at h
    have hs := cutPrefix_eq h1
    have hc1 : c ∉ str1.data := by
      intro hm
      apply hc
      rw [hs, String.data_append]
      exact List.mem_append_right _ hm
    generalize hcut : Cut str1 ':' = q at h
    obtain ⟨keyName, str2, ok⟩ := q
    simp only at h
    cases ok with
    | false => simp at h
    | true =>
      obtain ⟨hf, _⟩ := cut_found hcut
      have hkn : c ∉ keyName.data := by
        intro hm
        apply hc1
        rw [hf]
        simp only [String.data_append, List.mem_append]
        exact Or.inl (Or.inl hm)
      have hs2 : c ∉ str2.data := by
        intro hm
        apply hc1
        rw [hf]
        simp only [String.data_append, List.mem_append]
        exact Or.inr hm
      simp only [Bool.not_true, Bool.false_eq_true, ↓reduceIte] at h
      split_ifs at h
      simp only [Except.ok.injEq] at h
      rw [← h]
      exact ⟨hs2, hkn, fun _ => ⟨str1, by rw [← hs]; exact hr⟩⟩
  | none =>
    rw [h1] at h
    simp only at h
    cases h2 : CutPrefix s "secret:" with
    | some str1 =>
      rw [h2] at h
      simp only at h
      have hs := cutPrefix_eq h2
      have hc1 : c ∉ str1.data := by
        intro hm
        apply hc
        rw [hs, String.data_append]
        exact List.mem_append_right _ hm
      split at h
      · next keyName nonceStr ciphertextStr hsp =>
        obtain ⟨hsp1, _⟩ := split_three.1 hsp
        have hkn : c ∉ keyName.data := by
          intro hm
          apply hc1
          rw [hsp1]
          simp only [String.data_append, List.mem_append]
          exact Or.inl (Or.inl (Or.inl (Or.inl hm)))
        split_ifs at h
        split at h
        · simp at h
        · split_ifs at h
          split at h
          · simp at h
          · simp only [Except.ok.injEq] at h
            rw [← h]
            exact ⟨hp0, hkn, fun hh => by simp at hh⟩
      · simp at h
    | none =>
      rw [h2] at h
      simp only at h
      cases h3 : CutPrefix s "TODO:" with
      | some str1 =>
        rw [h3] at h
        simp only [Except.ok.injEq] at h
        have hs := cutPrefix_eq h3
        have hc1 : c ∉ str1.data := by
          intro hm
          apply hc
          rw [hs, String.data_append]
          exact List.mem_append_right _ hm
        rw [← h]
        exact ⟨hc1, hk0, fun hh => by simp at hh⟩
      | none =>
        rw [h3] at h
        simp only at h
        split_ifs at h
        · simp only [Except.ok.injEq] at h
          rw [← h]
          exact ⟨hp0, hk0, fun hh => by simp at hh⟩
        · simp only [Except.ok.injEq] at h
          rw [← h]
          exact ⟨hp0, hk0, fun hh => by simp at hh⟩
        · simp only [Except.ok.injEq] at h
          rw [← h]
          exact ⟨hc, hk0, fun hh => by simp at hh⟩

theorem cut_parts {s : String} {sep c : Char} (hc : c ∉ s.data) :
    c ∉ (Cut s sep).1.data ∧ c ∉ (Cut s sep).2.1.data := by
  generalize hq : Cut s sep = q
  obtain ⟨k, p, ok⟩ := q
  cases ok with
  | false =>
    obtain ⟨_, h1, h2⟩ := cut_not_found hq
    rw [h1, h2]
    exact ⟨hc, by simp⟩
  | true =>
    obtain ⟨h1, _⟩ := cut_found hq
    rw [h1] at hc
    simp only [String.data_append, List.mem_append, not_or] at hc
    exact ⟨hc.1.1, hc.2⟩

theorem trimSpace_part {s : String} {c : Char} (hc : c ∉ s.data) : c ∉ (TrimSpace s).data := by
  intro hm
  rw [trimSpace_data] at hm
  exact hc (mem_trimChars hm)

/-- The values that the lexer reads hold no line break. -/
theorem lexer_values {data : String} {m : List (String × String)}
    (h : parseMultilineKVString data = .ok m) : ∀ p ∈ m, Char.ofNat 10 ∉ p.2.data := by
  obtain ⟨h1, _, _⟩ := lexer_ok h
  intro p hp
  rw [h1] at hp
  unfold lexSpec at hp
  obtain ⟨line, hl, hlex⟩ := List.mem_filterMap.1 hp
  have hno := (split_pieces data (Char.ofNat 10)).2 line hl
  unfold lexLine at hlex
  split_ifs at hlex
  simp only [Option.some.injEq] at hlex
  rw [← hlex]
  exact trimSpace_part (cut_parts (trimSpace_part hno)).2

theorem parseLine_texts {x : Extern} {vals v1 : Values} {lhs rhs : String}
    (h : parseLine x vals lhs rhs = .ok v1) (hno : Char.ofNat 10 ∉ rhs.data)
    (ht : EntryTexts vals) : EntryTexts v1 := by
  unfold parseLine at h
  split at h
  · split at h
    · simp at h
    · split_ifs at h
      simp only [Except.ok.injEq] at h
      rw [← h]
      exact ht
  · split at h
    next name env0 envFound hcut =>
    split at h
    · simp at h
    · simp only at h
      split at h
      · simp at h
      · split at h
        · simp at h
        · next e hpv =>
          simp only [Except.ok.injEq] at h
          rw [← h]
          intro p hp e1 he1
          simp only at hp
          rcases mem_mapSet hp with hp1 | hp1
          · exact ht p hp1 e1 he1
          · rw [hp1] at he1
            simp only at he1
            rcases List.mem_append.1 he1 with h2 | h2
            · cases hg : mapGet vals.entries name with
              | none => rw [hg] at h2; simp at h2
              | some old =>
                rw [hg] at h2
                exact ht _ (mapGet_mem hg) e1 h2
            · simp only [List.mem_singleton] at h2
              rw [h2]
              exact parseValue_texts hpv rfl rfl rfl _ hno

theorem parseLines_texts (x : Extern) : ∀ (m : List (String × String)) (vals v1 : Values),
    (∀ p ∈ m, Char.ofNat 10 ∉ p.2.data) → EntryTexts vals → parseLines x m vals = (v1, none) →
    EntryTexts v1 := by
  intro m
  induction m with
  | nil =>
    intro vals v1 _ ht h
    simp only [parseLines, Prod.mk.injEq, and_true] at h
    rw [← h]; exact ht
  | cons p rest ih =>
    intro vals v1 hno ht h
    obtain ⟨lhs, rhs⟩ := p
    unfold parseLines at h
    split at h
    · simp at h
    · next v2 hl =>
      exact ih v2 v1 (fun q hq => hno q (List.mem_cons_of_mem _ hq))
        (parseLine_texts hl (hno (lhs, rhs) (List.mem_cons_self _ _)) ht) h

theorem entryTexts_parse {x : Extern} {data : String} {vals : Values}
    (h : ParseString x data = (vals, none)) : EntryTexts vals := by
  obtain ⟨m, hlex, hm⟩ := parseString_ok h
  obtain ⟨v0, hl, hr⟩ := parseMap_ok hm
  have h0 : EntryTexts v0 :=
    parseLines_texts x m New v0 (lexer_values hlex) (by intro p hp; simp [New] at hp) hl
  have hf := (rebuild_frame v0).1
  rw [hr] at hf
  intro p hp
  simp only at hf
  rw [hf] at hp
  exact h0 p hp

/-! ## The texts that `Value` and `EncryptValue` return -/

theorem EntryTexts.of_entries {v w : Values} (h : EntryTexts v) (he : w.entries = v.entries) :
    EntryTexts w := by
  intro p hp
  rw [he] at hp
  exact h p hp

theorem valueFrom_frame (x : Extern) (w : Values) (name env : String) (keyring : Keyring) :
    (valueFrom x w name env keyring).1.entries = w.entries := by
  unfold valueFrom
  cases mapGet w.entries name with
  | none => rfl
  | some entries =>
    simp only
    have hs := (pickVariant_step w name env entries).entries
    generalize w.pickVariant name env entries = p at hs
    obtain ⟨w1, e, err⟩ := p
    cases e with
    | none => cases err <;> exact hs
    | some e => cases err <;> exact hs

theorem value_frame (x : Extern) (vals : Values) (name env : String) (keyring : Keyring) :
    (vals.Value x name env keyring).1.entries = vals.entries := by
  cases hacc : (vals.mentionEnv env).2.2 with
  | some err =>
    rw [value_rejected hacc]
    exact (mentionEnv_frame vals env).1
  | none =>
    rw [value_accepted hacc, valueFrom_frame]
    exact (queryState_facts vals env).1

theorem pickVariant_mem {w w1 : Values} {name env : String} {entries : List entry} {e : entry}
    (h : w.pickVariant name env entries = (w1, some e, none)) : e ∈ entries := by
  unfold Values.pickVariant at h
  split at h
  · simp at h
  · next v1 envRes _ =>
    simp only [Prod.mk.injEq] at h
    exact @pickResult_some_mem v1 envRes name env entries e h.2

/-- A value that `Value` returns with an empty keyring holds no line break,
when no plain value of the instance holds one. -/
theorem value_text {x : Extern} {vals : Values} {name env k : String}
    (h : (vals.Value x name env []).2 = .ok k) (ht : EntryTexts vals) :
    Char.ofNat 10 ∉ k.data := by
  cases hacc : (vals.mentionEnv env).2.2 with
  | some err =>
    rw [value_rejected hacc] at h
    simp at h
  | none =>
    rw [value_accepted hacc] at h
    have hent := (queryState_facts vals env).1
    unfold valueFrom at h
    rw [hent] at h
    cases hm : mapGet vals.entries name with
    | none =>
      rw [hm] at h
      simp only [Except.ok.injEq] at h
      rw [← h]
      simp
    | some entries =>
      rw [hm] at h
      simp only at h
      have hmem := @pickVariant_mem (vals.queryState env)
        ((vals.queryState env).pickVariant name env entries).1 name env entries
      generalize (vals.queryState env).pickVariant name env entries = p at h hmem
      obtain ⟨w1, e, err⟩ := p
      cases e with
      | none => cases err <;> simp at h
      | some e =>
        cases err with
        | some err => simp at h
        | none =>
          simp only at h hmem
          have he : e ∈ entries := hmem rfl
          obtain ⟨hp, _, _⟩ := ht _ (mapGet_mem hm) e he
          unfold valueOf entry.Value at h
          cases henc : e.Encoding with
          | NoValue =>
            rw [henc] at h
            simp only [Except.ok.injEq] at h
            rw [← h]; simp
          | Plain =>
            rw [henc] at h
            simp only [Except.ok.injEq] at h
            rw [← h]; exact hp
          | ToBeEncrypted =>
            rw [henc] at h
            simp only [Except.ok.injEq] at h
            rw [← h]; exact hp
          | Placeholder =>
            rw [henc] at h
            simp at h
          | Encrypted =>
            rw [henc] at h
            simp [Keyring.ByName] at h

theorem encryptValue_frame (x : Extern) (vals : Values) (val env keyName : String)
    (keyring : Keyring) (nonce : Option Bytes) :
    (vals.EncryptValue x val env keyName keyring nonce).1.entries = vals.entries := by
  have hv := value_frame x vals DefaultKey env []
  unfold Values.EncryptValue
  simp only
  split
  · next v1 err hd =>
    split_ifs at hd with h1 h2
    · simp only [Prod.mk.injEq] at hd; rw [← hd.1]
    · split at hd
      · next v2 err2 hval =>
        simp only [Prod.mk.injEq] at hd
        rw [← hd.1]
        rw [hval] at hv; exact hv
      · next v2 k hval =>
        rw [hval] at hv
        split_ifs at hd
        · simp only [Prod.mk.injEq] at hd
          rw [← hd.1]; exact hv
        · simp at hd
    · simp at hd
  · next v1 k derived hd =>
    have hv1 : v1.entries = vals.entries := by
      split_ifs at hd with h1 h2
      · simp at hd
      · split at hd
        · simp at hd
        · next v2 k2 hval =>
          rw [hval] at hv
          split_ifs at hd
          · simp at hd
          · simp only [Prod.mk.injEq] at hd
            rw [← hd.1]; exact hv
      · simp only [Prod.mk.injEq] at hd
        rw [← hd.1]
    split
    · split_ifs <;> exact hv1
    · split <;> exact hv1

/-- A string that `EncryptValue` returns starts with `secret:` and holds no
line break, when base64 text, the given key name and the plain values of the
instance hold none. -/
theorem encryptValue_text {x : Extern} {vals : Values} {val env keyName rep : String}
    {keyring : Keyring} {nonce : Option Bytes}
    (hchars : ∀ b, ∀ c ∈ (x.EncodeToString b).data, isBase64Char c = true)
    (ht : EntryTexts vals) (hk : Char.ofNat 10 ∉ keyName.data)
    (h : (vals.EncryptValue x val env keyName keyring nonce).2 = .ok rep) :
    (∃ r, rep = "secret:" ++ r) ∧ Char.ofNat 10 ∉ rep.data := by
  have hb64 : ∀ b, Char.ofNat 10 ∉ (x.EncodeToString b).data := by
    intro b hm
    have := hchars b _ hm
    revert this; decide
  unfold Values.EncryptValue at h
  simp only at h
  split at h
  · simp at h
  · next v1 k derived hd =>
    have hkn : Char.ofNat 10 ∉ k.data := by
      split_ifs at hd with h1 h2
      · simp at hd
      · split at hd
        · simp at hd
        · next v2 k2 hval =>
          split_ifs at hd
          · simp at hd
          · simp only [Prod.mk.injEq, Except.ok.injEq] at hd
            rw [← hd.2.1]
            exact value_text (by rw [hval]) ht
      · simp only [Prod.mk.injEq, Except.ok.injEq] at hd
        rw [← hd.2.1]; exact hk
    split at h
    · split_ifs at h
    · next keyv hkey =>
      split at h
      · simp at h
      · next nonce1 =>
        simp only [Except.ok.injEq] at h
        rw [← h]
        refine ⟨⟨k ++ (":" ++ (x.EncodeToString nonce1 ++ (":" ++
          x.EncodeToString (x.Seal val nonce1 keyv.Data)))),
          by simp only [String.append_assoc]⟩, ?_⟩
        simp only [String.data_append, List.mem_append, not_or]
        refine ⟨⟨⟨⟨⟨by decide, hkn⟩, by decide⟩, hb64 _⟩, by decide⟩, hb64 _⟩

/-! ## The loop over the variants -/

theorem mem_variants {vals : Values} {v : Variant} (h : v ∈ vals.VariantsToEncrypt) :
    ∃ p ∈ vals.entries, ∃ e ∈ p.2, e.Encoding = .ToBeEncrypted ∧ v.RawLHS = e.RawLHS ∧
      v.RawRHS = e.RawRHS ∧ v.KeyName = e.KeyName ∧ v.Value = e.PlainValue ∧ v.Env = e.Env ∧
      v.Name = p.1 := by
  unfold Values.VariantsToEncrypt at h
  simp only [List.mem_flatMap, List.mem_map, List.mem_filter, decide_eq_true_eq] at h
  obtain ⟨p, hp, e, ⟨he, henc⟩, hv⟩ := h
  refine ⟨p, hp, e, he, henc, ?_⟩
  rw [← hv]
  exact ⟨rfl, rfl, rfl, rfl, rfl, rfl⟩

theorem variants_nil {vals : Values}
    (h : ∀ p ∈ vals.entries, ∀ e ∈ p.2, e.Encoding ≠ .ToBeEncrypted) :
    vals.VariantsToEncrypt = [] := by
  cases hv : vals.VariantsToEncrypt with
  | nil => rfl
  | cons v rest =>
    obtain ⟨p, hp, e, he, henc, _⟩ := mem_variants (v := v) (by rw [hv]; exact List.mem_cons_self _ _)
    exact absurd henc (h p hp e he)

theorem mustCompile_valid {bad : Char → Bool} {lhs rhs : String}
    (h : ∀ c ∈ lhs.data ++ rhs.data, bad c = false) : MustCompile bad lhs rhs = some (lhs, rhs) := by
  unfold MustCompile
  rw [if_neg]
  simp only [Bool.or_eq_true, List.any_eq_true, not_or, not_exists, not_and,
    Bool.not_eq_true]
  exact ⟨fun c hc => h c (List.mem_append_left _ hc),
    fun c hc => h c (List.mem_append_right _ hc)⟩

theorem mustCompile_some {bad : Char → Bool} {lhs rhs : String} {pat : String × String}
    (h : MustCompile bad lhs rhs = some pat) :
    pat = (lhs, rhs) ∧ ∀ c ∈ lhs.data ++ rhs.data, bad c = false := by
  unfold MustCompile at h
  split_ifs at h with hb
  simp only [Option.some.injEq] at h
  refine ⟨h.symm, ?_⟩
  simp only [Bool.or_eq_true, List.any_eq_true, not_or, not_exists, not_and,
    Bool.not_eq_true] at hb
  intro c hc
  rcases List.mem_append.1 hc with h1 | h1
  · exact hb.1 c h1
  · exact hb.2 c h1

/-- What the loop over the variants leaves when it returns: the entries are
untouched; every new pattern is made of the raw texts of a variant for which
`EncryptValue` returned the replacement, and these texts hold no byte that is
not valid UTF-8; every variant has a pattern or is in `failed`. -/
theorem encryptLoop_spec (x : Extern) (bad : Char → Bool) (keyring : Keyring)
    (rand : Nat → Option Bytes) :
    ∀ (vars : List Variant) (i : Nat) (vals : Values) (pats : List ((String × String) × String))
      (failed : List Variant) (L : Values × List ((String × String) × String) × List Variant),
    encryptLoop x bad keyring rand vars i vals pats failed = some L →
    L.1.entries = vals.entries ∧
    (∀ p ∈ L.2.1, p ∈ pats ∨
      ∃ v ∈ vars, p.1 = (v.RawLHS, v.RawRHS) ∧
        (∀ c ∈ v.RawLHS.data ++ v.RawRHS.data, bad c = false) ∧
        ∃ (j : Nat) (w : Values), w.entries = vals.entries ∧
        (w.EncryptValue x v.Value v.Env v.KeyName keyring (rand j)).2 = .ok p.2) ∧
    (∀ p ∈ pats, p ∈ L.2.1) ∧
    (∀ f ∈ failed, f ∈ L.2.2) ∧
    (∀ v ∈ vars, (∃ rep, ((v.RawLHS, v.RawRHS), rep) ∈ L.2.1) ∨
      ∃ err, { v with Err := some err } ∈ L.2.2) := by
  intro vars
  induction vars with
  | nil =>
    intro i vals pats failed L h
    simp only [encryptLoop, Option.some.injEq] at h
    subst h
    exact ⟨rfl, fun p hp => Or.inl hp, fun p hp => hp, fun f hf => hf, by simp⟩
  | cons v rest ih =>
    intro i vals pats failed L h
    have hfr := encryptValue_frame x vals v.Value v.Env v.KeyName keyring (rand i)
    unfold encryptLoop at h
    cases hcall : vals.EncryptValue x v.Value v.Env v.KeyName keyring (rand i) with
    | mk vals1 res =>
      rw [hcall] at hfr h
      simp only at hfr
      cases res with
      | error err =>
        simp only at h
        obtain ⟨i1, i2, i3, i4, i5⟩ :=
          ih (i + 1) vals1 pats (failed ++ [{ v with Err := some err }]) L h
        refine ⟨i1.trans hfr, ?_, i3, fun f hf => i4 f (List.mem_append_left _ hf), ?_⟩
        · intro p hp
          rcases i2 p hp with h | ⟨v1, hv1, h1, hb, j, w, hw, h2⟩
          · exact Or.inl h
          · exact Or.inr ⟨v1, List.mem_cons_of_mem _ hv1, h1, hb, j, w, hw.trans hfr, h2⟩
        · intro v1 hv1
          rcases List.mem_cons.1 hv1 with h | h
          · subst h
            exact Or.inr ⟨err, i4 _ (List.mem_append_right _ (List.mem_singleton.2 rfl))⟩
          · exact i5 v1 h
      | ok rhs =>
        simp only at h
        cases hmc : MustCompile bad v.RawLHS v.RawRHS with
        | none => rw [hmc] at h; simp at h
        | some pat =>
          rw [hmc] at h
          simp only at h
          obtain ⟨hpat, hvalid⟩ := mustCompile_some hmc
          subst hpat
          obtain ⟨i1, i2, i3, i4, i5⟩ :=
            ih (i + 1) vals1 (pats ++ [((v.RawLHS, v.RawRHS), rhs)]) failed L h
          refine ⟨i1.trans hfr, ?_, fun p hp => i3 p (List.mem_append_left _ hp), i4, ?_⟩
          · intro p hp
            rcases i2 p hp with h | ⟨v1, hv1, h1, hb, j, w, hw, h2⟩
            · rcases List.mem_append.1 h with h3 | h3
              · exact Or.inl h3
              · simp only [List.mem_singleton] at h3
                refine Or.inr ⟨v, List.mem_cons_self _ _, by rw [h3], hvalid, i, vals, rfl, ?_⟩
                rw [hcall, h3]
            · exact Or.inr ⟨v1, List.mem_cons_of_mem _ hv1, h1, hb, j, w, hw.trans hfr, h2⟩
          · intro v1 hv1
            rcases List.mem_cons.1 hv1 with h | h
            · subst h
              exact Or.inl ⟨rhs, i3 _ (List.mem_append_right _ (List.mem_singleton.2 rfl))⟩
            · exact i5 v1 h

/-- The loop over the variants returns when the raw texts of the variants hold
no byte that is not valid UTF-8. -/
theorem encryptLoop_returns (x : Extern) (bad : Char → Bool) (keyring : Keyring)
    (rand : Nat → Option Bytes) :
    ∀ (vars : List Variant) (i : Nat) (vals : Values) (pats : List ((String × String) × String))
      (failed : List Variant),
    (∀ v ∈ vars, ∀ c ∈ v.RawLHS.data ++ v.RawRHS.data, bad c = false) →
    (encryptLoop x bad keyring rand vars i vals pats failed).isSome = true := by
  intro vars
  induction vars with
  | nil => intro i vals pats failed _; rfl
  | cons v rest ih =>
    intro i vals pats failed hv
    have hrest : ∀ w ∈ rest, ∀ c ∈ w.RawLHS.data ++ w.RawRHS.data, bad c = false :=
      fun w hw => hv w (List.mem_cons_of_mem _ hw)
    unfold encryptLoop
    cases hcall : vals.EncryptValue x v.Value v.Env v.KeyName keyring (rand i) with
    | mk vals1 res =>
      cases res with
      | error err => exact ih _ _ _ _ hrest
      | ok rhs =>
        simp only
        rw [mustCompile_valid (hv v (List.mem_cons_self _ _))]
        exact ih _ _ _ _ hrest

/-- The loop over the variants does not return when `EncryptValue` encrypts a
variant whose raw texts hold a byte that is not valid UTF-8, the variants
before it being encrypted or failed without such a byte. -/
theorem encryptLoop_panics (x : Extern) (bad : Char → Bool) (keyring : Keyring)
    (rand : Nat → Option Bytes) (v : Variant) (rest : List Variant) (i : Nat) (vals : Values)
    (pats : List ((String × String) × String)) (failed : List Variant) (rep : String)
    (henc : (vals.EncryptValue x v.Value v.Env v.KeyName keyring (rand i)).2 = .ok rep)
    (c : Char) (hc : c ∈ v.RawLHS.data ++ v.RawRHS.data) (hb : bad c = true) :
    encryptLoop x bad keyring rand (v :: rest) i vals pats failed = none := by
  unfold encryptLoop
  cases hcall : vals.EncryptValue x v.Value v.Env v.KeyName keyring (rand i) with
  | mk vals1 res =>
    rw [hcall] at henc
    simp only at henc
    subst henc
    simp only
    cases hmc : MustCompile bad v.RawLHS v.RawRHS with
    | none => rfl
    | some pat =>
      have := (mustCompile_some hmc).2 c hc
      rw [hb] at this
      simp at this

/-- `EncryptAllInString` does not return when `EncryptValue` encrypts the
first variant and a raw text of that variant holds a byte that is not valid
UTF-8. -/
theorem encryptAllInString_panics (x : Extern) (bad : Char → Bool) (vals : Values)
    (data : String) (keyring : Keyring) (rand : Nat → Option Bytes) (v : Variant)
    (rest : List Variant) (rep : String) (hv : vals.VariantsToEncrypt = v :: rest)
    (henc : (vals.EncryptValue x v.Value v.Env v.KeyName keyring (rand 0)).2 = .ok rep)
    (c : Char) (hc : c ∈ v.RawLHS.data ++ v.RawRHS.data) (hb : bad c = true) :
    vals.EncryptAllInString x bad data keyring rand = none := by
  unfold Values.EncryptAllInString
  simp only
  rw [hv, if_neg (by simp),
    encryptLoop_panics x bad keyring rand v rest 0 vals [] [] rep henc c hc hb]

/-! ## The claims -/

/-- What `pickVariant(name, env, candidates)` does on the code when `env`
resolves without error to the group `envRes`, in an instance whose resolved
groups are finalized, for candidates whose field `Resolved` points to a group
of the instance, as `rebuild` sets it, with no empty token in the candidates'
included lists: it selects by score and then by specificity. A candidate's score is the
length of the first token of its included list that glob-matches `t`
(`findMatch`, 0 if none) when the query env resolves to a single concrete env
`t` other than the empty string; in every other case it is 1 if every
element of the query's included list is glob-matched by some token of the
candidate's included list, else 0. The result is no entry and no error iff
every candidate scores 0 (iff there is no optimal candidate); the optimal
candidate, without error, when exactly one candidate has the maximal score
and, among those, the fewest included envs; and an error iff two or more
candidates are optimal. -/
theorem pickVariant_selects (vals : Values) (name env : String) (entries : List entry)
    (vals1 : Values) (envRes : resolvedEnvGroup) (hfin : FinInv vals)
    (hset : ∀ e ∈ entries, (mapGet vals.resolvedEnvs e.Env).isSome = true)
    (hres : vals.resolveEnv env = (vals1, .ok envRes))
    (hne : ∀ e ∈ entries, "" ∉ (vals1.resolvedOf e).included) :
    (∀ t, envRes.included = [t] → IsWildcard t = false → t ≠ "" → ∀ e,
      vals1.score envRes e = (findMatch (vals1.resolvedOf e).included t).length) ∧
    ((∀ t, envRes.included = [t] → IsWildcard t = false → t = "") → ∀ e ∈ entries,
      vals1.score envRes e =
        if ∀ q ∈ envRes.included, ∃ p ∈ (vals1.resolvedOf e).included, «matches» p q = true
        then 1 else 0) ∧
    ∃ picked err, vals.pickVariant name env entries = (vals1, picked, err) ∧
      ((picked = none ∧ err = none) ↔ ∀ e ∈ entries, vals1.score envRes e = 0) ∧
      (∀ e, vals1.optimal envRes entries = [e] → picked = some e ∧ err = none) ∧
      (err ≠ none ↔ 2 ≤ (vals1.optimal envRes entries).length) ∧
      (vals1.optimal envRes entries = [] ↔ ∀ e ∈ entries, vals1.score envRes e = 0) := by
  obtain ⟨hb, hst, _⟩ := resolveEnv_ok hres
  have hstep := resolveEnv_step vals env
  rw [hres] at hstep
  have hfz : Finalized envRes := (hfin.step hstep) env envRes hb hst
  have _ := hset
  refine ⟨?_, ?_, ?_⟩
  · intro t hinc hw ht e
    have htr := finalized_trivial_single hfz hinc hw
    unfold Values.score
    rw [htr, if_pos ht]
    rfl
  · intro hno e he
    have htr := finalized_trivial_other hfz hno
    unfold Values.score
    rw [htr]
    simp only [ne_eq, not_true_eq_false, ↓reduceIte]
    have hiff : (vals1.resolvedOf e).Includes envRes = true ↔
        ∀ q ∈ envRes.included, ∃ p ∈ (vals1.resolvedOf e).included, «matches» p q = true := by
      unfold resolvedEnvGroup.Includes resolvedEnvGroup.Match resolvedEnvGroup.FindMatch
      simp only [List.all_eq_true, decide_eq_true_eq, ne_eq]
      constructor
      · intro h q hq
        exact (findMatch_ne_empty_iff (hne e he)).1
          (fun h0 => h q hq ((string_length_eq_zero _).2 h0))
      · intro h q hq h0
        exact (findMatch_ne_empty_iff (hne e he)).2 (h q hq) ((string_length_eq_zero _).1 h0)
    by_cases hinc : (vals1.resolvedOf e).Includes envRes = true
    · rw [if_pos hinc, if_pos (hiff.1 hinc)]
    · rw [if_neg hinc, if_neg (fun h => hinc (hiff.2 h))]
  · have hspec := pickResult_spec vals1 envRes name env entries
    simp only at hspec
    obtain ⟨h1, h2, h3, h4, _⟩ := hspec
    refine ⟨_, _, ?_, h1, h2, h3, h4⟩
    unfold Values.pickVariant
    rw [hres]

set_option maxRecDepth 100000 in
/-- C1, the failing input. In the file `@all = * ** prod`, `@a = ** prod`,
`@b = *`, `N.a=1`, `N.b=2`, `N=3` the query env `""` resolves to the single
concrete env `""`, as the query env `x` resolves to the single concrete env
`x`. For both, the first token that glob-matches the env has length 2 for
the candidate `N.a` and length 1 for the other two, so `N.a` has the maximal
score. For `x` the code returns `N.a` and `Value` gives `1`; for `""` the
field `trivial` of the resolved group is `""`, which `pickVariant` reads as
unset, and the code returns `N.b` and `Value` gives `2`. -/
theorem pickVariant_empty_env_sentinel :
    ∃ vals vals1 envRes valsx envResx ea eb ec,
      ParseString sampleExtern "@all = * ** prod\n@a = ** prod\n@b = *\nN.a=1\nN.b=2\nN=3"
        = (vals, none) ∧
      mapGet vals.entries "N" = some [ea, eb, ec] ∧
      ea.RawLHS = "N.a" ∧ eb.RawLHS = "N.b" ∧ ec.RawLHS = "N" ∧
      vals.resolveEnv "" = (vals1, .ok envRes) ∧
      envRes.included = [""] ∧ IsWildcard "" = false ∧ envRes.trivial = "" ∧
      (findMatch (vals1.resolvedOf ea).included "").length = 2 ∧
      (findMatch (vals1.resolvedOf eb).included "").length = 1 ∧
      (findMatch (vals1.resolvedOf ec).included "").length = 1 ∧
      (vals.pickVariant "N" "" [ea, eb, ec]).2 = (some eb, none) ∧
      (vals.Value sampleExtern "N" "" []).2 = .ok "2" ∧
      vals.resolveEnv "x" = (valsx, .ok envResx) ∧
      envResx.included = ["x"] ∧ IsWildcard "x" = false ∧ envResx.trivial = "x" ∧
      (findMatch (valsx.resolvedOf ea).included "x").length = 2 ∧
      (findMatch (valsx.resolvedOf eb).included "x").length = 1 ∧
      (findMatch (valsx.resolvedOf ec).included "x").length = 1 ∧
      (vals.pickVariant "N" "x" [ea, eb, ec]).2 = (some ea, none) ∧
      (vals.Value sampleExtern "N" "x" []).2 = .ok "1" := by
  refine ⟨(ParseString sampleExtern
      "@all = * ** prod\n@a = ** prod\n@b = *\nN.a=1\nN.b=2\nN=3").1,
    ((ParseString sampleExtern
      "@all = * ** prod\n@a = ** prod\n@b = *\nN.a=1\nN.b=2\nN=3").1.resolveEnv "").1,
    { state := .resolvedState, wildcard := false, err := none, included := [""], trivial := "" },
    ((ParseString sampleExtern
      "@all = * ** prod\n@a = ** prod\n@b = *\nN.a=1\nN.b=2\nN=3").1.resolveEnv "x").1,
    { state := .resolvedState, wildcard := false, err := none, included := ["x"],
      trivial := "x" },
    { newEntry "a" "N.a" "1" with Encoding := .Plain, PlainValue := "1" },
    { newEntry "b" "N.b" "2" with Encoding := .Plain, PlainValue := "2" },
    { newEntry "all" "N" "3" with Encoding := .Plain, PlainValue := "3" },
    ?_⟩
  decide

/-- The theorem `pickVariant_selects` at the file `@all=prod nonprod`,
`@nonprod = dev stag`, `TEST=42`, `TEST.nonprod=10` and the query `dev`. -/
theorem pickVariant_selects_witness :
    ∃ picked err,
      (ParseString sampleExtern
        "@all=prod nonprod\n@nonprod = dev stag\nTEST=42\nTEST.nonprod=10").1.pickVariant
        "TEST" "dev"
        [{ newEntry "all" "TEST" "42" with Encoding := .Plain, PlainValue := "42" },
         { newEntry "nonprod" "TEST.nonprod" "10" with Encoding := .Plain, PlainValue := "10" }]
      = ((ParseString sampleExtern
        "@all=prod nonprod\n@nonprod = dev stag\nTEST=42\nTEST.nonprod=10").1, picked, err) ∧
      picked = some { newEntry "nonprod" "TEST.nonprod" "10" with
        Encoding := .Plain, PlainValue := "10" } ∧ err = none := by
  obtain ⟨_, _, picked, err, h1, _, h3, _, _⟩ := pickVariant_selects
    (ParseString sampleExtern
      "@all=prod nonprod\n@nonprod = dev stag\nTEST=42\nTEST.nonprod=10").1
    "TEST" "dev"
    [{ newEntry "all" "TEST" "42" with Encoding := .Plain, PlainValue := "42" },
     { newEntry "nonprod" "TEST.nonprod" "10" with Encoding := .Plain, PlainValue := "10" }]
    (ParseString sampleExtern
      "@all=prod nonprod\n@nonprod = dev stag\nTEST=42\nTEST.nonprod=10").1
    { state := .resolvedState, wildcard := false, err := none, included := ["dev"],
      trivial := "dev" }
    (FinInv.parseString _ _) (by decide) (by decide) (by decide)
  exact ⟨picked, err, h1, h3 _ (by decide)⟩

/-- C3. Coverage after a successful parse: if `ParseString` (the lexer, then
`ParseMap` with its `rebuild`) returns no error, then for every entry name
and every env of the resolved `@all`, with any `*` replaced by `xxx`,
`pickVariant` on the entries of the name returns one of them and no error,
and `Value` on the freshly parsed instance returns the value of that entry
(so it fails neither with `no value for` nor with a conflict). The file
`@all=foo bar`, `TEST.foo=42` is rejected with `no value for TEST.bar`. -/
theorem parse_covers_valid_envs (x : Extern) (data : String) (vals : Values)
    (hparse : ParseString x data = (vals, none)) (name : String) (entries : List entry)
    (hent : mapGet vals.entries name = some entries) (env : String)
    (henv : env ∈ vals.validEnvs) (keyring : Keyring) :
    (∃ picked, picked ∈ entries ∧
      vals.pickVariant name (replaceStars env) entries = (vals, some picked, none) ∧
      vals.Value x name (replaceStars env) keyring = (vals, valueOf x name picked keyring)) ∧
    (ParseString x "@all=foo bar\nTEST.foo=42").2 = some "no value for TEST.bar" := by
  obtain ⟨m, _, hm⟩ := parseString_ok hparse
  exact ⟨(parseMap_pickOK hm hent henv).query hent keyring, rfl⟩

/-- C3, witness: the theorem at the file `@all=prod local-*`, `TEST=42`,
the name `TEST` and the valid env `local-*`, whose sample is `local-xxx`. -/
theorem parse_covers_valid_envs_witness :
    ∃ picked,
      (ParseString sampleExtern "@all=prod local-*\nTEST=42").1.Value sampleExtern
        "TEST" "local-xxx" [] =
      ((ParseString sampleExtern "@all=prod local-*\nTEST=42").1,
        valueOf sampleExtern "TEST" picked []) := by
  obtain ⟨⟨picked, _, _, h⟩, _⟩ := parse_covers_valid_envs sampleExtern
    "@all=prod local-*\nTEST=42"
    (ParseString sampleExtern "@all=prod local-*\nTEST=42").1 (by decide) "TEST"
    [{ newEntry "all" "TEST" "42" with Encoding := .Plain, PlainValue := "42" }] (by decide)
    "local-*" (by decide) []
  exact ⟨picked, h⟩

/-- C9. `@all` is mandatory: for every input map that has no `@all` key,
`ParseMap` on a new instance returns an error; and when the keys are distinct
and every line is well formed on its own (it is accepted on a new instance),
the error is exactly `missing @all=...` (as for the text `@foo=bar`). -/
theorem parseMap_requires_all (x : Extern) (values : List (String × String))
    (hno : ∀ p ∈ values, p.1 ≠ "@all") :
    (New.ParseMap x values).2 ≠ none ∧
    ((values.map Prod.fst).Nodup →
      (∀ p ∈ values, ∃ v, parseLine x New p.1 p.2 = .ok v) →
      (New.ParseMap x values).2 = some "missing @all=...") ∧
    (ParseString x "@foo=bar").2 = some "missing @all=..." := by
  have hall : mapGet (parseLines x values New).1.envs All = none := by
    cases hm : mapGet (parseLines x values New).1.envs All with
    | none => rfl
    | some d =>
      rcases parseLines_envs x values New All (by rw [hm]; rfl) with h1 | ⟨p, hp, hp2⟩
      · simp [New, mapGet] at h1
      · exact absurd hp2 (hno p hp)
  refine ⟨?_, ?_, rfl⟩
  · unfold Values.ParseMap
    split
    · simp
    · next v1 h1 =>
      rw [h1] at hall
      rw [rebuild_missing_all hall]
      simp
  · intro hnd hwf
    have hok := parseLines_wf x values New hnd hwf (by intro k hk; simp [New, mapGet] at hk)
    unfold Values.ParseMap
    split
    · next v1 err h1 => rw [h1] at hok; simp at hok
    · next v1 h1 =>
      rw [h1] at hall
      exact rebuild_missing_all hall

/-- C9, witness: the theorem at the map with the one binding `@foo` = `bar`. -/
theorem parseMap_requires_all_witness :
    (New.ParseMap sampleExtern [("@foo", "bar")]).2 = some "missing @all=..." :=
  (parseMap_requires_all sampleExtern [("@foo", "bar")] (by decide)).2.1 (by decide)
    (by intro p hp; simp at hp; subst hp; exact ⟨_, rfl⟩)

/-- C5 (amended). Encrypt/decrypt round trip: for every plaintext, keyring
whose key names are valid key names, and key name (given, or derived from
`DEFAULT_KEY` for the env) for which `EncryptValue` returns a string `s`
without error, `parseValue(s)` succeeds with encoding `Encrypted` and the key
name that was used, and `entry.Value` with the same keyring returns the
plaintext. Taken as given: `Open (Seal p nonce key) nonce key = p`, the base64
round trip, that base64 text holds no colon, and that the nonce has
`NonceSize` bytes. -/
theorem encrypt_roundtrip (x : Extern) (vals vals1 : Values) (val env keyName s : String)
    (keyring : Keyring) (nonce : Bytes) (e0 : entry)
    (hopen : ∀ p n k, x.Open (x.Seal p n k) n k = some p)
    (hb64 : ∀ b, x.DecodeString (x.EncodeToString b) = some b)
    (hcolon : ∀ b, ':' ∉ (x.EncodeToString b).data)
    (hlen : nonce.length = NonceSize)
    (hvalid : ∀ key ∈ keyring, IsValidKeyName key.Name = true)
    (henc : vals.EncryptValue x val env keyName keyring (some nonce) = (vals1, .ok s)) :
    ∃ e, parseValue x s e0 = .ok e ∧ e.Encoding = .Encrypted ∧
      (keyName ≠ "" → e.KeyName = keyName) ∧
      (keyName = "" → (vals.Value x DefaultKey env []).2 = .ok e.KeyName) ∧
      e.Value x keyring = .ok val := by
  obtain ⟨k, key, hkey, hk1, hk2, hs⟩ := encryptValue_ok henc
  obtain ⟨hmem, hname⟩ := byName_mem hkey
  have hvk : IsValidKeyName k = true := by rw [← hname]; exact hvalid key hmem
  refine ⟨_, by rw [hs]; exact parseValue_wire x e0 hvk hb64 hcolon hlen, rfl, hk1, hk2, ?_⟩
  unfold entry.Value
  simp only [hkey, hopen]

set_option maxRecDepth 100000 in
/-- C5, counterexample: with a key named `a:b` in the keyring `EncryptValue`
returns a string, and `parseValue` rejects it. -/
theorem encrypt_roundtrip_counterexample :
    ∃ s, (New.EncryptValue sampleExtern "hi" "" "a:b" [{ Name := "a:b", Data := List.replicate 32 7 }]
        (some (List.replicate 24 1))).2 = .ok s ∧
      parseValue sampleExtern s (newEntry "all" "X" s) =
        .error "invalid secret value, expected \"secret:<keyname>:<nonce>:<ciphertext>\"" := by
  refine ⟨_, rfl, ?_⟩
  decide

set_option maxRecDepth 100000 in
/-- C5, witness: the theorem for the plaintext `hi`, the key `myapp-dev` given
by name, and the stand-in functions. -/
theorem encrypt_roundtrip_witness :
    ∃ e, parseValue sampleExtern
        ("secret:myapp-dev:" ++ sampleExtern.EncodeToString (List.replicate 24 1) ++ ":" ++
          sampleExtern.EncodeToString
            (sampleExtern.Seal "hi" (List.replicate 24 1) (List.replicate 32 7)))
        (newEntry "all" "X" "") = .ok e ∧
      e.Value sampleExtern [{ Name := "myapp-dev", Data := List.replicate 32 7 }] = .ok "hi" := by
  obtain ⟨e, h1, _, _, _, h5⟩ := encrypt_roundtrip sampleExtern New New "hi" "" "myapp-dev"
    ("secret:myapp-dev:" ++ sampleExtern.EncodeToString (List.replicate 24 1) ++ ":" ++
      sampleExtern.EncodeToString
        (sampleExtern.Seal "hi" (List.replicate 24 1) (List.replicate 32 7)))
    [{ Name := "myapp-dev", Data := List.replicate 32 7 }] (List.replicate 24 1)
    (newEntry "all" "X" "")
    sampleExtern_open (fun b => unaryDecode_encode b) (fun b => unaryEncode_no_colon b)
    (by decide) (by decide) (by decide)
  exact ⟨e, h1, h5⟩

/-- C4, the failing input. In the file `@all = prod stag local-*`,
`@x = ! prod`, `N = 1`, `N.x = 2` the first query `Value(N, stag)` returns `2`.
The query `Value(N, local-john)` sees a new env and runs `rebuild`, which
appends the valid envs to the included list of the negated group `x` a second
time (`stag local-*` becomes `stag local-* stag local-*`), so `x` is no longer
more specific than `@all` and the same query `Value(N, stag)` now returns
`1`. -/
theorem value_depends_on_earlier_queries :
    ∃ vals vals1,
      ParseString sampleExtern "@all = prod stag local-*\n@x = ! prod\nN = 1\nN.x = 2"
        = (vals, none) ∧
      (vals.Value sampleExtern "N" "stag" []).2 = .ok "2" ∧
      (mapGet vals.resolvedEnvs "x").map (fun r => r.included) = some ["stag", "local-*"] ∧
      vals.Value sampleExtern "N" "local-john" [] = (vals1, .ok "1") ∧
      (mapGet vals1.resolvedEnvs "x").map (fun r => r.included)
        = some ["stag", "local-*", "stag", "local-*"] ∧
      (vals1.Value sampleExtern "N" "stag" []).2 = .ok "1" := by
  refine ⟨(ParseString sampleExtern "@all = prod stag local-*\n@x = ! prod\nN = 1\nN.x = 2").1,
    ((ParseString sampleExtern "@all = prod stag local-*\n@x = ! prod\nN = 1\nN.x = 2").1.Value
      sampleExtern "N" "local-john" []).1, ?_⟩
  decide

/-- C6, the failing input. The file `@all=`, `@g = dev`, `N = 42` is accepted:
the empty `@all` leaves `validEnvs` nil, which `lookupEnv` reads as "still
resolving `@all`", so `dev` is never checked against `@all`. The name `N` has
one entry, written without an env, and `g` is a defined group, yet
`Value(N, g)` fails with `no value for N.g`. -/
theorem unqualified_entry_misses_group :
    ∃ vals,
      ParseString sampleExtern "@all=\n@g = dev\nN = 42" = (vals, none) ∧
      vals.validEnvs = [] ∧
      (mapGet vals.entries "N").map (fun es => es.map (fun e => (e.RawLHS, e.PlainValue)))
        = some [("N", "42")] ∧
      (mapGet vals.envs "g").isSome = true ∧
      (vals.Value sampleExtern "N" "g" []).2 = .error "no value for N.g" := by
  refine ⟨(ParseString sampleExtern "@all=\n@g = dev\nN = 42").1, ?_⟩
  decide

/-- C8, the failing input. The file `@all=`, `@g = dev` is accepted although
the item `dev` of the group `g` is not a group, is not reached from `@all`,
and is matched by no element of the resolved `@all`, which is empty; with a
non-empty `@all` the same group is rejected with
`@g: env dev is not among @all`. -/
theorem empty_all_disables_env_check :
    ∃ vals,
      ParseString sampleExtern "@all=\n@g = dev" = (vals, none) ∧
      vals.validEnvs = [] ∧
      (mapGet vals.envs "g").map (fun d => d.Items) = some ["dev"] ∧
      (mapGet vals.envs "dev").isNone = true ∧
      findMatch vals.validEnvs "dev" = "" ∧
      (ParseString sampleExtern "@all=prod\n@g = dev").2
        = some "@g: env dev is not among @all" := by
  refine ⟨(ParseString sampleExtern "@all=\n@g = dev").1, ?_⟩
  decide

/-- C7 (amended). An exact env beats the entries whose matching token is
shorter: for every file that `ParseString` accepts and every env `e` that is
not a group name, if the name `N` has an entry qualified by exactly `e`, and
each of its other entries matches `e` (by the first glob-matching token of its
resolved included list) with a token shorter than `e` or not at all, or with a
token as long as `e` while its resolved group includes more than one env, then
`Value(N, e)` leaves the instance as it is and returns the value of the entry
qualified by `e`. -/
theorem exact_env_beats_shorter_tokens (x : Extern) (data : String) (vals : Values)
    (N e : String) (l1 l2 : List entry) (eE : entry) (keyring : Keyring)
    (hparse : ParseString x data = (vals, none))
    (hent : mapGet vals.entries N = some (l1 ++ eE :: l2))
    (henv : eE.Env = e)
    (hgroup : mapGet vals.envs e = none)
    (hothers : ∀ e1 ∈ l1 ++ l2,
      ((vals.resolvedOf e1).FindMatch e).length < e.length ∨
      (((vals.resolvedOf e1).FindMatch e).length = e.length ∧
        1 < (vals.resolvedOf e1).included.length)) :
    vals.Value x N e keyring = (vals, valueOf x N eE keyring) := by
  obtain ⟨hfin, hleaf, hvalid, hall, hres⟩ := parseString_facts hparse
  have hEm : eE ∈ l1 ++ eE :: l2 := List.mem_append_right _ (List.mem_cons_self _ _)
  obtain ⟨g, hb, hst, herr⟩ := hres N _ hent eE hEm
  rw [henv] at hb
  have hval : IsValidEnvName e = true := by
    rcases hvalid N _ hent eE hEm with h | h
    · rw [henv] at h
      rw [h] at hgroup
      rw [hgroup] at hall
      simp at hall
    · rw [henv] at h; exact h
  have hinc : g.included = [e] := hleaf e g hb hst herr hgroup
  have htriv : g.trivial = e :=
    finalized_trivial_single (hfin e g hb hst) hinc (validEnvName_not_wildcard hval)
  have hpick : pickResult N e ((l1 ++ eE :: l2).foldl (vals.pickStep g) pickInit)
      = (some eE, none) :=
    exact_pick hb hinc htriv (validEnvName_ne_empty hval) (validEnvName_plain hval) henv hothers
  have hpv : vals.pickVariant N e (l1 ++ eE :: l2) = (vals, some eE, none) := by
    rw [pickVariant_of_resolved _ hb hst herr, hpick]
  exact value_of_pick keyring hb herr hent hpv

/-- C7, counterexample. The file `@all = prod x****`, `@w = x****`, `N.xa=1`,
`N.w=2`, `N=3` is accepted; `xa` is a concrete env and not a group name; `N`
has an entry qualified by exactly `xa`, and its other two entries match `xa`
only through the wildcard token `x****` of their resolved groups. Yet
`Value(N, xa)` returns `2`, the value of `N.w`: the token `x****` is longer
than `xa`. -/
theorem exact_env_loses_to_long_wildcard :
    (ParseString sampleExtern "@all = prod x****\n@w = x****\nN.xa=1\nN.w=2\nN=3").2 = none ∧
    mapGet (ParseString sampleExtern
      "@all = prod x****\n@w = x****\nN.xa=1\nN.w=2\nN=3").1.envs "xa" = none ∧
    IsValidEnvName "xa" = true ∧
    (mapGet (ParseString sampleExtern
      "@all = prod x****\n@w = x****\nN.xa=1\nN.w=2\nN=3").1.entries "N").map
      (fun l => l.map (fun en => (en.RawLHS, en.PlainValue,
        ((ParseString sampleExtern
          "@all = prod x****\n@w = x****\nN.xa=1\nN.w=2\nN=3").1.resolvedOf en).FindMatch "xa")))
      = some [("N.xa", "1", "xa"), ("N.w", "2", "x****"), ("N", "3", "x****")] ∧
    IsWildcard "x****" = true ∧
    ((ParseString sampleExtern
      "@all = prod x****\n@w = x****\nN.xa=1\nN.w=2\nN=3").1.Value
      sampleExtern "N" "xa" []).2 = .ok "2" := by
  decide

/-- C7, witness: the theorem at the file `@all = prod stag local-*`,
`@local = local-*`, `FOO.local-john=1`, `FOO.local=2`, `FOO=3` and the query
`local-john`, which gives `1`. -/
theorem exact_env_beats_shorter_tokens_witness :
    ((ParseString sampleExtern
      "@all = prod stag local-*\n@local = local-*\nFOO.local-john=1\nFOO.local=2\nFOO=3").1.Value
      sampleExtern "FOO" "local-john" []).2 = .ok "1" := by
  have h := exact_env_beats_shorter_tokens sampleExtern
    "@all = prod stag local-*\n@local = local-*\nFOO.local-john=1\nFOO.local=2\nFOO=3"
    (ParseString sampleExtern
      "@all = prod stag local-*\n@local = local-*\nFOO.local-john=1\nFOO.local=2\nFOO=3").1
    "FOO" "local-john" []
    [{ newEntry "local" "FOO.local" "2" with Encoding := .Plain, PlainValue := "2" },
     { newEntry "all" "FOO" "3" with Encoding := .Plain, PlainValue := "3" }]
    { newEntry "local-john" "FOO.local-john" "1" with Encoding := .Plain, PlainValue := "1" }
    [] (by decide) (by decide) rfl (by decide) (by decide)
  rw [h]
  decide

/-- C10. Cycle detection terminates with an error. (1) `resolveEnv`
terminates on every instance and env: the recursion returns within the budget
`resolveFuel`, and with every larger budget it returns the same result, which
is the result of `resolveEnv`. (2) If the group definitions that the loop of
`ParseMap` has stored contain a reference cycle (a group that reaches itself
through its items), `ParseMap` returns an error. (3) Entering a group that is
being resolved returns the error `@X: infinite recursion` and changes
nothing. (4) The files `@all = a`, `@a = b`, `@b = a` and `@all = all` are
rejected with an `infinite recursion` error. -/
theorem resolveEnv_terminates_and_rejects_cycles (x : Extern) (vals : Values) (env : String)
    (m : List (String × String)) :
    (∀ fuel, resolveFuel vals ≤ fuel →
      resolveEnvAux fuel vals env = some (vals.resolveEnv env)) ∧
    (Cyclic (parseLines x m vals).1.envs → ∃ err, (vals.ParseMap x m).2 = some err) ∧
    (∀ r, Bound vals env r → r.state = .resolvingState →
      vals.resolveEnv env = (vals, .error ("@" ++ env ++ ": infinite recursion"))) ∧
    (ParseString x "@all = a\n@a = b\n@b = a").2 =
      some "@all: @a: @b: @a: infinite recursion" ∧
    (ParseString x "@all = all").2 = some "@all: @all: infinite recursion" := by
  refine ⟨?_, ?_, ?_, ?_, ?_⟩
  · intro fuel hf
    exact resolveEnvAux_eq vals env fuel (lt_of_lt_of_le (pending_lt_fuel vals) hf)
  · intro hcyc
    unfold Values.ParseMap
    split
    · next v1 err _ => exact ⟨err, rfl⟩
    · next v1 hp =>
      rw [hp] at hcyc
      have := rebuild_cyclic hcyc
      cases hr : v1.rebuild.2 with
      | none => exact absurd hr this
      | some err => exact ⟨err, rfl⟩
  · intro r hb hs
    exact resolveEnv_reentry hb hs
  · rfl
  · rfl

/-- C10, witness: the theorem at the definitions `@all = a`, `@a = b`,
`@b = a`, where `a` reaches itself through `b`. -/
theorem resolveEnv_terminates_and_rejects_cycles_witness :
    ∃ err, (New.ParseMap sampleExtern [("@all", "a"), ("@a", "b"), ("@b", "a")]).2 = some err :=
  (resolveEnv_terminates_and_rejects_cycles sampleExtern New "a"
    [("@all", "a"), ("@a", "b"), ("@b", "a")]).2.1
    ⟨"a", Relation.TransGen.tail (b := "b")
      (Relation.TransGen.single ⟨{ Negated := false, Items := ["b"] }, by decide, by decide⟩)
      ⟨{ Negated := false, Items := ["a"] }, by decide, by decide⟩⟩

/-- C2. Override semantics: for every file that `ParseString` accepts and
whose resolved `@all` lists only concrete envs (no wildcard), if the name `N`
has exactly two entries, one for `all` with the plain value `v` and one
qualified by `g` with the plain value `w`, in either order, then `Value(N, e)`
leaves the instance as it is and returns `w` for every env `e` of the resolved
included list of `g`, and `v` for every other env `e` of the resolved
`@all`. -/
theorem override_semantics (x : Extern) (data : String) (vals : Values) (N g v w : String)
    (entries : List entry) (eU eG : entry) (keyring : Keyring)
    (hparse : ParseString x data = (vals, none))
    (hconc : ∀ t ∈ vals.includedOf All, IsWildcard t = false)
    (hmap : mapGet vals.entries N = some entries)
    (hent : entries = [eU, eG] ∨ entries = [eG, eU])
    (hU : eU.Env = All) (hUe : eU.Encoding = .Plain) (hUv : eU.PlainValue = v)
    (hG : eG.Env = g) (hGe : eG.Encoding = .Plain) (hGv : eG.PlainValue = w) :
    (∀ e ∈ vals.includedOf g, vals.Value x N e keyring = (vals, .ok w)) ∧
    (∀ e ∈ vals.includedOf All, e ∉ vals.includedOf g →
      vals.Value x N e keyring = (vals, .ok v)) := by
  obtain ⟨hfin, _, hvalid, _, hres⟩ := parseString_facts hparse
  have hgood := Good.good_parse hparse
  have hitems := itemsValid_parse hparse
  obtain ⟨rA, hbA, _, _, hVA⟩ := parse_all_bound hparse
  obtain ⟨m, _, hm⟩ := parseString_ok hparse
  have hGmem : eG ∈ entries := by
    rcases hent with h | h <;> rw [h] <;> simp
  obtain ⟨rg, hbg, hsg, heg⟩ := hres N entries hmap eG hGmem
  rw [hG] at hbg
  have hgv : g = All ∨ IsValidEnvName g = true := by
    have := hvalid N entries hmap eG hGmem
    rw [hG] at this
    exact this
  have hiA : vals.includedOf All = vals.validEnvs := by
    rw [includedOf_of_bound hbA, hVA]
  have hiG : vals.includedOf g = rg.included := includedOf_of_bound hbg
  rw [hiA] at hconc
  rw [hiA, hiG]
  have hcore := override_core (x := x) keyring hgood hfin hitems hbA hVA hbg hsg heg hgv hconc
    hmap hent hU hG (fun e he => parseMap_pickOK hm hmap he)
  rw [valueOf_plain x N eG keyring hGe hGv, valueOf_plain x N eU keyring hUe hUv] at hcore
  exact hcore

/-- C2, witness: the theorem at the file `@all=prod nonprod`,
`@nonprod = dev stag`, `TEST=42`, `TEST.nonprod=10`, which gives `10` for
`dev` and `stag` and `42` for `prod`. -/
theorem override_semantics_witness :
    ((ParseString sampleExtern
      "@all=prod nonprod\n@nonprod = dev stag\nTEST=42\nTEST.nonprod=10").1.Value
      sampleExtern "TEST" "dev" []).2 = .ok "10" ∧
    ((ParseString sampleExtern
      "@all=prod nonprod\n@nonprod = dev stag\nTEST=42\nTEST.nonprod=10").1.Value
      sampleExtern "TEST" "stag" []).2 = .ok "10" ∧
    ((ParseString sampleExtern
      "@all=prod nonprod\n@nonprod = dev stag\nTEST=42\nTEST.nonprod=10").1.Value
      sampleExtern "TEST" "prod" []).2 = .ok "42" := by
  obtain ⟨hA, hB⟩ := override_semantics sampleExtern
    "@all=prod nonprod\n@nonprod = dev stag\nTEST=42\nTEST.nonprod=10"
    (ParseString sampleExtern
      "@all=prod nonprod\n@nonprod = dev stag\nTEST=42\nTEST.nonprod=10").1
    "TEST" "nonprod" "42" "10"
    [{ newEntry "all" "TEST" "42" with Encoding := .Plain, PlainValue := "42" },
     { newEntry "nonprod" "TEST.nonprod" "10" with Encoding := .Plain, PlainValue := "10" }]
    { newEntry "all" "TEST" "42" with Encoding := .Plain, PlainValue := "42" }
    { newEntry "nonprod" "TEST.nonprod" "10" with Encoding := .Plain, PlainValue := "10" }
    [] (by decide) (by decide) (by decide) (Or.inl rfl) rfl rfl rfl rfl rfl rfl
  refine ⟨?_, ?_, ?_⟩
  · rw [hA "dev" (by decide)]
  · rw [hA "stag" (by decide)]
  · rw [hB "prod" (by decide) (by decide)]

/-- C16. Value classification: when `parseValue` succeeds on the text `s` (on
a new entry), the encoding is determined by `s` alone: `ToBeEncrypted` if `s`
starts with `enc:`, with the key name the text up to the next colon (possibly
empty) and the plain value everything after that colon; `Encrypted` if `s`
starts with `secret:`; `Placeholder` with plain value `rest` if `s` is `TODO:`
followed by `rest`; `Placeholder` with empty plain value if `s` is `TODO`;
`NoValue` if `s` is `NONE` or `none`; and `Plain` with plain value `s` in
every other case, as for the empty string, `None` and `TODOx`. -/
theorem parseValue_classifies (x : Extern) (s env lhs rhs : String) (e : entry)
    (h : parseValue x s (newEntry env lhs rhs) = .ok e) :
    (∀ rest, s = "enc:" ++ rest → e.Encoding = .ToBeEncrypted ∧
      ∃ k p, rest = k ++ ":" ++ p ∧ ':' ∉ k.data ∧ e.KeyName = k ∧ e.PlainValue = p) ∧
    (∀ rest, s = "secret:" ++ rest → e.Encoding = .Encrypted) ∧
    (∀ rest, s = "TODO:" ++ rest → e.Encoding = .Placeholder ∧ e.PlainValue = rest) ∧
    (s = "TODO" → e.Encoding = .Placeholder ∧ e.PlainValue = "") ∧
    (s = "NONE" ∨ s = "none" → e.Encoding = .NoValue) ∧
    ((∀ rest, s ≠ "enc:" ++ rest) → (∀ rest, s ≠ "secret:" ++ rest) →
      (∀ rest, s ≠ "TODO:" ++ rest) → s ≠ "TODO" → s ≠ "NONE" → s ≠ "none" →
      e.Encoding = .Plain ∧ e.PlainValue = s) ∧
    parseValue x "" (newEntry env lhs rhs) =
      .ok { newEntry env lhs rhs with Encoding := .Plain, PlainValue := "" } ∧
    parseValue x "None" (newEntry env lhs rhs) =
      .ok { newEntry env lhs rhs with Encoding := .Plain, PlainValue := "None" } ∧
    parseValue x "TODOx" (newEntry env lhs rhs) =
      .ok { newEntry env lhs rhs with Encoding := .Plain, PlainValue := "TODOx" } := by
  refine ⟨?_, ?_, ?_, ?_, ?_, ?_, rfl, rfl, rfl⟩
  · intro rest hs
    rw [hs, parseValue_enc] at h
    cases hc : Cut rest ':' with
    | mk k q =>
      obtain ⟨p, ok⟩ := q
      rw [hc] at h
      cases ok with
      | false => simp at h
      | true =>
        simp only [Bool.true_eq_false, ↓reduceIte] at h
        split_ifs at h
        simp only [Except.ok.injEq] at h
        rw [← h]
        exact ⟨rfl, k, p, (cut_found hc).1, (cut_found hc).2, rfl, rfl⟩
  · intro rest hs
    rw [hs, parseValue_secret] at h
    split at h
    · split_ifs at h
      split at h
      · simp at h
      · split_ifs at h
        split at h
        · simp at h
        · simp only [Except.ok.injEq] at h
          rw [← h]
    · simp at h
  · intro rest hs
    rw [hs, parseValue_todo] at h
    simp only [Except.ok.injEq] at h
    rw [← h]
    exact ⟨rfl, rfl⟩
  · intro hs
    have h0 : parseValue x "TODO" (newEntry env lhs rhs) =
        .ok { newEntry env lhs rhs with Encoding := .Placeholder } := rfl
    rw [hs, h0] at h
    simp only [Except.ok.injEq] at h
    rw [← h]
    exact ⟨rfl, rfl⟩
  · intro hs
    have h1 : parseValue x "NONE" (newEntry env lhs rhs) =
        .ok { newEntry env lhs rhs with Encoding := .NoValue } := rfl
    have h2 : parseValue x "none" (newEntry env lhs rhs) =
        .ok { newEntry env lhs rhs with Encoding := .NoValue } := rfl
    rcases hs with hs | hs
    · rw [hs, h1] at h
      simp only [Except.ok.injEq] at h
      rw [← h]
    · rw [hs, h2] at h
      simp only [Except.ok.injEq] at h
      rw [← h]
  · intro h1 h2 h3 h4 h5 h6
    rw [parseValue_other x _ h1 h2 h3, if_neg h4, if_neg (by tauto)] at h
    simp only [Except.ok.injEq] at h
    rw [← h]
    exact ⟨rfl, rfl⟩

/-- C16, witness: the theorem at `enc:k:v:w`, whose key name is `k` and whose
plain value is `v:w`. -/
theorem parseValue_classifies_witness :
    ∃ e, parseValue sampleExtern "enc:k:v:w" (newEntry "all" "N" "enc:k:v:w") = .ok e ∧
      e.Encoding = .ToBeEncrypted ∧ e.KeyName = "k" ∧ e.PlainValue = "v:w" := by
  refine ⟨{ newEntry "all" "N" "enc:k:v:w" with
    Encoding := .ToBeEncrypted, PlainValue := "v:w", KeyName := "k" }, by decide, ?_⟩
  have h := (parseValue_classifies sampleExtern "enc:k:v:w" "all" "N" "enc:k:v:w"
    { newEntry "all" "N" "enc:k:v:w" with
      Encoding := .ToBeEncrypted, PlainValue := "v:w", KeyName := "k" } (by decide)).1
    "k:v:w" (by decide)
  exact ⟨h.1, rfl, rfl⟩

/-- C17. Value parse errors: `parseValue` fails exactly when the text starts
with `enc:` and the rest either holds no colon or has, before its first colon,
a non-empty key name that is not a valid key name; or the text starts with
`secret:` and the rest is not three colon-separated fields made of a valid key
name, a nonce that decodes from base64 to exactly `NonceSize` (24) bytes, and
a ciphertext that decodes from base64. Every other text is accepted. -/
theorem parseValue_fails_iff (x : Extern) (s : String) (e0 : entry) :
    (∃ err, parseValue x s e0 = .error err) ↔
      ((∃ rest, s = "enc:" ++ rest ∧ (':' ∉ rest.data ∨
          ∃ k p, rest = k ++ ":" ++ p ∧ ':' ∉ k.data ∧ k ≠ "" ∧ IsValidKeyName k = false)) ∨
       (∃ rest, s = "secret:" ++ rest ∧
          ¬ ∃ k n c, rest = k ++ ":" ++ n ++ ":" ++ c ∧
            ':' ∉ k.data ∧ ':' ∉ n.data ∧ ':' ∉ c.data ∧ IsValidKeyName k = true ∧
            (∃ nonce, x.DecodeString n = some nonce ∧ nonce.length = NonceSize) ∧
            (x.DecodeString c).isSome = true)) := by
  cases h1 : CutPrefix s "enc:" with
  | some r =>
    have hs := cutPrefix_eq h1
    have hno : ¬ ∃ rest, s = "secret:" ++ rest ∧
        ¬ ∃ k n c, rest = k ++ ":" ++ n ++ ":" ++ c ∧
          ':' ∉ k.data ∧ ':' ∉ n.data ∧ ':' ∉ c.data ∧ IsValidKeyName k = true ∧
          (∃ nonce, x.DecodeString n = some nonce ∧ nonce.length = NonceSize) ∧
          (x.DecodeString c).isSome = true := by
      rintro ⟨rest, hr, _⟩
      rw [hs] at hr
      exact append_ne_of_head (p := "enc:") (q := "secret:") rfl rfl (by decide) r rest hr
    rw [or_iff_left hno, hs, parseValue_enc]
    cases hc : Cut r ':' with
    | mk k q =>
      obtain ⟨p, ok⟩ := q
      simp only
      cases ok with
      | false =>
        obtain ⟨hnm, _, _⟩ := cut_not_found hc
        simp only [↓reduceIte, Except.error.injEq, exists_eq', true_iff]
        exact ⟨r, rfl, Or.inl hnm⟩
      | true =>
        obtain ⟨hr, hk⟩ := cut_found hc
        simp only [Bool.true_eq_false, ↓reduceIte]
        constructor
        · intro ⟨err, he⟩
          split_ifs at he with hbad
          exact ⟨r, rfl, Or.inr ⟨k, p, hr, hk, hbad.1, hbad.2⟩⟩
        · rintro ⟨rest, hrest, hcase⟩
          have hrr : rest = r := (string_append_cancel hrest).symm
          rw [hrr] at hcase
          rcases hcase with hnm | ⟨k1, p1, hr1, hk1, hne1, hbad1⟩
          · exfalso
            apply hnm
            rw [hr]
            simp [String.data_append, String.singleton]
          · have hc1 : Cut r ':' = (k1, p1, true) := by
              rw [hr1]; exact cut_append hk1
            rw [hc] at hc1
            simp only [Prod.mk.injEq, and_true] at hc1
            rw [hc1.1]
            rw [if_pos ⟨hne1, hbad1⟩]
            exact ⟨_, rfl⟩
  | none =>
    have hne1 : ∀ rest, s ≠ "enc:" ++ rest := cutPrefix_none h1
    have hno : ¬ ∃ rest, s = "enc:" ++ rest ∧ (':' ∉ rest.data ∨
        ∃ k p, rest = k ++ ":" ++ p ∧ ':' ∉ k.data ∧ k ≠ "" ∧ IsValidKeyName k = false) := by
      rintro ⟨rest, hr, _⟩
      exact hne1 rest hr
    rw [or_iff_right hno]
    cases h2 : CutPrefix s "secret:" with
    | some r =>
      have hs := cutPrefix_eq h2
      rw [hs, parseValue_secret]
      constructor
      · intro ⟨err, he⟩
        refine ⟨r, rfl, ?_⟩
        rintro ⟨k, n, c, hr, hk, hn, hc, hvalid, ⟨nonce, hdn, hlen⟩, hdc⟩
        rw [split_three.2 ⟨hr, hk, hn, hc⟩] at he
        simp only [hvalid, Bool.not_true, Bool.false_eq_true, ↓reduceIte, hdn, hlen, ne_eq,
          not_true_eq_false] at he
        cases hd : x.DecodeString c with
        | none => rw [hd] at hdc; simp at hdc
        | some ct => rw [hd] at he; simp at he
      · rintro ⟨rest, hrest, hbad⟩
        have hrr : rest = r := (string_append_cancel hrest).symm
        rw [hrr] at hbad
        split
        · next k n c hsplit =>
          obtain ⟨hr, hk, hn, hc⟩ := split_three.1 hsplit
          by_cases hvalid : IsValidKeyName k = true
          · simp only [hvalid, Bool.not_true, Bool.false_eq_true, ↓reduceIte]
            cases hdn : x.DecodeString n with
            | none => exact ⟨_, rfl⟩
            | some nonce =>
              simp only
              by_cases hlen : nonce.length = NonceSize
              · rw [if_neg (by simpa using hlen)]
                cases hdc : x.DecodeString c with
                | none => exact ⟨_, rfl⟩
                | some ct =>
                  exfalso
                  exact hbad ⟨k, n, c, hr, hk, hn, hc, hvalid, ⟨nonce, hdn, hlen⟩, by rw [hdc]; rfl⟩
              · rw [if_pos (by simpa using hlen)]
                exact ⟨_, rfl⟩
          · have : (!IsValidKeyName k) = true := by simpa using hvalid
            rw [if_pos this]
            exact ⟨_, rfl⟩
        · exact ⟨_, rfl⟩
    | none =>
      have hne2 : ∀ rest, s ≠ "secret:" ++ rest := cutPrefix_none h2
      obtain ⟨e1, he1⟩ := parseValue_rest_ok x e0 hne1 hne2
      rw [he1]
      constructor
      · intro ⟨err, he⟩; simp at he
      · rintro ⟨rest, hr, _⟩
        exact absurd hr (hne2 rest)

/-- C14. Lexer result: when `parseMultilineKVString` succeeds on a text, the
map it returns holds, in the order of the lines, exactly one binding for every
line that is neither blank nor a comment (a line that, trimmed, starts with
`#`), and the keys are distinct. Such a line, trimmed, is `a=b` with no `=` in
`a`; its key is `a` trimmed and its value is `b` trimmed, so later `=` stay in
the value. Blank lines and comments give no binding. -/
theorem lexer_result (data : String) (m : List (String × String))
    (h : parseMultilineKVString data = .ok m) :
    m = lexSpec data ∧ (m.map Prod.fst).Nodup ∧
    ∀ line ∈ Split data (Char.ofNat 10),
      (lineSkipped line = true → lexLine line = none) ∧
      (lineSkipped line = false → ∃ a b, TrimSpace line = a ++ "=" ++ b ∧ '=' ∉ a.data ∧
        lexLine line = some (TrimSpace a, TrimSpace b)) := by
  obtain ⟨h1, h2, h3⟩ := lexer_ok h
  refine ⟨h1, h2, ?_⟩
  intro line hl
  refine ⟨fun hs => by simp [lexLine, hs], fun hs => ?_⟩
  obtain ⟨hm, _⟩ := h3 line hl hs
  have hok := (cut_ok_iff (TrimSpace line) '=').2 hm
  cases hc : Cut (TrimSpace line) '=' with
  | mk a q =>
    obtain ⟨b, ok⟩ := q
    rw [hc] at hok
    simp only at hok
    rw [hok] at hc
    obtain ⟨h4, h5⟩ := cut_found hc
    refine ⟨a, b, h4, h5, ?_⟩
    simp [lexLine, hs, hc]

/-- C14, witness: the theorem at a text with a blank line, a comment and a
value that holds a second `=`. -/
theorem lexer_result_witness :
    parseMultilineKVString " a = 1=2 \n\n # c\nb=" = .ok [("a", "1=2"), ("b", "")] ∧
    [("a", "1=2"), ("b", "")] = lexSpec " a = 1=2 \n\n # c\nb=" :=
  ⟨by decide, (lexer_result " a = 1=2 \n\n # c\nb=" [("a", "1=2"), ("b", "")] (by decide)).1⟩

/-- C15. Lexer errors: `parseMultilineKVString` fails if and only if some
line that is neither blank nor a comment has no `=`, has an empty key before
its first `=`, or has the key of an earlier line (`lineFault` gives an error
for it). The error is the one of the first such line of the text, with its
one-based number: `line N: missing =`, `line N: missing key` or
`line N: duplicate value for K`. -/
theorem lexer_fails_iff (data : String) :
    ((∃ err, parseMultilineKVString data = .error err) ↔
      ∃ a line b, Split data (Char.ofNat 10) = a ++ line :: b ∧
        (lineFault a line).isSome = true) ∧
    (∀ err, parseMultilineKVString data = .error err ↔
      ∃ a line b, Split data (Char.ofNat 10) = a ++ line :: b ∧ lineFault a line = some err ∧
        ∀ a1 l1 b1, a = a1 ++ l1 :: b1 → lineFault a1 l1 = none) ∧
    parseMultilineKVString "a=1\n\n# c\nb" = .error "line 4: missing =" ∧
    parseMultilineKVString "a=1\n =2" = .error "line 2: missing key" ∧
    parseMultilineKVString "a=1\nb=2\n a = 3\nb=4" = .error "line 3: duplicate value for a" := by
  have hmain : ∀ err, parseMultilineKVString data = .error err ↔
      ∃ a line b, Split data (Char.ofNat 10) = a ++ line :: b ∧ lineFault a line = some err ∧
        ∀ a1 l1 b1, a = a1 ++ l1 :: b1 → lineFault a1 l1 = none := by
    intro err
    unfold parseMultilineKVString
    have := parseKVLines_fault (Split data (Char.ofNat 10)) [] []
      (by intro k; simp [mapGet]) err
    simpa using this
  refine ⟨?_, hmain, by decide, by decide, by decide⟩
  constructor
  · rintro ⟨err, he⟩
    obtain ⟨a, line, b, h1, h2, _⟩ := (hmain err).1 he
    exact ⟨a, line, b, h1, by rw [h2]; rfl⟩
  · rintro ⟨a, line, b, h1, h2⟩
    obtain ⟨a0, line0, b0, err, h3, h4, h5⟩ := first_fault _ a.length a line b rfl h1 h2
    exact ⟨err, (hmain err).2 ⟨a0, line0, b0, h3, h4, h5⟩⟩

/-- C19, counterexample: in the file `@all = dev d*`, `@a = d*`,
`@b = dev d*`, `N.a=1`, `N.b=2` both candidates match the env `dev`, the
resolved included list `d*` of `a` is a strict subset of the list `dev d*` of
`b`, and `pickVariant` returns the candidate of `b`, whose matching token `dev`
is longer than `d*`. Also, in the file `@all = prod stag local-*`,
`@x = ! prod`, `N = 1`, `N.x = 2`, after a query for `local-john` the resolved
included list of `x` is `stag local-* stag local-*`, as a set a strict subset
of the list `prod stag local-*` of `@all`, and `pickVariant` for `stag` returns
the candidate of `@all`, whose list is shorter. -/
theorem picker_subset_not_preferred :
    (ParseString sampleExtern "@all = dev d*\n@a = d*\n@b = dev d*\nN.a=1\nN.b=2").2 = none ∧
    ((ParseString sampleExtern
      "@all = dev d*\n@a = d*\n@b = dev d*\nN.a=1\nN.b=2").1.includedOf "a") = ["d*"] ∧
    ((ParseString sampleExtern
      "@all = dev d*\n@a = d*\n@b = dev d*\nN.a=1\nN.b=2").1.includedOf "b") = ["dev", "d*"] ∧
    ((ParseString sampleExtern
      "@all = dev d*\n@a = d*\n@b = dev d*\nN.a=1\nN.b=2").1.pickVariant "N" "dev"
      [{ newEntry "a" "N.a" "1" with Encoding := .Plain, PlainValue := "1" },
       { newEntry "b" "N.b" "2" with Encoding := .Plain, PlainValue := "2" }]).2 =
      (some { newEntry "b" "N.b" "2" with Encoding := .Plain, PlainValue := "2" }, none) ∧
    ((ParseString sampleExtern
      "@all = dev d*\n@a = d*\n@b = dev d*\nN.a=1\nN.b=2").1.pickVariant "N" "dev"
      [{ newEntry "b" "N.b" "2" with Encoding := .Plain, PlainValue := "2" },
       { newEntry "a" "N.a" "1" with Encoding := .Plain, PlainValue := "1" }]).2 =
      (some { newEntry "b" "N.b" "2" with Encoding := .Plain, PlainValue := "2" }, none) ∧
    (ParseString sampleExtern "@all = prod stag local-*\n@x = ! prod\nN = 1\nN.x = 2").2 = none ∧
    (((ParseString sampleExtern "@all = prod stag local-*\n@x = ! prod\nN = 1\nN.x = 2").1.Value
      sampleExtern "N" "local-john" []).1.includedOf "x") =
      ["stag", "local-*", "stag", "local-*"] ∧
    (((ParseString sampleExtern "@all = prod stag local-*\n@x = ! prod\nN = 1\nN.x = 2").1.Value
      sampleExtern "N" "local-john" []).1.includedOf "all") = ["prod", "stag", "local-*"] ∧
    (((ParseString sampleExtern "@all = prod stag local-*\n@x = ! prod\nN = 1\nN.x = 2").1.Value
      sampleExtern "N" "local-john" []).1.pickVariant "N" "stag"
      [{ newEntry "x" "N.x" "2" with Encoding := .Plain, PlainValue := "2" },
       { newEntry "all" "N" "1" with Encoding := .Plain, PlainValue := "1" }]).2 =
      (some { newEntry "all" "N" "1" with Encoding := .Plain, PlainValue := "1" }, none) := by
  decide

/-- C19, amended. Picker monotonicity: when the query env resolves and two
candidates `A` and `B` both have a positive score, the score of `B` is not
greater than the score of `A` (which always holds when the query resolves to no
single concrete env, every score being 0 or 1 then), the resolved included list
of `A` has no repeated element and is a strict subset of the resolved included
list of `B`, then `pickVariant` over the two candidates, in either order,
returns `A` without a conflict. -/
theorem picker_prefers_subset (vals vals1 : Values) (name env : String)
    (envRes : resolvedEnvGroup) (A B : entry)
    (hres : vals.resolveEnv env = (vals1, .ok envRes))
    (hA : 0 < vals1.score envRes A) (hB : 0 < vals1.score envRes B)
    (hsc : envRes.trivial = "" ∨ vals1.score envRes B ≤ vals1.score envRes A)
    (hnd : (vals1.resolvedOf A).included.Nodup)
    (hsub : ∀ t ∈ (vals1.resolvedOf A).included, t ∈ (vals1.resolvedOf B).included)
    (hstrict : ∃ t ∈ (vals1.resolvedOf B).included, t ∉ (vals1.resolvedOf A).included) :
    vals.pickVariant name env [A, B] = (vals1, some A, none) ∧
    vals.pickVariant name env [B, A] = (vals1, some A, none) := by
  obtain ⟨t, ht, hn⟩ := hstrict
  have hlen : vals1.size A < vals1.size B := nodup_subset_length_lt hnd hsub ht hn
  have hle : vals1.score envRes B ≤ vals1.score envRes A := by
    rcases hsc with h | h
    · have := score_le_one vals1 h B
      omega
    · exact h
  have hdom : vals1.score envRes B < vals1.score envRes A ∨
      (vals1.score envRes B = vals1.score envRes A ∧ vals1.size A < vals1.size B) := by
    rcases Nat.lt_or_ge (vals1.score envRes B) (vals1.score envRes A) with h | h
    · exact Or.inl h
    · exact Or.inr ⟨by omega, hlen⟩
  obtain ⟨p1, p2⟩ := pickResult_pair name env (by omega) hdom
  unfold Values.pickVariant
  rw [hres]
  exact ⟨by show (vals1, pickResult name env _) = _; rw [p2],
    by show (vals1, pickResult name env _) = _; rw [p1]⟩

/-- C19, witness: the amended theorem at the file `@all = dev d*`, `@a = dev`,
`@b = dev d*`, `N.a=1`, `N.b=2` and the query `dev`. -/
theorem picker_prefers_subset_witness :
    ((ParseString sampleExtern
      "@all = dev d*\n@a = dev\n@b = dev d*\nN.a=1\nN.b=2").1.pickVariant "N" "dev"
      [{ newEntry "a" "N.a" "1" with Encoding := .Plain, PlainValue := "1" },
       { newEntry "b" "N.b" "2" with Encoding := .Plain, PlainValue := "2" }]).2 =
      (some { newEntry "a" "N.a" "1" with Encoding := .Plain, PlainValue := "1" }, none) := by
  have h := (picker_prefers_subset
    (ParseString sampleExtern "@all = dev d*\n@a = dev\n@b = dev d*\nN.a=1\nN.b=2").1
    (ParseString sampleExtern "@all = dev d*\n@a = dev\n@b = dev d*\nN.a=1\nN.b=2").1
    "N" "dev"
    { state := .resolvedState, wildcard := false, err := none, included := ["dev"],
      trivial := "dev" }
    { newEntry "a" "N.a" "1" with Encoding := .Plain, PlainValue := "1" }
    { newEntry "b" "N.b" "2" with Encoding := .Plain, PlainValue := "2" }
    (by decide) (by decide) (by decide) (Or.inr (by decide)) (by decide) (by decide)
    ⟨"d*", by decide, by decide⟩).1
  rw [h]

/-- C20. Conflict reporting and the order of the candidates: with the groups
`@all=foo`, `@a=foo`, `@b=foo`, `@c=foo`, the three candidates `T.a`, `T.b`,
`T.c` tie for the env `foo`, and `pickVariant` reports `T.a and T.c` for the
order a, b, c and `T.a and T.b` for the order a, c, b; likewise `ParseMap`
fails with the one text or the other according to the order in which it visits
the bindings `T.b` and `T.c`. -/
theorem conflict_text_depends_on_order :
    ((ParseString sampleExtern "@all=foo\n@a=foo\n@b=foo\n@c=foo").1.pickVariant "T" "foo"
      [{ newEntry "a" "T.a" "1" with Encoding := .Plain, PlainValue := "1" },
       { newEntry "b" "T.b" "2" with Encoding := .Plain, PlainValue := "2" },
       { newEntry "c" "T.c" "3" with Encoding := .Plain, PlainValue := "3" }]).2.2 =
      some "conflicting values with match length 3 for T.a and T.c when resolving for .foo" ∧
    ((ParseString sampleExtern "@all=foo\n@a=foo\n@b=foo\n@c=foo").1.pickVariant "T" "foo"
      [{ newEntry "a" "T.a" "1" with Encoding := .Plain, PlainValue := "1" },
       { newEntry "c" "T.c" "3" with Encoding := .Plain, PlainValue := "3" },
       { newEntry "b" "T.b" "2" with Encoding := .Plain, PlainValue := "2" }]).2.2 =
      some "conflicting values with match length 3 for T.a and T.b when resolving for .foo" ∧
    (New.ParseMap sampleExtern
      [("@all", "foo"), ("@a", "foo"), ("@b", "foo"), ("@c", "foo"),
       ("T.a", "1"), ("T.b", "2"), ("T.c", "3")]).2 =
      some "conflicting values with match length 3 for T.a and T.c when resolving for .foo" ∧
    (New.ParseMap sampleExtern
      [("@all", "foo"), ("@a", "foo"), ("@b", "foo"), ("@c", "foo"),
       ("T.a", "1"), ("T.c", "3"), ("T.b", "2")]).2 =
      some "conflicting values with match length 3 for T.a and T.b when resolving for .foo" := by
  decide

/-- C12. Negated group resolution: after a successful `ParseString`, every
negated group `X` is resolved without error, the list `excluded(X)` holds
exactly the envs of the resolved included lists of the items of `X`, and
`included(X)` is the sub-list of `validEnvs`, in the order of `validEnvs`, of
the envs that no element of `excluded(X)` glob-matches. Hence `included(X)`
and `excluded(X)` have no common element, and every element of `validEnvs` is
in `included(X)` or is matched by an element of `excluded(X)`. -/
theorem negated_group_resolution (x : Extern) (data : String) (vals : Values) (X : String)
    (d : envGroup) (hparse : ParseString x data = (vals, none))
    (hdef : mapGet vals.envs X = some d) (hneg : d.Negated = true) :
    (∀ i ∈ d.Items, ResolvedOK vals i) ∧
    (∀ t, t ∈ vals.excludedOf d.Items ↔ ∃ i ∈ d.Items, t ∈ vals.includedOf i) ∧
    (∃ r, vals.resolveEnv X = (vals, .ok r) ∧
      r.included = negateSpec vals.validEnvs (vals.excludedOf d.Items)) ∧
    vals.includedOf X = negateSpec vals.validEnvs (vals.excludedOf d.Items) ∧
    (∀ t ∈ vals.includedOf X, t ∉ vals.excludedOf d.Items) ∧
    (∀ t ∈ vals.validEnvs, t ∈ vals.includedOf X ∨
      ∃ p ∈ vals.excludedOf d.Items, «matches» p t = true) := by
  obtain ⟨m, _, hm⟩ := parseString_ok hparse
  obtain ⟨v0, _, hr⟩ := parseMap_ok hm
  obtain ⟨r, hb, hs, he⟩ := (rebuild_groups_ok hr).2 X d hdef
  obtain ⟨f1, _, f3⟩ := resInv_parse hparse X r d hb hs he hdef
  have hgood := Good.good_parse hparse
  have hitemsV := itemsValid_parse hparse
  have hvalidExc : ∀ t ∈ vals.excludedOf d.Items, IsValidEnvNameWildcard t = true := by
    intro t ht
    obtain ⟨k, dk, hk, htk⟩ := excluded_isItem hgood hdef f1 ht
    exact hitemsV k dk hk t htk
  have hne : "" ∉ vals.excludedOf d.Items :=
    fun h => validWildcard_ne_empty (hvalidExc "" h) rfl
  have hr2 : r.included = negateSpec vals.validEnvs (vals.excludedOf d.Items) := by
    rw [f3]
    unfold Values.resolution negateSpec
    rw [if_pos hneg]
    apply List.filter_congr
    intro t _
    rw [Bool.eq_iff_iff, decide_eq_true_eq]
    exact findMatch_eq_empty_iff hne
  have hinc : vals.includedOf X = negateSpec vals.validEnvs (vals.excludedOf d.Items) := by
    rw [includedOf_of_bound hb, hr2]
  refine ⟨f1, mem_excludedOf vals d.Items, ⟨r, resolveEnv_of_resolved hb hs he, hr2⟩, hinc,
    ?_, ?_⟩
  · intro t ht hex
    rw [hinc] at ht
    unfold negateSpec at ht
    have hall := List.all_eq_true.1 (List.mem_filter.1 ht).2 t hex
    rw [matches_self (hvalidExc t hex)] at hall
    simp at hall
  · intro t ht
    by_cases hall : (vals.excludedOf d.Items).all (fun p => !«matches» p t) = true
    · left
      rw [hinc]
      exact List.mem_filter.2 ⟨ht, hall⟩
    · right
      rw [List.all_eq_true] at hall
      push_neg at hall
      obtain ⟨p, hp, hpm⟩ := hall
      exact ⟨p, hp, by simpa using hpm⟩

/-- C12, witness: the theorem at the file `@all = prod stag local-*`,
`@x = ! prod`, where `x` resolves to `stag local-*`. -/
theorem negated_group_resolution_witness :
    (ParseString sampleExtern "@all = prod stag local-*\n@x = ! prod").1.includedOf "x" =
      ["stag", "local-*"] :=
  (negated_group_resolution sampleExtern "@all = prod stag local-*\n@x = ! prod"
    (ParseString sampleExtern "@all = prod stag local-*\n@x = ! prod").1 "x"
    { Negated := true, Items := ["prod"] } (by decide) (by decide) rfl).2.2.2.1.trans (by decide)

/-- C13. Plain group resolution is an ordered flattening without duplicates:
after a successful `ParseString`, (1) every call of `resolveEnv` for a token
that is not a defined group, when it succeeds, returns the one-element list of
that token, and so does the stored list of every such item of a group; (2) the
items of every group are resolved without error, and every group `G` that is
not negated resolves, without change of the instance, to the concatenation of
the resolved included lists of its items in item order, with every repeated
env dropped after its first occurrence. (3) `@all=prod nonprod`,
`@nonprod = dev stag` resolves `@all` to `prod dev stag`, and
`@all=foo bar boz`, `@fubar=bar foo` resolves `fubar` to `bar foo`. -/
theorem plain_group_flattening (x : Extern) (data : String) (vals : Values) (G : String)
    (d : envGroup) (hparse : ParseString x data = (vals, none))
    (hdef : mapGet vals.envs G = some d) :
    (∀ t v1 g, mapGet vals.envs t = none → vals.resolveEnv t = (v1, .ok g) →
      g.included = [t]) ∧
    (∀ i ∈ d.Items, ResolvedOK vals i ∧ (mapGet vals.envs i = none → vals.includedOf i = [i])) ∧
    (d.Negated = false →
      (∃ r, vals.resolveEnv G = (vals, .ok r) ∧
        r.included = flattenSpec (d.Items.map vals.includedOf)) ∧
      vals.includedOf G = flattenSpec (d.Items.map vals.includedOf)) ∧
    (ParseString x "@all=prod nonprod\n@nonprod = dev stag").1.includedOf "all" =
      ["prod", "dev", "stag"] ∧
    (ParseString x "@all=foo bar boz\n@fubar=bar foo").1.includedOf "fubar" = ["bar", "foo"] := by
  obtain ⟨m, _, hm⟩ := parseString_ok hparse
  obtain ⟨v0, _, hr⟩ := parseMap_ok hm
  obtain ⟨r, hb, hs, he⟩ := (rebuild_groups_ok hr).2 G d hdef
  obtain ⟨f1, _, f3⟩ := resInv_parse hparse G r d hb hs he hdef
  have hgood := Good.good_parse hparse
  refine ⟨?_, ?_, ?_, rfl, rfl⟩
  · intro t v1 g hnone hres
    obtain ⟨hbt, hst, het⟩ := resolveEnv_ok hres
    have hsteps := resolveEnv_prims vals t
    rw [hres] at hsteps
    have hgood1 : Good v1 := hsteps.invariant (fun _ _ hp h => Good.good_prim hp h) hgood
    exact hgood1.leaf t g hbt hst het (by rw [hsteps.frames.1]; exact hnone)
  · intro i hi
    refine ⟨f1 i hi, fun hnone => ?_⟩
    obtain ⟨ri, hbi, hsi, hei⟩ := f1 i hi
    rw [includedOf_of_bound hbi]
    exact hgood.leaf i ri hbi hsi hei hnone
  · intro hneg
    have hr2 : r.included = flattenSpec (d.Items.map vals.includedOf) := by
      rw [f3]
      unfold Values.resolution
      rw [if_neg (by simp [hneg])]
      exact excludedOf_eq_flattenSpec vals d.Items
    exact ⟨⟨r, resolveEnv_of_resolved hb hs he, hr2⟩, by rw [includedOf_of_bound hb, hr2]⟩

/-- C13, witness: the theorem at the file `@all=prod nonprod`,
`@nonprod = dev stag` and the group `all`. -/
theorem plain_group_flattening_witness :
    (ParseString sampleExtern "@all=prod nonprod\n@nonprod = dev stag").1.includedOf "all" =
      flattenSpec [["prod"], ["dev", "stag"]] :=
  ((plain_group_flattening sampleExtern "@all=prod nonprod\n@nonprod = dev stag"
    (ParseString sampleExtern "@all=prod nonprod\n@nonprod = dev stag").1 "all"
    { Negated := false, Items := ["prod", "nonprod"] } (by decide) (by decide)).2.2.1 rfl).2.trans
    (by decide)

/-- C11. Negation is forbidden inside `@all`. (1) On every instance: if, among
the definitions that the loop of `ParseMap` has stored, `@all` is itself
negated or reaches a negated group `X` through items of definitions, `ParseMap`
returns an error. (2) On a new instance, when the loop of `ParseMap` accepts
every line, that error ends with
`cannot refer to negated groups like Y from @all` for a negated group `Y` that
`@all` is or reaches, unless it ends with a cycle error
`@Z: infinite recursion`. (3) The files `@all = ! a`; `@all = a`, `@a = ! b`;
and `@all = a b`, `@b = c`, `@c = ! d` are rejected with the negation error for
`all`, `a` and `c`, and the file `@all = a b`, `@a = a`, `@b = ! d`, where the
cycle comes first, with the cycle error. -/
theorem negation_forbidden_in_all (x : Extern) (vals : Values) (m : List (String × String))
    (X : String) (h : ReachesNegated (parseLines x m vals).1.envs X) :
    (∃ err, (vals.ParseMap x m).2 = some err) ∧
    (vals = New → (parseLines x m vals).2 = none →
      ∃ err, (vals.ParseMap x m).2 = some err ∧
        (CycleError err ∨ NegError (parseLines x m vals).1.envs All err)) ∧
    (ParseString x "@all = ! a").2 =
      some "cannot refer to negated groups like all from @all" ∧
    (ParseString x "@all = a\n@a = ! b").2 =
      some "@all: cannot refer to negated groups like a from @all" ∧
    (ParseString x "@all = a b\n@b = c\n@c = ! d").2 =
      some "@all: @b: cannot refer to negated groups like c from @all" ∧
    (ParseString x "@all = a b\n@a = a\n@b = ! d").2 =
      some "@all: @a: @a: infinite recursion" := by
  refine ⟨?_, ?_, rfl, rfl, rfl, rfl⟩
  · unfold Values.ParseMap
    split
    · next v1 err _ => exact ⟨err, rfl⟩
    · next v1 hp =>
      rw [hp] at h
      have := rebuild_negated h
      cases hr : v1.rebuild.2 with
      | none => exact absurd hr this
      | some err => exact ⟨err, rfl⟩
  · intro hnew hok
    subst hnew
    have hp : parseLines x m New = ((parseLines x m New).1, none) := Prod.ext rfl hok
    have hnil : (parseLines x m New).1.resolvedEnvs = [] := parseLines_resolvedEnvs x m New
    have hiv : ItemsValid (parseLines x m New).1 :=
      parseLines_itemsValid x m New (by intro k d hd; simp [New, mapGet] at hd)
    obtain ⟨err, he, hform⟩ := rebuild_negated_error hnil hiv h
    refine ⟨err, ?_, hform⟩
    unfold Values.ParseMap
    rw [hp]
    exact he

/-- C11, witness: the theorem at the bindings `@all` = `a`, `@a` = `! b`, where
`@all` reaches the negated group `a`. -/
theorem negation_forbidden_in_all_witness :
    ∃ err, (New.ParseMap sampleExtern [("@all", "a"), ("@a", "! b")]).2 = some err :=
  (negation_forbidden_in_all sampleExtern New [("@all", "a"), ("@a", "! b")] "a"
    ⟨Relation.ReflTransGen.single ⟨{ Negated := false, Items := ["a"] }, by decide, by decide⟩,
      { Negated := true, Items := ["b"] }, by decide, rfl⟩).1

/-- C18, counterexample: the file `@all=prod`, `N=1` is accepted; its groups
are written as `@all = prod` and its entry as `@all.N=1`; parsing the emitted
text fails, the line of the entry being read as the definition of a group
`all.N`. Also, the entry of `N=enc:k:v` is written as `@all.N=enc:v`, without
the key name. -/
theorem reemitted_entries_rejected :
    (ParseString sampleExtern "@all=prod\nN=1").2 = none ∧
    reemit sampleExtern (ParseString sampleExtern "@all=prod\nN=1").1 =
      "@all = prod\n\n@all.N=1\n" ∧
    (ParseString sampleExtern
      (reemit sampleExtern (ParseString sampleExtern "@all=prod\nN=1").1)).2 =
      some "malformed env group name \"all.N\" in \"@all.N=1\"" ∧
    (ParseString sampleExtern "@all=prod\nN=enc:k:v").2 = none ∧
    reemit sampleExtern (ParseString sampleExtern "@all=prod\nN=enc:k:v").1 =
      "@all = prod\n\n@all.N=enc:v\n" := by
  decide

/-- C18, amended. Round trip of the env groups: for every file that
`ParseString` accepts, the text that `Values.String` writes for the parsed
instance, each group by `envGroup.String`, is accepted by `ParseString` again,
and the instance it gives holds the same env groups: the same names in the
same order, each with the same negation flag and the same item list. -/
theorem groups_round_trip (x : Extern) (data : String) (vals : Values)
    (h : ParseString x data = (vals, none)) :
    ∃ vals2, ParseString x vals.string = (vals2, none) ∧ vals2.envs = vals.envs := by
  obtain ⟨m, _, hm⟩ := parseString_ok h
  obtain ⟨v0, hl, hr⟩ := parseMap_ok hm
  have henvs : vals.envs = v0.envs := (rebuild_groups_ok hr).1
  have hgv := groupsValid_parse h
  have hnil : v0.resolvedEnvs = [] := by
    have := parseLines_resolvedEnvs x m New
    rw [hl] at this
    exact this
  obtain ⟨vals1, h1, h2⟩ := rebuild_groups_only
    (w := { New with envs := New.envs ++ vals.envs }) (by
      show New.envs ++ vals.envs = v0.envs
      rw [henvs]; rfl) hnil rfl rfl hr
  refine ⟨vals1, ?_, by rw [h2, henvs]⟩
  unfold ParseString
  rw [lex_string vals hgv]
  simp only
  unfold Values.ParseMap
  rw [parseLines_groups x vals.envs New hgv (by intro p _; rfl)]
  simp only
  exact h1

/-- C18, witness: the amended theorem at the file `@all = prod stag local-*`,
`@x = ! prod`, `N = 1`. -/
theorem groups_round_trip_witness :
    ∃ vals2,
      ParseString sampleExtern
        (ParseString sampleExtern "@all = prod stag local-*\n@x = ! prod\nN = 1").1.string =
        (vals2, none) ∧
      vals2.envs =
        (ParseString sampleExtern "@all = prod stag local-*\n@x = ! prod\nN = 1").1.envs :=
  groups_round_trip sampleExtern "@all = prod stag local-*\n@x = ! prod\nN = 1"
    (ParseString sampleExtern "@all = prod stag local-*\n@x = ! prod\nN = 1").1 (by decide)

set_option maxRecDepth 100000 in
/-- C26, the failing input. In the file `@all = prod`, `bad-name.prod = 1` the
env part `prod` is valid and the name part `bad-name` is not a valid value
name; `ParseString` fails with `malformed value name "prod"`, which shows the
env part. With no env part the message shows `all`. An invalid env part is
reported by its own text (`b!d`). -/
theorem value_name_error_shows_env (x : Extern) :
    (ParseString x "@all = prod\nbad-name.prod = 1").2 =
      some "malformed value name \"prod\" in \"bad-name.prod=1\"" ∧
    (ParseString x "@all = prod\nbad-name = 1").2 =
      some "malformed value name \"all\" in \"bad-name=1\"" ∧
    (ParseString x "@all = prod\nN.b!d = 1").2 =
      some "malformed env name \"b!d\" in \"N.b!d=1\"" := by
  refine ⟨?_, ?_, ?_⟩ <;> rfl

/-- C24. Keyring display never reveals key material: the text of
`Keyring.String` is `(`, the key names sorted in ascending Go string order and
joined by `, `, and `)`; the sorted names are the names of the keyring, each
as often. Hence a keyring with the same names, in any order and with any key
data, prints the same text. The call leaves the receiver as it was, and
`Key.String` is the name of the key. -/
theorem keyring_display_hides_data (keyring : Keyring) :
    keyring.string.2 = "(" ++ Join (sortStrings (keyring.map Key.Name)) ", " ++ ")" ∧
    Ascending (sortStrings (keyring.map Key.Name)) ∧
    (sortStrings (keyring.map Key.Name)).Perm (keyring.map Key.Name) ∧
    (∀ other : Keyring, (other.map Key.Name).Perm (keyring.map Key.Name) →
      other.string.2 = keyring.string.2) ∧
    keyring.string.1 = keyring ∧
    (∀ key : Key, key.string = key.Name) := by
  refine ⟨keyring_string_eq keyring, sortStrings_ascending _, sortStrings_perm _, ?_, rfl,
    fun _ => rfl⟩
  intro other hp
  rw [keyring_string_eq, keyring_string_eq, sortStrings_eq_of_perm hp]

/-- C24, witness: the sample keyring prints `(myapp-dev, myapp-prod)`, and so
does a keyring with the same names in the other order and other key data. -/
theorem keyring_display_hides_data_witness :
    sampleKeyring.string.2 = "(myapp-dev, myapp-prod)" ∧
    (Keyring.string [{ Name := "myapp-dev", Data := List.replicate 32 1 },
      { Name := "myapp-prod", Data := List.replicate 32 2 }]).2 = sampleKeyring.string.2 :=
  ⟨(keyring_display_hides_data sampleKeyring).1.trans (by decide),
    (keyring_display_hides_data sampleKeyring).2.2.2.1 _ (by decide)⟩

/-- C27. Keyring serialisation round trip. Taken as given: the base64 round
trip, and that base64 text is made of the characters of the base64 alphabet.
For every keyring whose key names are pairwise distinct valid key names (the
key data has `KeySize` bytes, as the type `[KeySize]byte` says),
`ParseKeyringString(keyring.Data())` succeeds with the same keys; in whatever
order `ParseKeyringMap` visits the bindings that the lexer reads from the
text, it succeeds with the same keys up to order, and `ByName` returns the
same key for every name. And `ParseKeyringMap` fails on every map with a
binding whose name is not a valid key name or whose value is not base64 text
of exactly `KeySize` bytes. -/
theorem keyring_round_trip (x : Extern) (keyring : Keyring)
    (hb64 : ∀ b, x.DecodeString (x.EncodeToString b) = some b)
    (hchars : ∀ b, ∀ c ∈ (x.EncodeToString b).data, isBase64Char c = true)
    (hvalid : ∀ key ∈ keyring, IsValidKeyName key.Name = true)
    (hsize : ∀ key ∈ keyring, key.Data.length = KeySize)
    (hdistinct : (keyring.map Key.Name).Nodup) :
    ParseKeyringString x (keyring.Data x) = .ok keyring ∧
    (∃ kv, parseMultilineKVString (keyring.Data x) = .ok kv ∧
      ∀ kv1, kv1.Perm kv → ∃ parsed, ParseKeyringMap x kv1 = .ok parsed ∧
        parsed.Perm keyring ∧ (∀ key, key ∈ parsed ↔ key ∈ keyring) ∧
        ∀ name, parsed.ByName name = keyring.ByName name) ∧
    (∀ (kv : List (String × String)) (name v : String), (name, v) ∈ kv →
      (IsValidKeyName name = false ∨ x.DecodeString v = none ∨
        ∃ keyData, x.DecodeString v = some keyData ∧ keyData.length ≠ KeySize) →
      ∃ err, ParseKeyringMap x kv = .error err) := by
  have hlex := lex_data hchars keyring hvalid hdistinct
  have hall : ∀ p ∈ keyring.map (keyBinding x), (keyOf x p).isSome = true := by
    intro p hp
    obtain ⟨key, hk, he⟩ := List.mem_map.1 hp
    rw [← he, keyOf_binding hb64 (hvalid key hk) (hsize key hk)]
    rfl
  have hfm := filterMap_keyOf hb64 keyring hvalid hsize
  refine ⟨?_, ⟨_, hlex, ?_⟩, ?_⟩
  · unfold ParseKeyringString
    rw [hlex]
    simp only
    unfold ParseKeyringMap
    rw [(parseKeys_spec x _ []).1 hall, hfm]
    rfl
  · intro kv1 hp
    have hperm : (kv1.filterMap (keyOf x)).Perm keyring := by
      rw [← hfm]
      exact hp.filterMap _
    refine ⟨kv1.filterMap (keyOf x), ?_, hperm, fun key => hperm.mem_iff,
      fun name => byName_perm hperm hdistinct name⟩
    unfold ParseKeyringMap
    rw [(parseKeys_spec x _ []).1 (fun p hq => hall p (hp.subset hq))]
    rfl
  · intro kv name v hm hbad
    apply (parseKeys_spec x kv []).2
    refine ⟨(name, v), hm, ?_⟩
    unfold keyOf
    rcases hbad with h | h | ⟨d, h1, h2⟩
    · simp [h]
    · by_cases hn : IsValidKeyName name = true
      · simp [hn, h]
      · simp [hn]
    · by_cases hn : IsValidKeyName name = true
      · simp [hn, h1, h2]
      · simp [hn]

/-- C27, witness: the theorem at the sample keyring, with the stand-in for
base64. -/
theorem keyring_round_trip_witness :
    ParseKeyringString sampleExtern (sampleKeyring.Data sampleExtern) = .ok sampleKeyring :=
  (keyring_round_trip sampleExtern sampleKeyring (fun b => unaryDecode_encode b)
    (fun b => unaryEncode_base64 b) (by decide) (by decide) (by decide)).1

set_option maxRecDepth 100000 in
/-- C25, counterexample: the file `@all = prod local-*`, `@x = ! local-john`,
`N.x = 1` is accepted; the excluded list of `x` is `local-john` and its
included list is `prod local-*`, because no element of `@all` is matched by
the token `local-john`. The env `local-john` is matched by the included
element `local-*` and by the excluded element `local-john`, and the entry
`N.x` gives the value of `N` for `local-john`. -/
theorem negation_keeps_matching_wildcard :
    (ParseString sampleExtern "@all = prod local-*\n@x = ! local-john\nN.x = 1").2 = none ∧
    (ParseString sampleExtern "@all = prod local-*\n@x = ! local-john\nN.x = 1").1.includedOf "x" =
      ["prod", "local-*"] ∧
    (ParseString sampleExtern "@all = prod local-*\n@x = ! local-john\nN.x = 1").1.excludedOf
      ["local-john"] = ["local-john"] ∧
    «matches» "local-*" "local-john" = true ∧
    «matches» "local-john" "local-john" = true ∧
    ((ParseString sampleExtern "@all = prod local-*\n@x = ! local-john\nN.x = 1").1.Value
      sampleExtern "N" "local-john" []).2 = .ok "1" := by
  decide

/-- C25, amended. Negation excludes the elements of `@all` that its tokens
match: for every negated group `X` of a file that `ParseString` accepts,
(1) no element of `included(X)` is glob-matched by an element of
`excluded(X)`; (2) no env is matched both by an element of `excluded(X)` and
by an element of `included(X)` that is not a wildcard; (3) hence an entry
qualified by `X` scores 0 in `pickVariant` for every concrete env (the query
resolves to the single env `c`) that an excluded token matches and that no
wildcard of `included(X)` matches. -/
theorem negation_excludes_listed (x : Extern) (data : String) (vals : Values) (X : String)
    (d : envGroup) (hparse : ParseString x data = (vals, none))
    (hdef : mapGet vals.envs X = some d) (hneg : d.Negated = true) :
    (∀ t ∈ vals.includedOf X, ∀ p ∈ vals.excludedOf d.Items, «matches» p t = false) ∧
    (∀ c p, p ∈ vals.excludedOf d.Items → «matches» p c = true →
      ∀ t ∈ vals.includedOf X, IsWildcard t = false → «matches» t c = false) ∧
    (∀ (e : entry) (envRes : resolvedEnvGroup) (c : String), e.Env = X →
      envRes.trivial = c → c ≠ "" →
      (∃ p ∈ vals.excludedOf d.Items, «matches» p c = true) →
      (∀ t ∈ vals.includedOf X, IsWildcard t = true → «matches» t c = false) →
      vals.score envRes e = 0) := by
  obtain ⟨r, hb, _, _, hinc, _, hvalid⟩ := negated_parse hparse hdef hneg
  have hio : vals.includedOf X = r.included := includedOf_of_bound hb
  have h1 : ∀ t ∈ vals.includedOf X, ∀ p ∈ vals.excludedOf d.Items, «matches» p t = false := by
    intro t ht p hp
    rw [hio, hinc] at ht
    have := List.all_eq_true.1 (List.mem_filter.1 ht).2 p hp
    simpa using this
  have h2 : ∀ c p, p ∈ vals.excludedOf d.Items → «matches» p c = true →
      ∀ t ∈ vals.includedOf X, IsWildcard t = false → «matches» t c = false := by
    intro c p hp hpc t ht hw
    have htv : t ∈ vals.validEnvs := by
      rw [hio, hinc] at ht
      exact (List.mem_filter.1 ht).1
    rw [matches_plain (validWildcard_plain (hvalid t htv) hw) c, decide_eq_false_iff_not]
    intro htc
    subst htc
    rw [h1 t ht p hp] at hpc
    exact Bool.false_ne_true hpc
  refine ⟨h1, h2, ?_⟩
  intro e envRes c heX htriv hc ⟨p, hp, hpc⟩ hwild
  subst heX
  rw [score_trivial hb (by rw [htriv]; exact hc), htriv]
  by_cases hf : findMatch r.included c = ""
  · rw [hf]; rfl
  · obtain ⟨hm, hmatch⟩ := findMatch_mem hf
    have hm2 : findMatch r.included c ∈ vals.includedOf e.Env := by rw [hio]; exact hm
    cases hw : IsWildcard (findMatch r.included c) with
    | true => rw [hwild _ hm2 hw] at hmatch; exact absurd hmatch Bool.false_ne_true
    | false => rw [h2 c p hp hpc _ hm2 hw] at hmatch; exact absurd hmatch Bool.false_ne_true

set_option maxRecDepth 100000 in
/-- C25, witness: the amended theorem at the file `@all = prod local-john`,
`@x = ! local-john`, `N.x = 1`, `N = 2`: the entry `N.x` scores 0 for
`local-john`. -/
theorem negation_excludes_listed_witness :
    (ParseString sampleExtern "@all = prod local-john\n@x = ! local-john\nN.x = 1\nN = 2").1.score
      { state := .resolvedState, wildcard := false, err := none, included := ["local-john"],
        trivial := "local-john" }
      (newEntry "x" "N.x" "1") = 0 :=
  (negation_excludes_listed sampleExtern "@all = prod local-john\n@x = ! local-john\nN.x = 1\nN = 2"
    (ParseString sampleExtern "@all = prod local-john\n@x = ! local-john\nN.x = 1\nN = 2").1 "x"
    { Negated := true, Items := ["local-john"] } (by decide) (by decide) rfl).2.2
    (newEntry "x" "N.x" "1") _ "local-john" rfl rfl (by decide)
    ⟨"local-john", by decide, by decide⟩ (by decide)

/-- C22. `Value` decodes the picked entry. For every instance (a successfully
parsed one in particular) and every env it accepts (`mentionEnv` returns no
error), `Value(name, env, keyring)` returns the empty string and no error
when the name has no entries. Otherwise `pickVariant` is called in the query
state (the env registered, and `rebuild` run when the env was new; the
instance itself when the env was stored already): when it selects the entry
`e`, `Value` returns the empty string for `NoValue`, the stored plain value
for `Plain` and for `ToBeEncrypted`, the error `name: forgot to specify` for
`Placeholder`, and for `Encrypted` the error `name: missing key K` when the
keyring holds no key named `K`; when it selects no entry and reports no
conflict, the error is `no value for name.env`. -/
theorem value_decodes_picked (x : Extern) (vals : Values) (name env : String)
    (keyring : Keyring) (haccept : (vals.mentionEnv env).2.2 = none) :
    (mapGet vals.entries name = none → (vals.Value x name env keyring).2 = .ok "") ∧
    (∀ entries, mapGet vals.entries name = some entries →
      (∀ e, ((vals.queryState env).pickVariant name env entries).2 = (some e, none) →
        (e.Encoding = .NoValue → (vals.Value x name env keyring).2 = .ok "") ∧
        (e.Encoding = .Plain → (vals.Value x name env keyring).2 = .ok e.PlainValue) ∧
        (e.Encoding = .ToBeEncrypted →
          (vals.Value x name env keyring).2 = .ok e.PlainValue) ∧
        (e.Encoding = .Placeholder →
          (vals.Value x name env keyring).2 = .error (name ++ ": forgot to specify")) ∧
        (e.Encoding = .Encrypted → keyring.ByName e.KeyName = none →
          (vals.Value x name env keyring).2 =
            .error (name ++ ": missing key " ++ e.KeyName))) ∧
      (((vals.queryState env).pickVariant name env entries).2 = (none, none) →
        (vals.Value x name env keyring).2 =
          .error ("no value for " ++ name ++ "." ++ env))) ∧
    ((∃ g, Bound vals env g) → vals.queryState env = vals) := by
  have hv := @value_accepted x vals name env keyring haccept
  have hent := (queryState_facts vals env).1
  refine ⟨?_, ?_, fun ⟨g, hb⟩ => queryState_of_bound hb⟩
  · intro hnone
    rw [hv]
    unfold valueFrom
    rw [hent, hnone]
  · intro entries hsome
    have hvf : valueFrom x (vals.queryState env) name env keyring =
        match (vals.queryState env).pickVariant name env entries with
        | (w1, _, some err) => (w1, .error err)
        | (w1, none, none) => (w1, .error ("no value for " ++ name ++ "." ++ env))
        | (w1, some e, none) => (w1, valueOf x name e keyring) := by
      unfold valueFrom
      rw [hent, hsome]
    rw [hv, hvf]
    generalize (vals.queryState env).pickVariant name env entries = p
    obtain ⟨w1, e0, err0⟩ := p
    refine ⟨?_, ?_⟩
    · intro e hp
      simp only [Prod.mk.injEq] at hp
      obtain ⟨h1, h2⟩ := hp
      subst h1 h2
      simp only [valueOf, entry.Value]
      refine ⟨?_, ?_, ?_, ?_, ?_⟩
      · intro h; rw [h]
      · intro h; rw [h]
      · intro h; rw [h]
      · intro h
        rw [h]
        show Except.error (name ++ ": " ++ "forgot to specify") = _
        congr 1
        rw [String.append_assoc]
        rfl
      · intro h hk
        rw [h]
        simp only [hk]
        congr 1
        rw [String.append_assoc, String.append_assoc]
        rfl
    · intro hp
      simp only [Prod.mk.injEq] at hp
      obtain ⟨h1, h2⟩ := hp
      subst h1 h2
      rfl

set_option maxRecDepth 100000 in
/-- C22, witness: in the file `@all = prod`, `A = 1`, `B = TODO` the value of
`B` for `prod` is the error `B: forgot to specify`. -/
theorem value_decodes_picked_witness :
    ((ParseString sampleExtern "@all = prod\nA = 1\nB = TODO").1.Value sampleExtern "B" "prod"
      []).2 = .error "B: forgot to specify" :=
  ((value_decodes_picked sampleExtern (ParseString sampleExtern "@all = prod\nA = 1\nB = TODO").1
    "B" "prod" [] (by decide)).2.1 [{ newEntry "all" "B" "TODO" with Encoding := .Placeholder }]
    (by decide)).1 { newEntry "all" "B" "TODO" with Encoding := .Placeholder } (by decide)
    |>.2.2.2.1 rfl

/-- C21. `EnvValues` is best-effort. For every file that `ParseString`
accepts, every env and keyring, with `Value(name)` the result of
`Value(name, env, keyring)` on the parsed instance: (1) the map that
`EnvValues` returns binds a name to a string exactly when the name is an
entry name and `Value(name)` is that string without error and the string is
not empty; (2) the returned error is nil exactly when `Value` fails for no
entry name; (3) otherwise it is the error of an entry name for which `Value`
fails, and no entry name for which `Value` fails is greater in Go string
order. -/
theorem envValues_best_effort (x : Extern) (data : String) (vals : Values) (env : String)
    (keyring : Keyring) (hparse : ParseString x data = (vals, none)) :
    (∀ name val, mapGet (vals.EnvValues x env keyring).2.1 name = some val ↔
      name ∈ vals.entries.map Prod.fst ∧ (vals.Value x name env keyring).2 = .ok val ∧
        val ≠ "") ∧
    ((vals.EnvValues x env keyring).2.2 = none ↔
      ∀ name ∈ vals.entries.map Prod.fst, ∀ err,
        (vals.Value x name env keyring).2 ≠ .error err) ∧
    (∀ err, (vals.EnvValues x env keyring).2.2 = some err →
      ∃ name ∈ vals.entries.map Prod.fst, (vals.Value x name env keyring).2 = .error err ∧
        ∀ m ∈ vals.entries.map Prod.fst, (∃ e, (vals.Value x m env keyring).2 = .error e) →
          strLt name.data m.data = false) := by
  have hloop : (vals.EnvValues x env keyring).2 =
      collectValues (fun n => (vals.Value x n env keyring).2) vals.Names [] none := by
    unfold Values.EnvValues
    apply envValuesLoop_first (U := vals.settled env)
    intro n hn
    have hmem : n ∈ vals.entries.map Prod.fst := mem_sortStrings.1 hn
    have hsome : (mapGet vals.entries n).isSome = true := by
      cases hg : mapGet vals.entries n with
      | none => exact absurd hmem ((mapGet_none_iff _ _).1 hg)
      | some _ => rfl
    exact value_settled hparse env n keyring hsome
  have hmap := congrArg Prod.fst hloop
  have herr := congrArg Prod.snd hloop
  simp only at hmap herr
  have hasc : Ascending vals.Names := sortStrings_ascending _
  refine ⟨?_, ?_, ?_⟩
  · intro name val
    show mapGet (vals.EnvValues x env keyring).2.1 name = some val ↔ _
    rw [hmap, collectValues_map]
    constructor
    · rintro (⟨h1, h2, h3⟩ | ⟨_, h2⟩)
      · exact ⟨mem_sortStrings.1 h1, h2, h3⟩
      · simp [mapGet] at h2
    · rintro ⟨h1, h2, h3⟩
      exact Or.inl ⟨mem_sortStrings.2 h1, h2, h3⟩
  · rw [herr]
    rcases collectValues_err (fun n => (vals.Value x n env keyring).2) vals.Names [] none with
      ⟨h1, h2⟩ | ⟨before, n, after, e, h1, h2, h3, h4⟩
    · rw [h2]
      simp only [true_iff]
      intro name hname
      exact h1 name (mem_sortStrings.2 hname)
    · rw [h4]
      simp only [false_iff, reduceCtorEq]
      intro hall
      refine hall n (mem_sortStrings.1 ?_) e h2
      show n ∈ vals.Names
      rw [h1]; simp
  · intro err he
    rw [herr] at he
    rcases collectValues_err (fun n => (vals.Value x n env keyring).2) vals.Names [] none with
      ⟨h1, h2⟩ | ⟨before, n, after, e, h1, h2, h3, h4⟩
    · rw [h2] at he; simp at he
    · rw [h4] at he
      simp only [Option.some.injEq] at he
      subst he
      have hn : n ∈ vals.Names := by rw [h1]; simp
      refine ⟨n, mem_sortStrings.1 hn, h2, ?_⟩
      intro m hm ⟨e1, hfail⟩
      have hm2 : m ∈ vals.Names := mem_sortStrings.2 hm
      unfold Ascending at hasc
      rw [h1, List.pairwise_append] at hasc
      rw [h1] at hm2
      rcases List.mem_append.1 hm2 with hb | ha
      · have := hasc.2.2 m hb n (List.mem_cons_self _ _)
        exact this
      · rcases List.mem_cons.1 ha with h | h
        · subst h; exact strLt_irrefl _
        · exact absurd hfail (h3 m h e1)

set_option maxRecDepth 100000 in
/-- C21, witness: in the file `@all = prod`, `C = TODO`, `A = 1`, `B = TODO`
the values of `B` and `C` fail; `EnvValues` for `prod` returns the error of
`C`, the greater of the two names. -/
theorem envValues_best_effort_witness :
    ∃ name ∈ (ParseString sampleExtern "@all = prod\nC = TODO\nA = 1\nB = TODO").1.entries.map
        Prod.fst,
      ((ParseString sampleExtern "@all = prod\nC = TODO\nA = 1\nB = TODO").1.Value sampleExtern
        name "prod" []).2 = .error "C: forgot to specify" ∧
      ∀ m ∈ (ParseString sampleExtern "@all = prod\nC = TODO\nA = 1\nB = TODO").1.entries.map
          Prod.fst,
        (∃ e, ((ParseString sampleExtern "@all = prod\nC = TODO\nA = 1\nB = TODO").1.Value
          sampleExtern m "prod" []).2 = .error e) → strLt name.data m.data = false :=
  (envValues_best_effort sampleExtern "@all = prod\nC = TODO\nA = 1\nB = TODO"
    (ParseString sampleExtern "@all = prod\nC = TODO\nA = 1\nB = TODO").1 "prod" []
    (by decide)).2.2 "C: forgot to specify" (by decide)

/-- The claim of C23 where `regexp.MustCompile` does not panic. Taken as
given: base64 text is made of the characters of the base64 alphabet. For
every instance that `ParseString` returned without error, every text `data`,
keyring and outcome `rand` of the nonce reads: (1) when no entry is to be
encrypted, `EncryptAllInString` returns `(data, 0, no failures)`; (2) when
the raw texts of the entries to encrypt hold no byte that is not valid UTF-8,
`EncryptAllInString` returns; (3) whenever it returns, there are the patterns
`pats`, one for every variant that `EncryptValue` encrypted (each variant to
encrypt has one or is in `failed`), each with the raw left and right texts of
the variant, the right text starting with `enc:`, and a replacement that
starts with `secret:`, and a line map `f` such that the lines of the new text
are the lines of `data`, each passed through `f`, so there are as many; `f`
leaves a line as it is unless the line has the shape
`<ws>LHS<ws>=<ws>RHS<ws>` of a pattern, and then gives the text of the line
up to and including the `=` and the spaces after it, followed by the
replacement; every line of that shape is changed; and the count returned is
the number of changed lines. -/
theorem rewriter_touches_pending_lines (x : Extern) (bad : Char → Bool) (src data : String)
    (vals : Values) (keyring : Keyring) (rand : Nat → Option Bytes)
    (hchars : ∀ b, ∀ c ∈ (x.EncodeToString b).data, isBase64Char c = true)
    (hparse : ParseString x src = (vals, none)) :
    ((∀ p ∈ vals.entries, ∀ e ∈ p.2, e.Encoding ≠ .ToBeEncrypted) →
      vals.EncryptAllInString x bad data keyring rand = some (vals, data, 0, [])) ∧
    ((∀ v ∈ vals.VariantsToEncrypt, ∀ c ∈ v.RawLHS.data ++ v.RawRHS.data, bad c = false) →
      (vals.EncryptAllInString x bad data keyring rand).isSome = true) ∧
    ∀ (vals1 : Values) (out : String) (modified : Nat) (failed : List Variant),
      vals.EncryptAllInString x bad data keyring rand = some (vals1, out, modified, failed) →
      ∃ (pats : List ((String × String) × String)) (f : String → String),
        (∀ p ∈ pats, (∃ r, p.2 = "secret:" ++ r) ∧ (∃ r, p.1.2 = "enc:" ++ r) ∧
          ∃ v ∈ vals.VariantsToEncrypt, p.1 = (v.RawLHS, v.RawRHS) ∧
            ∃ (j : Nat) (w : Values), w.entries = vals.entries ∧
              (w.EncryptValue x v.Value v.Env v.KeyName keyring (rand j)).2 = .ok p.2) ∧
        (∀ v ∈ vals.VariantsToEncrypt, (∃ rep, ((v.RawLHS, v.RawRHS), rep) ∈ pats) ∨
          ∃ err, { v with Err := some err } ∈ failed) ∧
        Split out (Char.ofNat 10) = (Split data (Char.ofNat 10)).map f ∧
        (∀ line, f line = line ∨
          ∃ p ∈ pats, ∃ kept, LineShape bad p.1.1 p.1.2 line kept ∧ f line = kept ++ p.2) ∧
        (∀ line, f line ≠ line ↔ ∃ p ∈ pats, ∃ kept, LineShape bad p.1.1 p.1.2 line kept) ∧
        modified = ((Split data (Char.ofNat 10)).filter (fun l => decide (f l ≠ l))).length := by
  have ht := entryTexts_parse hparse
  have hnil : vals.VariantsToEncrypt = [] →
      vals.EncryptAllInString x bad data keyring rand = some (vals, data, 0, []) := by
    intro h
    unfold Values.EncryptAllInString
    simp only [h, List.length_nil, ↓reduceIte]
  refine ⟨fun h => hnil (variants_nil h), ?_, ?_⟩
  · intro hvalid
    by_cases hv : vals.VariantsToEncrypt = []
    · rw [hnil hv]; rfl
    · have hret := encryptLoop_returns x bad keyring rand vals.VariantsToEncrypt 0 vals [] [] hvalid
      unfold Values.EncryptAllInString
      simp only
      rw [if_neg (by simpa using hv)]
      cases hL : encryptLoop x bad keyring rand vals.VariantsToEncrypt 0 vals [] [] with
      | none => rw [hL] at hret; simp at hret
      | some L => rfl
  intro vals1 out modified failed hres
  by_cases hv : vals.VariantsToEncrypt = []
  · rw [hnil hv] at hres
    simp only [Option.some.injEq, Prod.mk.injEq] at hres
    obtain ⟨_, h2, h3, _⟩ := hres
    subst h2 h3
    exact ⟨[], id, by simp, by simp [hv], by simp, fun line => Or.inl rfl, by simp, by simp⟩
  · unfold Values.EncryptAllInString at hres
    simp only at hres
    rw [if_neg (by simpa using hv)] at hres
    cases hL : encryptLoop x bad keyring rand vals.VariantsToEncrypt 0 vals [] [] with
    | none => rw [hL] at hres; simp at hres
    | some L =>
    rw [hL] at hres
    obtain ⟨s1, s2, _, _, s5⟩ :=
      encryptLoop_spec x bad keyring rand vals.VariantsToEncrypt 0 vals [] [] L hL
    obtain ⟨vals2, pats, failed2⟩ := L
    simp only [Option.some.injEq, Prod.mk.injEq] at hres s1 s2 s5
    obtain ⟨_, hout, hmod, hfail⟩ := hres
    subst hfail
    rw [rewriteLines_eq] at hout hmod
    simp only at hout hmod
    -- the patterns
    have hpat : ∀ p ∈ pats, ((∃ r, p.2 = "secret:" ++ r) ∧ Char.ofNat 10 ∉ p.2.data ∧
        ∃ r, p.1.2 = "enc:" ++ r) ∧
        ∃ v ∈ vals.VariantsToEncrypt, p.1 = (v.RawLHS, v.RawRHS) ∧
          ∃ (j : Nat) (w : Values), w.entries = vals.entries ∧
            (w.EncryptValue x v.Value v.Env v.KeyName keyring (rand j)).2 = .ok p.2 := by
      intro p hp
      rcases s2 p hp with h | ⟨v, hvm, h1, _, j, w, hw, h2⟩
      · simp at h
      · obtain ⟨q, hq, e, he, henc, _, hrhs, hkn, _⟩ := mem_variants hvm
        obtain ⟨_, t2, t3⟩ := ht q hq e he
        obtain ⟨r, hr⟩ := t3 henc
        obtain ⟨u1, u2⟩ := encryptValue_text hchars (ht.of_entries hw) (by rw [hkn]; exact t2) h2
        refine ⟨⟨u1, u2, r, ?_⟩, v, hvm, h1, j, w, hw, h2⟩
        rw [h1]
        simp only
        rw [hrhs, hr]
    -- a line that a pattern matches is changed
    have hchanged : ∀ line new, rewriteLine bad pats line = some new →
        new ≠ line ∧ (Char.ofNat 10 ∉ line.data → Char.ofNat 10 ∉ new.data) ∧
        ∃ p ∈ pats, ∃ kept, LineShape bad p.1.1 p.1.2 line kept ∧ new = kept ++ p.2 := by
      intro line new hnew
      obtain ⟨lhs, rhs, rep, m1, hmem, hfs, hnw⟩ := rewriteLine_some hnew
      have hshape := findSubmatch_shape hfs
      obtain ⟨⟨⟨r1, hr1⟩, hnl, r2, hr2⟩, _⟩ := hpat _ hmem
      simp only at hr1 hnl hr2
      refine ⟨?_, ?_, ((lhs, rhs), rep), hmem, m1, hshape, hnw⟩
      · obtain ⟨ws1, l, ws2, ws3, r, ws4, _, _, _, _, _, hr, _, hline, hkept⟩ := hshape
        intro heq
        have hd := congrArg String.data heq
        rw [hnw, String.data_append, hline, hkept, hr1] at hd
        rw [hr2] at hr
        cases r with
        | nil => simp at hr
        | cons c r3 =>
          have hc : reRune bad c = 'e' := by
            have := congrArg List.head? hr
            simpa using this
          obtain ⟨hce, _⟩ := reRune_ascii (by decide) hc
          subst hce
          simp only [String.data_append, List.append_assoc, List.append_cancel_left_eq,
            List.cons_append] at hd
          simp at hd
      · obtain ⟨ws1, l, ws2, ws3, r, ws4, _, _, _, _, _, _, _, hline, hkept⟩ := hshape
        intro hno
        rw [hnw, String.data_append]
        intro hm
        rcases List.mem_append.1 hm with h | h
        · apply hno
          rw [hline, ← hkept]
          simp only [List.append_assoc, List.mem_append]
          exact Or.inl h
        · exact hnl h
    have hf : ∀ line, (rewriteLine bad pats line).getD line ≠ line ↔
        (rewriteLine bad pats line).isSome = true := by
      intro line
      cases hr : rewriteLine bad pats line with
      | none => simp
      | some new => simpa using (hchanged line new hr).1
    refine ⟨pats, fun l => (rewriteLine bad pats l).getD l,
      fun p hp => ⟨(hpat p hp).1.1, (hpat p hp).1.2.2, (hpat p hp).2⟩, s5, ?_, ?_, ?_, ?_⟩
    · rw [← hout]
      apply split_join
      · have := (split_pieces data (Char.ofNat 10)).1
        simpa using this
      · intro s hs
        obtain ⟨line, hl, he⟩ := List.mem_map.1 hs
        have hno := (split_pieces data (Char.ofNat 10)).2 line hl
        rw [← he]
        cases hr : rewriteLine bad pats line with
        | none => exact hno
        | some new => exact (hchanged line new hr).2.1 hno
    · intro line
      show (rewriteLine bad pats line).getD line = line ∨ ∃ p ∈ pats, ∃ kept,
        LineShape bad p.1.1 p.1.2 line kept ∧ (rewriteLine bad pats line).getD line = kept ++ p.2
      cases hr : rewriteLine bad pats line with
      | none => exact Or.inl rfl
      | some new => exact Or.inr (hchanged line new hr).2.2
    · intro line
      rw [hf]
      constructor
      · intro hs
        cases hr : rewriteLine bad pats line with
        | none => rw [hr] at hs; simp at hs
        | some new =>
          obtain ⟨p, hp, kept, hk, _⟩ := (hchanged line new hr).2.2
          exact ⟨p, hp, kept, hk⟩
      · rintro ⟨p, hp, kept, hk⟩
        exact @rewriteLine_complete bad pats line p.1.1 p.1.2 p.2 hp
          (findSubmatch_complete hk)
    · rw [← hmod]
      congr 1
      apply List.filter_congr
      intro line _
      rw [Bool.eq_iff_iff, decide_eq_true_eq]
      exact (hf line).symm

set_option maxRecDepth 100000 in
/-- The theorem at the file `@all = prod`, `DEFAULT_KEY = k`,
`  N =  enc::v  `, `M=1`, which has one entry to encrypt: the call returns,
the third line is replaced, the text before the value kept, and the count is
1; the patterns and the line map of the theorem exist for this result. -/
theorem rewriter_touches_pending_lines_witness :
    ∃ (pats : List ((String × String) × String)) (f : String → String),
      (∀ p ∈ pats, (∃ r, p.2 = "secret:" ++ r) ∧ (∃ r, p.1.2 = "enc:" ++ r) ∧
        ∃ v ∈ (ParseString sampleExtern
            "@all = prod\nDEFAULT_KEY = k\n  N =  enc::v  \nM=1").1.VariantsToEncrypt,
          p.1 = (v.RawLHS, v.RawRHS) ∧
          ∃ (j : Nat) (w : Values), w.entries = (ParseString sampleExtern
              "@all = prod\nDEFAULT_KEY = k\n  N =  enc::v  \nM=1").1.entries ∧
            (w.EncryptValue sampleExtern v.Value v.Env v.KeyName [{ Name := "k", Data := [1] }]
              ((fun _ => some [1, 2]) j)).2 = .ok p.2) ∧
      (∀ v ∈ (ParseString sampleExtern
          "@all = prod\nDEFAULT_KEY = k\n  N =  enc::v  \nM=1").1.VariantsToEncrypt,
        (∃ rep, ((v.RawLHS, v.RawRHS), rep) ∈ pats) ∨
          ∃ err, { v with Err := some err } ∈ ([] : List Variant)) ∧
      Split ("@all = prod\nDEFAULT_KEY = k\n  N =  secret:k:abaab:" ++
          String.mk (List.replicate 118 'a') ++ "b\nM=1") (Char.ofNat 10) =
        (Split "@all = prod\nDEFAULT_KEY = k\n  N =  enc::v  \nM=1" (Char.ofNat 10)).map f ∧
      (∀ line, f line = line ∨ ∃ p ∈ pats, ∃ kept,
        LineShape (fun _ => false) p.1.1 p.1.2 line kept ∧ f line = kept ++ p.2) ∧
      (∀ line, f line ≠ line ↔
        ∃ p ∈ pats, ∃ kept, LineShape (fun _ => false) p.1.1 p.1.2 line kept) ∧
      1 = ((Split "@all = prod\nDEFAULT_KEY = k\n  N =  enc::v  \nM=1" (Char.ofNat 10)).filter
        (fun l => decide (f l ≠ l))).length :=
  (rewriter_touches_pending_lines sampleExtern (fun _ => false)
    "@all = prod\nDEFAULT_KEY = k\n  N =  enc::v  \nM=1"
    "@all = prod\nDEFAULT_KEY = k\n  N =  enc::v  \nM=1"
    (ParseString sampleExtern "@all = prod\nDEFAULT_KEY = k\n  N =  enc::v  \nM=1").1
    [{ Name := "k", Data := [1] }] (fun _ => some [1, 2])
    (fun b => unaryEncode_base64 b) (by decide)).2.2
    (ParseString sampleExtern "@all = prod\nDEFAULT_KEY = k\n  N =  enc::v  \nM=1").1
    ("@all = prod\nDEFAULT_KEY = k\n  N =  secret:k:abaab:" ++
      String.mk (List.replicate 118 'a') ++ "b\nM=1") 1 [] (by decide)

set_option maxRecDepth 100000 in
/-- C23, the failing input. The file `@all = prod`, `DEFAULT_KEY = k`,
`N = enc::caf\xe9` ends in the byte 0xE9 (the letter é in Latin-1), which is
not valid UTF-8; it is held as the stand-in U+00E9. `ParseString` accepts the
file, with the one entry to encrypt `N`; `EncryptValue` encrypts its value
with the key `k`; `regexp.MustCompile` then panics on the pattern made of the
raw right-hand side, so that `EncryptAllInString` does not return. In the
same file with the valid UTF-8 character é in that place the call returns,
with one line replaced. -/
theorem rewriter_panics_on_invalid_utf8 :
    ∃ vals, ParseString sampleExtern "@all = prod\nDEFAULT_KEY = k\nN = enc::caf\xe9" =
        (vals, none) ∧
      vals.VariantsToEncrypt =
        [{ Name := "N", Env := "all", RawLHS := "N", RawRHS := "enc::caf\xe9", KeyName := "",
           Value := "caf\xe9", Err := none }] ∧
      (vals.EncryptValue sampleExtern "caf\xe9" "all" "" [{ Name := "k", Data := [1] }]
        (some [1, 2])).2.isOk = true ∧
      MustCompile (fun c => decide (c = Char.ofNat 0xE9)) "N" "enc::caf\xe9" = none ∧
      vals.EncryptAllInString sampleExtern (fun c => decide (c = Char.ofNat 0xE9))
        "@all = prod\nDEFAULT_KEY = k\nN = enc::caf\xe9" [{ Name := "k", Data := [1] }]
        (fun _ => some [1, 2]) = none ∧
      (vals.EncryptAllInString sampleExtern (fun _ => false)
        "@all = prod\nDEFAULT_KEY = k\nN = enc::caf\xe9" [{ Name := "k", Data := [1] }]
        (fun _ => some [1, 2])).map (fun r => r.2.2.1) = some 1 := by
  refine ⟨(ParseString sampleExtern "@all = prod\nDEFAULT_KEY = k\nN = enc::caf\xe9").1, ?_⟩
  decide

end Plainsecrets
